import Mathlib

/-!
# Path-Pivot: step-wise algorithm engines

A shallow embedding of the resumable sorting and path-finding engines of the
visualiser (`src/BubbleSort.cpp`, `src/SelectionSort.cpp`, `src/InsertionSort.cpp`,
`src/MergeSort.cpp`, `src/QuickSort.cpp`, `src/Dijkstra.cpp`, `src/Astar.cpp`,
`src/Grid.cpp`) together with proofs about them.

Conventions of the embedding

* The shared `std::vector<int> arr` is a `List Int`.  The `bars` vector always has
  the same length as `arr` (both are filled by `generatearr`), and only its
  indices matter here: an access `bars[k]` is a bounds check against `arr.length`.
* Every step function returns `Option`: `none` stands for an access outside
  `[0, size)`, which is undefined behaviour in the source.
* `int` fields are `Int`.  Expressions the source evaluates in `size_t`
  (anything mixed with `arr.size()`) are reduced modulo `2 ^ 64` by `toSizeT`,
  and `int` arguments obtained from `arr.size()` go through `toInt32`.  The `int`
  sums and products of the job generation of merge sort, which can exceed the range
  of `int`, go through `intVal`.
* The `unsigned long long` statistics counters are natural numbers reduced
  modulo `2 ^ 64` by `u64`.
-/

namespace PathPivot

/-! ## Machine integers and array accesses -/

/-- Conversion of an integer value to `size_t` (64 bit, modular). -/
def toSizeT (x : Int) : Int := x % 2 ^ 64

/-- Conversion of a `size_t` value to `int` (32 bit two's complement). -/
def toInt32 (x : Int) : Int := (x + 2 ^ 31) % 2 ^ 32 - 2 ^ 31

/-- An `unsigned long long` counter value. -/
def u64 (x : Nat) : Nat := x % 2 ^ 64

/-- The access `v[i]` is inside a vector of `n` elements. -/
def chk (n : Nat) (i : Int) : Option Unit :=
  if 0 ≤ i ∧ i < (n : Int) then some () else none

/-- The loop `for (k = lo; k < hi; ++k) v[k]` over a vector of `n` elements
touches only valid indices (`lo`, `hi` already of type `size_t`). -/
def chkRange (n : Nat) (lo hi : Int) : Option Unit :=
  if hi ≤ lo ∨ (0 ≤ lo ∧ hi ≤ (n : Int)) then some () else none

/-- Read of `arr[i]`. -/
def readAt (arr : List Int) (i : Int) : Option Int :=
  if 0 ≤ i ∧ i < (arr.length : Int) then some (arr.getD i.toNat 0) else none

/-- Write `arr[i] = v`. -/
def writeAt (arr : List Int) (i : Int) (v : Int) : Option (List Int) :=
  if 0 ≤ i ∧ i < (arr.length : Int) then some (arr.set i.toNat v) else none

/-- The call `std::swap(arr[i], arr[j])`. -/
def swapAt (arr : List Int) (i j : Int) : Option (List Int) := do
  let a ← readAt arr i
  let b ← readAt arr j
  let arr1 ← writeAt arr i b
  writeAt arr1 j a

/-- Repeated calls of a step function; `none` as soon as one call is undefined. -/
def iterStep {σ : Type} (step : σ → Option σ) : Nat → σ → Option σ
  | 0, s => some s
  | k + 1, s => (step s).bind (iterStep step k)

/-! ## Bubble sort (`src/BubbleSort.h`, `src/BubbleSort.cpp`) -/

/-- The record `BubbleSortState`. -/
structure BubbleSortState where
  i : Int := 0
  j : Int := 0
  swapped : Bool := false
  isSorted : Bool := false
  currentLine : Int := 0
  comparisons : Nat := 0
  arrayAccesses : Nat := 0
  deriving DecidableEq, Repr

/-- The function `resetBubbleSort`. -/
def resetBubbleSort (s : BubbleSortState) : BubbleSortState :=
  { s with i := 0, j := 0, swapped := false, isSorted := false, currentLine := 0,
           comparisons := 0, arrayAccesses := 0 }

/-- The tail of `bubbleSortStep`, from the check `state.i >= arr.size() - 1` on:
either all passes are complete, or one comparison (and possibly one swap) is made. -/
def bubbleCompare (arr : List Int) (s : BubbleSortState) :
    Option (List Int × BubbleSortState) :=
  if toSizeT s.i ≥ toSizeT ((arr.length : Int) - 1) then
    some (arr, { s with isSorted := true })
  else do
    chk arr.length s.j
    chk arr.length (s.j + 1)
    let s1 := { s with currentLine := 5, comparisons := u64 (s.comparisons + 1),
                       arrayAccesses := u64 (s.arrayAccesses + 2) }
    let a ← readAt arr s1.j
    let b ← readAt arr (s1.j + 1)
    if a > b then do
      let arr1 ← swapAt arr s1.j (s1.j + 1)
      let s2 := { s1 with arrayAccesses := u64 (s1.arrayAccesses + 4), swapped := true,
                          currentLine := 7 }
      some (arr1, { s2 with j := s2.j + 1 })
    else
      some (arr, { s1 with j := s1.j + 1 })

/-- The function `bubbleSortStep`. -/
def bubbleSortStep (arr : List Int) (s : BubbleSortState) :
    Option (List Int × BubbleSortState) :=
  if s.isSorted then some (arr, { s with currentLine := 12 })
  else do
    let s0 := { s with currentLine := 2 }
    chkRange arr.length 0 (toSizeT ((arr.length : Int) - s0.i))
    if toSizeT s0.j ≥ toSizeT ((arr.length : Int) - s0.i - 1) then do
      chk arr.length (toSizeT ((arr.length : Int) - 1 - s0.i))
      if !s0.swapped then
        some (arr, { s0 with currentLine := 10, isSorted := true })
      else
        bubbleCompare arr { s0 with swapped := false, i := s0.i + 1, j := 0, currentLine := 3 }
    else
      bubbleCompare arr s0

/-- One call of `bubbleSortStep` on the pair (array, state). -/
def bubbleStep (p : List Int × BubbleSortState) : Option (List Int × BubbleSortState) :=
  bubbleSortStep p.1 p.2

/-- The bubble sort run: `resetBubbleSort`, then `k` calls of `bubbleSortStep`. -/
def bubbleRun (arr : List Int) (k : Nat) : Option (List Int × BubbleSortState) :=
  iterStep bubbleStep k (arr, resetBubbleSort {})

/-! ## Selection sort (`src/SelectionSort.h`, `src/SelectionSort.cpp`) -/

/-- The record `SelectionSortState`. -/
structure SelectionSortState where
  i : Int := 0
  j : Int := 1
  min_idx : Int := 0
  isSorted : Bool := false
  findingMin : Bool := true
  currentLine : Int := 0
  comparisons : Nat := 0
  arrayAccesses : Nat := 0
  deriving DecidableEq, Repr

/-- The function `resetSelectionSort`. -/
def resetSelectionSort (s : SelectionSortState) : SelectionSortState :=
  { s with i := 0, j := 1, min_idx := 0, isSorted := false, findingMin := true,
           currentLine := 0, comparisons := 0, arrayAccesses := 0 }

/-- The function `selectionSortStep`. -/
def selectionSortStep (arr : List Int) (s : SelectionSortState) :
    Option (List Int × SelectionSortState) :=
  if s.isSorted then some (arr, { s with currentLine := 11 })
  else do
    let s0 := { s with currentLine := 2 }
    chkRange arr.length (toSizeT s0.i) arr.length
    chkRange arr.length 0 (toSizeT s0.i)
    if s0.findingMin then
      let s1 := { s0 with currentLine := 4 }
      if toSizeT s1.j < (arr.length : Int) then do
        chk arr.length s1.j
        chk arr.length s1.min_idx
        let s2 := { s1 with currentLine := 5, comparisons := u64 (s1.comparisons + 1),
                            arrayAccesses := u64 (s1.arrayAccesses + 2) }
        let a ← readAt arr s2.j
        let b ← readAt arr s2.min_idx
        let s3 := if a < b then { s2 with currentLine := 6, min_idx := s2.j } else s2
        some (arr, { s3 with j := s3.j + 1 })
      else
        some (arr, { s1 with findingMin := false })
    else do
      let s1 := { s0 with currentLine := 9, arrayAccesses := u64 (s0.arrayAccesses + 4) }
      let arr1 ← swapAt arr s1.min_idx s1.i
      let s2 := { s1 with i := s1.i + 1 }
      if toSizeT s2.i ≥ toSizeT ((arr.length : Int) - 1) then
        some (arr1, { s2 with isSorted := true })
      else
        some (arr1, { s2 with min_idx := s2.i, j := s2.i + 1, findingMin := true,
                              currentLine := 3 })

/-- One call of `selectionSortStep` on the pair (array, state). -/
def selectionStep (p : List Int × SelectionSortState) :
    Option (List Int × SelectionSortState) :=
  selectionSortStep p.1 p.2

/-- The selection sort run: `resetSelectionSort`, then `k` calls of `selectionSortStep`. -/
def selectionRun (arr : List Int) (k : Nat) : Option (List Int × SelectionSortState) :=
  iterStep selectionStep k (arr, resetSelectionSort {})

/-! ## Insertion sort (`src/InsertionSort.h`, `src/InsertionSort.cpp`) -/

/-- The record `InsertionSortState`. -/
structure InsertionSortState where
  i : Int := 1
  j : Int := 0
  key : Int := 0
  isSorted : Bool := false
  keyPickedUp : Bool := false
  currentLine : Int := 0
  comparisons : Nat := 0
  arrayAccesses : Nat := 0
  deriving DecidableEq, Repr

/-- The function `resetInsertionSort` (it leaves `key` as it is). -/
def resetInsertionSort (s : InsertionSortState) : InsertionSortState :=
  { s with i := 1, j := 0, isSorted := false, keyPickedUp := false, currentLine := 0,
           comparisons := 0, arrayAccesses := 0 }

/-- Phase 1 of `insertionSortStep`: pick up the key when it has not been picked up yet. -/
def insertionPickUp (arr : List Int) (s : InsertionSortState) : Option InsertionSortState :=
  if !s.keyPickedUp then do
    let k ← readAt arr s.i
    some { s with key := k, arrayAccesses := u64 (s.arrayAccesses + 1), j := s.i - 1,
                  keyPickedUp := true, currentLine := 3 }
  else some s

/-- Phases 2 and 3 of `insertionSortStep`: one evaluation of the loop condition
`j >= 0 and A[j] > key`, then either one shift to the right or the insertion of the key. -/
def insertionShiftOrInsert (arr : List Int) (s1 : InsertionSortState) :
    Option (List Int × InsertionSortState) := do
  chk arr.length s1.i
  if s1.j ≥ 0 then chk arr.length s1.j else some ()
  let s2 := { s1 with currentLine := 4 }
  let (conditionMet, s3) ←
    if s2.j ≥ 0 then do
      let aj ← readAt arr s2.j
      some (decide (aj > s2.key),
        { s2 with comparisons := u64 (s2.comparisons + 1),
                  arrayAccesses := u64 (s2.arrayAccesses + 1) })
    else some (false, s2)
  if conditionMet then do
    let aj ← readAt arr s3.j
    let arr1 ← writeAt arr (s3.j + 1) aj
    some (arr1, { s3 with arrayAccesses := u64 (s3.arrayAccesses + 2), currentLine := 6,
                          j := s3.j - 1 })
  else do
    let arr1 ← writeAt arr (s3.j + 1) s3.key
    let s4 := { s3 with currentLine := 8, arrayAccesses := u64 (s3.arrayAccesses + 1),
                        i := s3.i + 1 }
    if toSizeT s4.i ≥ (arr.length : Int) then
      some (arr1, { s4 with isSorted := true })
    else
      some (arr1, { s4 with keyPickedUp := false })

/-- The function `insertionSortStep`. -/
def insertionSortStep (arr : List Int) (s : InsertionSortState) :
    Option (List Int × InsertionSortState) :=
  if s.isSorted then some (arr, { s with currentLine := 10 })
  else do
    let s0 := { s with currentLine := 1 }
    chkRange arr.length 0 s0.i
    chkRange arr.length (toSizeT s0.i) arr.length
    let s1 ← insertionPickUp arr s0
    insertionShiftOrInsert arr s1

/-- One call of `insertionSortStep` on the pair (array, state). -/
def insertionStep (p : List Int × InsertionSortState) :
    Option (List Int × InsertionSortState) :=
  insertionSortStep p.1 p.2

/-- The insertion sort run: `resetInsertionSort`, then `k` calls of `insertionSortStep`. -/
def insertionRun (arr : List Int) (k : Nat) : Option (List Int × InsertionSortState) :=
  iterStep insertionStep k (arr, resetInsertionSort {})

/-- The insertion sort run on a record `s0` left by earlier use: `resetInsertionSort(s0)`,
then `k` calls of `insertionSortStep`. -/
def insertionRunFrom (s0 : InsertionSortState) (arr : List Int) (k : Nat) :
    Option (List Int × InsertionSortState) :=
  iterStep insertionStep k (arr, resetInsertionSort s0)

/-! ## Quick sort (`src/QuickSort.h`, `src/QuickSort.cpp`) -/

/-- The record `QuickSortJob`. -/
structure QuickSortJob where
  low : Int
  high : Int
  deriving DecidableEq, Repr

/-- The record `QuickSortState`; the `std::stack` is a list whose head is the top. -/
structure QuickSortState where
  jobs : List QuickSortJob := []
  isSorted : Bool := false
  isSorting : Bool := false
  needsPartition : Bool := true
  pivot : Int := 0
  i : Int := 0
  j : Int := 0
  current_low : Int := 0
  current_high : Int := 0
  currentLine : Int := 0
  comparisons : Nat := 0
  arrayAccesses : Nat := 0
  deriving DecidableEq, Repr

/-- The function `resetQuickSort` (it leaves `pivot`, `i` and `j` as they are). -/
def resetQuickSort (s : QuickSortState) (arrSize : Int) : QuickSortState :=
  let s1 := { s with isSorted := false, isSorting := false, needsPartition := true,
                     current_low := 0, current_high := arrSize - 1, currentLine := 0,
                     comparisons := 0, arrayAccesses := 0, jobs := [] }
  if arrSize > 1 then { s1 with jobs := [{ low := 0, high := arrSize - 1 }] }
  else { s1 with isSorted := true }

/-- Phase 1 of `quickSortStep`: when `needsPartition`, pop a job and set up its partition. -/
def quickSetUp (arr : List Int) (s : QuickSortState) : Option QuickSortState :=
  if s.needsPartition then
    match s.jobs with
    | [] => none
    | job :: rest => do
      let p ← readAt arr job.high
      some { s with currentLine := 8, jobs := rest, current_low := job.low,
                    current_high := job.high, pivot := p,
                    arrayAccesses := u64 (s.arrayAccesses + 1), i := job.low - 1, j := job.low,
                    needsPartition := false }
  else some s

/-- Phases 3 and 4 of `quickSortStep`: place the pivot and push the two sub-ranges that
have at least two elements. -/
def quickPlacePivot (arr : List Int) (s : QuickSortState) :
    Option (List Int × QuickSortState) := do
  let pivot_final_index := s.i + 1
  let s1 := { s with arrayAccesses := u64 (s.arrayAccesses + 4) }
  let arr1 ← swapAt arr pivot_final_index s1.current_high
  let s2 := { s1 with currentLine := 3 }
  let s3 ←
    if s2.current_low < pivot_final_index - 1 then
      some { s2 with jobs := { low := s2.current_low, high := pivot_final_index - 1 } :: s2.jobs }
    else if s2.current_low = pivot_final_index - 1 then do
      chk arr.length s2.current_low
      some s2
    else some s2
  let s4 := { s3 with currentLine := 4 }
  let s5 ←
    if pivot_final_index + 1 < s4.current_high then
      some { s4 with jobs := { low := pivot_final_index + 1, high := s4.current_high } :: s4.jobs }
    else if pivot_final_index + 1 = s4.current_high then do
      chk arr.length (pivot_final_index + 1)
      some s4
    else some s4
  some (arr1, { s5 with needsPartition := true })

/-- Phases 2 to 4 of `quickSortStep`, after the set-up: the highlighting of the pivot and
the cursors, then either one scan step of the Lomuto partition or the pivot placement. -/
def quickScanOrPlace (arr : List Int) (s1 : QuickSortState) :
    Option (List Int × QuickSortState) := do
  if !s1.needsPartition then do
    chk arr.length s1.current_high
    if s1.i ≥ s1.current_low then chk arr.length s1.i else some ()
    if s1.j < s1.current_high then chk arr.length s1.j else some ()
  else some ()
  let s2 := { s1 with currentLine := 10 }
  if s2.j < s2.current_high then do
    let s3 := { s2 with currentLine := 11, comparisons := u64 (s2.comparisons + 1),
                        arrayAccesses := u64 (s2.arrayAccesses + 1) }
    let aj ← readAt arr s3.j
    if aj < s3.pivot then do
      let s4 := { s3 with i := s3.i + 1, arrayAccesses := u64 (s3.arrayAccesses + 4),
                          currentLine := 13 }
      let arr1 ← swapAt arr s4.i s4.j
      some (arr1, { s4 with j := s4.j + 1 })
    else
      some (arr, { s3 with j := s3.j + 1 })
  else
    quickPlacePivot arr { s2 with currentLine := 16 }

/-- The function `quickSortStep`. -/
def quickSortStep (arr : List Int) (s : QuickSortState) :
    Option (List Int × QuickSortState) :=
  if s.isSorted || !s.isSorting then some (arr, { s with currentLine := 15 })
  else
    let s0 := { s with currentLine := 1 }
    if s0.jobs.isEmpty && s0.needsPartition then
      some (arr, { s0 with isSorted := true, isSorting := false })
    else do
      let s1 ← quickSetUp arr s0
      quickScanOrPlace arr s1

/-- One call of `quickSortStep` on the pair (array, state). -/
def quickStep (p : List Int × QuickSortState) : Option (List Int × QuickSortState) :=
  quickSortStep p.1 p.2

/-- The orchestrator's start of a quick sort (`main.cpp`):
`resetQuickSort(quickState, arr.size()); quickState.isSorting = true;`. -/
def quickStart (arr : List Int) (s : QuickSortState) : QuickSortState :=
  { resetQuickSort s (toInt32 arr.length) with isSorting := true }

/-- The quick sort run: the orchestrator's start, then `k` calls of `quickSortStep`. -/
def quickRun (arr : List Int) (k : Nat) : Option (List Int × QuickSortState) :=
  iterStep quickStep k (arr, quickStart arr {})

/-! ## Merge sort (`src/MergeSort.h`, `src/MergeSort.cpp`) -/

/-- The record `MergeJob`. -/
structure MergeJob where
  left : Int
  mid : Int
  right : Int
  i : Int
  j : Int
  k : Int
  deriving DecidableEq, Repr

/-- The record `MergeSortState`; the `std::stack` is a list whose head is the top. -/
structure MergeSortState where
  jobs : List MergeJob := []
  tempArray : List Int := []
  isSorting : Bool := false
  isSorted : Bool := false
  currentLine : Int := 0
  comparisons : Nat := 0
  arrayAccesses : Nat := 0
  deriving DecidableEq, Repr

/-- The value of an `int` expression: `none` when it lies outside the range of `int` (signed
overflow, undefined behaviour in the source). -/
def intVal (x : Int) : Option Int :=
  if -2 ^ 31 ≤ x ∧ x < 2 ^ 31 then some x else none

/-- The inner loop of `resetMergeSort`,
`for (left_start = ...; left_start < arrSize - 1; left_start += 2 * curr_size)`,
pushing one job per iteration; the sums and the product are `int` values; `none` when one
of them overflows or when the fuel does not suffice. -/
def mergeJobsInner (arrSize curr_size : Int) :
    Nat → Int → List MergeJob → Option (List MergeJob)
  | 0, left_start, jobs => if left_start < arrSize - 1 then none else some jobs
  | fuel + 1, left_start, jobs =>
    if left_start < arrSize - 1 then do
      let end1 ← intVal (left_start + curr_size)
      let mid := min (end1 - 1) (arrSize - 1)
      let twice ← intVal (2 * curr_size)
      let end2 ← intVal (left_start + twice)
      let right_end := min (end2 - 1) (arrSize - 1)
      let job : MergeJob :=
        { left := left_start, mid := mid, right := right_end, i := left_start, j := mid + 1,
          k := left_start }
      let next ← intVal (left_start + twice)
      mergeJobsInner arrSize curr_size fuel next (job :: jobs)
    else some jobs

/-- The outer loop of `resetMergeSort`,
`for (curr_size = ...; curr_size <= arrSize - 1; curr_size = 2 * curr_size)`; the product is
an `int` value; `none` when it overflows or when the fuel does not suffice. -/
def mergeJobsOuter (arrSize : Int) : Nat → Int → List MergeJob → Option (List MergeJob)
  | 0, curr_size, jobs => if curr_size ≤ arrSize - 1 then none else some jobs
  | fuel + 1, curr_size, jobs =>
    if curr_size ≤ arrSize - 1 then do
      let jobs1 ← mergeJobsInner arrSize curr_size arrSize.toNat 0 jobs
      let next ← intVal (2 * curr_size)
      mergeJobsOuter arrSize fuel next jobs1
    else some jobs

/-- The function `resetMergeSort`; the two loops run with fuel `arrSize`.  A negative
`arrSize` is outside the domain of `tempArray.assign` (`none`). -/
def resetMergeSort (s : MergeSortState) (arrSize : Int) : Option MergeSortState :=
  if arrSize < 0 then none
  else do
    let jobs ← mergeJobsOuter arrSize arrSize.toNat 1 []
    some { s with isSorted := false, isSorting := false,
                  tempArray := List.replicate arrSize.toNat 0, currentLine := 0,
                  comparisons := 0, arrayAccesses := 0, jobs := jobs }

/-- The copy-back loop of `mergeSortStep`,
`for (i = left; i <= right; ++i) tempArray[i] = arr[i]`, as `cnt` iterations from `i`. -/
def mergeCopyBack (arr : List Int) : Nat → Int → List Int → Option (List Int)
  | 0, _, temp => some temp
  | cnt + 1, i, temp => do
    let v ← readAt arr i
    let temp1 ← writeAt temp i v
    mergeCopyBack arr cnt (i + 1) temp1

/-- The function `mergeSortStep`. -/
def mergeSortStep (arr : List Int) (s : MergeSortState) :
    Option (List Int × MergeSortState) :=
  if s.isSorted || !s.isSorting then some (arr, { s with currentLine := 7 })
  else
    match s.jobs with
    | [] => some (arr, { s with currentLine := 2, isSorted := true, isSorting := false })
    | job :: rest =>
      if job.i ≤ job.mid ∧ job.j ≤ job.right then do
        let s1 := { s with currentLine := 6, comparisons := u64 (s.comparisons + 1),
                           arrayAccesses := u64 (s.arrayAccesses + 2) }
        let ti ← readAt s1.tempArray job.i
        let tj ← readAt s1.tempArray job.j
        if ti ≤ tj then do
          let arr1 ← writeAt arr job.k ti
          some (arr1, { s1 with arrayAccesses := u64 (s1.arrayAccesses + 2),
                                jobs := { job with i := job.i + 1, k := job.k + 1 } :: rest })
        else do
          let arr1 ← writeAt arr job.k tj
          some (arr1, { s1 with arrayAccesses := u64 (s1.arrayAccesses + 2),
                                jobs := { job with j := job.j + 1, k := job.k + 1 } :: rest })
      else if job.i ≤ job.mid then do
        let ti ← readAt s.tempArray job.i
        let arr1 ← writeAt arr job.k ti
        some (arr1, { s with currentLine := 6, arrayAccesses := u64 (s.arrayAccesses + 2),
                             jobs := { job with i := job.i + 1, k := job.k + 1 } :: rest })
      else if job.j ≤ job.right then do
        let tj ← readAt s.tempArray job.j
        let arr1 ← writeAt arr job.k tj
        some (arr1, { s with currentLine := 6, arrayAccesses := u64 (s.arrayAccesses + 2),
                             jobs := { job with j := job.j + 1, k := job.k + 1 } :: rest })
      else do
        let cnt := (job.right + 1 - job.left).toNat
        let temp1 ← mergeCopyBack arr cnt job.left s.tempArray
        some (arr, { s with currentLine := 6, tempArray := temp1,
                            arrayAccesses := u64 (s.arrayAccesses + 2 * cnt), jobs := rest })

/-- One call of `mergeSortStep` on the pair (array, state). -/
def mergeStep (p : List Int × MergeSortState) : Option (List Int × MergeSortState) :=
  mergeSortStep p.1 p.2

/-- The orchestrator's stack reversal (`main.cpp`):
`while (!jobs.empty()) { reversed_jobs.push(jobs.top()); jobs.pop(); }`. -/
def reverseJobs : List MergeJob → List MergeJob → List MergeJob
  | [], reversed_jobs => reversed_jobs
  | top :: rest, reversed_jobs => reverseJobs rest (top :: reversed_jobs)

/-- The orchestrator's start of a merge sort (`main.cpp`): `resetMergeSort`,
`tempArray = arr`, the job stack reversed, `isSorting = true`. -/
def mergeStart (arr : List Int) (s : MergeSortState) : Option MergeSortState := do
  let s1 ← resetMergeSort s (toInt32 arr.length)
  some { s1 with tempArray := arr, jobs := reverseJobs s1.jobs [], isSorting := true }

/-- The merge sort run: the orchestrator's start, then `k` calls of `mergeSortStep`. -/
def mergeRun (arr : List Int) (k : Nat) : Option (List Int × MergeSortState) := do
  let s ← mergeStart arr {}
  iterStep mergeStep k (arr, s)

/-! ## Grid (`Grid.h`, `Grid.cpp`)

A `Node*` is modelled by the `(row, col)` position of the node it points to, `nullptr` by `none`.
The node matrix is a function of the position; only positions inside `rows × cols` are nodes of
the grid.  The fill colour of the node's shape is kept because `clearPath` reads it. -/

inductive NodeType where
  | Empty | Start | End | Wall | Visited | Path | Weight
  deriving DecidableEq, Repr

structure Color where
  r : Nat
  g : Nat
  b : Nat
  deriving DecidableEq, Repr

def EMPTY_COLOR : Color := ⟨255, 255, 255⟩
def START_COLOR : Color := ⟨0, 255, 0⟩
def END_COLOR : Color := ⟨255, 0, 0⟩
def WALL_COLOR : Color := ⟨50, 50, 50⟩
def VISITED_COLOR : Color := ⟨173, 216, 230⟩
def PATH_COLOR : Color := ⟨255, 255, 0⟩
def WEIGHT_COLOR : Color := ⟨188, 143, 143⟩

structure Node where
  type : NodeType
  cost : Int
  fillColor : Color
  deriving DecidableEq, Repr

abbrev Cell := Nat × Nat

structure Grid where
  rows : Nat
  cols : Nat
  nodes : Nat → Nat → Node
  startNode : Option Cell
  endNode : Option Cell

/-- The node at a position. -/
def Grid.node (g : Grid) (c : Cell) : Node := g.nodes c.1 c.2

/-- Assignment to the fields of `nodes[row][col]`. -/
def Grid.modify (g : Grid) (row col : Nat) (f : Node → Node) : Grid :=
  { g with nodes := fun r c => if r = row ∧ c = col then f (g.nodes r c) else g.nodes r c }

/-- `Grid::setNodeType`. -/
def Grid.setNodeType (g : Grid) (row col : Nat) (type : NodeType) : Grid :=
  let g1 := if g.startNode = some (row, col) then { g with startNode := none } else g
  let g2 := if g1.endNode = some (row, col) then { g1 with endNode := none } else g1
  let g3 := g2.modify row col fun n => { n with type := type }
  match type with
  | .Empty => g3.modify row col fun n => { n with fillColor := EMPTY_COLOR, cost := 1 }
  | .Start =>
    { g3.modify row col fun n => { n with fillColor := START_COLOR, cost := 1 } with
      startNode := some (row, col) }
  | .End =>
    { g3.modify row col fun n => { n with fillColor := END_COLOR, cost := 1 } with
      endNode := some (row, col) }
  | .Wall => g3.modify row col fun n => { n with fillColor := WALL_COLOR, cost := 1 }
  | .Visited => g3
  | .Path => g3.modify row col fun n => { n with fillColor := PATH_COLOR }
  | .Weight => g3.modify row col fun n => { n with fillColor := WEIGHT_COLOR, cost := 5 }

/-- The positions visited by `for i < rows, for j < cols`, in that order. -/
def cellList (rows cols : Nat) : List Cell :=
  (List.range rows).flatMap fun i => (List.range cols).map fun j => (i, j)

/-- The nested loop over all nodes of the grid with the given body. -/
def Grid.forCells (g : Grid) (body : Grid → Nat → Nat → Grid) : Grid :=
  (cellList g.rows g.cols).foldl (fun g c => body g c.1 c.2) g

/-- The node a default-constructed `Node` holds before the constructor sets its type. -/
def defaultNode : Node := ⟨.Empty, 1, ⟨255, 255, 255⟩⟩

/-- The constructor `Grid::Grid(x, y, width, height, nodeSize)`. -/
def Grid.construct (width height nodeSize : Nat) : Grid :=
  Grid.forCells ⟨height / nodeSize, width / nodeSize, fun _ _ => defaultNode, none, none⟩
    fun g i j => g.setNodeType i j .Empty

/-- `Grid::reset`. -/
def Grid.reset (g : Grid) : Grid :=
  Grid.forCells { g with startNode := none, endNode := none } fun g i j => g.setNodeType i j .Empty

/-- `Grid::resetWalls`. -/
def Grid.resetWalls (g : Grid) : Grid :=
  g.forCells fun g i j => if (g.nodes i j).type = .Wall then g.setNodeType i j .Empty else g

/-- `Grid::clearPath`. -/
def Grid.clearPath (g : Grid) : Grid :=
  g.forCells fun g i j =>
    let currentColor := (g.nodes i j).fillColor
    if currentColor ≠ EMPTY_COLOR ∧ currentColor ≠ START_COLOR ∧ currentColor ≠ END_COLOR ∧
        currentColor ≠ WALL_COLOR ∧ currentColor ≠ WEIGHT_COLOR then
      if (g.nodes i j).cost > 1 then g.setNodeType i j .Weight else g.setNodeType i j .Empty
    else g

/-- `Grid::clearWeights`. -/
def Grid.clearWeights (g : Grid) : Grid :=
  g.forCells fun g i j => if (g.nodes i j).type = .Weight then g.setNodeType i j .Empty else g

/-- `Grid::fillWithWalls`. -/
def Grid.fillWithWalls (g : Grid) : Grid :=
  Grid.forCells { g with startNode := none, endNode := none } fun g i j => g.setNodeType i j .Wall

/-- `Grid::isValid`. -/
def Grid.isValid (g : Grid) (r c : Int) : Bool :=
  decide (r ≥ 0 ∧ r < g.rows ∧ c ≥ 0 ∧ c < g.cols)

/-- `Grid::finalizeMaze`. -/
def Grid.finalizeMaze (g : Grid) : Grid :=
  g.forCells fun g i j => if (g.nodes i j).type = .Visited then g.setNodeType i j .Empty else g

/-- `Grid::clearMaze`. -/
def Grid.clearMaze (g : Grid) : Grid :=
  g.forCells fun g i j =>
    if some (i, j) ≠ g.startNode ∧ some (i, j) ≠ g.endNode then g.setNodeType i j .Empty else g

/-- The grid states obtained from construction by the public mutators. -/
inductive Grid.Reachable : Grid → Prop
  | construct (width height nodeSize : Nat) : Grid.Reachable (Grid.construct width height nodeSize)
  | setNodeType (g : Grid) (row col : Nat) (type : NodeType) :
      Grid.Reachable g → row < g.rows → col < g.cols → Grid.Reachable (g.setNodeType row col type)
  | reset (g : Grid) : Grid.Reachable g → Grid.Reachable g.reset
  | resetWalls (g : Grid) : Grid.Reachable g → Grid.Reachable g.resetWalls
  | clearPath (g : Grid) : Grid.Reachable g → Grid.Reachable g.clearPath
  | clearWeights (g : Grid) : Grid.Reachable g → Grid.Reachable g.clearWeights
  | fillWithWalls (g : Grid) : Grid.Reachable g → Grid.Reachable g.fillWithWalls
  | clearMaze (g : Grid) : Grid.Reachable g → Grid.Reachable g.clearMaze
  | finalizeMaze (g : Grid) : Grid.Reachable g → Grid.Reachable g.finalizeMaze

/-! ## Maze generator (`MazeGenerator.h`, `MazeGenerator.cpp`)

The stack is a list whose head is the top.  `std::shuffle` followed by `neighbors[0]` picks an
arbitrary element of `neighbors`; the pick is the argument `choice` (reduced modulo the number of
candidates), so a run is determined by the sequence of choices. -/

structure MazeGeneratorState where
  stack : List Cell
  isGenerating : Bool

/-- `resetMazeGenerator`. -/
def resetMazeGenerator (_s : MazeGeneratorState) : MazeGeneratorState := ⟨[], false⟩

/-- The candidates collected by the first loop of `mazeStep`. -/
def mazeNeighbors (g : Grid) (current : Cell) : List Cell :=
  ([(-2, 0), (2, 0), (0, -2), (0, 2)] : List (Int × Int)).filterMap fun d =>
    let new_r : Int := current.1 + d.1
    let new_c : Int := current.2 + d.2
    if g.isValid new_r new_c = true ∧ (g.nodes new_r.toNat new_c.toNat).type = .Wall then
      some (new_r.toNat, new_c.toNat)
    else none

/-- `mazeStep`. -/
def mazeStep (choice : Nat) (g : Grid) (s : MazeGeneratorState) : Grid × MazeGeneratorState :=
  match s.isGenerating, s.stack with
  | false, _ => (g, { s with isGenerating := false })
  | true, [] => (g, { s with isGenerating := false })
  | true, current :: rest =>
    let neighbors := mazeNeighbors g current
    if h : 0 < neighbors.length then
      let next := neighbors.get ⟨choice % neighbors.length, Nat.mod_lt _ h⟩
      let wall_r : Int := current.1 + Int.tdiv (next.1 - current.1) 2
      let wall_c : Int := current.2 + Int.tdiv (next.2 - current.2) 2
      let g1 := g.setNodeType wall_r.toNat wall_c.toNat .Empty
      let g2 := g1.setNodeType next.1 next.2 .Empty
      (g2, { s with stack := next :: current :: rest })
    else (g, { s with stack := rest })

/-- The calls of `mazeStep` made with the given sequence of choices. -/
def mazeRun : List Nat → Grid × MazeGeneratorState → Grid × MazeGeneratorState
  | [], gs => gs
  | choice :: choices, gs => mazeRun choices (mazeStep choice gs.1 gs.2)

/-- The node at `c` belongs to the grid and is Empty. -/
def Grid.IsEmptyAt (g : Grid) (c : Cell) : Prop :=
  c.1 < g.rows ∧ c.2 < g.cols ∧ (g.node c).type = .Empty

/-- Two positions are neighbours in a row or in a column. -/
def Adj4 (u v : Cell) : Prop :=
  (u.1 = v.1 ∧ (u.2 + 1 = v.2 ∨ v.2 + 1 = u.2)) ∨ (u.2 = v.2 ∧ (u.1 + 1 = v.1 ∨ v.1 + 1 = u.1))

/-- `c` is joined to `seed` by a chain of 4-adjacent Empty nodes of the grid. -/
inductive Connected (g : Grid) (seed : Cell) : Cell → Prop
  | seed : g.IsEmptyAt seed → Connected g seed seed
  | step (u v : Cell) : Connected g seed u → Adj4 u v → g.IsEmptyAt v → Connected g seed v

/-! ## Path-finding engines: shared pieces

The `int` counters and costs of the engines are integers (a cost is at most five times the number
of nodes).  The pointer-chasing loops (`while (tracer != ...)`) take a fuel argument and give
`none` when it runs out; the theorems show that a fuel above a stated bound is always enough. -/

/-- The offsets `(dr[i], dc[i])` for `i < numDirections`. -/
def directions (isDiagonal : Bool) : List (Int × Int) :=
  (List.zip [-1, 1, 0, 0, -1, -1, 1, 1] [0, 0, -1, 1, -1, 1, -1, 1]).take
    (if isDiagonal then 8 else 4)

/-- The node `grid.nodes[new_r][new_c]` when the bounds test of the neighbour loop passes. -/
def neighborAt (g : Grid) (current : Cell) (d : Int × Int) : Option Cell :=
  let new_r : Int := current.1 + d.1
  let new_c : Int := current.2 + d.2
  if new_r ≥ 0 ∧ new_r < g.rows ∧ new_c ≥ 0 ∧ new_c < g.cols then
    some (new_r.toNat, new_c.toNat)
  else none

/-- The assignment `map[key] = value` on a `std::map` keyed by nodes. -/
def setAt {β : Type} (m : Cell → β) (key : Cell) (value : β) : Cell → β :=
  fun c => if c = key then value else m c

/-- A loop over all nodes of the grid whose body assigns only to the node of the iteration. -/
def Grid.mapNodes (g : Grid) (f : Node → Node) : Grid :=
  { g with nodes := fun r c => if r < g.rows ∧ c < g.cols then f (g.nodes r c) else g.nodes r c }

/-- The second loop of the `drawCurrent…Path` helpers: from `tracer` follow `parentMap` until the
start node or `nullptr`, turning every node on the way except the end node into a Path node. -/
def tracePath (parentMap : Cell → Option Cell) : Nat → Grid → Option Cell → Option Grid
  | _, g, none => some g
  | 0, g, some t => if g.startNode = some t then some g else none
  | fuel + 1, g, some t =>
    if g.startNode = some t then some g
    else
      let g1 :=
        if g.endNode ≠ some t then
          g.modify t.1 t.2 fun n => { n with type := .Path, fillColor := ⟨255, 255, 0⟩ }
        else g
      tracePath parentMap fuel g1 (parentMap t)

/-- The loop `while (tracer != nullptr) { pathCost += tracer->cost; tracer = parentMap[tracer]; }`
of the breadth-first and depth-first engines. -/
def sumPathCost (g : Grid) (parentMap : Cell → Option Cell) : Nat → Int → Option Cell → Option Int
  | _, pathCost, none => some pathCost
  | 0, _, some _ => none
  | fuel + 1, pathCost, some t =>
    sumPathCost g parentMap fuel (pathCost + (g.node t).cost) (parentMap t)

/-- The first loop of `drawCurrentPath`, `drawCurrentDFSPath` and `drawCurrentAStarPath`. -/
def clearOldPath (g : Grid) : Grid :=
  g.mapNodes fun n =>
    if n.type = .Path then { n with type := .Visited, fillColor := ⟨173, 216, 230⟩ } else n

/-! ## Breadth-first search (`BFS.h`, `BFS.cpp`)

The queue is a list whose head is the front. -/

structure BFSState where
  queue : List Cell
  parentMap : Cell → Option Cell
  isSearching : Bool
  isComplete : Bool
  noPathExists : Bool
  currentLine : Int
  nodesVisited : Int
  pathCost : Int

/-- `resetBFS`. -/
def resetBFS (_s : BFSState) : BFSState := ⟨[], fun _ => none, false, false, false, 0, 0, 0⟩

/-- `drawCurrentPath` of `BFS.cpp`. -/
def drawCurrentPath (fuel : Nat) (g : Grid) (currentNode : Cell)
    (parentMap : Cell → Option Cell) : Option Grid :=
  tracePath parentMap fuel (clearOldPath g) (some currentNode)

/-- The neighbour loop of `bfsStep`, from the given direction on. -/
def bfsNeighbors (fuel : Nat) (current : Cell) :
    List (Int × Int) → Grid → BFSState → Option (Grid × BFSState)
  | [], g, s => some (g, s)
  | d :: ds, g, s =>
    match neighborAt g current d with
    | none => bfsNeighbors fuel current ds g s
    | some neighbor =>
      if g.endNode = some neighbor then
        let parentMap := setAt s.parentMap neighbor (some current)
        (drawCurrentPath fuel g neighbor parentMap).bind fun g1 =>
        (sumPathCost g1 parentMap fuel s.pathCost (some neighbor)).bind fun pathCost =>
        some (g1, { s with parentMap := parentMap, pathCost := pathCost, isComplete := true,
                           isSearching := false, currentLine := 7 })
      else if (g.node neighbor).type = .Empty then
        bfsNeighbors fuel current ds
          (g.modify neighbor.1 neighbor.2 fun n =>
            { n with type := .Visited, fillColor := ⟨173, 216, 230⟩ })
          { s with parentMap := setAt s.parentMap neighbor (some current),
                   queue := s.queue ++ [neighbor], currentLine := 12 }
      else bfsNeighbors fuel current ds g { s with currentLine := 10 }

/-- `bfsStep`. -/
def bfsStep (fuel : Nat) (isDiagonal : Bool) (gs : Grid × BFSState) : Option (Grid × BFSState) :=
  let g := gs.1
  let s := gs.2
  if s.isSearching = false ∨ s.isComplete = true then some (g, s)
  else
    match s.queue with
    | [] =>
      some (g, { s with noPathExists := true, isSearching := false, isComplete := true,
                        currentLine := 16 })
    | current :: rest =>
      let s1 := { s with queue := rest, nodesVisited := s.nodesVisited + 1, currentLine := 6 }
      (drawCurrentPath fuel g current s1.parentMap).bind fun g1 =>
      if g1.endNode = some current then
        (sumPathCost g1 s1.parentMap fuel s1.pathCost g1.endNode).bind fun pathCost =>
        some (g1, { s1 with pathCost := pathCost, isComplete := true, isSearching := false,
                            currentLine := 7 })
      else bfsNeighbors fuel current (directions isDiagonal) g1 { s1 with currentLine := 9 }

/-- The orchestrator's start of a breadth-first search: `resetBFS`, push the start node, set
`isSearching`. -/
def bfsStart (g : Grid) (s : BFSState) : Option BFSState :=
  g.startNode.map fun st => { resetBFS s with queue := [st], isSearching := true }

/-- The state after `k` calls of `bfsStep` on a freshly started search. -/
def bfsRun (fuel : Nat) (isDiagonal : Bool) (g : Grid) (k : Nat) : Option (Grid × BFSState) :=
  (bfsStart g ⟨[], fun _ => none, false, false, false, 0, 0, 0⟩).bind fun s =>
    iterStep (bfsStep fuel isDiagonal) k (g, s)

/-! ## Depth-first search (`DFS.h`, `DFS.cpp`)

The stack is a list whose head is the top. -/

structure DFSState where
  stack : List Cell
  parentMap : Cell → Option Cell
  isSearching : Bool
  isComplete : Bool
  noPathExists : Bool
  currentLine : Int
  nodesVisited : Int
  pathCost : Int

/-- `resetDFS`. -/
def resetDFS (_s : DFSState) : DFSState := ⟨[], fun _ => none, false, false, false, 0, 0, 0⟩

/-- `drawCurrentDFSPath`. -/
def drawCurrentDFSPath (fuel : Nat) (g : Grid) (currentNode : Cell)
    (parentMap : Cell → Option Cell) : Option Grid :=
  tracePath parentMap fuel (clearOldPath g) (some currentNode)

/-- The neighbour loop of `dfsStep`, from the given direction on. -/
def dfsNeighbors (fuel : Nat) (current : Cell) :
    List (Int × Int) → Grid → DFSState → Option (Grid × DFSState)
  | [], g, s => some (g, s)
  | d :: ds, g, s =>
    match neighborAt g current d with
    | none => dfsNeighbors fuel current ds g s
    | some neighbor =>
      if g.endNode = some neighbor then
        let parentMap := setAt s.parentMap neighbor (some current)
        (drawCurrentDFSPath fuel g neighbor parentMap).bind fun g1 =>
        (sumPathCost g1 parentMap fuel s.pathCost (some neighbor)).bind fun pathCost =>
        some (g1, { s with parentMap := parentMap, pathCost := pathCost, isComplete := true,
                           isSearching := false, currentLine := 8 })
      else if (g.node neighbor).type = .Empty then
        dfsNeighbors fuel current ds g
          { s with parentMap := setAt s.parentMap neighbor (some current),
                   stack := neighbor :: s.stack, currentLine := 11 }
      else dfsNeighbors fuel current ds g { s with currentLine := 7 }

/-- `dfsStep`. -/
def dfsStep (fuel : Nat) (isDiagonal : Bool) (gs : Grid × DFSState) : Option (Grid × DFSState) :=
  let g := gs.1
  let s := gs.2
  if s.isSearching = false ∨ s.isComplete = true then some (g, s)
  else
    match s.stack with
    | [] =>
      some (g, { s with noPathExists := true, isSearching := false, isComplete := true,
                        currentLine := 15 })
    | current :: rest =>
      let s1 := { s with stack := rest, nodesVisited := s.nodesVisited + 1,
                         currentLine := if (g.node current).type = NodeType.Empty then 6 else 4 }
      let g1 :=
        if (g.node current).type = .Empty then
          g.modify current.1 current.2 fun n =>
            { n with type := .Visited, fillColor := ⟨173, 216, 230⟩ }
        else g
      (drawCurrentDFSPath fuel g1 current s1.parentMap).bind fun g2 =>
      dfsNeighbors fuel current (directions isDiagonal) g2 { s1 with currentLine := 10 }

/-- The orchestrator's start of a depth-first search. -/
def dfsStart (g : Grid) (s : DFSState) : Option DFSState :=
  g.startNode.map fun st => { resetDFS s with stack := [st], isSearching := true }

/-- The state after `k` calls of `dfsStep` on a freshly started search. -/
def dfsRun (fuel : Nat) (isDiagonal : Bool) (g : Grid) (k : Nat) : Option (Grid × DFSState) :=
  (dfsStart g ⟨[], fun _ => none, false, false, false, 0, 0, 0⟩).bind fun s =>
    iterStep (dfsStep fuel isDiagonal) k (g, s)

/-! ## Priority queues

A `std::priority_queue` is a list of its entries; which of several minimal entries `top` and
`pop` deliver is left to the heap, so the engines take the pop operation as an argument that is
only required to satisfy `IsMinPop`.  `popMin` is one such operation. -/

/-- The requirement on the pop of a min-priority queue ordered by `key`. -/
structure IsMinPop {α : Type} (key : α → Int) (pop : List α → Option (α × List α)) : Prop where
  pop_nil : pop [] = none
  pop_cons : ∀ q, q ≠ [] → ∃ x r, pop q = some (x, r) ∧ List.Perm (x :: r) q ∧
    ∀ y ∈ q, key x ≤ key y

/-- Pop the first entry of least key. -/
def popMin {α : Type} (key : α → Int) : List α → Option (α × List α)
  | [] => none
  | x :: q =>
    match popMin key q with
    | none => some (x, [])
    | some (y, r) => if key x ≤ key y then some (x, q) else some (y, x :: r)

/-- The value `numeric_limits<int>::max()`. -/
def INT_MAX : Int := 2147483647

/-! ## Dijkstra (`Dijkstra.h`, `Dijkstra.cpp`) -/

def VISITED_WEIGHT_COLOR : Color := ⟨135, 168, 182⟩

structure DijkstraNode where
  node : Cell
  cost : Int

structure DijkstraState where
  openSet : List DijkstraNode
  parentMap : Cell → Option Cell
  costMap : Cell → Int
  isSearching : Bool
  isComplete : Bool
  noPathExists : Bool
  currentLine : Int
  nodesVisited : Int
  pathCost : Int

/-- `resetDijkstra`; a cleared `costMap` reads as 0 at every key. -/
def resetDijkstra (_s : DijkstraState) : DijkstraState :=
  ⟨[], fun _ => none, fun _ => 0, false, false, false, 0, 0, 0⟩

/-- `drawCurrentDijkstraPath`. -/
def drawCurrentDijkstraPath (fuel : Nat) (g : Grid) (currentNode : Cell)
    (parentMap : Cell → Option Cell) : Option Grid :=
  tracePath parentMap fuel
    (g.mapNodes fun n =>
      if n.type = .Path then
        { n with type := .Visited,
                 fillColor := if n.cost > 1 then VISITED_WEIGHT_COLOR else VISITED_COLOR }
      else n)
    (some currentNode)

/-- The neighbour loop of `dijkstraStep`, from the given direction on. -/
def dijkstraNeighbors (current : Cell) :
    List (Int × Int) → Grid → DijkstraState → Grid × DijkstraState
  | [], g, s => (g, s)
  | d :: ds, g, s =>
    match neighborAt g current d with
    | none => dijkstraNeighbors current ds g s
    | some neighbor =>
      if (g.node neighbor).type = .Wall then dijkstraNeighbors current ds g s
      else
        let newCost := s.costMap current + (g.node neighbor).cost
        if newCost < s.costMap neighbor then
          dijkstraNeighbors current ds
            (if (g.node neighbor).type ≠ .End ∧ (g.node neighbor).type ≠ .Start then
              g.modify neighbor.1 neighbor.2 fun n => { n with fillColor := ⟨200, 255, 200⟩ }
             else g)
            { s with costMap := setAt s.costMap neighbor newCost,
                     parentMap := setAt s.parentMap neighbor (some current),
                     openSet := ⟨neighbor, newCost⟩ :: s.openSet, currentLine := 10 }
        else dijkstraNeighbors current ds g { s with currentLine := 8 }

/-- `dijkstraStep`, with the pop operation of the priority queue as an argument. -/
def dijkstraStep (pop : List DijkstraNode → Option (DijkstraNode × List DijkstraNode))
    (fuel : Nat) (isDiagonal : Bool) (gs : Grid × DijkstraState) :
    Option (Grid × DijkstraState) :=
  let g := gs.1
  let s := gs.2
  if s.isSearching = false ∨ s.isComplete = true then some (g, s)
  else if s.openSet.isEmpty = true then
    some (g, { s with noPathExists := true, isSearching := false, isComplete := true,
                      currentLine := 14 })
  else
    (pop s.openSet).bind fun top =>
    let current := top.1.node
    let s1 := { s with openSet := top.2, nodesVisited := s.nodesVisited + 1, currentLine := 5 }
    if g.endNode = some current then
      (drawCurrentDijkstraPath fuel g current s1.parentMap).bind fun g1 =>
      some (g1, { s1 with pathCost := s1.costMap current, isComplete := true,
                          isSearching := false })
    else if (g.node current).type = .Visited then some (g, s1)
    else
      let g1 :=
        if (g.node current).type ≠ .Start then
          g.modify current.1 current.2 fun n =>
            { n with type := .Visited,
                     fillColor := if n.cost > 1 then VISITED_WEIGHT_COLOR else VISITED_COLOR }
        else g
      (drawCurrentDijkstraPath fuel g1 current s1.parentMap).bind fun g2 =>
      some (dijkstraNeighbors current (directions isDiagonal) g2 { s1 with currentLine := 6 })

/-- The orchestrator's start of a Dijkstra search: `resetDijkstra`, `costMap` set to `INT_MAX`
at every node and to 0 at the start node, the start node pushed with cost 0. -/
def dijkstraStart (g : Grid) (s : DijkstraState) : Option DijkstraState :=
  g.startNode.bind fun st => g.endNode.map fun _ =>
    { resetDijkstra s with costMap := setAt (fun _ => INT_MAX) st 0, openSet := [⟨st, 0⟩],
                           isSearching := true }

/-- The state after `k` calls of `dijkstraStep` on a freshly started search. -/
def dijkstraRun (pop : List DijkstraNode → Option (DijkstraNode × List DijkstraNode))
    (fuel : Nat) (isDiagonal : Bool) (g : Grid) (k : Nat) : Option (Grid × DijkstraState) :=
  (dijkstraStart g ⟨[], fun _ => none, fun _ => 0, false, false, false, 0, 0, 0⟩).bind fun s =>
    iterStep (dijkstraStep pop fuel isDiagonal) k (g, s)

/-! ## A* (`AStar.h`, `Astar.cpp`) -/

structure AStarNode where
  node : Cell
  fCost : Int

structure AStarState where
  openSet : List AStarNode
  parentMap : Cell → Option Cell
  gCost : Cell → Int
  isSearching : Bool
  isComplete : Bool
  noPathExists : Bool
  currentLine : Int
  nodesVisited : Int
  pathCost : Int

/-- `resetAStar`. -/
def resetAStar (_s : AStarState) : AStarState :=
  ⟨[], fun _ => none, fun _ => 0, false, false, false, 0, 0, 0⟩

/-- `calculateHeuristic`: the Manhattan distance. -/
def calculateHeuristic (a b : Cell) : Int :=
  (((a.1 : Int) - b.1).natAbs : Int) + (((a.2 : Int) - b.2).natAbs : Int)

/-- `drawCurrentAStarPath`. -/
def drawCurrentAStarPath (fuel : Nat) (g : Grid) (currentNode : Cell)
    (parentMap : Cell → Option Cell) : Option Grid :=
  tracePath parentMap fuel (clearOldPath g) (some currentNode)

/-- The neighbour loop of `aStarStep`, from the given direction on; `endNode` is the node
`grid.endNode` points to (the loop dereferences the pointer). -/
def aStarNeighbors (current endNode : Cell) :
    List (Int × Int) → Grid → AStarState → Grid × AStarState
  | [], g, s => (g, s)
  | d :: ds, g, s =>
    match neighborAt g current d with
    | none => aStarNeighbors current endNode ds g s
    | some neighbor =>
      if (g.node neighbor).type = .Wall ∨ (g.node neighbor).type = .Visited then
        aStarNeighbors current endNode ds g s
      else
        let tentative_gCost := s.gCost current + (g.node neighbor).cost
        if tentative_gCost < s.gCost neighbor then
          let hCost := calculateHeuristic neighbor endNode
          let fCost := tentative_gCost + hCost
          aStarNeighbors current endNode ds
            (if (g.node neighbor).type ≠ .End ∧ (g.node neighbor).type ≠ .Start then
              g.modify neighbor.1 neighbor.2 fun n => { n with fillColor := ⟨200, 255, 200⟩ }
             else g)
            { s with parentMap := setAt s.parentMap neighbor (some current),
                     gCost := setAt s.gCost neighbor tentative_gCost,
                     openSet := ⟨neighbor, fCost⟩ :: s.openSet, currentLine := 13 }
        else aStarNeighbors current endNode ds g { s with currentLine := 9 }

/-- `aStarStep`, with the pop operation of the priority queue as an argument. -/
def aStarStep (pop : List AStarNode → Option (AStarNode × List AStarNode))
    (fuel : Nat) (isDiagonal : Bool) (gs : Grid × AStarState) : Option (Grid × AStarState) :=
  let g := gs.1
  let s := gs.2
  if s.isSearching = false ∨ s.isComplete = true then some (g, s)
  else if s.openSet.isEmpty = true then
    some (g, { s with noPathExists := true, isSearching := false, isComplete := true,
                      currentLine := 17 })
  else
    (pop s.openSet).bind fun top =>
    let current := top.1.node
    let s1 := { s with openSet := top.2, nodesVisited := s.nodesVisited + 1, currentLine := 4 }
    (drawCurrentAStarPath fuel g current s1.parentMap).bind fun g1 =>
    if g1.endNode = some current then
      some (g1, { s1 with pathCost := s1.gCost current, isComplete := true,
                          isSearching := false, currentLine := 5 })
    else
      let g2 :=
        if (g1.node current).type ≠ .Start then
          g1.modify current.1 current.2 fun n =>
            { n with type := .Visited, fillColor := ⟨173, 216, 230⟩ }
        else g1
      g2.endNode.bind fun endNode =>
      some (aStarNeighbors current endNode (directions isDiagonal) g2
        { s1 with currentLine := 7 })

/-- The orchestrator's start of an A* search: `resetAStar`, `gCost` set to `INT_MAX` at every
node and to 0 at the start node, the start node pushed with its heuristic. -/
def aStarStart (g : Grid) (s : AStarState) : Option AStarState :=
  g.startNode.bind fun st => g.endNode.map fun en =>
    { resetAStar s with gCost := setAt (fun _ => INT_MAX) st 0,
                        openSet := [⟨st, calculateHeuristic st en⟩], isSearching := true }

/-- The state after `k` calls of `aStarStep` on a freshly started search. -/
def aStarRun (pop : List AStarNode → Option (AStarNode × List AStarNode))
    (fuel : Nat) (isDiagonal : Bool) (g : Grid) (k : Nat) : Option (Grid × AStarState) :=
  (aStarStart g ⟨[], fun _ => none, fun _ => 0, false, false, false, 0, 0, 0⟩).bind fun s =>
    iterStep (aStarStep pop fuel isDiagonal) k (g, s)

/-! ## Example grids -/

/-- One row of three nodes: Start, Empty, End. -/
def lineGrid : Grid := ((Grid.construct 3 1 1).setNodeType 0 0 .Start).setNodeType 0 2 .End

/-- One row of three nodes: Start, Wall, End. -/
def wallGrid : Grid := (lineGrid.setNodeType 0 1 .Wall)

/-! ## Auxiliary facts about lists, accesses and iteration -/


theorem toSizeT_eq {x : Int} (h0 : 0 ≤ x) (h1 : x < 2 ^ 64) : toSizeT x = x := by
  unfold toSizeT; omega

theorem chk_ok {n : Nat} {i : Int} (h0 : 0 ≤ i) (h1 : i < n) : chk n i = some () := by
  simp [chk, h0, h1]

theorem readAt_ok {arr : List Int} {k : Nat} (h : k < arr.length) :
    readAt arr (k : Int) = some (arr.getD k 0) := by
  simp [readAt, h]

theorem readAt_ok1 {arr : List Int} {k : Nat} (h : k + 1 < arr.length) :
    readAt arr ((k : Int) + 1) = some (arr.getD (k + 1) 0) := by
  have := readAt_ok h
  simpa using this

theorem writeAt_ok {arr : List Int} {k : Nat} (v : Int) (h : k < arr.length) :
    writeAt arr (k : Int) v = some (arr.set k v) := by
  simp [writeAt, h]

theorem swapAt_ok {arr : List Int} {a b : Nat} (ha : a < arr.length) (hb : b < arr.length) :
    swapAt arr (a : Int) (b : Int) = some ((arr.set a (arr.getD b 0)).set b (arr.getD a 0)) := by
  simp [swapAt, readAt_ok ha, readAt_ok hb, writeAt_ok _ ha, writeAt_ok, hb]



theorem getD_set_self {l : List Int} {i : Nat} (v : Int) (h : i < l.length) :
    (l.set i v).getD i 0 = v := by
  simp [List.getD_eq_getElem?_getD, List.getElem?_set, h]

theorem getD_set_ne {l : List Int} {i k : Nat} (v : Int) (h : i ≠ k) :
    (l.set i v).getD k 0 = l.getD k 0 := by
  simp [List.getD_eq_getElem?_getD, List.getElem?_set, h]

theorem getD_set {l : List Int} {i k : Nat} (v : Int) (h : i < l.length) :
    (l.set i v).getD k 0 = if i = k then v else l.getD k 0 := by
  split
  · next e => subst e; exact getD_set_self v h
  · next e => exact getD_set_ne v e

theorem sorted_of_getD {l : List Int}
    (h : ∀ a b, a < b → b < l.length → l.getD a 0 ≤ l.getD b 0) : List.Sorted (· ≤ ·) l := by
  unfold List.Sorted
  rw [List.pairwise_iff_getElem]
  intro a b ha hb hab
  have := h a b hab hb
  rwa [List.getD_eq_getElem _ _ ha, List.getD_eq_getElem _ _ hb] at this

theorem swap_perm {l : List Int} {i j : Nat} (hi : i < l.length) (hj : j < l.length) :
    ((l.set i (l.getD j 0)).set j (l.getD i 0)).Perm l := by
  rw [List.perm_iff_count]
  intro a
  rw [List.getD_eq_getElem _ _ hi, List.getD_eq_getElem _ _ hj]
  rw [List.count_set _ _ _ _ (by simpa using hj), List.count_set _ _ _ _ hi]
  by_cases hij : i = j
  · subst hij
    simp only [List.getElem_set_self]
    have := List.count_pos_iff.mpr (List.getElem_mem hi)
    by_cases e : l[i] = a
    · subst e; simp
    · simp [e]
  · rw [List.getElem_set_ne hij]
    by_cases e1 : l[i] = a <;> by_cases e2 : l[j] = a
    all_goals
      have h1 : l[i] = a → 0 < List.count a l := fun e => List.count_pos_iff.mpr (e ▸ List.getElem_mem hi)
      have h2 : l[j] = a → 0 < List.count a l := fun e => List.count_pos_iff.mpr (e ▸ List.getElem_mem hj)
      simp [e1, e2]
      try omega

theorem iterStep_reach {σ α : Type} (step : σ → Option σ) (Inv : σ → Prop) (fin : σ → Bool)
    (r : α → α → Prop) (wf : WellFounded r) (μ : σ → α)
    (hstep : ∀ s, Inv s → fin s = false → ∃ s', step s = some s' ∧ Inv s' ∧ r (μ s') (μ s)) :
    ∀ s, Inv s → ∃ k s', iterStep step k s = some s' ∧ fin s' = true ∧ Inv s' ∧
      ∀ j, j < k → ∃ t, iterStep step j s = some t ∧ fin t = false := by
  intro s
  generalize hm : μ s = m
  induction m using wf.induction generalizing s with
  | _ m ih =>
    intro hinv
    cases hf : fin s with
    | true => exact ⟨0, s, rfl, hf, hinv, fun j hj => absurd hj (Nat.not_lt_zero j)⟩
    | false =>
      obtain ⟨s1, hs1, hinv1, hr⟩ := hstep s hinv hf
      subst hm
      obtain ⟨k, s2, hk, hfin, hinv2, hbefore⟩ := ih (μ s1) hr s1 rfl hinv1
      refine ⟨k + 1, s2, ?_, hfin, hinv2, ?_⟩
      · simp [iterStep, hs1, hk]
      · intro j hj
        cases j with
        | zero => exact ⟨s, rfl, hf⟩
        | succ j =>
          obtain ⟨t, ht, hft⟩ := hbefore j (by omega)
          exact ⟨t, by simp [iterStep, hs1, ht], hft⟩

/-- The lexicographic order on pairs of naturals used as termination measure. -/
def lex2 : Nat × Nat → Nat × Nat → Prop := Prod.Lex (· < ·) (· < ·)

theorem lex2_wf : WellFounded lex2 := WellFounded.prod_lex Nat.lt_wfRel.wf Nat.lt_wfRel.wf

theorem lex2_left {a b c d : Nat} (h : a < c) : lex2 (a, b) (c, d) := Prod.Lex.left _ _ h

theorem lex2_right {a b d : Nat} (h : b < d) : lex2 (a, b) (a, d) := Prod.Lex.right _ h

theorem iterStep_succ_right {σ : Type} (step : σ → Option σ) (k : Nat) (s : σ) :
    iterStep step (k + 1) s = (iterStep step k s).bind step := by
  induction k generalizing s with
  | zero => simp [iterStep]
  | succ k ih =>
    rw [iterStep]
    cases h : step s with
    | none => simp [iterStep, h]
    | some t => simp only [Option.some_bind, ih t]; rw [iterStep.eq_2, h, Option.some_bind]

theorem getD_of_sorted {l : List Int} (h : List.Sorted (· ≤ ·) l) {a b : Nat} (hab : a < b)
    (hb : b < l.length) : l.getD a 0 ≤ l.getD b 0 := by
  have ha : a < l.length := by omega
  rw [List.getD_eq_getElem _ _ ha, List.getD_eq_getElem _ _ hb]
  exact List.pairwise_iff_getElem.mp h a b ha hb hab

theorem u64_eq {x : Nat} (h : x < 2 ^ 64) : u64 x = x := by
  unfold u64; omega

theorem writeAt_ok1 {arr : List Int} {k : Nat} (v : Int) (h : k + 1 < arr.length) :
    writeAt arr ((k : Int) + 1) v = some (arr.set (k + 1) v) := by
  have := writeAt_ok v h
  simpa using this

theorem writeAt_ok0 {arr : List Int} (v : Int) (h : 0 < arr.length) :
    writeAt arr 0 v = some (arr.set 0 v) := by
  have := writeAt_ok v h
  simpa using this

theorem list_ext_getD {l1 l2 : List Int} (hl : l1.length = l2.length)
    (h : ∀ k, k < l1.length → l1.getD k 0 = l2.getD k 0) : l1 = l2 := by
  apply List.ext_getElem hl
  intro k h1 h2
  have := h k h1
  rwa [List.getD_eq_getElem _ _ h1, List.getD_eq_getElem _ _ h2] at this

theorem set_shift_eq (l : List Int) (h : Nat) (key v : Int) :
    (l.set (h + 1) v).set h key = ((l.set (h + 1) key).set h key).set (h + 1) v := by
  apply List.ext_getElem?
  intro k
  simp only [List.getElem?_set, List.length_set]
  by_cases e1 : h = k
  · subst e1; simp
  · by_cases e2 : h + 1 = k
    · subst e2; simp
    · simp [e1, e2]

theorem toInt32_eq {x : Int} (h0 : 0 ≤ x) (h1 : x < 2 ^ 31) : toInt32 x = x := by
  unfold toInt32; omega

/-! ## Bubble sort: total correctness -/

/-- The invariant of the bubble sort run on the array `orig`. -/
def BubbleInv (orig : List Int) (p : List Int × BubbleSortState) : Prop :=
  p.1.Perm orig ∧
  (p.2.isSorted = true → List.Sorted (· ≤ ·) p.1) ∧
  (p.2.isSorted = false → ∃ I J : Nat, p.2.i = I ∧ p.2.j = J ∧ I + J + 1 ≤ p.1.length ∧
    (I + 1 = p.1.length → p.2.swapped = false) ∧
    (∀ a b, a < b → p.1.length ≤ b + I → b < p.1.length → p.1.getD a 0 ≤ p.1.getD b 0) ∧
    (∀ k, k ≤ J → p.1.getD k 0 ≤ p.1.getD J 0) ∧
    (p.2.swapped = false → ∀ a b, a < b → b ≤ J → p.1.getD a 0 ≤ p.1.getD b 0))

theorem BubbleInv.intro {orig : List Int} {p : List Int × BubbleSortState}
    (h1 : p.1.Perm orig) (h2 : p.2.isSorted = true → List.Sorted (· ≤ ·) p.1)
    (h3 : p.2.isSorted = false → ∃ I J : Nat, p.2.i = I ∧ p.2.j = J ∧ I + J + 1 ≤ p.1.length ∧
      (I + 1 = p.1.length → p.2.swapped = false) ∧
      (∀ a b, a < b → p.1.length ≤ b + I → b < p.1.length → p.1.getD a 0 ≤ p.1.getD b 0) ∧
      (∀ k, k ≤ J → p.1.getD k 0 ≤ p.1.getD J 0) ∧
      (p.2.swapped = false → ∀ a b, a < b → b ≤ J → p.1.getD a 0 ≤ p.1.getD b 0)) :
    BubbleInv orig p := ⟨h1, h2, h3⟩

/-- The termination measure of the bubble sort run. -/
def bubbleMeasure (p : List Int × BubbleSortState) : Nat × Nat :=
  if p.2.isSorted then (0, 0) else (p.1.length + 1 - p.2.i.toNat, p.1.length + 1 - p.2.j.toNat)

theorem bubbleCompare_eq (arr : List Int) (s : BubbleSortState) (I J : Nat)
    (hi : s.i = I) (hj : s.j = J) (hlt : I + J + 2 ≤ arr.length) (hn : arr.length < 2 ^ 31) :
    bubbleCompare arr s =
      if arr.getD J 0 > arr.getD (J + 1) 0 then
        some ((arr.set J (arr.getD (J + 1) 0)).set (J + 1) (arr.getD J 0),
          { s with currentLine := 7, comparisons := u64 (s.comparisons + 1),
                   arrayAccesses := u64 (u64 (s.arrayAccesses + 2) + 4), swapped := true,
                   j := (J : Int) + 1 })
      else
        some (arr,
          { s with currentLine := 5, comparisons := u64 (s.comparisons + 1),
                   arrayAccesses := u64 (s.arrayAccesses + 2), j := (J : Int) + 1 }) := by
  obtain ⟨i, j, swapped, isSorted, cl, cmp, acc⟩ := s
  simp only at hi hj
  subst hi hj
  have hn' : (arr.length : Int) < 2 ^ 31 := by exact_mod_cast hn
  have h1 : ¬ (toSizeT (I : Int) ≥ toSizeT ((arr.length : Int) - 1)) := by
    unfold toSizeT; omega
  have hJ : J < arr.length := by omega
  have hJ1 : J + 1 < arr.length := by omega
  have c1 : chk arr.length (J : Int) = some () := chk_ok (by omega) (by omega)
  have c2 : chk arr.length ((J : Int) + 1) = some () := chk_ok (by omega) (by omega)
  have sw := swapAt_ok hJ hJ1
  simp only [Nat.cast_add, Nat.cast_one] at sw
  simp only [bubbleCompare, h1, if_false, c1, c2, readAt_ok hJ, readAt_ok1 hJ1, sw,
    Option.bind_eq_bind, Option.some_bind, bind, Option.bind]


theorem bubble_step_inv (orig : List Int) (hlen : orig.length < 2 ^ 31)
    (p : List Int × BubbleSortState) (hinv : BubbleInv orig p) (hns : p.2.isSorted = false) :
    ∃ p', bubbleStep p = some p' ∧ BubbleInv orig p' ∧ lex2 (bubbleMeasure p') (bubbleMeasure p) := by
  obtain ⟨arr, s⟩ := p
  obtain ⟨i, j, swapped, isSorted, cl, cmp, acc⟩ := s
  obtain ⟨hperm, -, hrun⟩ := hinv
  simp only at hns hperm hrun
  subst hns
  obtain ⟨I, J, hi, hj, hIJ, hlast, hsuf, hmax, hpre⟩ := hrun rfl
  subst hi hj
  have hn : arr.length < 2 ^ 31 := by rw [hperm.length_eq]; exact hlen
  have hn' : (arr.length : Int) < 2 ^ 31 := by exact_mod_cast hn
  have hr : chkRange arr.length 0 (toSizeT ((arr.length : Int) - (I : Int))) = some () := by
    unfold chkRange toSizeT; rw [if_pos]; omega
  -- the result of a comparison step keeps the invariant
  have hcmp : ∀ (s : BubbleSortState) (I J : Nat), s.i = I → s.j = J → s.isSorted = false →
      I + J + 2 ≤ arr.length →
      (∀ a b, a < b → arr.length ≤ b + I → b < arr.length → arr.getD a 0 ≤ arr.getD b 0) →
      (∀ k, k ≤ J → arr.getD k 0 ≤ arr.getD J 0) →
      (s.swapped = false → ∀ a b, a < b → b ≤ J → arr.getD a 0 ≤ arr.getD b 0) →
      ∃ p', bubbleCompare arr s = some p' ∧ BubbleInv orig p' ∧ p'.2.isSorted = false ∧
        p'.2.i = I ∧ p'.2.j = (J : Int) + 1 ∧ p'.1.length = arr.length := by
    intro s I J hi hj hns hlt hsuf hmax hpre
    rw [bubbleCompare_eq arr s I J hi hj hlt hn]
    have hJ : J < arr.length := by omega
    have hJ1 : J + 1 < arr.length := by omega
    by_cases hgt : arr.getD J 0 > arr.getD (J + 1) 0
    · rw [if_pos hgt]
      refine ⟨_, rfl, BubbleInv.intro ((swap_perm hJ hJ1).trans hperm) ?_ ?_, hns, hi, rfl, by simp⟩
      · intro h; simp [hns] at h
      · intro _
        refine ⟨I, J + 1, hi, by simp, by simp; omega, by simp; omega, ?_, ?_, ?_⟩
        · intro a b hab hb1 hb2
          simp only [List.length_set] at hb1 hb2
          have hbJ : J + 1 < b := by omega
          simp only [getD_set _ (show J + 1 < (arr.set J (arr.getD (J + 1) 0)).length by simpa using hJ1),
            getD_set _ hJ]
          have e1 : ¬ J + 1 = b := by omega
          have e2 : ¬ J = b := by omega
          simp only [e1, e2, if_false]
          split
          · exact hsuf J b (by omega) hb1 hb2
          · split
            · exact hsuf (J + 1) b (by omega) hb1 hb2
            · exact hsuf a b hab hb1 hb2
        · intro k hk
          simp only [getD_set _ (show J + 1 < (arr.set J (arr.getD (J + 1) 0)).length by simpa using hJ1),
            getD_set _ hJ]
          simp only [if_true]
          split
          · exact le_refl _
          · split
            · omega
            · exact hmax k (by omega)
        · intro h; simp at h
    · rw [if_neg hgt]
      refine ⟨_, rfl, BubbleInv.intro hperm ?_ ?_, hns, hi, rfl, rfl⟩
      · intro h; simp [hns] at h
      · intro _
        refine ⟨I, J + 1, hi, by simp, by simp; omega, by simp; omega, hsuf, ?_, ?_⟩
        · intro k hk
          simp only
          by_cases e : k = J + 1
          · subst e; exact le_refl _
          · have := hmax k (by omega); omega
        · intro hsw a b hab hb
          simp only at hsw ⊢
          by_cases e : b = J + 1
          · subst e
            have := hmax a (by omega); omega
          · exact hpre hsw a b hab (by omega)
  by_cases hend : I + J + 1 = arr.length
  · -- the pass is complete
    have h1 : toSizeT (J : Int) ≥ toSizeT ((arr.length : Int) - (I : Int) - 1) := by
      unfold toSizeT; omega
    have c1 : chk arr.length (toSizeT ((arr.length : Int) - 1 - (I : Int))) = some () := by
      unfold toSizeT; exact chk_ok (by omega) (by omega)
    cases swapped with
    | false =>
      refine ⟨(arr, ⟨(I : Int), (J : Int), false, true, 10, cmp, acc⟩), ?_,
        BubbleInv.intro hperm ?_ ?_, ?_⟩
      · simp only [bubbleStep, bubbleSortStep, hr, h1, c1, if_true, Bool.false_eq_true, if_false,
          Option.bind_eq_bind, Option.some_bind, bind, Option.bind, Bool.not_false]
      · intro _
        apply sorted_of_getD
        intro a b hab hb
        by_cases hbJ : b ≤ J
        · exact hpre rfl a b hab hbJ
        · exact hsuf a b hab (by omega) hb
      · intro h; simp at h
      · simp only [bubbleMeasure, if_true, Bool.false_eq_true, if_false]
        exact lex2_left (by omega)
    | true =>
      have hI : I + 1 < arr.length := by
        by_contra hc
        have := hlast (by omega)
        simp at this
      have hJ0 : J = arr.length - 1 - I := by omega
      have hsuf' : ∀ a b, a < b → arr.length ≤ b + (I + 1) → b < arr.length →
          arr.getD a 0 ≤ arr.getD b 0 := by
        intro a b hab hb1 hb2
        by_cases e : b = J
        · subst e; exact hmax a (by omega)
        · exact hsuf a b hab (by omega) hb2
      by_cases hfin : I + 2 = arr.length
      · -- all passes are complete
        have h2 : toSizeT ((I : Int) + 1) ≥ toSizeT ((arr.length : Int) - 1) := by
          unfold toSizeT; omega
        refine ⟨(arr, ⟨(I : Int) + 1, 0, false, true, 3, cmp, acc⟩), ?_,
          BubbleInv.intro hperm ?_ ?_, ?_⟩
        · simp only [bubbleStep, bubbleSortStep, hr, h1, c1, if_true, Bool.false_eq_true, if_false,
            Option.bind_eq_bind, Option.some_bind, bind, Option.bind, Bool.not_true,
            bubbleCompare, h2]
        · intro _
          apply sorted_of_getD
          intro a b hab hb
          exact hsuf' a b hab (by omega) hb
        · intro h; simp at h
        · simp only [bubbleMeasure, if_true, Bool.false_eq_true, if_false]
          exact lex2_left (by omega)
      · obtain ⟨p', hp', hinv', hns', hi', hj', hl'⟩ :=
          hcmp ⟨(I : Int) + 1, 0, false, false, 3, cmp, acc⟩ (I + 1) 0 (by simp) (by simp) rfl
            (by omega) hsuf' (by intro k hk; have : k = 0 := by omega
                                 subst this; exact le_refl _)
            (by intro _ a b hab hb; omega)
        refine ⟨p', ?_, hinv', ?_⟩
        · rw [← hp']
          simp only [bubbleStep, bubbleSortStep, hr, h1, c1, if_true, Bool.false_eq_true, if_false,
            Option.bind_eq_bind, Option.some_bind, bind, Option.bind, Bool.not_true]
        · simp only [bubbleMeasure, hns', hi', hj', hl', Bool.false_eq_true, if_false]
          apply lex2_left
          omega
  · -- one comparison inside the pass
    have h1 : ¬ toSizeT (J : Int) ≥ toSizeT ((arr.length : Int) - (I : Int) - 1) := by
      unfold toSizeT; omega
    obtain ⟨p', hp', hinv', hns', hi', hj', hl'⟩ :=
      hcmp ⟨(I : Int), (J : Int), swapped, false, 2, cmp, acc⟩ I J rfl rfl rfl (by omega)
        hsuf hmax hpre
    refine ⟨p', ?_, hinv', ?_⟩
    · rw [← hp']
      simp only [bubbleStep, bubbleSortStep, hr, h1, if_true, Bool.false_eq_true, if_false,
        Option.bind_eq_bind, Option.some_bind, bind, Option.bind]
    · simp only [bubbleMeasure, hns', hi', hj', hl', Bool.false_eq_true, if_false]
      have e1 : ((I : Int)).toNat = I := by simp
      rw [e1]
      apply lex2_right
      omega

theorem bubble_init_inv (arr : List Int) (h1 : 1 ≤ arr.length) :
    BubbleInv arr (arr, resetBubbleSort {}) := by
  refine BubbleInv.intro (List.Perm.refl _) ?_ ?_
  · intro h; simp [resetBubbleSort] at h
  · intro _
    refine ⟨0, 0, rfl, rfl, by simpa using h1, fun _ => rfl, ?_, ?_, ?_⟩
    · intro a b _ hb1 hb2; simp at hb1 hb2; omega
    · intro k hk
      have : k = 0 := by omega
      subst this; exact le_refl _
    · intro _ a b hab hb; omega

/-- C3. Bubble sort is totally correct: for every array with at least one element (and a
length that fits in `int`), `resetBubbleSort` followed by repeated `bubbleSortStep` never makes
an out-of-range access and reaches `isSorted = true` after finitely many calls; at that point
the array is non-decreasing and a permutation of the initial array. -/
theorem bubbleSort_total_correct (arr : List Int) (h1 : 1 ≤ arr.length)
    (h2 : arr.length < 2 ^ 31) :
    ∃ k arr' s', bubbleRun arr k = some (arr', s') ∧ s'.isSorted = true ∧
      List.Sorted (· ≤ ·) arr' ∧ arr'.Perm arr ∧
      ∀ j, j < k → ∃ a s, bubbleRun arr j = some (a, s) ∧ s.isSorted = false := by
  obtain ⟨k, p, hk, hfin, hinv, hbefore⟩ :=
    iterStep_reach bubbleStep (BubbleInv arr) (fun p => p.2.isSorted) lex2 lex2_wf bubbleMeasure
      (fun p hp hf => bubble_step_inv arr h2 p hp hf) _ (bubble_init_inv arr h1)
  refine ⟨k, p.1, p.2, hk, hfin, hinv.2.1 hfin, hinv.1, ?_⟩
  intro j hj
  obtain ⟨t, ht, hft⟩ := hbefore j hj
  exact ⟨t.1, t.2, ht, hft⟩

/-- Witness of C3 on the array `[3, 1, 2]`. -/
theorem bubbleSort_total_correct_witness :
    ∃ k arr' s', bubbleRun [3, 1, 2] k = some (arr', s') ∧ s'.isSorted = true ∧
      List.Sorted (· ≤ ·) arr' ∧ arr'.Perm [3, 1, 2] ∧
      ∀ j, j < k → ∃ a s, bubbleRun [3, 1, 2] j = some (a, s) ∧ s.isSorted = false :=
  bubbleSort_total_correct [3, 1, 2] (by decide) (by decide)

/-- On a non-decreasing array the first pass of bubble sort only compares: after `m` calls
(`m < N`) the state is `i = 0`, `j = m`, no swap recorded, `m` comparisons, `2 * m` accesses. -/
theorem bubble_sorted_prefix (arr : List Int) (hs : List.Sorted (· ≤ ·) arr)
    (h2 : arr.length < 2 ^ 31) (m : Nat) (hm : m + 1 ≤ arr.length) :
    bubbleRun arr m =
      some (arr, ⟨0, (m : Int), false, false, if m = 0 then 0 else 5, m, 2 * m⟩) := by
  induction m with
  | zero => rfl
  | succ m ih =>
    have ih := ih (by omega)
    unfold bubbleRun at ih ⊢
    rw [iterStep_succ_right, ih, Option.some_bind]
    have hn' : (arr.length : Int) < 2 ^ 31 := by exact_mod_cast h2
    have hr : chkRange arr.length 0 (toSizeT ((arr.length : Int) - 0)) = some () := by
      unfold chkRange toSizeT; rw [if_pos]; omega
    have h1 : ¬ toSizeT (m : Int) ≥ toSizeT ((arr.length : Int) - 0 - 1) := by
      unfold toSizeT; omega
    have hc := bubbleCompare_eq arr ⟨0, (m : Int), false, false, 2, m, 2 * m⟩ 0 m rfl rfl
      (by omega) h2
    have hle : ¬ arr.getD m 0 > arr.getD (m + 1) 0 := by
      have := getD_of_sorted hs (show m < m + 1 by omega) (by omega)
      omega
    rw [if_neg hle] at hc
    simp only [bubbleStep, bubbleSortStep, hr, h1, if_true, Bool.false_eq_true, if_false,
      Option.bind_eq_bind, Option.some_bind, bind, Option.bind, hc]
    have e1 : u64 (m + 1) = m + 1 := u64_eq (by omega)
    have e2 : u64 (2 * m + 2) = 2 * (m + 1) := by rw [u64_eq (by omega)]; omega
    simp [e1, e2]

/-- C7. Bubble sort early exit: on a non-decreasing array of length `N ≥ 1` the run sets
`isSorted` at call number `N`, with `N - 1` comparisons, `2 * (N - 1)` array accesses (the
reads of the comparisons only, hence no swap), the pass counter `i` still `0`, and the array
equal to the input after every call. -/
theorem bubbleSort_early_exit (arr : List Int) (hs : List.Sorted (· ≤ ·) arr)
    (h1 : 1 ≤ arr.length) (h2 : arr.length < 2 ^ 31) :
    (∃ s', bubbleRun arr arr.length = some (arr, s') ∧ s'.isSorted = true ∧
      s'.comparisons = arr.length - 1 ∧ s'.arrayAccesses = 2 * (arr.length - 1) ∧
      s'.i = 0 ∧ s'.swapped = false) ∧
    ∀ m, m < arr.length → ∃ s, bubbleRun arr m = some (arr, s) ∧ s.isSorted = false ∧
      s.i = 0 ∧ s.swapped = false := by
  constructor
  · obtain ⟨n, hn⟩ : ∃ n, arr.length = n + 1 := ⟨arr.length - 1, by omega⟩
    have hp := bubble_sorted_prefix arr hs h2 n (by omega)
    unfold bubbleRun at hp ⊢
    rw [hn, iterStep_succ_right, hp, Option.some_bind]
    have hn' : (arr.length : Int) < 2 ^ 31 := by exact_mod_cast h2
    have hr : chkRange arr.length 0 (toSizeT ((arr.length : Int) - 0)) = some () := by
      unfold chkRange toSizeT; rw [if_pos]; omega
    have h3 : toSizeT (n : Int) ≥ toSizeT ((arr.length : Int) - 0 - 1) := by
      unfold toSizeT; omega
    have c1 : chk arr.length (toSizeT ((arr.length : Int) - 1 - 0)) = some () := by
      unfold toSizeT; exact chk_ok (by omega) (by omega)
    refine ⟨⟨0, (n : Int), false, true, 10, n, 2 * n⟩, ?_, rfl, by simp, by simp, rfl, rfl⟩
    simp only [bubbleStep, bubbleSortStep, hr, h3, c1, if_true, Bool.false_eq_true, if_false,
      Option.bind_eq_bind, Option.some_bind, bind, Option.bind, Bool.not_false]
  · intro m hm
    exact ⟨_, bubble_sorted_prefix arr hs h2 m (by omega), rfl, rfl, rfl⟩

/-- Witness of C7 on the array `[1, 2, 3]`. -/
theorem bubbleSort_early_exit_witness :
    (∃ s', bubbleRun [1, 2, 3] 3 = some ([1, 2, 3], s') ∧ s'.isSorted = true ∧
      s'.comparisons = 3 - 1 ∧ s'.arrayAccesses = 2 * (3 - 1) ∧
      s'.i = 0 ∧ s'.swapped = false) ∧
    ∀ m, m < 3 → ∃ s, bubbleRun [1, 2, 3] m = some ([1, 2, 3], s) ∧ s.isSorted = false ∧
      s.i = 0 ∧ s.swapped = false :=
  bubbleSort_early_exit [1, 2, 3] (by decide) (by decide) (by decide)

/-! ## Selection sort: total correctness -/

/-- The invariant of the selection sort run on the array `orig`. -/
def SelectionInv (orig : List Int) (p : List Int × SelectionSortState) : Prop :=
  p.1.Perm orig ∧
  (p.2.isSorted = true → List.Sorted (· ≤ ·) p.1) ∧
  (p.2.isSorted = false → ∃ I J M : Nat, p.2.i = I ∧ p.2.j = J ∧ p.2.min_idx = M ∧
    I + 1 ≤ p.1.length ∧ I ≤ M ∧ M < J ∧ J ≤ p.1.length ∧
    (p.2.findingMin = false → J = p.1.length) ∧
    (∀ a b, a < b → a < I → b < p.1.length → p.1.getD a 0 ≤ p.1.getD b 0) ∧
    (∀ k, I ≤ k → k < J → p.1.getD M 0 ≤ p.1.getD k 0))

/-- The termination measure of the selection sort run. -/
def selectionMeasure (p : List Int × SelectionSortState) : Nat × Nat :=
  if p.2.isSorted then (0, 0)
  else (p.1.length + 1 - p.2.i.toNat,
        if p.2.findingMin then p.1.length + 2 - p.2.j.toNat else 0)

theorem selection_step_inv (orig : List Int) (hlen : orig.length < 2 ^ 31)
    (p : List Int × SelectionSortState) (hinv : SelectionInv orig p)
    (hns : p.2.isSorted = false) :
    ∃ p', selectionStep p = some p' ∧ SelectionInv orig p' ∧
      lex2 (selectionMeasure p') (selectionMeasure p) := by
  obtain ⟨arr, s⟩ := p
  obtain ⟨i, j, min_idx, isSorted, findingMin, cl, cmp, acc⟩ := s
  obtain ⟨hperm, -, hrun⟩ := hinv
  simp only at hns hperm hrun
  subst hns
  obtain ⟨I, J, M, hi, hj, hm, hI, hIM, hMJ, hJ, hfm, hpre, hmin⟩ := hrun rfl
  subst hi hj hm
  have hn : arr.length < 2 ^ 31 := by rw [hperm.length_eq]; exact hlen
  have hn' : (arr.length : Int) < 2 ^ 31 := by exact_mod_cast hn
  have hr1 : chkRange arr.length (toSizeT (I : Int)) (arr.length : Int) = some () := by
    unfold chkRange toSizeT; rw [if_pos]; omega
  have hr2 : chkRange arr.length 0 (toSizeT (I : Int)) = some () := by
    unfold chkRange toSizeT; rw [if_pos]; omega
  cases findingMin with
  | true =>
    by_cases hJn : J < arr.length
    · have h1 : toSizeT (J : Int) < (arr.length : Int) := by unfold toSizeT; omega
      have c1 : chk arr.length (J : Int) = some () := chk_ok (by omega) (by omega)
      have c2 : chk arr.length (M : Int) = some () := chk_ok (by omega) (by omega)
      have hM : M < arr.length := by omega
      by_cases hlt : arr.getD J 0 < arr.getD M 0
      · refine ⟨(arr, ⟨(I : Int), (J : Int) + 1, (J : Int), false, true, 6, u64 (cmp + 1),
          u64 (acc + 2)⟩), ?_, ⟨hperm, ?_, ?_⟩, ?_⟩
        · simp only [selectionStep, selectionSortStep, hr1, hr2, h1, c1, c2, readAt_ok hJn,
            readAt_ok hM, hlt, if_true, Bool.false_eq_true, if_false,
            Option.bind_eq_bind, Option.some_bind, bind, Option.bind]
        · intro h; simp at h
        · intro _
          dsimp only
          refine ⟨I, J + 1, J, rfl, by simp, rfl, hI, by omega, by omega, by omega,
            by intro h; simp at h, hpre, ?_⟩
          intro k hk1 hk2
          by_cases e : k = J
          · subst e; exact le_refl _
          · have := hmin k hk1 (by omega); omega
        · simp only [selectionMeasure, if_true, Bool.false_eq_true, if_false]
          have e1 : ((J : Int) + 1).toNat = J + 1 := by omega
          have e2 : ((J : Int)).toNat = J := by omega
          rw [e1, e2]
          exact lex2_right (by omega)
      · refine ⟨(arr, ⟨(I : Int), (J : Int) + 1, (M : Int), false, true, 5, u64 (cmp + 1),
          u64 (acc + 2)⟩), ?_, ⟨hperm, ?_, ?_⟩, ?_⟩
        · simp only [selectionStep, selectionSortStep, hr1, hr2, h1, c1, c2, readAt_ok hJn,
            readAt_ok hM, hlt, if_true, Bool.false_eq_true, if_false,
            Option.bind_eq_bind, Option.some_bind, bind, Option.bind]
        · intro h; simp at h
        · intro _
          dsimp only
          refine ⟨I, J + 1, M, rfl, by simp, rfl, hI, by omega, by omega, by omega,
            by intro h; simp at h, hpre, ?_⟩
          intro k hk1 hk2
          by_cases e : k = J
          · subst e; omega
          · exact hmin k hk1 (by omega)
        · simp only [selectionMeasure, if_true, Bool.false_eq_true, if_false]
          have e1 : ((J : Int) + 1).toNat = J + 1 := by omega
          have e2 : ((J : Int)).toNat = J := by omega
          rw [e1, e2]
          exact lex2_right (by omega)
    · have h1 : ¬ toSizeT (J : Int) < (arr.length : Int) := by unfold toSizeT; omega
      refine ⟨(arr, ⟨(I : Int), (J : Int), (M : Int), false, false, 4, cmp, acc⟩), ?_,
        ⟨hperm, ?_, ?_⟩, ?_⟩
      · simp only [selectionStep, selectionSortStep, hr1, hr2, h1, if_true, Bool.false_eq_true,
          if_false, Option.bind_eq_bind, Option.some_bind, bind, Option.bind]
      · intro h; simp at h
      · intro _
        dsimp only
        exact ⟨I, J, M, rfl, rfl, rfl, hI, hIM, hMJ, hJ, fun _ => by omega, hpre, hmin⟩
      · simp only [selectionMeasure, if_true, Bool.false_eq_true, if_false]
        exact lex2_right (by omega)
  | false =>
    have hJn : J = arr.length := hfm rfl
    have hM : M < arr.length := by omega
    have hI' : I < arr.length := by omega
    have hsw := swapAt_ok hM hI'
    have hperm' := (swap_perm hM hI').trans hperm
    have hpre' : ∀ a b, a < b → a < I + 1 →
        b < ((arr.set M (arr.getD I 0)).set I (arr.getD M 0)).length →
        ((arr.set M (arr.getD I 0)).set I (arr.getD M 0)).getD a 0 ≤
          ((arr.set M (arr.getD I 0)).set I (arr.getD M 0)).getD b 0 := by
      intro a b hab ha hb
      simp only [List.length_set] at hb
      simp only [getD_set _ (show I < (arr.set M (arr.getD I 0)).length by simpa using hI'),
        getD_set _ hM]
      by_cases ea : a = I
      · subst ea
        simp only [if_true]
        have eb : ¬ a = b := by omega
        simp only [eb, if_false]
        split
        · exact hmin a (le_refl _) (by omega)
        · exact hmin b (by omega) (by omega)
      · have e1 : ¬ I = a := by omega
        have e2 : ¬ M = a := by omega
        simp only [e1, e2, if_false]
        split
        · exact hpre a M (by omega) (by omega) hM
        · split
          · exact hpre a I (by omega) (by omega) hI'
          · exact hpre a b hab (by omega) hb
    by_cases hfin : I + 2 ≥ arr.length
    · have h2 : toSizeT ((I : Int) + 1) ≥ toSizeT ((arr.length : Int) - 1) := by
        unfold toSizeT; omega
      refine ⟨((arr.set M (arr.getD I 0)).set I (arr.getD M 0),
        ⟨(I : Int) + 1, (J : Int), (M : Int), true, false, 9, cmp, u64 (acc + 4)⟩), ?_,
        ⟨hperm', ?_, ?_⟩, ?_⟩
      · simp only [selectionStep, selectionSortStep, hr1, hr2, hsw, h2, if_true,
          Bool.false_eq_true, if_false, Option.bind_eq_bind, Option.some_bind, bind, Option.bind]
      · intro _
        apply sorted_of_getD
        intro a b hab hb
        exact hpre' a b hab (by simp only [List.length_set] at hb; omega) hb
      · intro h; simp at h
      · simp only [selectionMeasure, if_true, Bool.false_eq_true, if_false]
        exact lex2_left (by omega)
    · have h2 : ¬ toSizeT ((I : Int) + 1) ≥ toSizeT ((arr.length : Int) - 1) := by
        unfold toSizeT; omega
      refine ⟨((arr.set M (arr.getD I 0)).set I (arr.getD M 0),
        ⟨(I : Int) + 1, (I : Int) + 1 + 1, (I : Int) + 1, false, true, 3, cmp, u64 (acc + 4)⟩),
        ?_, ⟨hperm', ?_, ?_⟩, ?_⟩
      · simp only [selectionStep, selectionSortStep, hr1, hr2, hsw, h2, if_true,
          Bool.false_eq_true, if_false, Option.bind_eq_bind, Option.some_bind, bind, Option.bind]
      · intro h; simp at h
      · intro _
        dsimp only
        refine ⟨I + 1, I + 2, I + 1, by simp, by simp; omega, by simp,
          by simp only [List.length_set]; omega, le_refl _, by omega,
          by simp only [List.length_set]; omega, by intro h; simp at h, hpre', ?_⟩
        intro k hk1 hk2
        have : k = I + 1 := by omega
        subst this; exact le_refl _
      · simp only [selectionMeasure, if_true, Bool.false_eq_true, if_false, List.length_set]
        have e1 : ((I : Int) + 1).toNat = I + 1 := by omega
        have e2 : ((I : Int)).toNat = I := by omega
        rw [e1, e2]
        exact lex2_left (by omega)

theorem selection_init_inv (arr : List Int) (h1 : 1 ≤ arr.length) :
    SelectionInv arr (arr, resetSelectionSort {}) := by
  refine ⟨List.Perm.refl _, ?_, ?_⟩
  · intro h; simp [resetSelectionSort] at h
  · intro _
    refine ⟨0, 1, 0, rfl, rfl, rfl, by simpa using h1, le_refl _, by omega, by simpa using h1,
      by intro h; simp [resetSelectionSort] at h, ?_, ?_⟩
    · intro a b _ ha; omega
    · intro k _ hk
      have : k = 0 := by omega
      subst this; exact le_refl _

/-- C4. Selection sort is totally correct: for every array with at least one element (and a
length that fits in `int`), `resetSelectionSort` followed by repeated `selectionSortStep`
never makes an out-of-range access and reaches `isSorted = true` after finitely many calls;
at that point the array is non-decreasing and a permutation of the initial array. -/
theorem selectionSort_total_correct (arr : List Int) (h1 : 1 ≤ arr.length)
    (h2 : arr.length < 2 ^ 31) :
    ∃ k arr' s', selectionRun arr k = some (arr', s') ∧ s'.isSorted = true ∧
      List.Sorted (· ≤ ·) arr' ∧ arr'.Perm arr ∧
      ∀ j, j < k → ∃ a s, selectionRun arr j = some (a, s) ∧ s.isSorted = false := by
  obtain ⟨k, p, hk, hfin, hinv, hbefore⟩ :=
    iterStep_reach selectionStep (SelectionInv arr) (fun p => p.2.isSorted) lex2 lex2_wf
      selectionMeasure (fun p hp hf => selection_step_inv arr h2 p hp hf) _
      (selection_init_inv arr h1)
  refine ⟨k, p.1, p.2, hk, hfin, hinv.2.1 hfin, hinv.1, ?_⟩
  intro j hj
  obtain ⟨t, ht, hft⟩ := hbefore j hj
  exact ⟨t.1, t.2, ht, hft⟩

/-- Witness of C4 on the array `[3, 1, 2]`. -/
theorem selectionSort_total_correct_witness :
    ∃ k arr' s', selectionRun [3, 1, 2] k = some (arr', s') ∧ s'.isSorted = true ∧
      List.Sorted (· ≤ ·) arr' ∧ arr'.Perm [3, 1, 2] ∧
      ∀ j, j < k → ∃ a s, selectionRun [3, 1, 2] j = some (a, s) ∧ s.isSorted = false :=
  selectionSort_total_correct [3, 1, 2] (by decide) (by decide)

/-! ## Insertion sort: total correctness -/

/-- The invariant of the insertion sort run on the array `orig`.  While a key is picked up,
the slot `j + 1` is a hole: the array with the key written into the hole is a permutation of
`orig`, the other slots up to `i` are in order, and those right of the hole exceed the key. -/
def InsertionInv (orig : List Int) (p : List Int × InsertionSortState) : Prop :=
  (p.2.isSorted = true → List.Sorted (· ≤ ·) p.1 ∧ p.1.Perm orig) ∧
  (p.2.isSorted = false → ∃ I : Nat, p.2.i = I ∧ 1 ≤ I ∧ I < p.1.length ∧
    p.1.length = orig.length ∧
    (p.2.keyPickedUp = false → p.1.Perm orig ∧
      ∀ a b, a < b → b < I → p.1.getD a 0 ≤ p.1.getD b 0) ∧
    (p.2.keyPickedUp = true → ∃ H : Nat, p.2.j = (H : Int) - 1 ∧ H ≤ I ∧
      (p.1.set H p.2.key).Perm orig ∧
      (∀ a b, a < b → b ≤ I → a ≠ H → b ≠ H → p.1.getD a 0 ≤ p.1.getD b 0) ∧
      (∀ b, H < b → b ≤ I → p.2.key < p.1.getD b 0)))

/-- The termination measure of the insertion sort run. -/
def insertionMeasure (p : List Int × InsertionSortState) : Nat × Nat :=
  if p.2.isSorted then (0, 0)
  else (p.1.length + 1 - p.2.i.toNat,
        if p.2.keyPickedUp then (p.2.j + 1).toNat + 1 else p.1.length + 2)

theorem insertion_core (orig arr : List Int) (s1 : InsertionSortState) (I H : Nat)
    (hn : arr.length < 2 ^ 31) (hlen : arr.length = orig.length)
    (hns : s1.isSorted = false) (hk : s1.keyPickedUp = true) (hi : s1.i = I)
    (hj : s1.j = (H : Int) - 1)
    (hI1 : 1 ≤ I) (hI : I < arr.length) (hH : H ≤ I)
    (hperm : (arr.set H s1.key).Perm orig)
    (hsort : ∀ a b, a < b → b ≤ I → a ≠ H → b ≠ H → arr.getD a 0 ≤ arr.getD b 0)
    (hgt : ∀ b, H < b → b ≤ I → s1.key < arr.getD b 0) :
    ∃ p', insertionShiftOrInsert arr s1 = some p' ∧ InsertionInv orig p' ∧
      ∀ X, H < X → lex2 (insertionMeasure p') (arr.length + 1 - I, X) := by
  obtain ⟨i, j, key, isSorted, picked, cl, cmp, acc⟩ := s1
  simp only at hns hk hi hj hperm hgt
  subst hns hi hk
  have hn' : (arr.length : Int) < 2 ^ 31 := by exact_mod_cast hn
  have c1 : chk arr.length (I : Int) = some () := chk_ok (by omega) (by omega)
  have hHn : H < arr.length := by omega
  cases H with
  | zero =>
    have hj0 : j = -1 := by omega
    subst hj0
    have hw := writeAt_ok0 key (show 0 < arr.length by omega)
    have hsorted : ∀ a b, a < b → b < I + 1 →
        (arr.set 0 key).getD a 0 ≤ (arr.set 0 key).getD b 0 := by
      intro a b hab hb
      simp only [getD_set _ (show 0 < arr.length by omega)]
      have eb : ¬ 0 = b := by omega
      simp only [eb, if_false]
      split
      · exact le_of_lt (hgt b (by omega) (by omega))
      · exact hsort a b hab (by omega) (by omega) (by omega)
    by_cases hfin : I + 1 ≥ arr.length
    · have h2 : toSizeT ((I : Int) + 1) ≥ (arr.length : Int) := by unfold toSizeT; omega
      refine ⟨(arr.set 0 key, ⟨(I : Int) + 1, -1, key, true, true, 8, cmp, u64 (acc + 1)⟩),
        ?_, ⟨?_, ?_⟩, ?_⟩
      · simp [insertionShiftOrInsert, c1, hw, h2]
      · intro _
        refine ⟨sorted_of_getD ?_, hperm⟩
        intro a b hab hb
        exact hsorted a b hab (by simp only [List.length_set] at hb; omega)
      · intro h; simp at h
      · intro X hX
        simp only [insertionMeasure, if_true]
        exact lex2_left (by omega)
    · have h2 : ¬ toSizeT ((I : Int) + 1) ≥ (arr.length : Int) := by unfold toSizeT; omega
      refine ⟨(arr.set 0 key, ⟨(I : Int) + 1, -1, key, false, false, 8, cmp, u64 (acc + 1)⟩),
        ?_, ⟨?_, ?_⟩, ?_⟩
      · simp [insertionShiftOrInsert, c1, hw, h2]
      · intro h; simp at h
      · intro _
        dsimp only
        refine ⟨I + 1, by simp, by omega, by simp only [List.length_set]; omega,
          by simp only [List.length_set]; exact hlen, fun _ => ⟨hperm, hsorted⟩,
          by intro h; simp at h⟩
      · intro X hX
        simp only [insertionMeasure, Bool.false_eq_true, if_false, List.length_set]
        have e1 : ((I : Int) + 1).toNat = I + 1 := by omega
        rw [e1]
        exact lex2_left (by omega)
  | succ h =>
    have hjh : j = (h : Int) := by push_cast at hj; omega
    subst hjh
    have hh : h < arr.length := by omega
    have c2 : chk arr.length (h : Int) = some () := chk_ok (by omega) (by omega)
    have hge : (h : Int) ≥ 0 := by omega
    by_cases hcond : arr.getD h 0 > key
    · -- shift `arr[h]` one slot to the right
      have hw := writeAt_ok1 (arr.getD h 0) hHn
      refine ⟨(arr.set (h + 1) (arr.getD h 0),
        ⟨(I : Int), (h : Int) - 1, key, false, true, 6, u64 (cmp + 1),
          u64 (u64 (acc + 1) + 2)⟩), ?_, ⟨?_, ?_⟩, ?_⟩
      · simp [-List.getD_eq_getElem?_getD, insertionShiftOrInsert, c1, c2, readAt_ok hh, hcond, hw]
      · intro h; simp at h
      · intro _
        dsimp only
        refine ⟨I, rfl, hI1, by simp only [List.length_set]; omega,
          by simp only [List.length_set]; exact hlen, ?_, ?_⟩
        · intro h; simp at h
        · intro _
          refine ⟨h, by omega, by omega, ?_, ?_, ?_⟩
          · -- the hole moves one slot to the left
            have sw := swap_perm (l := arr.set (h + 1) key) (i := h) (j := h + 1)
              (by simpa using hh) (by simpa using hHn)
            have g1 : (arr.set (h + 1) key).getD (h + 1) 0 = key := getD_set_self key hHn
            have g2 : (arr.set (h + 1) key).getD h 0 = arr.getD h 0 :=
              getD_set_ne key (by omega)
            rw [g1, g2] at sw
            rw [set_shift_eq]
            exact sw.trans hperm
          · intro a b hab hb ha1 hb1
            simp only [getD_set _ hHn]
            by_cases ea : h + 1 = a
            · subst ea
              have eb : ¬ h + 1 = b := by omega
              simp only [if_true, eb, if_false]
              exact hsort h b (by omega) hb (by omega) (by omega)
            · by_cases eb : h + 1 = b
              · subst eb
                simp only [ea, if_false, if_true]
                exact hsort a h (by omega) (by omega) (by omega) (by omega)
              · simp only [ea, eb, if_false]
                exact hsort a b hab hb (by omega) (by omega)
          · intro b hb1 hb2
            simp only [getD_set _ hHn]
            split
            · exact hcond
            · exact hgt b (by omega) hb2
      · intro X hX
        simp only [insertionMeasure, Bool.false_eq_true, if_false, List.length_set]
        simp only [if_true]
        have e1 : ((I : Int)).toNat = I := by omega
        have e2 : ((h : Int) - 1 + 1).toNat + 1 = h + 1 := by omega
        rw [e1, e2]
        exact lex2_right (by omega)
    · -- the key is written into the hole
      have hw := writeAt_ok1 key hHn
      have hsorted : ∀ a b, a < b → b < I + 1 →
          (arr.set (h + 1) key).getD a 0 ≤ (arr.set (h + 1) key).getD b 0 := by
        intro a b hab hb
        simp only [getD_set _ hHn]
        by_cases ea : h + 1 = a
        · subst ea
          have eb : ¬ h + 1 = b := by omega
          simp only [if_true, eb, if_false]
          exact le_of_lt (hgt b (by omega) (by omega))
        · by_cases eb : h + 1 = b
          · subst eb
            simp only [ea, if_false, if_true]
            by_cases eh : a = h
            · subst eh; omega
            · have := hsort a h (by omega) (by omega) (by omega) (by omega)
              omega
          · simp only [ea, eb, if_false]
            exact hsort a b hab (by omega) (by omega) (by omega)
      by_cases hfin : I + 1 ≥ arr.length
      · have h2 : toSizeT ((I : Int) + 1) ≥ (arr.length : Int) := by unfold toSizeT; omega
        refine ⟨(arr.set (h + 1) key, ⟨(I : Int) + 1, (h : Int), key, true, true, 8,
          u64 (cmp + 1), u64 (u64 (acc + 1) + 1)⟩), ?_, ⟨?_, ?_⟩, ?_⟩
        · simp [-List.getD_eq_getElem?_getD, insertionShiftOrInsert, c1, c2, readAt_ok hh,
            hcond, hw, h2]
        · intro _
          refine ⟨sorted_of_getD ?_, hperm⟩
          intro a b hab hb
          exact hsorted a b hab (by simp only [List.length_set] at hb; omega)
        · intro h; simp at h
        · intro X hX
          simp only [insertionMeasure, if_true]
          exact lex2_left (by omega)
      · have h2 : ¬ toSizeT ((I : Int) + 1) ≥ (arr.length : Int) := by unfold toSizeT; omega
        refine ⟨(arr.set (h + 1) key, ⟨(I : Int) + 1, (h : Int), key, false, false, 8,
          u64 (cmp + 1), u64 (u64 (acc + 1) + 1)⟩), ?_, ⟨?_, ?_⟩, ?_⟩
        · simp [-List.getD_eq_getElem?_getD, insertionShiftOrInsert, c1, c2, readAt_ok hh,
            hcond, hw, h2]
        · intro h; simp at h
        · intro _
          dsimp only
          refine ⟨I + 1, by simp, by omega, by simp only [List.length_set]; omega,
            by simp only [List.length_set]; exact hlen, fun _ => ⟨hperm, hsorted⟩,
            by intro h; simp at h⟩
        · intro X hX
          simp only [insertionMeasure, Bool.false_eq_true, if_false, List.length_set]
          have e1 : ((I : Int) + 1).toNat = I + 1 := by omega
          rw [e1]
          exact lex2_left (by omega)

theorem insertion_step_inv (orig : List Int) (hlen : orig.length < 2 ^ 31)
    (p : List Int × InsertionSortState) (hinv : InsertionInv orig p)
    (hns : p.2.isSorted = false) :
    ∃ p', insertionStep p = some p' ∧ InsertionInv orig p' ∧
      lex2 (insertionMeasure p') (insertionMeasure p) := by
  obtain ⟨arr, s⟩ := p
  obtain ⟨i, j, key, isSorted, picked, cl, cmp, acc⟩ := s
  obtain ⟨-, hrun⟩ := hinv
  simp only at hns hrun
  subst hns
  obtain ⟨I, hi, hI1, hI, hl, hun, hpk⟩ := hrun rfl
  subst hi
  have hn : arr.length < 2 ^ 31 := by rw [hl]; exact hlen
  have hn' : (arr.length : Int) < 2 ^ 31 := by exact_mod_cast hn
  have hr1 : chkRange arr.length 0 (I : Int) = some () := by
    unfold chkRange; rw [if_pos]; omega
  have hr2 : chkRange arr.length (toSizeT (I : Int)) (arr.length : Int) = some () := by
    unfold chkRange toSizeT; rw [if_pos]; omega
  cases picked with
  | false =>
    obtain ⟨hperm, hsorted⟩ := hun rfl
    obtain ⟨p', hp', hinv', hm⟩ := insertion_core orig arr
      ⟨(I : Int), (I : Int) - 1, arr.getD I 0, false, true, 3, cmp, u64 (acc + 1)⟩ I I hn hl rfl
      rfl rfl rfl hI1 hI (le_refl _)
      (by
        have e : arr.set I (arr.getD I 0) = arr := by
          apply list_ext_getD (by simp)
          intro k hk
          rw [getD_set _ hI]
          split
          · next e => subst e; rfl
          · rfl
        simp only [e]; exact hperm)
      (fun a b hab hb _ hb1 => hsorted a b hab (by omega))
      (fun b hb1 hb2 => by omega)
    refine ⟨p', ?_, hinv', ?_⟩
    · rw [← hp']
      simp only [insertionStep, insertionSortStep, hr1, hr2, insertionPickUp, readAt_ok hI,
        if_true, Bool.false_eq_true, if_false, Option.bind_eq_bind, Option.some_bind, bind,
        Option.bind, Bool.not_false]
    · have := hm (arr.length + 2) (by omega)
      simpa [insertionMeasure] using this
  | true =>
    obtain ⟨H, hj, hH, hperm, hsort, hgt⟩ := hpk rfl
    obtain ⟨p', hp', hinv', hm⟩ := insertion_core orig arr
      ⟨(I : Int), j, key, false, true, 1, cmp, acc⟩ I H hn hl rfl
      rfl rfl hj hI1 hI hH hperm hsort hgt
    refine ⟨p', ?_, hinv', ?_⟩
    · rw [← hp']
      simp only [insertionStep, insertionSortStep, hr1, hr2, insertionPickUp,
        if_true, Bool.false_eq_true, if_false, Option.bind_eq_bind, Option.some_bind, bind,
        Option.bind, Bool.not_true]
    · have := hm (H + 1) (by omega)
      have e : (j + 1).toNat + 1 = H + 1 := by omega
      simpa [insertionMeasure, e] using this

theorem insertion_init_inv (arr : List Int) (h1 : 2 ≤ arr.length) (s0 : InsertionSortState) :
    InsertionInv arr (arr, resetInsertionSort s0) := by
  refine ⟨?_, ?_⟩
  · intro h; simp [resetInsertionSort] at h
  · intro _
    refine ⟨1, rfl, le_refl _, by simpa using h1, rfl, ?_, ?_⟩
    · intro _
      refine ⟨List.Perm.refl _, ?_⟩
      intro a b hab hb; omega
    · intro h; simp [resetInsertionSort] at h

/-- C5. Insertion sort is totally correct: for every array with at least two elements (and a
length that fits in `int`) and every record `s0`, fresh or left by an earlier run,
`resetInsertionSort(s0)` followed by repeated `insertionSortStep` never makes an
out-of-range access and reaches `isSorted = true` after finitely many calls; at that point
the array is non-decreasing and a permutation of the initial array.  The field `key`, which
`resetInsertionSort` leaves as it is, is assigned by the first call before it is read. -/
theorem insertionSort_total_correct (arr : List Int) (h1 : 2 ≤ arr.length)
    (h2 : arr.length < 2 ^ 31) (s0 : InsertionSortState) :
    ∃ k arr' s', insertionRunFrom s0 arr k = some (arr', s') ∧ s'.isSorted = true ∧
      List.Sorted (· ≤ ·) arr' ∧ arr'.Perm arr ∧
      ∀ j, j < k → ∃ a s, insertionRunFrom s0 arr j = some (a, s) ∧ s.isSorted = false := by
  obtain ⟨k, p, hk, hfin, hinv, hbefore⟩ :=
    iterStep_reach insertionStep (InsertionInv arr) (fun p => p.2.isSorted) lex2 lex2_wf
      insertionMeasure (fun p hp hf => insertion_step_inv arr h2 p hp hf) _
      (insertion_init_inv arr h1 s0)
  refine ⟨k, p.1, p.2, hk, hfin, (hinv.1 hfin).1, (hinv.1 hfin).2, ?_⟩
  intro j hj
  obtain ⟨t, ht, hft⟩ := hbefore j hj
  exact ⟨t.1, t.2, ht, hft⟩

/-- Witness of C5 on the array `[3, 1, 2]` and the record left by a finished run. -/
theorem insertionSort_total_correct_witness :
    ∃ k arr' s', insertionRunFrom ⟨3, 0, 7, true, false, 9, 3, 12⟩ [3, 1, 2] k
        = some (arr', s') ∧ s'.isSorted = true ∧
      List.Sorted (· ≤ ·) arr' ∧ arr'.Perm [3, 1, 2] ∧
      ∀ j, j < k → ∃ a s, insertionRunFrom ⟨3, 0, 7, true, false, 9, 3, 12⟩ [3, 1, 2] j
        = some (a, s) ∧ s.isSorted = false :=
  insertionSort_total_correct [3, 1, 2] (by decide) (by decide) ⟨3, 0, 7, true, false, 9, 3, 12⟩
/-! ## Degenerate inputs of the three simple engines -/

/-- C6, the claim fails: the one-element array `[5]` and the empty array are not handled by
the three simple engines: the first call of `insertionSortStep` reads `arr[1]` (both for `[5]`
and for `[]`), the first call of `bubbleSortStep` on `[]` reads `arr[0]` and `arr[1]`, and the
second call of `selectionSortStep` on `[]` swaps `arr[0]`; each is an access outside
`[0, n)`. -/
theorem degenerate_inputs_out_of_range :
    insertionRun [5] 1 = none ∧ insertionRun [] 1 = none ∧ bubbleRun [] 1 = none ∧
      selectionRun [] 2 = none := by
  decide

/-- C6, amended: of the degenerate inputs only the one-element arrays of bubble sort and of
selection sort are handled.  For every one-element array `[x]`, `resetBubbleSort` and one
call of `bubbleSortStep`, and `resetSelectionSort` and two calls of `selectionSortStep`,
reach `isSorted = true` without an access outside `[0, 1)` and with the array as it was.
Insertion sort needs two elements: on `[x]`, as on the empty array, its first call after
`resetInsertionSort` (on any record) reads `arr[1]`; bubble sort and selection sort need one
element: on the empty array the first call of `bubbleSortStep` and the second call of
`selectionSortStep` make an access outside the array. -/
theorem degenerate_inputs_handled (x : Int) (s0 : InsertionSortState) :
    (∃ s, bubbleRun [x] 1 = some ([x], s) ∧ s.isSorted = true ∧
      (bubbleRun [x] 0).map (fun p => (p.1, p.2.isSorted)) = some ([x], false)) ∧
    (∃ s, selectionRun [x] 2 = some ([x], s) ∧ s.isSorted = true ∧
      (selectionRun [x] 0).map (fun p => (p.1, p.2.isSorted)) = some ([x], false) ∧
      (selectionRun [x] 1).map (fun p => (p.1, p.2.isSorted)) = some ([x], false)) ∧
    insertionRunFrom s0 [x] 1 = none ∧ insertionRunFrom s0 [] 1 = none ∧
    bubbleRun [] 1 = none ∧ selectionRun [] 2 = none := by
  refine ⟨?_, ?_, ?_, ?_, by decide, by decide⟩
  · simp [bubbleRun, iterStep, bubbleStep, bubbleSortStep, resetBubbleSort, toSizeT, chk,
      chkRange]
  · simp [selectionRun, iterStep, selectionStep, selectionSortStep, resetSelectionSort,
      toSizeT, swapAt, readAt, writeAt, chk, chkRange, u64]
  · simp [insertionRunFrom, iterStep, insertionStep, insertionSortStep, resetInsertionSort,
      toSizeT, chkRange, insertionPickUp, readAt]
  · simp [insertionRunFrom, iterStep, insertionStep, insertionSortStep, resetInsertionSort,
      toSizeT, chkRange, insertionPickUp, readAt]

/-! ## Quick sort: total correctness -/

/-- The index `k` is a cut of the array: every element before `k` is at most every element
from `k` on. -/
def Cut (arr : List Int) (k : Nat) : Prop :=
  ∀ a b, a < k → k ≤ b → b < arr.length → arr.getD a 0 ≤ arr.getD b 0

/-- The index `k` lies strictly inside one of the jobs. -/
def InsideJob (jobs : List QuickSortJob) (k : Nat) : Prop :=
  ∃ t ∈ jobs, t.low < (k : Int) ∧ (k : Int) ≤ t.high

/-- The weight of the job stack in the termination measure. -/
def jobsWeight : List QuickSortJob → Nat
  | [] => 0
  | t :: rest => 2 * (t.high - t.low + 1).toNat + jobsWeight rest

theorem getD_swap {arr : List Int} {x y : Nat} (hx : x < arr.length) (hy : y < arr.length)
    (k : Nat) :
    ((arr.set x (arr.getD y 0)).set y (arr.getD x 0)).getD k 0 =
      arr.getD (if k = y then x else if k = x then y else k) 0 := by
  rw [getD_set _ (show y < (arr.set x (arr.getD y 0)).length by simpa using hy), getD_set _ hx]
  by_cases e1 : k = y
  · subst e1; simp
  · have e1' : ¬ y = k := fun h => e1 h.symm
    by_cases e2 : k = x
    · subst e2; simp [e1, e1']
    · have e2' : ¬ x = k := fun h => e2 h.symm
      simp [e1, e1', e2, e2']

theorem cut_swap {arr : List Int} {k x y : Nat} (hx : x < arr.length) (hy : y < arr.length)
    (hxy : x < k ↔ y < k) (h : Cut arr k) :
    Cut ((arr.set x (arr.getD y 0)).set y (arr.getD x 0)) k := by
  intro a b ha hb hbl
  simp only [List.length_set] at hbl
  rw [getD_swap hx hy, getD_swap hx hy]
  apply h
  · split
    · omega
    · split <;> omega
  · split
    · omega
    · split <;> omega
  · split
    · omega
    · split <;> omega

theorem sorted_of_cuts {arr : List Int} (h : ∀ k, Cut arr k) : List.Sorted (· ≤ ·) arr :=
  sorted_of_getD (fun a b hab hb => h b a b hab (le_refl _) hb)

/-- The stack is ordered (every job lies entirely left of the jobs above it) and every job
has at least two elements inside the array. -/
def JobsOk (n : Nat) (jobs : List QuickSortJob) : Prop :=
  jobs.Pairwise (fun s t => t.high < s.low) ∧
  ∀ t ∈ jobs, 0 ≤ t.low ∧ t.low < t.high ∧ t.high < (n : Int)

/-- The jobs pushed by the pivot placement at index `I` of the range `[lo, hi]`. -/
def pushedJobs (lo hi I : Nat) (jobs : List QuickSortJob) : List QuickSortJob :=
  (if I + 1 < hi then [(⟨(I : Int) + 1, (hi : Int)⟩ : QuickSortJob)] else []) ++
    ((if lo + 1 < I then [(⟨(lo : Int), (I : Int) - 1⟩ : QuickSortJob)] else []) ++ jobs)

theorem quickPlacePivot_eq (arr : List Int) (s : QuickSortState) (lo hi I : Nat)
    (hlo : s.current_low = lo) (hhi : s.current_high = hi) (hi' : s.i = (I : Int) - 1)
    (h1 : lo ≤ I) (h2 : I ≤ hi) (h3 : hi < arr.length) :
    quickPlacePivot arr s =
      some ((arr.set I (arr.getD hi 0)).set hi (arr.getD I 0),
        { s with arrayAccesses := u64 (s.arrayAccesses + 4), currentLine := 4,
                 jobs := pushedJobs lo hi I s.jobs, needsPartition := true }) := by
  obtain ⟨jobs, isSorted, isSorting, np, pivot, i, j, cl, ch, line, cmp, acc⟩ := s
  simp only at hlo hhi hi'
  subst hlo hhi hi'
  have e1 : (I : Int) - 1 + 1 = I := by omega
  have hI : I < arr.length := by omega
  have sw := swapAt_ok hI h3
  have c1 : chk arr.length (lo : Int) = some () := chk_ok (by omega) (by omega)
  by_cases a1 : lo + 1 < I <;> by_cases a2 : I + 1 < hi
  · have b1 : (lo : Int) < (I : Int) - 1 := by omega
    have b2 : (I : Int) + 1 < hi := by omega
    simp [quickPlacePivot, e1, sw, pushedJobs, a1, a2, b1, b2, -List.getD_eq_getElem?_getD]
  · have b1 : (lo : Int) < (I : Int) - 1 := by omega
    have b2 : ¬ (I : Int) + 1 < hi := by omega
    by_cases a3 : I + 1 = hi
    · have b3 : (I : Int) + 1 = hi := by omega
      have c2 : chk arr.length (hi : Int) = some () := chk_ok (by omega) (by omega)
      simp [quickPlacePivot, e1, sw, pushedJobs, a1, a2, b1, b3, c2,
        -List.getD_eq_getElem?_getD]
    · have b3 : ¬ (I : Int) + 1 = hi := by omega
      simp [quickPlacePivot, e1, sw, pushedJobs, a1, a2, b1, b2, b3,
        -List.getD_eq_getElem?_getD]
  · have b1 : ¬ (lo : Int) < (I : Int) - 1 := by omega
    have b2 : (I : Int) + 1 < hi := by omega
    by_cases a3 : lo + 1 = I
    · have b3 : (lo : Int) = (I : Int) - 1 := by omega
      have c2 : chk arr.length ((I : Int) - 1) = some () := chk_ok (by omega) (by omega)
      simp [quickPlacePivot, e1, sw, pushedJobs, a1, a2, b2, b3, c2,
        -List.getD_eq_getElem?_getD]
    · have b3 : ¬ (lo : Int) = (I : Int) - 1 := by omega
      simp [quickPlacePivot, e1, sw, pushedJobs, a1, a2, b1, b2, b3,
        -List.getD_eq_getElem?_getD]
  · have b1 : ¬ (lo : Int) < (I : Int) - 1 := by omega
    have b2 : ¬ (I : Int) + 1 < hi := by omega
    by_cases a3 : lo + 1 = I <;> by_cases a4 : I + 1 = hi
    · have b3 : (lo : Int) = (I : Int) - 1 := by omega
      have b4 : (I : Int) + 1 = hi := by omega
      have c2 : chk arr.length ((I : Int) - 1) = some () := chk_ok (by omega) (by omega)
      have c3 : chk arr.length (hi : Int) = some () := chk_ok (by omega) (by omega)
      simp [quickPlacePivot, e1, sw, pushedJobs, a1, a2, b3, b4, c2, c3,
        -List.getD_eq_getElem?_getD]
    · have b3 : (lo : Int) = (I : Int) - 1 := by omega
      have b4 : ¬ (I : Int) + 1 = hi := by omega
      have c2 : chk arr.length ((I : Int) - 1) = some () := chk_ok (by omega) (by omega)
      simp [quickPlacePivot, e1, sw, pushedJobs, a1, a2, b2, b3, b4, c2,
        -List.getD_eq_getElem?_getD]
    · have b3 : ¬ (lo : Int) = (I : Int) - 1 := by omega
      have b4 : (I : Int) + 1 = hi := by omega
      have c3 : chk arr.length (hi : Int) = some () := chk_ok (by omega) (by omega)
      simp [quickPlacePivot, e1, sw, pushedJobs, a1, a2, b1, b3, b4, c3,
        -List.getD_eq_getElem?_getD]
    · have b3 : ¬ (lo : Int) = (I : Int) - 1 := by omega
      have b4 : ¬ (I : Int) + 1 = hi := by omega
      simp [quickPlacePivot, e1, sw, pushedJobs, a1, a2, b1, b2, b3, b4,
        -List.getD_eq_getElem?_getD]

theorem pushedJobs_ok {n lo hi I : Nat} {jobs : List QuickSortJob} (h : JobsOk n jobs)
    (hl : ∀ t ∈ jobs, t.high < (lo : Int)) (h1 : lo ≤ I) (h2 : I ≤ hi) (h3 : hi < n) :
    JobsOk n (pushedJobs lo hi I jobs) := by
  obtain ⟨hp, hb⟩ := h
  have hleft : JobsOk n ((if lo + 1 < I then [(⟨(lo : Int), (I : Int) - 1⟩ : QuickSortJob)]
      else []) ++ jobs) ∧
      ∀ t ∈ ((if lo + 1 < I then [(⟨(lo : Int), (I : Int) - 1⟩ : QuickSortJob)] else []) ++ jobs),
        t.high < (I : Int) := by
    split
    · refine ⟨⟨?_, ?_⟩, ?_⟩
      · simp only [List.singleton_append, List.pairwise_cons]
        exact ⟨fun t ht => hl t ht, hp⟩
      · intro t ht
        simp only [List.singleton_append, List.mem_cons] at ht
        rcases ht with rfl | ht
        · simp only; omega
        · exact hb t ht
      · intro t ht
        simp only [List.singleton_append, List.mem_cons] at ht
        rcases ht with rfl | ht
        · simp only; omega
        · have := hl t ht; omega
    · refine ⟨⟨by simpa using hp, by simpa using hb⟩, ?_⟩
      intro t ht
      simp only [List.nil_append] at ht
      have := hl t ht; omega
  obtain ⟨⟨hp1, hb1⟩, hl1⟩ := hleft
  unfold pushedJobs
  split
  · refine ⟨?_, ?_⟩
    · simp only [List.singleton_append, List.pairwise_cons]
      refine ⟨fun t ht => ?_, hp1⟩
      have := hl1 t ht
      omega
    · intro t ht
      simp only [List.singleton_append, List.mem_cons] at ht
      rcases ht with rfl | ht
      · simp only; omega
      · exact hb1 t ht
  · rw [List.nil_append]; exact ⟨hp1, hb1⟩

theorem pushedJobs_inside {lo hi I : Nat} {jobs : List QuickSortJob} {k : Nat}
    (h : (lo < k ∧ k < I) ∨ (I + 1 < k ∧ k ≤ hi) ∨ InsideJob jobs k) :
    InsideJob (pushedJobs lo hi I jobs) k := by
  unfold pushedJobs InsideJob
  rcases h with h | h | ⟨t, ht, h⟩
  · refine ⟨⟨(lo : Int), (I : Int) - 1⟩, ?_, by simp only; omega, by simp only; omega⟩
    have : lo + 1 < I := by omega
    simp [this]
  · refine ⟨⟨(I : Int) + 1, (hi : Int)⟩, ?_, by simp only; omega, by simp only; omega⟩
    have : I + 1 < hi := by omega
    simp [this]
  · exact ⟨t, by simp [ht], h⟩

theorem pushedJobs_weight {lo hi I : Nat} {jobs : List QuickSortJob} (h1 : lo ≤ I)
    (h2 : I ≤ hi) :
    jobsWeight (pushedJobs lo hi I jobs) + 2 ≤ jobsWeight jobs + 2 * (hi - lo + 1) := by
  unfold pushedJobs
  by_cases a1 : lo + 1 < I <;> by_cases a2 : I + 1 < hi <;>
    simp only [a1, a2, if_true, if_false, List.singleton_append, List.nil_append, jobsWeight] <;>
    omega

/-- The invariant of the quick sort run on the array `orig`: every index is a cut of the
array or lies strictly inside a pending range; during a partition the Lomuto invariant holds
for the cursors `i = I - 1` and `j = J`. -/
def QuickInv (orig : List Int) (p : List Int × QuickSortState) : Prop :=
  p.1.Perm orig ∧
  (p.2.isSorted = true → List.Sorted (· ≤ ·) p.1) ∧
  (p.2.isSorted = false → p.2.isSorting = true ∧ JobsOk p.1.length p.2.jobs ∧
    (p.2.needsPartition = true → ∀ k, Cut p.1 k ∨ InsideJob p.2.jobs k) ∧
    (p.2.needsPartition = false → ∃ lo hi I J : Nat,
      p.2.current_low = lo ∧ p.2.current_high = hi ∧ p.2.i = (I : Int) - 1 ∧ p.2.j = J ∧
      lo < hi ∧ hi < p.1.length ∧ lo ≤ I ∧ I ≤ J ∧ J ≤ hi ∧
      (∀ t ∈ p.2.jobs, t.high < (lo : Int)) ∧ p.2.pivot = p.1.getD hi 0 ∧
      (∀ k, lo ≤ k → k < I → p.1.getD k 0 < p.2.pivot) ∧
      (∀ k, I ≤ k → k < J → p.2.pivot ≤ p.1.getD k 0) ∧
      (∀ k, Cut p.1 k ∨ (lo < k ∧ k ≤ hi) ∨ InsideJob p.2.jobs k)))

/-- The termination measure of the quick sort run. -/
def quickMeasure (p : List Int × QuickSortState) : Nat × Nat :=
  if p.2.isSorted then (0, 0)
  else (1 + jobsWeight p.2.jobs +
          (if p.2.needsPartition then 0
           else 2 * (p.2.current_high - p.2.current_low + 1).toNat - 1),
        if p.2.needsPartition then 0 else (p.2.current_high - p.2.j).toNat)

theorem quick_core (orig arr : List Int) (s1 : QuickSortState) (lo hi I J : Nat)
    (hperm : arr.Perm orig)
    (hns : s1.isSorted = false) (hsg : s1.isSorting = true) (hnp : s1.needsPartition = false)
    (hjobs : JobsOk arr.length s1.jobs)
    (hlo : s1.current_low = lo) (hhi : s1.current_high = hi) (hi' : s1.i = (I : Int) - 1)
    (hj : s1.j = J) (h1 : lo < hi) (h2 : hi < arr.length) (h3 : lo ≤ I) (h4 : I ≤ J)
    (h5 : J ≤ hi) (hleft : ∀ t ∈ s1.jobs, t.high < (lo : Int))
    (hpiv : s1.pivot = arr.getD hi 0)
    (hlt : ∀ k, lo ≤ k → k < I → arr.getD k 0 < s1.pivot)
    (hge : ∀ k, I ≤ k → k < J → s1.pivot ≤ arr.getD k 0)
    (hcut : ∀ k, Cut arr k ∨ (lo < k ∧ k ≤ hi) ∨ InsideJob s1.jobs k) :
    ∃ p', quickScanOrPlace arr s1 = some p' ∧ QuickInv orig p' ∧
      ((quickMeasure p').1 + 1 < 1 + jobsWeight s1.jobs + 2 * (hi - lo + 1) ∨
        ((quickMeasure p').1 + 1 = 1 + jobsWeight s1.jobs + 2 * (hi - lo + 1) ∧
          (quickMeasure p').2 < hi - J)) := by
  obtain ⟨jobs, isSorted, isSorting, np, pivot, i, j, cl, ch, line, cmp, acc⟩ := s1
  simp only at hns hsg hnp hjobs hlo hhi hi' hj hleft hpiv hlt hge hcut
  subst hns hsg hnp hlo hhi hi' hj
  have c1 : chk arr.length (hi : Int) = some () := chk_ok (by omega) (by omega)
  have c3 : chk arr.length (J : Int) = some () := chk_ok (by omega) (by omega)
  have hJn : J < arr.length := by omega
  have hIn : I < arr.length := by omega
  have e1 : (I : Int) - 1 + 1 = I := by omega
  by_cases hscan : J < hi
  · have hs' : (J : Int) < (hi : Int) := by omega
    by_cases hcmp : arr.getD J 0 < pivot
    · -- the element moves behind the wall
      have sw := swapAt_ok hIn hJn
      refine ⟨((arr.set I (arr.getD J 0)).set J (arr.getD I 0),
        ⟨jobs, false, true, false, pivot, (I : Int), (J : Int) + 1, (lo : Int), (hi : Int), 13,
          u64 (cmp + 1), u64 (u64 (acc + 1) + 4)⟩), ?_, ⟨?_, ?_, ?_⟩, ?_⟩
      · by_cases hc : (I : Int) - 1 ≥ (lo : Int)
        · have c2 : chk arr.length ((I : Int) - 1) = some () := chk_ok (by omega) (by omega)
          simp only [quickScanOrPlace, c1, hc, c2, c3, hs', readAt_ok hJn, hcmp, e1, sw, if_true,
            if_false, Bool.not_false, Option.bind_eq_bind, Option.some_bind, bind, Option.bind]
        · simp only [quickScanOrPlace, c1, hc, c3, hs', readAt_ok hJn, hcmp, e1, sw, if_true,
            if_false, Bool.not_false, Option.bind_eq_bind, Option.some_bind, bind, Option.bind]
      · exact (swap_perm hIn hJn).trans hperm
      · intro h; simp at h
      · intro _
        dsimp only
        refine ⟨rfl, by simpa using hjobs, by intro h; simp at h, fun _ => ?_⟩
        refine ⟨lo, hi, I + 1, J + 1, rfl, rfl, by push_cast; omega, by push_cast; rfl, h1,
          by simpa using h2, by omega, by omega, by omega, hleft, ?_, ?_, ?_, ?_⟩
        · rw [getD_swap hIn hJn, hpiv]
          congr 1
          split
          · omega
          · split <;> omega
        · intro k hk1 hk2
          rw [getD_swap hIn hJn]
          by_cases e : k = I
          · subst e
            by_cases e' : k = J
            · subst e'; simpa using hcmp
            · simp only [e', if_false, if_true]; exact hcmp
          · have e' : ¬ k = J := by omega
            simp only [e, e', if_false]
            exact hlt k hk1 (by omega)
        · intro k hk1 hk2
          rw [getD_swap hIn hJn]
          by_cases e : k = J
          · subst e
            simp only [if_true]
            exact hge I (le_refl _) (by omega)
          · have e' : ¬ k = I := by omega
            simp only [e, e', if_false]
            exact hge k (by omega) (by omega)
        · intro k
          rcases hcut k with h | h | h
          · by_cases hk : lo < k ∧ k ≤ hi
            · exact Or.inr (Or.inl hk)
            · exact Or.inl (cut_swap hIn hJn (by omega) h)
          · exact Or.inr (Or.inl h)
          · exact Or.inr (Or.inr h)
      · right
        simp only [quickMeasure, Bool.false_eq_true, if_false]
        constructor <;> omega
    · -- the element stays where it is
      refine ⟨(arr, ⟨jobs, false, true, false, pivot, (I : Int) - 1, (J : Int) + 1, (lo : Int),
          (hi : Int), 11, u64 (cmp + 1), u64 (acc + 1)⟩), ?_, ⟨hperm, ?_, ?_⟩, ?_⟩
      · by_cases hc : (I : Int) - 1 ≥ (lo : Int)
        · have c2 : chk arr.length ((I : Int) - 1) = some () := chk_ok (by omega) (by omega)
          simp only [quickScanOrPlace, c1, hc, c2, c3, hs', readAt_ok hJn, hcmp, if_true,
            if_false, Bool.not_false, Option.bind_eq_bind, Option.some_bind, bind, Option.bind]
        · simp only [quickScanOrPlace, c1, hc, c3, hs', readAt_ok hJn, hcmp, if_true,
            if_false, Bool.not_false, Option.bind_eq_bind, Option.some_bind, bind, Option.bind]
      · intro h; simp at h
      · intro _
        dsimp only
        refine ⟨rfl, hjobs, by intro h; simp at h, fun _ => ?_⟩
        refine ⟨lo, hi, I, J + 1, rfl, rfl, rfl, by push_cast; rfl, h1, h2, h3, by omega,
          by omega, hleft, hpiv, hlt, ?_, hcut⟩
        intro k hk1 hk2
        by_cases e : k = J
        · subst e; omega
        · exact hge k hk1 (by omega)
      · right
        simp only [quickMeasure, Bool.false_eq_true, if_false]
        constructor <;> omega
  · -- the pivot is placed at index `I`
    have hJ : J = hi := by omega
    subst hJ
    have hs' : ¬ (J : Int) < (J : Int) := by omega
    have hplace := quickPlacePivot_eq arr
      ⟨jobs, false, true, false, pivot, (I : Int) - 1, (J : Int), (lo : Int), (J : Int), 16, cmp,
        acc⟩ lo J I rfl rfl rfl h3 h4 h2
    refine ⟨((arr.set I (arr.getD J 0)).set J (arr.getD I 0),
      ⟨pushedJobs lo J I jobs, false, true, true, pivot, (I : Int) - 1, (J : Int), (lo : Int),
        (J : Int), 4, cmp, u64 (acc + 4)⟩), ?_, ⟨?_, ?_, ?_⟩, ?_⟩
    · by_cases hc : (I : Int) - 1 ≥ (lo : Int)
      · have c2 : chk arr.length ((I : Int) - 1) = some () := chk_ok (by omega) (by omega)
        simp only [quickScanOrPlace, c1, hc, c2, hs', hplace, if_false, Bool.not_false, if_true,
          Option.bind_eq_bind, Option.some_bind, bind, Option.bind]
      · simp only [quickScanOrPlace, c1, hc, hs', hplace, if_false, Bool.not_false, if_true,
          Option.bind_eq_bind, Option.some_bind, bind, Option.bind]
    · exact (swap_perm hIn hJn).trans hperm
    · intro h; simp at h
    · intro _
      dsimp only
      have hcutlo : Cut arr lo := by
        rcases hcut lo with h | h | ⟨t, ht, h⟩
        · exact h
        · omega
        · have := hleft t ht; omega
      have hcuthi : Cut arr (J + 1) := by
        rcases hcut (J + 1) with h | h | ⟨t, ht, h⟩
        · exact h
        · omega
        · have := hleft t ht; omega
      refine ⟨rfl, ?_, fun _ => ?_, by intro h; simp at h⟩
      · simp only [List.length_set]
        exact pushedJobs_ok hjobs hleft h3 h4 h2
      · intro k
        by_cases hin : (lo < k ∧ k < I) ∨ (I + 1 < k ∧ k ≤ J) ∨ InsideJob jobs k
        · exact Or.inr (pushedJobs_inside hin)
        · left
          have hk : k ≤ lo ∨ J < k ∨ k = I ∨ k = I + 1 := by omega
          have hl' : ((arr.set I (arr.getD J 0)).set J (arr.getD I 0)).length = arr.length := by
            simp
          have p1 : ∀ a, lo ≤ a → a < I →
              ((arr.set I (arr.getD J 0)).set J (arr.getD I 0)).getD a 0 < pivot := by
            intro a ha1 ha2
            rw [getD_swap hIn hJn]
            have e1 : ¬ a = J := by omega
            have e2 : ¬ a = I := by omega
            simp only [e1, e2, if_false]
            exact hlt a ha1 ha2
          have p2 : ((arr.set I (arr.getD J 0)).set J (arr.getD I 0)).getD I 0 = pivot := by
            rw [getD_swap hIn hJn, hpiv]
            congr 1
            split
            · omega
            · simp
          have p3 : ∀ b, I < b → b ≤ J →
              pivot ≤ ((arr.set I (arr.getD J 0)).set J (arr.getD I 0)).getD b 0 := by
            intro b hb1 hb2
            rw [getD_swap hIn hJn]
            by_cases e1 : b = J
            · simp only [e1, if_true]
              exact hge I (le_refl _) (by omega)
            · have e2 : ¬ b = I := by omega
              simp only [e1, e2, if_false]
              exact hge b (by omega) (by omega)
          have c1' := cut_swap hIn hJn (k := lo) (by omega) hcutlo
          have c2' := cut_swap hIn hJn (k := J + 1) (by omega) hcuthi
          rcases hk with hk | hk | hk | hk
          · rcases hcut k with h | h | h
            · exact cut_swap hIn hJn (by omega) h
            · omega
            · exact absurd (Or.inr (Or.inr h)) hin
          · rcases hcut k with h | h | h
            · exact cut_swap hIn hJn (by omega) h
            · omega
            · exact absurd (Or.inr (Or.inr h)) hin
          · subst hk
            intro a b ha hb hbl
            rw [hl'] at hbl
            by_cases ha' : a < lo
            · exact c1' a b ha' (by omega) (by rw [hl']; exact hbl)
            · have q1 := p1 a (by omega) ha
              by_cases hb' : J < b
              · exact c2' a b (by omega) (by omega) (by rw [hl']; exact hbl)
              · by_cases e : b = k
                · subst e; omega
                · have := p3 b (by omega) (by omega); omega
          · subst hk
            intro a b ha hb hbl
            rw [hl'] at hbl
            by_cases ha' : a < lo
            · exact c1' a b ha' (by omega) (by rw [hl']; exact hbl)
            · have q1 : ((arr.set I (arr.getD J 0)).set J (arr.getD I 0)).getD a 0 ≤ pivot := by
                by_cases e : a = I
                · subst e; omega
                · have := p1 a (by omega) (by omega); omega
              by_cases hb' : J < b
              · exact c2' a b (by omega) (by omega) (by rw [hl']; exact hbl)
              · have := p3 b (by omega) (by omega); omega
    · left
      have := @pushedJobs_weight lo J I jobs h3 h4
      simp only [quickMeasure, Bool.false_eq_true, if_false, if_true]
      omega

theorem lex2_iff (x y : Nat × Nat) : lex2 x y ↔ x.1 < y.1 ∨ (x.1 = y.1 ∧ x.2 < y.2) :=
  Prod.lex_def

theorem quick_step_inv (orig : List Int) (p : List Int × QuickSortState)
    (hinv : QuickInv orig p) (hns : p.2.isSorted = false) :
    ∃ p', quickStep p = some p' ∧ QuickInv orig p' ∧
      lex2 (quickMeasure p') (quickMeasure p) := by
  obtain ⟨arr, s⟩ := p
  obtain ⟨jobs, isSorted, isSorting, np, pivot, i, j, cl, ch, line, cmp, acc⟩ := s
  obtain ⟨hperm, -, hrun⟩ := hinv
  simp only at hns hperm hrun
  subst hns
  obtain ⟨hsg, hjobs, hnp1, hnp0⟩ := hrun rfl
  subst hsg
  cases np with
  | true =>
    have hcut := hnp1 rfl
    cases jobs with
    | nil =>
      refine ⟨(arr, ⟨[], true, false, true, pivot, i, j, cl, ch, 1, cmp, acc⟩), ?_,
        ⟨hperm, ?_, ?_⟩, ?_⟩
      · simp [quickStep, quickSortStep]
      · intro _
        apply sorted_of_cuts
        intro k
        rcases hcut k with h | ⟨t, ht, _⟩
        · exact h
        · simp at ht
      · intro h; simp at h
      · simp only [quickMeasure, if_true, Bool.false_eq_true, if_false]
        exact lex2_left (by omega)
    | cons job rest =>
      obtain ⟨hpw, hb⟩ := hjobs
      obtain ⟨hb0, hb1, hb2⟩ := hb job (by simp)
      obtain ⟨lo, hlo⟩ : ∃ lo : Nat, job.low = lo := ⟨job.low.toNat, by omega⟩
      obtain ⟨hi, hhi⟩ : ∃ hi : Nat, job.high = hi := ⟨job.high.toNat, by omega⟩
      have hhn : hi < arr.length := by omega
      rw [List.pairwise_cons] at hpw
      obtain ⟨p', hp', hinv', hm⟩ := quick_core orig arr
        ⟨rest, false, true, false, arr.getD hi 0, (lo : Int) - 1, (lo : Int), (lo : Int),
          (hi : Int), 8, cmp, u64 (acc + 1)⟩ lo hi lo lo hperm rfl rfl rfl
        ⟨hpw.2, fun t ht => hb t (by simp [ht])⟩ rfl rfl rfl rfl (by omega) hhn (le_refl _)
        (le_refl _) (by omega) (fun t ht => by have := hpw.1 t ht; omega) rfl
        (fun k hk1 hk2 => by omega) (fun k hk1 hk2 => by omega)
        (fun k => by
          rcases hcut k with h | ⟨t, ht, h⟩
          · exact Or.inl h
          · simp only [List.mem_cons] at ht
            rcases ht with rfl | ht
            · right; left; omega
            · exact Or.inr (Or.inr ⟨t, ht, h⟩))
      refine ⟨p', ?_, hinv', ?_⟩
      · rw [← hp']
        simp only [quickStep, quickSortStep, quickSetUp, hlo, hhi, readAt_ok hhn, List.isEmpty_cons,
          Bool.false_eq_true, Bool.false_and, Bool.not_true, Bool.or_self, if_false, if_true,
          Option.bind_eq_bind, Option.some_bind, bind, Option.bind]
      · rw [lex2_iff]
        left
        have e : (quickMeasure (arr, ⟨job :: rest, false, true, true, pivot, i, j, cl, ch, line,
            cmp, acc⟩)).1 = 1 + (2 * (hi - lo + 1) + jobsWeight rest) + 0 := by
          simp only [quickMeasure, Bool.false_eq_true, if_false, if_true, jobsWeight, hlo, hhi]
          omega
        rw [e]
        simp only at hm
        omega
  | false =>
    obtain ⟨lo, hi, I, J, hlo, hhi, hi', hj, h1, h2, h3, h4, h5, hleft, hpiv, hlt, hge, hcut⟩ :=
      hnp0 rfl
    subst hlo hhi hi' hj
    obtain ⟨p', hp', hinv', hm⟩ := quick_core orig arr
      ⟨jobs, false, true, false, pivot, (I : Int) - 1, (J : Int), (lo : Int), (hi : Int), 1, cmp,
        acc⟩ lo hi I J hperm rfl rfl rfl hjobs rfl rfl rfl rfl h1 h2 h3 h4 h5 hleft hpiv hlt hge
      hcut
    refine ⟨p', ?_, hinv', ?_⟩
    · rw [← hp']
      simp only [quickStep, quickSortStep, quickSetUp, Bool.false_eq_true, Bool.and_false,
        Bool.not_true, Bool.or_self, if_false, Option.bind_eq_bind, Option.some_bind, bind,
        Option.bind]
    · rw [lex2_iff]
      have e : quickMeasure (arr, ⟨jobs, false, true, false, pivot, (I : Int) - 1, (J : Int),
          (lo : Int), (hi : Int), line, cmp, acc⟩) =
          (1 + jobsWeight jobs + (2 * (hi - lo + 1) - 1), hi - J) := by
        simp only [quickMeasure, Bool.false_eq_true, if_false]
        congr 2 <;> omega
      rw [e]
      simp only at hm ⊢
      omega

theorem quick_init_inv (arr : List Int) (h2 : arr.length < 2 ^ 31) :
    QuickInv arr (arr, quickStart arr {}) := by
  have e : toInt32 (arr.length : Int) = arr.length :=
    toInt32_eq (by omega) (by exact_mod_cast h2)
  by_cases hn : 1 < arr.length
  · have hn' : (arr.length : Int) > 1 := by omega
    have hs : quickStart arr {} =
        ⟨[⟨0, (arr.length : Int) - 1⟩], false, true, true, 0, 0, 0, 0, (arr.length : Int) - 1, 0,
          0, 0⟩ := by
      simp [quickStart, resetQuickSort, e, hn']
    rw [hs]
    refine ⟨List.Perm.refl _, by intro h; simp at h, fun _ => ⟨rfl, ⟨?_, ?_⟩, fun _ => ?_, ?_⟩⟩
    · simp
    · intro t ht
      simp only [List.mem_singleton] at ht
      subst ht
      simp only
      omega
    · intro k
      by_cases hk : 0 < k ∧ k < arr.length
      · right
        exact ⟨_, List.mem_singleton.mpr rfl, by simp only; omega, by simp only; omega⟩
      · left
        intro a b ha hb hbl
        simp only at hbl
        omega
    · intro h; simp at h
  · have hn' : ¬ (arr.length : Int) > 1 := by omega
    have hs : (quickStart arr {}).isSorted = true := by
      simp [quickStart, resetQuickSort, e, hn']
    refine ⟨List.Perm.refl _, fun _ => ?_, fun h => ?_⟩
    · apply sorted_of_getD
      intro a b hab hb
      simp only at hb
      omega
    · simp only at h
      rw [hs] at h
      simp at h

/-- C1. Quick sort is totally correct: for every array (of a length that fits in `int`),
the orchestrator's start (`resetQuickSort(state, n)`, `isSorting = true`) followed by
repeated `quickSortStep` never makes an out-of-range access and reaches `isSorted = true`
after finitely many calls; at that point the array is non-decreasing and a permutation of the
initial array. -/
theorem quickSort_total_correct (arr : List Int) (h2 : arr.length < 2 ^ 31) :
    ∃ k arr' s', quickRun arr k = some (arr', s') ∧ s'.isSorted = true ∧
      List.Sorted (· ≤ ·) arr' ∧ arr'.Perm arr ∧
      ∀ j, j < k → ∃ a s, quickRun arr j = some (a, s) ∧ s.isSorted = false := by
  obtain ⟨k, p, hk, hfin, hinv, hbefore⟩ :=
    iterStep_reach quickStep (QuickInv arr) (fun p => p.2.isSorted) lex2 lex2_wf
      quickMeasure (fun p hp hf => quick_step_inv arr p hp hf) _ (quick_init_inv arr h2)
  refine ⟨k, p.1, p.2, hk, hfin, hinv.2.1 hfin, hinv.1, ?_⟩
  intro j hj
  obtain ⟨t, ht, hft⟩ := hbefore j hj
  exact ⟨t.1, t.2, ht, hft⟩

/-- Witness of C1 on the array `[3, 1, 2]`. -/
theorem quickSort_total_correct_witness :
    ∃ k arr' s', quickRun [3, 1, 2] k = some (arr', s') ∧ s'.isSorted = true ∧
      List.Sorted (· ≤ ·) arr' ∧ arr'.Perm [3, 1, 2] ∧
      ∀ j, j < k → ∃ a s, quickRun [3, 1, 2] j = some (a, s) ∧ s.isSorted = false :=
  quickSort_total_correct [3, 1, 2] (by decide)

/-! ## Merge sort: total correctness -/

/-- The job that `resetMergeSort` creates for the run size `cs` at `left_start`. -/
def freshJob (N cs ls : Int) : MergeJob :=
  { left := ls, mid := min (ls + cs - 1) (N - 1), right := min (ls + 2 * cs - 1) (N - 1),
    i := ls, j := min (ls + cs - 1) (N - 1) + 1, k := ls }

/-- The jobs of one run size from `left_start` on, in the order of their creation. -/
def genInner (N cs : Int) : Nat → Int → List MergeJob
  | 0, _ => []
  | fuel + 1, ls =>
    if ls < N - 1 then freshJob N cs ls :: genInner N cs fuel (ls + 2 * cs) else []

/-- The jobs of all run sizes from `cs` on, in the order of their creation. -/
def genOuter (N : Int) : Nat → Int → List MergeJob
  | 0, _ => []
  | fuel + 1, cs =>
    if cs ≤ N - 1 then genInner N cs N.toNat 0 ++ genOuter N fuel (2 * cs) else []

theorem intVal_eq {x : Int} (h1 : -2 ^ 31 ≤ x) (h2 : x < 2 ^ 31) : intVal x = some x := by
  unfold intVal
  rw [if_pos ⟨h1, h2⟩]

theorem mergeJobsInner_eq (N cs : Int) (hN : N ≤ 2 ^ 30) (hcs : 1 ≤ cs) (hcsN : cs ≤ N - 1)
    (fuel : Nat) (ls : Int) (hls : ls = 0 ∨ 2 * cs ≤ ls)
    (acc : List MergeJob) (hf : N - 1 ≤ ls + 2 * fuel) :
    mergeJobsInner N cs fuel ls acc = some ((genInner N cs fuel ls).reverse ++ acc) := by
  induction fuel generalizing ls acc with
  | zero =>
    have : ¬ ls < N - 1 := by omega
    simp [mergeJobsInner, genInner, this]
  | succ f ih =>
    by_cases h : ls < N - 1
    · have e1 : intVal (ls + cs) = some (ls + cs) := intVal_eq (by omega) (by omega)
      have e2 : intVal (2 * cs) = some (2 * cs) := intVal_eq (by omega) (by omega)
      have e3 : intVal (ls + 2 * cs) = some (ls + 2 * cs) := intVal_eq (by omega) (by omega)
      simp only [mergeJobsInner, genInner, h, if_true, freshJob, e1, e2, e3,
        Option.bind_eq_bind, Option.some_bind, bind, Option.bind]
      rw [ih _ (Or.inr (by omega)) _ (by push_cast at hf; omega)]
      simp
    · simp [mergeJobsInner, genInner, h]

theorem mergeJobsOuter_eq (N : Int) (hN : 0 ≤ N) (hN2 : N ≤ 2 ^ 30) (fuel : Nat) (cs : Int)
    (hcs : 1 ≤ cs) (acc : List MergeJob) (hf : N ≤ cs + fuel) :
    mergeJobsOuter N fuel cs acc = some ((genOuter N fuel cs).reverse ++ acc) := by
  induction fuel generalizing cs acc with
  | zero =>
    have : ¬ cs ≤ N - 1 := by omega
    simp [mergeJobsOuter, genOuter, this]
  | succ f ih =>
    by_cases h : cs ≤ N - 1
    · have e2 : intVal (2 * cs) = some (2 * cs) := intVal_eq (by omega) (by omega)
      simp only [mergeJobsOuter, genOuter, h, if_true]
      rw [mergeJobsInner_eq N cs hN2 hcs h _ _ (Or.inl rfl) _ (by omega)]
      simp only [Option.bind_eq_bind, Option.some_bind, bind, Option.bind, e2]
      rw [ih _ (by omega) _ (by push_cast at hf; omega)]
      simp
    · simp [mergeJobsOuter, genOuter, h]

theorem reverseJobs_eq (l acc : List MergeJob) : reverseJobs l acc = l.reverse ++ acc := by
  induction l generalizing acc with
  | nil => rfl
  | cons a l ih => simp [reverseJobs, ih]

theorem mergeStart_eq (arr : List Int) (s : MergeSortState) (h2 : arr.length ≤ 2 ^ 30) :
    mergeStart arr s =
      some { s with isSorted := false, isSorting := true, tempArray := arr, currentLine := 0,
                    comparisons := 0, arrayAccesses := 0,
                    jobs := genOuter arr.length arr.length 1 } := by
  have h3 : (arr.length : Int) ≤ 2 ^ 30 := by exact_mod_cast h2
  have e : toInt32 (arr.length : Int) = arr.length :=
    toInt32_eq (by omega) (by omega)
  have hneg : ¬ ((arr.length : Int) < 0) := by omega
  simp only [mergeStart, resetMergeSort, e, Int.toNat_ofNat, hneg, if_false]
  rw [mergeJobsOuter_eq _ (by omega) h3 _ _ (le_refl _) _ (by omega)]
  simp [reverseJobs_eq]

/-- The elements of `l` at the indices `a, …, b - 1`. -/
def slice (l : List Int) (a b : Nat) : List Int :=
  (List.range' a (b - a)).map (fun x => l.getD x 0)

theorem slice_self (l : List Int) (a : Nat) : slice l a a = [] := by
  simp [slice]

theorem slice_succ (l : List Int) {a b : Nat} (h : a ≤ b) :
    slice l a (b + 1) = slice l a b ++ [l.getD b 0] := by
  unfold slice
  have e : b + 1 - a = (b - a) + 1 := by omega
  rw [e, List.range'_concat]
  simp only [List.map_append, List.map_cons, List.map_nil, Nat.one_mul]
  congr 3
  omega

theorem slice_congr {l1 l2 : List Int} {a b : Nat}
    (h : ∀ x, a ≤ x → x < b → l1.getD x 0 = l2.getD x 0) : slice l1 a b = slice l2 a b := by
  unfold slice
  apply List.map_congr_left
  intro x hx
  rw [List.mem_range'_1] at hx
  exact h x hx.1 (by omega)

theorem slice_append (l : List Int) {a b c : Nat} (h1 : a ≤ b) (h2 : b ≤ c) :
    slice l a c = slice l a b ++ slice l b c := by
  unfold slice
  rw [← List.map_append]
  congr 1
  have e : c - a = (c - b) + (b - a) := by omega
  have e2 : a + (b - a) = b := by omega
  have := List.range'_append_1 a (b - a) (c - b)
  rw [e2] at this
  rw [e, this]

theorem slice_full (l : List Int) : slice l 0 l.length = l := by
  apply List.ext_getElem
  · simp [slice]
  · intro k h1 h2
    simp [slice, List.getElem?_eq_getElem h2]

theorem mergeCopyBack_spec (arr : List Int) (cnt : Nat) (i : Nat) (temp : List Int)
    (hl : temp.length = arr.length) (hb : i + cnt ≤ arr.length) :
    ∃ t, mergeCopyBack arr cnt (i : Int) temp = some t ∧ t.length = temp.length ∧
      ∀ x, t.getD x 0 = if i ≤ x ∧ x < i + cnt then arr.getD x 0 else temp.getD x 0 := by
  induction cnt generalizing i temp with
  | zero =>
    refine ⟨temp, rfl, rfl, fun x => ?_⟩
    have : ¬ (i ≤ x ∧ x < i + 0) := by omega
    rw [if_neg this]
  | succ c ih =>
    have hi : i < arr.length := by omega
    have hi' : i < temp.length := by omega
    obtain ⟨t, ht, htl, htx⟩ := ih (i + 1) (temp.set i (arr.getD i 0)) (by simpa using hl)
      (by omega)
    refine ⟨t, ?_, by simpa using htl, fun x => ?_⟩
    · simp only [mergeCopyBack, readAt_ok hi, writeAt_ok _ hi', Option.bind_eq_bind,
        Option.some_bind, bind, Option.bind]
      rw [← ht]
      congr 1
    · rw [htx x, getD_set _ hi']
      by_cases e : i = x
      · subst e
        have h1 : ¬ (i + 1 ≤ i ∧ i < i + 1 + c) := by omega
        have h2 : i ≤ i ∧ i < i + (c + 1) := by omega
        simp [h1, h2]
      · by_cases h : i + 1 ≤ x ∧ x < i + 1 + c
        · have h2 : i ≤ x ∧ x < i + (c + 1) := by omega
          simp [h, h2, -List.getD_eq_getElem?_getD]
        · have h2 : ¬ (i ≤ x ∧ x < i + (c + 1)) := by omega
          simp [h, h2, e, -List.getD_eq_getElem?_getD]

/-- The range `[a, b)` of `l` is non-decreasing. -/
def SortedRange (l : List Int) (a b : Nat) : Prop :=
  ∀ x y, a ≤ x → x < y → y < b → l.getD x 0 ≤ l.getD y 0

/-- The state of one merge in progress: `arr[L, K)` holds, in order, the elements taken so
far from the two runs `temp[L, M]` and `temp[M + 1, R]`, whose cursors are `I` and `J`. -/
structure MergeProgress (arr temp : List Int) (L M R I J K : Nat) : Prop where
  hLI : L ≤ I
  hIM : I ≤ M + 1
  hMJ : M + 1 ≤ J
  hJR : J ≤ R + 1
  hK : K + M + 1 = I + J
  hRn : R < arr.length
  hMR : M ≤ R
  hlen : temp.length = arr.length
  same : ∀ x, x < L ∨ K ≤ x → arr.getD x 0 = temp.getD x 0
  perm : (slice arr L K).Perm (slice temp L I ++ slice temp (M + 1) J)
  sorted : SortedRange arr L K
  headI : I ≤ M → ∀ x, L ≤ x → x < K → arr.getD x 0 ≤ temp.getD I 0
  headJ : J ≤ R → ∀ x, L ≤ x → x < K → arr.getD x 0 ≤ temp.getD J 0
  runL : SortedRange temp L (M + 1)
  runR : SortedRange temp (M + 1) (R + 1)

theorem MergeProgress.take_left {arr temp : List Int} {L M R I J K : Nat}
    (h : MergeProgress arr temp L M R I J K) (hI : I ≤ M)
    (hle : J ≤ R → temp.getD I 0 ≤ temp.getD J 0) :
    MergeProgress (arr.set K (temp.getD I 0)) temp L M R (I + 1) J (K + 1) := by
  have hK : K < arr.length := by have := h.hK; have := h.hJR; have := h.hRn; omega
  have hLK : L ≤ K := by have := h.hK; have := h.hLI; have := h.hMJ; omega
  have hold : ∀ x, x < K → (arr.set K (temp.getD I 0)).getD x 0 = arr.getD x 0 :=
    fun x hx => getD_set_ne _ (by omega)
  have hnew : (arr.set K (temp.getD I 0)).getD K 0 = temp.getD I 0 := getD_set_self _ hK
  refine ⟨by have := h.hLI; omega, by omega, h.hMJ, h.hJR, by have := h.hK; omega,
    by simpa using h.hRn, h.hMR, by simpa using h.hlen, ?_, ?_, ?_, ?_, ?_, h.runL, h.runR⟩
  · intro x hx
    rw [getD_set_ne _ (by omega)]
    exact h.same x (by omega)
  · rw [slice_succ _ hLK, hnew, slice_congr (fun x _ hx => hold x hx), slice_succ _ h.hLI]
    have p1 := h.perm.append_right [temp.getD I 0]
    refine p1.trans ?_
    rw [List.append_assoc, List.append_assoc]
    exact List.Perm.append_left _ List.perm_append_comm
  · intro x y hx hxy hy
    rw [hold x (by omega)]
    by_cases e : y = K
    · subst e; rw [hnew]; exact h.headI hI x hx hxy
    · rw [hold y (by omega)]; exact h.sorted x y hx hxy (by omega)
  · intro hI' x hx hxK
    have hrun := h.runL I (I + 1) h.hLI (by omega) (by omega)
    by_cases e : x = K
    · subst e; rw [hnew]; exact hrun
    · rw [hold x (by omega)]
      have := h.headI hI x hx (by omega)
      omega
  · intro hJ x hx hxK
    by_cases e : x = K
    · subst e; rw [hnew]; exact hle hJ
    · rw [hold x (by omega)]
      exact h.headJ hJ x hx (by omega)

theorem MergeProgress.take_right {arr temp : List Int} {L M R I J K : Nat}
    (h : MergeProgress arr temp L M R I J K) (hJ : J ≤ R)
    (hle : I ≤ M → temp.getD J 0 ≤ temp.getD I 0) :
    MergeProgress (arr.set K (temp.getD J 0)) temp L M R I (J + 1) (K + 1) := by
  have hK : K < arr.length := by have := h.hK; have := h.hIM; have := h.hRn; omega
  have hLK : L ≤ K := by have := h.hK; have := h.hLI; have := h.hMJ; omega
  have hold : ∀ x, x < K → (arr.set K (temp.getD J 0)).getD x 0 = arr.getD x 0 :=
    fun x hx => getD_set_ne _ (by omega)
  have hnew : (arr.set K (temp.getD J 0)).getD K 0 = temp.getD J 0 := getD_set_self _ hK
  refine ⟨h.hLI, h.hIM, by have := h.hMJ; omega, by omega, by have := h.hK; omega,
    by simpa using h.hRn, h.hMR, by simpa using h.hlen, ?_, ?_, ?_, ?_, ?_, h.runL, h.runR⟩
  · intro x hx
    rw [getD_set_ne _ (by omega)]
    exact h.same x (by omega)
  · rw [slice_succ _ hLK, hnew, slice_congr (fun x _ hx => hold x hx),
      slice_succ _ h.hMJ, ← List.append_assoc]
    exact h.perm.append_right [temp.getD J 0]
  · intro x y hx hxy hy
    rw [hold x (by omega)]
    by_cases e : y = K
    · subst e; rw [hnew]; exact h.headJ hJ x hx hxy
    · rw [hold y (by omega)]; exact h.sorted x y hx hxy (by omega)
  · intro hI x hx hxK
    by_cases e : x = K
    · subst e; rw [hnew]; exact hle hI
    · rw [hold x (by omega)]
      exact h.headI hI x hx (by omega)
  · intro hJ' x hx hxK
    have hrun := h.runR J (J + 1) h.hMJ (by omega) (by omega)
    by_cases e : x = K
    · subst e; rw [hnew]; exact hrun
    · rw [hold x (by omega)]
      have := h.headJ hJ x hx (by omega)
      omega

/-- The weight of the job stack in the termination measure. -/
def mergeWeight : List MergeJob → Nat
  | [] => 0
  | t :: rest => 1 + (t.mid + 1 - t.i).toNat + (t.right + 1 - t.j).toNat + mergeWeight rest

/-- The termination measure of the merge sort run. -/
def mergeMeasure (p : List Int × MergeSortState) : Nat :=
  if p.2.isSorted then 0 else 1 + mergeWeight p.2.jobs

/-- The description of a running merge sort: the top job is the merge of the runs of size
`cs` at `L`, the jobs below it are the remaining ones in the order of their creation, the
blocks of size `2 * cs` before `L` and the blocks of size `cs` from `L + 2 * cs` on are
sorted in `tempArray`. -/
structure MergeRunning (orig arr : List Int) (s : MergeSortState)
    (cs L M R I J K f1 f2 : Nat) : Prop where
  jobs : s.jobs = (⟨L, M, R, I, J, K⟩ : MergeJob) ::
    (genInner arr.length cs f1 ((L : Int) + 2 * (cs : Int)) ++
      genOuter arr.length f2 (2 * (cs : Int)))
  hcs : 1 ≤ cs
  hdvd : 2 * cs ∣ L
  hL : L + 1 < arr.length
  hM : M = min (L + cs - 1) (arr.length - 1)
  hR : R = min (L + 2 * cs - 1) (arr.length - 1)
  hf1 : arr.length ≤ L + 2 * cs + 2 * f1 + 1
  hf2 : arr.length ≤ 2 * cs + f2
  tperm : s.tempArray.Perm orig
  prog : MergeProgress arr s.tempArray L M R I J K
  done : ∀ x, 2 * cs ∣ x → x < L → SortedRange s.tempArray x (min (x + 2 * cs) arr.length)
  todo : ∀ x, cs ∣ x → L + 2 * cs ≤ x → SortedRange s.tempArray x (min (x + cs) arr.length)

/-- The invariant of the merge sort run on the array `orig`. -/
def MergeInv (orig : List Int) (p : List Int × MergeSortState) : Prop :=
  (p.2.isSorted = true → List.Sorted (· ≤ ·) p.1 ∧ p.1.Perm orig) ∧
  (p.2.isSorted = false → p.2.isSorting = true ∧
    ((p.2.jobs = [] ∧ List.Sorted (· ≤ ·) p.1 ∧ p.1.Perm orig) ∨
      ∃ cs L M R I J K f1 f2 : Nat, MergeRunning orig p.1 p.2 cs L M R I J K f1 f2))

theorem merge_take_step (arr temp : List Int) (rest : List MergeJob) (L M R I J K : Nat)
    (line : Int) (cmp acc : Nat) (hp : MergeProgress arr temp L M R I J K)
    (hne : I ≤ M ∨ J ≤ R) :
    ∃ (arr' : List Int) (I' J' : Nat) (line' : Int) (cmp' acc' : Nat),
      mergeSortStep arr ⟨(⟨L, M, R, I, J, K⟩ : MergeJob) :: rest, temp, true, false, line, cmp,
        acc⟩ = some (arr', ⟨(⟨L, M, R, I', J', (K + 1 : Nat)⟩ : MergeJob) :: rest, temp, true,
          false, line', cmp', acc'⟩) ∧
      MergeProgress arr' temp L M R I' J' (K + 1) ∧ I' + J' = I + J + 1 ∧ I ≤ I' ∧ J ≤ J' := by
  have hKn : K < arr.length := by
    have := hp.hK; have := hp.hJR; have := hp.hIM; have := hp.hRn; omega
  have hRn := hp.hRn
  have hMR := hp.hMR
  have hlen := hp.hlen
  by_cases hI : I ≤ M
  · have hIn : I < temp.length := by omega
    have hI' : (I : Int) ≤ (M : Int) := by omega
    by_cases hJ : J ≤ R
    · have hJn : J < temp.length := by have := hp.hJR; omega
      have hJ' : (J : Int) ≤ (R : Int) := by omega
      by_cases hc : temp.getD I 0 ≤ temp.getD J 0
      · refine ⟨arr.set K (temp.getD I 0), I + 1, J, 6, u64 (cmp + 1), u64 (u64 (acc + 2) + 2),
          ?_, hp.take_left hI (fun _ => hc), by omega, by omega, le_refl _⟩
        simp only [mergeSortStep, hI', hJ', and_self, if_true, readAt_ok hIn, readAt_ok hJn, hc,
          writeAt_ok _ hKn, Bool.false_eq_true, Bool.not_true, Bool.or_self, if_false,
          Option.bind_eq_bind, Option.some_bind, bind, Option.bind, Nat.cast_add, Nat.cast_one]
      · refine ⟨arr.set K (temp.getD J 0), I, J + 1, 6, u64 (cmp + 1), u64 (u64 (acc + 2) + 2),
          ?_, hp.take_right hJ (fun _ => by omega), by omega, le_refl _, by omega⟩
        simp only [mergeSortStep, hI', hJ', and_self, if_true, readAt_ok hIn, readAt_ok hJn, hc,
          writeAt_ok _ hKn, Bool.false_eq_true, Bool.not_true, Bool.or_self, if_false,
          Option.bind_eq_bind, Option.some_bind, bind, Option.bind, Nat.cast_add, Nat.cast_one]
    · have hJ' : ¬ (J : Int) ≤ (R : Int) := by omega
      refine ⟨arr.set K (temp.getD I 0), I + 1, J, 6, cmp, u64 (acc + 2),
        ?_, hp.take_left hI (fun h => absurd h hJ), by omega, by omega, le_refl _⟩
      simp only [mergeSortStep, hI', hJ', and_false, and_true, if_true, readAt_ok hIn,
        writeAt_ok _ hKn, Bool.false_eq_true, Bool.not_true, Bool.or_self, if_false,
        Option.bind_eq_bind, Option.some_bind, bind, Option.bind, Nat.cast_add, Nat.cast_one]
  · have hJ : J ≤ R := by omega
    have hJn : J < temp.length := by omega
    have hI' : ¬ (I : Int) ≤ (M : Int) := by omega
    have hJ' : (J : Int) ≤ (R : Int) := by omega
    refine ⟨arr.set K (temp.getD J 0), I, J + 1, 6, cmp, u64 (acc + 2),
      ?_, hp.take_right hJ (fun h => absurd h hI), by omega, le_refl _, by omega⟩
    simp only [mergeSortStep, hI', hJ', and_false, false_and, if_true, readAt_ok hJn,
      writeAt_ok _ hKn, Bool.false_eq_true, Bool.not_true, Bool.or_self, if_false,
      Option.bind_eq_bind, Option.some_bind, bind, Option.bind, Nat.cast_add, Nat.cast_one]

theorem dvd_gap {d x y : Nat} (hx : d ∣ x) (hy : d ∣ y) (h : x < y) : x + d ≤ y := by
  have h1 : d ∣ y - x := Nat.dvd_sub' hy hx
  have h2 := Nat.le_of_dvd (by omega) h1
  omega

theorem MergeProgress.fresh (arr : List Int) {L M R : Nat} (hLM : L ≤ M) (hMR : M ≤ R)
    (hRn : R < arr.length) (runL : SortedRange arr L (M + 1))
    (runR : SortedRange arr (M + 1) (R + 1)) : MergeProgress arr arr L M R L (M + 1) L := by
  refine ⟨le_refl _, by omega, le_refl _, by omega, by omega, hRn, hMR, rfl, fun _ _ => rfl, ?_,
    ?_, ?_, ?_, runL, runR⟩
  · simp [slice_self]
  · intro x y hx hxy hy; omega
  · intro _ x hx hxK; omega
  · intro _ x hx hxK; omega

/-- When both runs are exhausted the merged range is sorted, the array is a permutation of
`tempArray`, and the copy-back loop makes `tempArray` equal to the array. -/
theorem merge_copy_facts {arr temp : List Int} {L M R : Nat}
    (hp : MergeProgress arr temp L M R (M + 1) (R + 1) (R + 1)) :
    mergeCopyBack arr (R + 1 - L) (L : Int) temp = some arr ∧ arr.Perm temp ∧
      SortedRange arr L (R + 1) := by
  have hRn := hp.hRn
  have hLM := hp.hLI
  have hMR := hp.hMR
  refine ⟨?_, ?_, hp.sorted⟩
  · obtain ⟨t, ht, htl, htx⟩ := mergeCopyBack_spec arr (R + 1 - L) L temp hp.hlen (by omega)
    rw [ht]
    congr 1
    apply list_ext_getD (by rw [htl, hp.hlen])
    intro x _
    rw [htx x]
    split
    · rfl
    · exact (hp.same x (by omega)).symm
  · have e1 : slice arr 0 L = slice temp 0 L := slice_congr (fun x _ hx => hp.same x (Or.inl hx))
    have e2 : slice arr (R + 1) arr.length = slice temp (R + 1) arr.length :=
      slice_congr (fun x hx _ => hp.same x (Or.inr hx))
    have e3 : (slice arr L (R + 1)).Perm (slice temp L (R + 1)) := by
      rw [slice_append temp (show L ≤ M + 1 by omega) (show M + 1 ≤ R + 1 by omega)]
      exact hp.perm
    have d1 : arr = slice arr 0 L ++ (slice arr L (R + 1) ++ slice arr (R + 1) arr.length) := by
      rw [← slice_append arr (show L ≤ R + 1 by omega) (show R + 1 ≤ arr.length by omega),
        ← slice_append arr (Nat.zero_le _) (show L ≤ arr.length by omega), slice_full]
    have d2 : temp = slice temp 0 L ++ (slice temp L (R + 1) ++ slice temp (R + 1) arr.length) := by
      rw [← slice_append temp (show L ≤ R + 1 by omega) (show R + 1 ≤ arr.length by omega),
        ← slice_append temp (Nat.zero_le _) (show L ≤ arr.length by omega), ← hp.hlen, slice_full]
    rw [d1, d2, e1, e2]
    exact List.Perm.append_left _ (List.Perm.append_right _ e3)

theorem sortedRange_congr {l1 l2 : List Int} {a b : Nat}
    (h : ∀ x, a ≤ x → x < b → l1.getD x 0 = l2.getD x 0) (hs : SortedRange l2 a b) :
    SortedRange l1 a b := by
  intro x y hx hxy hy
  rw [h x hx (by omega), h y (by omega) hy]
  exact hs x y hx hxy hy

theorem merge_pop_inv (orig arr : List Int) (s : MergeSortState)
    (cs L M R f1 f2 : Nat) (hns : s.isSorted = false) (hsg : s.isSorting = true)
    (h : MergeRunning orig arr s cs L M R (M + 1) (R + 1) (R + 1) f1 f2) :
    ∃ p', mergeSortStep arr s = some p' ∧ MergeInv orig p' ∧
      mergeMeasure p' < mergeMeasure (arr, s) := by
  obtain ⟨jobs, temp, isSorting, isSorted, line, cmp, acc⟩ := s
  simp only at hns hsg
  subst hns hsg
  have hj := h.jobs
  simp only at hj
  subst hj
  have hp := h.prog
  simp only at hp
  have htp := h.tperm
  simp only at htp
  have hdone := h.done
  have htodo := h.todo
  simp only at hdone htodo
  have hcs := h.hcs
  have hdvd := h.hdvd
  have hL := h.hL
  have hM := h.hM
  have hR := h.hR
  have hf1 := h.hf1
  have hf2 := h.hf2
  obtain ⟨hcopy, hperm, hsorted⟩ := merge_copy_facts hp
  have hI' : ¬ ((M + 1 : Nat) : Int) ≤ (M : Int) := by omega
  have hJ' : ¬ ((R + 1 : Nat) : Int) ≤ (R : Int) := by omega
  have ecnt : ((R : Int) + 1 - (L : Int)).toNat = R + 1 - L := by omega
  have hstep : mergeSortStep arr ⟨(⟨L, M, R, (M + 1 : Nat), (R + 1 : Nat), (R + 1 : Nat)⟩ :
      MergeJob) :: (genInner arr.length cs f1 ((L : Int) + 2 * (cs : Int)) ++
        genOuter arr.length f2 (2 * (cs : Int))), temp, true, false, line, cmp, acc⟩ =
      some (arr, ⟨genInner arr.length cs f1 ((L : Int) + 2 * (cs : Int)) ++
        genOuter arr.length f2 (2 * (cs : Int)), arr, true, false, 6, cmp,
        u64 (acc + 2 * (R + 1 - L))⟩) := by
    simp only [mergeSortStep, hI', hJ', and_false, false_and, if_true, ecnt, hcopy,
      Bool.false_eq_true, Bool.not_true, Bool.or_self, if_false,
      Option.bind_eq_bind, Option.some_bind, bind, Option.bind]
  refine ⟨_, hstep, ?_, ?_⟩
  · -- the facts about the sorted blocks after the copy
    have hsame : ∀ x, x < L ∨ R + 1 ≤ x → arr.getD x 0 = temp.getD x 0 := hp.same
    have hR1 : R + 1 = min (L + 2 * cs) arr.length := by omega
    have hdone' : ∀ x, 2 * cs ∣ x → x < L + 2 * cs →
        SortedRange arr x (min (x + 2 * cs) arr.length) := by
      intro x hx hxl
      by_cases e : x = L
      · subst e; rw [← hR1]; exact hsorted
      · have hlt : x < L := by
          by_contra hc
          have := dvd_gap hdvd hx (by omega)
          omega
        have := dvd_gap hx hdvd hlt
        exact sortedRange_congr (fun y _ hy2 => hsame y (by omega)) (hdone x hx hlt)
    have htodo' : ∀ x, cs ∣ x → L + 2 * cs ≤ x →
        SortedRange arr x (min (x + cs) arr.length) := by
      intro x hx hxl
      exact sortedRange_congr (fun y hy1 _ => hsame y (by omega)) (htodo x hx hxl)
    have hpermo : arr.Perm orig := hperm.trans htp
    refine ⟨by intro h; simp at h, fun _ => ⟨rfl, ?_⟩⟩
    dsimp only
    by_cases hA : L + 2 * cs + 1 < arr.length
    · -- the next job has the same run size
      right
      cases f1 with
      | zero => omega
      | succ f1' =>
        have hA' : (L : Int) + 2 * (cs : Int) < (arr.length : Int) - 1 := by omega
        obtain ⟨M', hM'⟩ : ∃ M', M' = min (L + 2 * cs + cs - 1) (arr.length - 1) := ⟨_, rfl⟩
        obtain ⟨R', hR'⟩ : ∃ R', R' = min (L + 2 * cs + 2 * cs - 1) (arr.length - 1) := ⟨_, rfl⟩
        have hcsL : cs ∣ L + 2 * cs :=
          Dvd.dvd.trans (Dvd.intro_left 2 rfl) (Nat.dvd_add hdvd (dvd_refl _))
        refine ⟨cs, L + 2 * cs, M', R', L + 2 * cs, M' + 1, L + 2 * cs, f1', f2, ?_⟩
        refine ⟨?_, hcs, Nat.dvd_add hdvd (dvd_refl _), hA, hM', hR', by omega, hf2, hpermo,
          MergeProgress.fresh arr (by omega) (by omega) (by omega) ?_ ?_, hdone',
          fun x hx hxl => htodo' x hx (by omega)⟩
        · simp only [genInner, hA', if_true, List.cons_append, freshJob]
          congr 1
          · simp only [MergeJob.mk.injEq]
            refine ⟨?_, ?_, ?_, ?_, ?_, ?_⟩ <;> omega
        · have e : M' + 1 = min (L + 2 * cs + cs) arr.length := by omega
          rw [e]
          exact htodo' _ hcsL (le_refl _)
        · by_cases hlt : L + 2 * cs + cs < arr.length
          · have e1 : M' + 1 = L + 2 * cs + cs := by omega
            have e2 : R' + 1 = min (L + 2 * cs + cs + cs) arr.length := by omega
            rw [e1, e2]
            exact htodo' _ (Nat.dvd_add hcsL (dvd_refl _)) (by omega)
          · intro x y hx hxy hy
            omega
    · have hB' : ¬ (L : Int) + 2 * (cs : Int) < (arr.length : Int) - 1 := by omega
      have hnil : genInner arr.length cs f1 ((L : Int) + 2 * (cs : Int)) = [] := by
        cases f1 <;> simp [genInner, hB']
      have hall : ∀ x, 2 * cs ∣ x → SortedRange arr x (min (x + 2 * cs) arr.length) := by
        intro x hx
        by_cases hxl : x < L + 2 * cs
        · exact hdone' x hx hxl
        · intro a b ha hab hb
          omega
      by_cases hB1 : 2 * cs + 1 ≤ arr.length
      · -- the first job of the next run size
        right
        cases f2 with
        | zero => omega
        | succ f2' =>
          have hB1' : 2 * (cs : Int) ≤ (arr.length : Int) - 1 := by omega
          obtain ⟨n', hn'⟩ : ∃ n', arr.length = n' + 1 := ⟨arr.length - 1, by omega⟩
          have h0 : (0 : Int) < (arr.length : Int) - 1 := by omega
          obtain ⟨M', hM'⟩ : ∃ M', M' = min (0 + 2 * cs - 1) (arr.length - 1) := ⟨_, rfl⟩
          obtain ⟨R', hR'⟩ : ∃ R', R' = min (0 + 2 * (2 * cs) - 1) (arr.length - 1) :=
            ⟨_, rfl⟩
          refine ⟨2 * cs, 0, M', R', 0, M' + 1, 0, n', f2', ?_⟩
          refine ⟨?_, by omega, dvd_zero _, by omega, hM', hR', by omega, by omega, hpermo,
            MergeProgress.fresh arr (by omega) (by omega) (by omega) ?_ ?_,
            fun x _ hx => by omega, fun x hx _ => hall x hx⟩
          · simp only [hnil, List.nil_append, genOuter, hB1', if_true, Int.toNat_ofNat]
            rw [hn']
            simp only [genInner]
            rw [← hn']
            simp only [h0, if_true, List.cons_append, freshJob]
            congr 1
            · simp only [MergeJob.mk.injEq]
              refine ⟨?_, ?_, ?_, ?_, ?_, ?_⟩ <;> omega
          · have e : M' + 1 = min (0 + 2 * cs) arr.length := by omega
            rw [e]
            exact hall 0 (dvd_zero _)
          · have e1 : M' + 1 = 2 * cs := by omega
            have e2 : R' + 1 = min (2 * cs + 2 * cs) arr.length := by omega
            rw [e1, e2]
            exact hall _ (dvd_refl _)
      · -- no job is left
        left
        have hB2 : ¬ 2 * (cs : Int) ≤ (arr.length : Int) - 1 := by omega
        have hnil2 : genOuter arr.length f2 (2 * (cs : Int)) = [] := by
          cases f2 <;> simp [genOuter, hB2]
        refine ⟨by simp only [hnil, hnil2, List.append_nil], sorted_of_getD ?_, hpermo⟩
        intro a b hab hb
        exact hall 0 (dvd_zero _) a b (Nat.zero_le _) hab (by omega)
  · simp only [mergeMeasure, Bool.false_eq_true, if_false, mergeWeight]
    omega

theorem MergeRunning.update {orig arr : List Int} {s : MergeSortState}
    {cs L M R I J K f1 f2 : Nat} (h : MergeRunning orig arr s cs L M R I J K f1 f2)
    {arr' : List Int} {s' : MergeSortState} {I' J' K' : Nat} (hl : arr'.length = arr.length)
    (hj : s'.jobs = (⟨L, M, R, I', J', K'⟩ : MergeJob) ::
      (genInner arr.length cs f1 ((L : Int) + 2 * (cs : Int)) ++
        genOuter arr.length f2 (2 * (cs : Int))))
    (ht : s'.tempArray = s.tempArray)
    (hp : MergeProgress arr' s.tempArray L M R I' J' K') :
    MergeRunning orig arr' s' cs L M R I' J' K' f1 f2 :=
  ⟨by rw [hl]; exact hj, h.hcs, h.hdvd, by rw [hl]; exact h.hL, by rw [hl]; exact h.hM,
    by rw [hl]; exact h.hR, by rw [hl]; exact h.hf1, by rw [hl]; exact h.hf2,
    by rw [ht]; exact h.tperm, by rw [ht]; exact hp, by rw [hl, ht]; exact h.done,
    by rw [hl, ht]; exact h.todo⟩

theorem merge_step_inv (orig : List Int) (p : List Int × MergeSortState)
    (hinv : MergeInv orig p) (hns : p.2.isSorted = false) :
    ∃ p', mergeStep p = some p' ∧ MergeInv orig p' ∧ mergeMeasure p' < mergeMeasure p := by
  obtain ⟨arr, s⟩ := p
  obtain ⟨-, hrun⟩ := hinv
  obtain ⟨hsg, hcase⟩ := hrun hns
  simp only at hns hsg hcase
  rcases hcase with ⟨hj, hsorted, hperm⟩ | ⟨cs, L, M, R, I, J, K, f1, f2, h⟩
  · obtain ⟨jobs, temp, isSorting, isSorted, line, cmp, acc⟩ := s
    simp only at hns hsg hj
    subst hns hsg hj
    refine ⟨(arr, ⟨[], temp, false, true, 2, cmp, acc⟩), ?_, ⟨fun _ => ⟨hsorted, hperm⟩, ?_⟩, ?_⟩
    · simp [mergeStep, mergeSortStep]
    · intro h; simp at h
    · simp [mergeMeasure]
  · by_cases hne : I ≤ M ∨ J ≤ R
    · obtain ⟨jobs, temp, isSorting, isSorted, line, cmp, acc⟩ := s
      simp only at hns hsg
      subst hns hsg
      have hj := h.jobs
      simp only at hj
      subst hj
      have hp := h.prog
      simp only at hp
      obtain ⟨arr', I', J', line', cmp', acc', hstep, hprog, hsum, hI, hJ⟩ :=
        merge_take_step arr temp _ L M R I J K line cmp acc hp hne
      have hl : arr'.length = arr.length := by rw [← hprog.hlen, hp.hlen]
      refine ⟨_, hstep, ⟨by intro h; simp at h, fun _ => ⟨rfl, Or.inr
        ⟨cs, L, M, R, I', J', K + 1, f1, f2, ?_⟩⟩⟩, ?_⟩
      · exact h.update hl rfl rfl hprog
      · have := hprog.hIM
        have := hprog.hJR
        simp only [mergeMeasure, Bool.false_eq_true, if_false, mergeWeight]
        omega
    · have hp := h.prog
      have e1 : I = M + 1 := by have := hp.hIM; omega
      have e2 : J = R + 1 := by have := hp.hJR; omega
      have e3 : K = R + 1 := by have := hp.hK; omega
      subst e1 e2 e3
      exact merge_pop_inv orig arr s cs L M R f1 f2 hns hsg h

theorem merge_init_inv (arr : List Int) (s : MergeSortState) (hs : s.isSorted = false)
    (hsg : s.isSorting = true) (ht : s.tempArray = arr)
    (hj : s.jobs = genOuter arr.length arr.length 1) : MergeInv arr (arr, s) := by
  refine ⟨by intro h; simp [hs] at h, fun _ => ⟨hsg, ?_⟩⟩
  dsimp only
  by_cases hn : 2 ≤ arr.length
  · right
    obtain ⟨n', hn'⟩ : ∃ n', arr.length = n' + 1 := ⟨arr.length - 1, by omega⟩
    have h0 : (0 : Int) < (arr.length : Int) - 1 := by omega
    have h1 : (1 : Int) ≤ (arr.length : Int) - 1 := by omega
    refine ⟨1, 0, 0, 1, 0, 1, 0, n', n', ?_⟩
    refine ⟨?_, le_refl _, dvd_zero _, by omega, by omega, by omega, by omega, by omega,
      by rw [ht], ?_, fun x _ hx => by omega, fun x _ _ a b ha hab hb => by omega⟩
    · rw [hj]
      nth_rewrite 2 [hn']
      simp only [genOuter, h1, if_true, Int.toNat_ofNat]
      nth_rewrite 2 [hn']
      simp only [genInner, h0, if_true, List.cons_append, freshJob]
      congr 1
      simp only [MergeJob.mk.injEq]
      refine ⟨?_, ?_, ?_, ?_, ?_, ?_⟩ <;> omega
    · rw [ht]
      exact MergeProgress.fresh arr (le_refl _) (by omega) (by omega)
        (fun x y hx hxy hy => by omega) (fun x y hx hxy hy => by omega)
  · left
    have hnil : genOuter arr.length arr.length 1 = [] := by
      have h01 : arr.length = 0 ∨ arr.length = 1 := by omega
      rcases h01 with e | e <;> simp [e, genOuter]
    refine ⟨by rw [hj, hnil], sorted_of_getD (fun a b hab hb => by omega), List.Perm.refl _⟩

theorem mergeRun_eq (arr : List Int) (h2 : arr.length ≤ 2 ^ 30) (j : Nat) :
    mergeRun arr j = iterStep mergeStep j
      (arr, ⟨genOuter arr.length arr.length 1, arr, true, false, 0, 0, 0⟩) := by
  have hstart := mergeStart_eq arr {} h2
  unfold mergeRun
  rw [hstart]
  rfl

theorem merge_reach (arr : List Int) :
    ∃ k p, iterStep mergeStep k
        (arr, ⟨genOuter arr.length arr.length 1, arr, true, false, 0, 0, 0⟩) = some p ∧
      p.2.isSorted = true ∧ MergeInv arr p ∧
      ∀ j, j < k → ∃ t, iterStep mergeStep j
        (arr, ⟨genOuter arr.length arr.length 1, arr, true, false, 0, 0, 0⟩) = some t ∧
        t.2.isSorted = false :=
  iterStep_reach mergeStep (MergeInv arr) (fun p => p.2.isSorted) (fun a b : Nat => a < b)
    Nat.lt_wfRel.wf mergeMeasure (fun p hp hf => merge_step_inv arr p hp hf)
    (arr, ⟨genOuter arr.length arr.length 1, arr, true, false, 0, 0, 0⟩)
    (merge_init_inv arr ⟨genOuter arr.length arr.length 1, arr, true, false, 0, 0, 0⟩
      rfl rfl rfl rfl)

/-- C2. Merge sort is totally correct under the orchestrator's start protocol
(`resetMergeSort(state, n)`, `tempArray = arr`, the job stack reversed, `isSorting = true`):
for every array of at most `2 ^ 30` elements (beyond that the `int` arithmetic of the job
generation in `resetMergeSort` overflows) the start succeeds, repeated `mergeSortStep` never
makes an out-of-range access and reaches `isSorted = true` after finitely many calls; at that
point the array is non-decreasing and a permutation of the initial array. -/
theorem mergeSort_total_correct (arr : List Int) (h2 : arr.length ≤ 2 ^ 30) :
    ∃ k arr' s', mergeRun arr k = some (arr', s') ∧ s'.isSorted = true ∧
      List.Sorted (· ≤ ·) arr' ∧ arr'.Perm arr ∧
      ∀ j, j < k → ∃ a s, mergeRun arr j = some (a, s) ∧ s.isSorted = false := by
  obtain ⟨k, p, hk, hfin, hinv, hbefore⟩ := merge_reach arr
  refine ⟨k, p.1, p.2, ?_, hfin, (hinv.1 hfin).1, (hinv.1 hfin).2, ?_⟩
  · rw [mergeRun_eq arr h2]; exact hk
  · intro j hj
    obtain ⟨t, ht, hft⟩ := hbefore j hj
    exact ⟨t.1, t.2, by rw [mergeRun_eq arr h2]; exact ht, hft⟩

/-- Witness of C2 on the array `[3, 1, 2]`. -/
theorem mergeSort_total_correct_witness :
    ∃ k arr' s', mergeRun [3, 1, 2] k = some (arr', s') ∧ s'.isSorted = true ∧
      List.Sorted (· ≤ ·) arr' ∧ arr'.Perm [3, 1, 2] ∧
      ∀ j, j < k → ∃ a s, mergeRun [3, 1, 2] j = some (a, s) ∧ s.isSorted = false :=
  mergeSort_total_correct [3, 1, 2] (by decide)

/-! ## Grid mutators -/

theorem mem_cellList (rows cols : Nat) (c : Cell) :
    c ∈ cellList rows cols ↔ c.1 < rows ∧ c.2 < cols := by
  obtain ⟨i, j⟩ := c
  simp [cellList, List.mem_flatMap]

theorem foldl_cells_inv (P : Grid → Prop) (rows cols : Nat) (body : Grid → Nat → Nat → Grid)
    (hstep : ∀ g i j, P g → i < rows → j < cols → P (body g i j)) :
    ∀ (l : List Cell), (∀ c ∈ l, c.1 < rows ∧ c.2 < cols) → ∀ g, P g →
      P (l.foldl (fun g c => body g c.1 c.2) g) := by
  intro l
  induction l with
  | nil => intro _ g h; exact h
  | cons c l ih =>
    intro hl g h
    simp only [List.foldl_cons]
    apply ih (fun c' hc' => hl c' (List.mem_cons_of_mem _ hc'))
    exact hstep g c.1 c.2 h (hl c (List.mem_cons_self _ _)).1 (hl c (List.mem_cons_self _ _)).2

theorem forCells_inv (P : Grid → Prop) (g : Grid) (body : Grid → Nat → Nat → Grid)
    (h0 : P g) (hstep : ∀ g' i j, P g' → i < g.rows → j < g.cols → P (body g' i j)) :
    P (g.forCells body) :=
  foldl_cells_inv P g.rows g.cols body hstep _ (fun c hc => (mem_cellList _ _ c).1 hc) g h0

theorem setNodeType_rows (g : Grid) (row col : Nat) (t : NodeType) :
    (g.setNodeType row col t).rows = g.rows := by
  by_cases h1 : g.startNode = some (row, col) <;> by_cases h2 : g.endNode = some (row, col) <;>
    cases t <;> simp [Grid.setNodeType, Grid.modify, h1, h2]

theorem setNodeType_cols (g : Grid) (row col : Nat) (t : NodeType) :
    (g.setNodeType row col t).cols = g.cols := by
  by_cases h1 : g.startNode = some (row, col) <;> by_cases h2 : g.endNode = some (row, col) <;>
    cases t <;> simp [Grid.setNodeType, Grid.modify, h1, h2]

theorem setNodeType_other (g : Grid) (row col : Nat) (t : NodeType) (r c : Nat)
    (h : ¬ (r = row ∧ c = col)) : (g.setNodeType row col t).nodes r c = g.nodes r c := by
  by_cases h1 : g.startNode = some (row, col) <;> by_cases h2 : g.endNode = some (row, col) <;>
    cases t <;> simp [Grid.setNodeType, Grid.modify, h1, h2, h]

theorem setNodeType_type (g : Grid) (row col : Nat) (t : NodeType) :
    ((g.setNodeType row col t).nodes row col).type = t := by
  by_cases h1 : g.startNode = some (row, col) <;> by_cases h2 : g.endNode = some (row, col) <;>
    cases t <;> simp [Grid.setNodeType, Grid.modify, h1, h2]

/-- The cost `setNodeType` leaves in the node, by the new type. -/
def costAfter (t : NodeType) (old : Int) : Int :=
  match t with
  | .Empty | .Start | .End | .Wall => 1
  | .Weight => 5
  | .Visited | .Path => old

theorem setNodeType_cost (g : Grid) (row col : Nat) (t : NodeType) :
    ((g.setNodeType row col t).nodes row col).cost = costAfter t (g.nodes row col).cost := by
  by_cases h1 : g.startNode = some (row, col) <;> by_cases h2 : g.endNode = some (row, col) <;>
    cases t <;> simp [Grid.setNodeType, Grid.modify, h1, h2, costAfter]

theorem setNodeType_startNode (g : Grid) (row col : Nat) (t : NodeType) :
    (g.setNodeType row col t).startNode =
      if t = .Start then some (row, col)
      else if g.startNode = some (row, col) then none else g.startNode := by
  by_cases h1 : g.startNode = some (row, col) <;> by_cases h2 : g.endNode = some (row, col) <;>
    cases t <;> simp [Grid.setNodeType, Grid.modify, h1, h2]

theorem setNodeType_endNode (g : Grid) (row col : Nat) (t : NodeType) :
    (g.setNodeType row col t).endNode =
      if t = .End then some (row, col)
      else if g.endNode = some (row, col) then none else g.endNode := by
  by_cases h1 : g.startNode = some (row, col) <;> by_cases h2 : g.endNode = some (row, col) <;>
    cases t <;> simp [Grid.setNodeType, Grid.modify, h1, h2]

/-- Neither reference dangles: a set reference names a node of the grid of the matching type. -/
def Grid.RefsOk (g : Grid) : Prop :=
  (∀ c, g.startNode = some c → c.1 < g.rows ∧ c.2 < g.cols ∧ (g.node c).type = .Start) ∧
  (∀ c, g.endNode = some c → c.1 < g.rows ∧ c.2 < g.cols ∧ (g.node c).type = .End)

theorem refsOk_setNodeType (g : Grid) (row col : Nat) (t : NodeType) (h : g.RefsOk)
    (hr : row < g.rows) (hc : col < g.cols) : (g.setNodeType row col t).RefsOk := by
  constructor
  · intro c hs
    rw [setNodeType_startNode] at hs
    rw [setNodeType_rows, setNodeType_cols]
    by_cases ht : t = .Start
    · rw [if_pos ht] at hs
      cases hs
      exact ⟨hr, hc, by rw [Grid.node, setNodeType_type, ht]⟩
    · rw [if_neg ht] at hs
      split_ifs at hs with h1
      have hne : ¬ (c.1 = row ∧ c.2 = col) := by
        rintro ⟨rfl, rfl⟩; exact h1 hs
      obtain ⟨a, b, e⟩ := h.1 c hs
      exact ⟨a, b, by rw [Grid.node, setNodeType_other _ _ _ _ _ _ hne]; exact e⟩
  · intro c hs
    rw [setNodeType_endNode] at hs
    rw [setNodeType_rows, setNodeType_cols]
    by_cases ht : t = .End
    · rw [if_pos ht] at hs
      cases hs
      exact ⟨hr, hc, by rw [Grid.node, setNodeType_type, ht]⟩
    · rw [if_neg ht] at hs
      split_ifs at hs with h1
      have hne : ¬ (c.1 = row ∧ c.2 = col) := by
        rintro ⟨rfl, rfl⟩; exact h1 hs
      obtain ⟨a, b, e⟩ := h.2 c hs
      exact ⟨a, b, by rw [Grid.node, setNodeType_other _ _ _ _ _ _ hne]; exact e⟩

/-- A loop over all nodes whose body either leaves the grid alone or calls `setNodeType` on the
node of the iteration keeps the dimensions and leaves no reference dangling. -/
theorem refsOk_forCells (g : Grid) (body : Grid → Nat → Nat → Grid) (h : g.RefsOk)
    (hbody : ∀ g' i j, body g' i j = g' ∨ ∃ t, body g' i j = g'.setNodeType i j t) :
    (g.forCells body).RefsOk ∧ (g.forCells body).rows = g.rows ∧
      (g.forCells body).cols = g.cols := by
  refine forCells_inv (fun g' => g'.RefsOk ∧ g'.rows = g.rows ∧ g'.cols = g.cols) g body
    (And.intro h (And.intro rfl rfl)) ?_
  intro g' i j hP hi hj
  obtain ⟨h1, h2, h3⟩ := hP
  rcases hbody g' i j with e | ⟨t, e⟩
  · rw [e]; exact ⟨h1, h2, h3⟩
  · rw [e, setNodeType_rows, setNodeType_cols]
    exact ⟨refsOk_setNodeType g' i j t h1 (h2 ▸ hi) (h3 ▸ hj), h2, h3⟩

theorem refsOk_cleared (g : Grid) : Grid.RefsOk { g with startNode := none, endNode := none } :=
  ⟨fun _ h => (by cases h), fun _ h => (by cases h)⟩

theorem refsOk_of_reachable (g : Grid) (h : g.Reachable) : g.RefsOk := by
  induction h with
  | construct w h n =>
    exact (refsOk_forCells _ _ ⟨fun _ h => (by cases h), fun _ h => (by cases h)⟩
      (fun g' i j => Or.inr ⟨_, rfl⟩)).1
  | setNodeType g row col t _ hr hc ih => exact refsOk_setNodeType g row col t ih hr hc
  | reset g _ _ =>
    exact (refsOk_forCells _ _ (refsOk_cleared g) (fun g' i j => Or.inr ⟨_, rfl⟩)).1
  | resetWalls g _ ih =>
    refine (refsOk_forCells _ _ ih (fun g' i j => ?_)).1
    by_cases e : (g'.nodes i j).type = .Wall
    · exact Or.inr ⟨_, if_pos e⟩
    · exact Or.inl (if_neg e)
  | clearPath g _ ih =>
    refine (refsOk_forCells _ _ ih (fun g' i j => ?_)).1
    dsimp only
    split_ifs
    · exact Or.inr ⟨_, rfl⟩
    · exact Or.inr ⟨_, rfl⟩
    · exact Or.inl rfl
  | clearWeights g _ ih =>
    refine (refsOk_forCells _ _ ih (fun g' i j => ?_)).1
    by_cases e : (g'.nodes i j).type = .Weight
    · exact Or.inr ⟨_, if_pos e⟩
    · exact Or.inl (if_neg e)
  | fillWithWalls g _ _ =>
    exact (refsOk_forCells _ _ (refsOk_cleared g) (fun g' i j => Or.inr ⟨_, rfl⟩)).1
  | clearMaze g _ ih =>
    refine (refsOk_forCells _ _ ih (fun g' i j => ?_)).1
    dsimp only
    split_ifs
    · exact Or.inr ⟨_, rfl⟩
    · exact Or.inl rfl
  | finalizeMaze g _ ih =>
    refine (refsOk_forCells _ _ ih (fun g' i j => ?_)).1
    by_cases e : (g'.nodes i j).type = .Visited
    · exact Or.inr ⟨_, if_pos e⟩
    · exact Or.inl (if_neg e)

/-- C19: `setNodeType(row, col, t)` on a node of the grid leaves the node with type `t` and with
cost 1 for Empty, Start, End and Wall, 5 for Weight and its previous cost for Visited and Path;
the dimensions and every other node are unchanged. -/
theorem setNodeType_cost_table_and_frame (g : Grid) (row col : Nat) (t : NodeType)
    (_hr : row < g.rows) (_hc : col < g.cols) :
    ((g.setNodeType row col t).nodes row col).type = t ∧
    ((g.setNodeType row col t).nodes row col).cost =
      (match t with
       | .Empty | .Start | .End | .Wall => 1
       | .Weight => 5
       | .Visited | .Path => (g.nodes row col).cost) ∧
    (g.setNodeType row col t).rows = g.rows ∧ (g.setNodeType row col t).cols = g.cols ∧
    ∀ r c, ¬ (r = row ∧ c = col) → (g.setNodeType row col t).nodes r c = g.nodes r c :=
  ⟨setNodeType_type g row col t, setNodeType_cost g row col t, setNodeType_rows g row col t,
    setNodeType_cols g row col t, fun r c h => setNodeType_other g row col t r c h⟩

theorem setNodeType_cost_table_and_frame_witness :
    0 < (Grid.construct 2 1 1).rows ∧ 1 < (Grid.construct 2 1 1).cols ∧
    (((Grid.construct 2 1 1).setNodeType 0 1 .Weight).nodes 0 1).cost = 5 :=
  ⟨by decide, by decide,
    (setNodeType_cost_table_and_frame (Grid.construct 2 1 1) 0 1 .Weight
      (by decide) (by decide)).2.1⟩

/-- C18: in every grid state reachable from construction by the mutators, a set `startNode`
names a node of the grid whose type is Start and a set `endNode` one whose type is End; and
`setNodeType` with any other type on the designated node clears the reference. -/
theorem no_dangling_reference (g : Grid) (h : g.Reachable) :
    (∀ c, g.startNode = some c → c.1 < g.rows ∧ c.2 < g.cols ∧ (g.node c).type = .Start) ∧
    (∀ c, g.endNode = some c → c.1 < g.rows ∧ c.2 < g.cols ∧ (g.node c).type = .End) ∧
    (∀ row col t, g.startNode = some (row, col) → t ≠ .Start →
      (g.setNodeType row col t).startNode = none) ∧
    (∀ row col t, g.endNode = some (row, col) → t ≠ .End →
      (g.setNodeType row col t).endNode = none) := by
  refine ⟨(refsOk_of_reachable g h).1, (refsOk_of_reachable g h).2, ?_, ?_⟩
  · intro row col t hs ht
    rw [setNodeType_startNode, if_neg ht, if_pos hs]
  · intro row col t hs ht
    rw [setNodeType_endNode, if_neg ht, if_pos hs]

theorem no_dangling_reference_witness :
    Grid.Reachable (((Grid.construct 2 1 1).setNodeType 0 0 .Start).clearPath) ∧
    ((((Grid.construct 2 1 1).setNodeType 0 0 .Start).clearPath).node (0, 0)).type = .Start :=
  ⟨Grid.Reachable.clearPath _ (Grid.Reachable.setNodeType _ 0 0 .Start
      (Grid.Reachable.construct 2 1 1) (by decide) (by decide)),
    ((no_dangling_reference _ (Grid.Reachable.clearPath _ (Grid.Reachable.setNodeType _ 0 0 .Start
      (Grid.Reachable.construct 2 1 1) (by decide) (by decide)))).1 (0, 0) (by decide)).2.2⟩

/-- C17, the claim fails: on a fresh grid of one row and two columns,
`setNodeType(0, 0, Start)` followed by `setNodeType(0, 1, Start)` moves `startNode` to `(0, 1)`
and leaves both nodes with type Start; likewise two End nodes. -/
theorem setNodeType_second_start_keeps_first :
    ((((Grid.construct 2 1 1).setNodeType 0 0 .Start).setNodeType 0 1 .Start).nodes 0 0).type
      = .Start ∧
    ((((Grid.construct 2 1 1).setNodeType 0 0 .Start).setNodeType 0 1 .Start).nodes 0 1).type
      = .Start ∧
    (((Grid.construct 2 1 1).setNodeType 0 0 .Start).setNodeType 0 1 .Start).startNode
      = some (0, 1) ∧
    ((((Grid.construct 2 1 1).setNodeType 0 0 .End).setNodeType 0 1 .End).nodes 0 0).type
      = .End ∧
    ((((Grid.construct 2 1 1).setNodeType 0 0 .End).setNodeType 0 1 .End).nodes 0 1).type
      = .End := by
  decide

/-- The grid states obtained from construction by `setNodeType` calls on nodes of the grid in
which Start is passed only while `startNode` is null and End only while `endNode` is null,
the guards under which `handleMouseInput` passes them (`if (!startNode) ... else if
(!endNode) ...`); every other type may be passed at any time. -/
inductive Grid.Guarded : Grid → Prop
  | construct (width height nodeSize : Nat) : Grid.Guarded (Grid.construct width height nodeSize)
  | setNodeType (g : Grid) (row col : Nat) (type : NodeType) :
      Grid.Guarded g → row < g.rows → col < g.cols →
      (type = .Start → g.startNode = none) → (type = .End → g.endNode = none) →
      Grid.Guarded (g.setNodeType row col type)

/-- Every node of type Start is the one `startNode` names, and likewise for End. -/
def Grid.SingleRefs (g : Grid) : Prop :=
  (∀ r c, (g.nodes r c).type = .Start → g.startNode = some (r, c)) ∧
  (∀ r c, (g.nodes r c).type = .End → g.endNode = some (r, c))

theorem construct_types (width height nodeSize : Nat) (r c : Nat) :
    ((Grid.construct width height nodeSize).nodes r c).type = .Empty := by
  unfold Grid.construct
  refine forCells_inv (fun g => ∀ r c, (g.nodes r c).type = .Empty) _ _ (fun _ _ => rfl) ?_ r c
  intro g i j h _ _ r c
  by_cases e : r = i ∧ c = j
  · obtain ⟨rfl, rfl⟩ := e
    exact setNodeType_type g r c .Empty
  · rw [setNodeType_other _ _ _ _ _ _ e]
    exact h r c

theorem singleRefs_setNodeType (g : Grid) (row col : Nat) (t : NodeType) (h : g.SingleRefs)
    (hs : t = .Start → g.startNode = none) (he : t = .End → g.endNode = none) :
    (g.setNodeType row col t).SingleRefs := by
  constructor
  · intro r c hty
    rw [setNodeType_startNode]
    by_cases e : r = row ∧ c = col
    · obtain ⟨rfl, rfl⟩ := e
      rw [setNodeType_type] at hty
      rw [if_pos hty]
    · rw [setNodeType_other _ _ _ _ _ _ e] at hty
      have h1 := h.1 r c hty
      by_cases ht : t = .Start
      · rw [hs ht] at h1
        cases h1
      · rw [if_neg ht, h1, if_neg]
        intro e'
        simp only [Option.some.injEq, Prod.mk.injEq] at e'
        exact e e'
  · intro r c hty
    rw [setNodeType_endNode]
    by_cases e : r = row ∧ c = col
    · obtain ⟨rfl, rfl⟩ := e
      rw [setNodeType_type] at hty
      rw [if_pos hty]
    · rw [setNodeType_other _ _ _ _ _ _ e] at hty
      have h1 := h.2 r c hty
      by_cases ht : t = .End
      · rw [he ht] at h1
        cases h1
      · rw [if_neg ht, h1, if_neg]
        intro e'
        simp only [Option.some.injEq, Prod.mk.injEq] at e'
        exact e e'

theorem singleRefs_of_guarded (g : Grid) (h : g.Guarded) : g.SingleRefs := by
  induction h with
  | construct w h n =>
    constructor
    · intro r c hty
      rw [construct_types] at hty
      cases hty
    · intro r c hty
      rw [construct_types] at hty
      cases hty
  | setNodeType g row col t _ _ _ hs he ih => exact singleRefs_setNodeType g row col t ih hs he

/-- C17, amended: `setNodeType` does not demote a previous Start or End node; the single
Start invariant holds under the guards of its callers.  For every sequence of `setNodeType`
calls (valid coordinates) applied to a freshly constructed grid in which Start is passed only
while `startNode` is null and End only while `endNode` is null, every node of type Start is
the node `startNode` names and every node of type End the node `endNode` names, so at no
point do two nodes have type Start, or two nodes type End.  A call of `setNodeType` on
another node, whatever type it passes, leaves the type of a node as it is (last conjunct), so
without the guard a second Start node keeps the first. -/
theorem single_start_under_guard (g : Grid) (h : g.Guarded) :
    (∀ c, (g.node c).type = .Start → g.startNode = some c) ∧
    (∀ c, (g.node c).type = .End → g.endNode = some c) ∧
    (∀ c c', (g.node c).type = .Start → (g.node c').type = .Start → c = c') ∧
    (∀ c c', (g.node c).type = .End → (g.node c').type = .End → c = c') ∧
    (∀ r1 c1 r2 c2 t, ¬ (r1 = r2 ∧ c1 = c2) →
      ((g.setNodeType r2 c2 t).nodes r1 c1).type = (g.nodes r1 c1).type) := by
  obtain ⟨h1, h2⟩ := singleRefs_of_guarded g h
  refine ⟨fun c hc => h1 c.1 c.2 hc, fun c hc => h2 c.1 c.2 hc, fun c c' hc hc' => ?_,
    fun c c' hc hc' => ?_, fun r1 c1 r2 c2 t e => ?_⟩
  · have e := (h1 c.1 c.2 hc).symm.trans (h1 c'.1 c'.2 hc')
    exact Option.some.inj e
  · have e := (h2 c.1 c.2 hc).symm.trans (h2 c'.1 c'.2 hc')
    exact Option.some.inj e
  · rw [setNodeType_other _ _ _ _ _ _ e]

theorem single_start_under_guard_witness :
    Grid.Guarded ((((Grid.construct 2 1 1).setNodeType 0 0 .Start).setNodeType 0 0 .Wall).setNodeType
      0 1 .Start) ∧
    ∀ c c', (((((Grid.construct 2 1 1).setNodeType 0 0 .Start).setNodeType 0 0 .Wall).setNodeType
        0 1 .Start).node c).type = .Start →
      (((((Grid.construct 2 1 1).setNodeType 0 0 .Start).setNodeType 0 0 .Wall).setNodeType
        0 1 .Start).node c').type = .Start → c = c' :=
  ⟨Grid.Guarded.setNodeType _ 0 1 .Start
      (Grid.Guarded.setNodeType _ 0 0 .Wall
        (Grid.Guarded.setNodeType _ 0 0 .Start (Grid.Guarded.construct 2 1 1)
          (by decide) (by decide) (by decide) (by decide))
        (by decide) (by decide) (by decide) (by decide))
      (by decide) (by decide) (by decide) (by decide),
    (single_start_under_guard _
      (Grid.Guarded.setNodeType _ 0 1 .Start
        (Grid.Guarded.setNodeType _ 0 0 .Wall
          (Grid.Guarded.setNodeType _ 0 0 .Start (Grid.Guarded.construct 2 1 1)
            (by decide) (by decide) (by decide) (by decide))
          (by decide) (by decide) (by decide) (by decide))
        (by decide) (by decide) (by decide) (by decide))).2.2.1⟩

/-- C20, the claim fails: on a fresh one-node grid, a Weight node marked Visited by
`setNodeType` keeps the weight colour, so `clearPath` skips it and it stays Visited (cost 5); an
Empty node marked Visited stays Visited as well; marked Path, both are restored. -/
theorem clearPath_keeps_visited_mark :
    (((((Grid.construct 1 1 1).setNodeType 0 0 .Weight).setNodeType 0 0 .Visited).clearPath).nodes
      0 0).type = .Visited ∧
    (((((Grid.construct 1 1 1).setNodeType 0 0 .Weight).setNodeType 0 0 .Visited).clearPath).nodes
      0 0).cost = 5 ∧
    ((((Grid.construct 1 1 1).setNodeType 0 0 .Visited).clearPath).nodes 0 0).type = .Visited ∧
    (((((Grid.construct 1 1 1).setNodeType 0 0 .Weight).setNodeType 0 0 .Path).clearPath).nodes
      0 0) = ⟨.Weight, 5, WEIGHT_COLOR⟩ ∧
    ((((Grid.construct 1 1 1).setNodeType 0 0 .Path).clearPath).nodes 0 0)
      = ⟨.Empty, 1, EMPTY_COLOR⟩ := by
  decide

/-- The fill colour is one of the five colours `clearPath` leaves alone. -/
def Structural (col : Color) : Prop :=
  col = EMPTY_COLOR ∨ col = START_COLOR ∨ col = END_COLOR ∨ col = WALL_COLOR ∨
    col = WEIGHT_COLOR

instance (col : Color) : Decidable (Structural col) := by
  unfold Structural; infer_instance

/-- What `clearPath` does to one node: a node of another colour than the five becomes a
Weight node of cost 5 when its cost is above 1 and an Empty node of cost 1 otherwise. -/
def clearedNode (n : Node) : Node :=
  if Structural n.fillColor then n
  else if n.cost > 1 then ⟨.Weight, 5, WEIGHT_COLOR⟩ else ⟨.Empty, 1, EMPTY_COLOR⟩

theorem setNodeType_node_weight (g : Grid) (row col : Nat) :
    (g.setNodeType row col .Weight).nodes row col = ⟨.Weight, 5, WEIGHT_COLOR⟩ := by
  by_cases h1 : g.startNode = some (row, col) <;> by_cases h2 : g.endNode = some (row, col) <;>
    simp [Grid.setNodeType, Grid.modify, h1, h2]

theorem setNodeType_node_empty (g : Grid) (row col : Nat) :
    (g.setNodeType row col .Empty).nodes row col = ⟨.Empty, 1, EMPTY_COLOR⟩ := by
  by_cases h1 : g.startNode = some (row, col) <;> by_cases h2 : g.endNode = some (row, col) <;>
    simp [Grid.setNodeType, Grid.modify, h1, h2]

theorem setNodeType_node_visited (g : Grid) (row col : Nat) :
    (g.setNodeType row col .Visited).nodes row col =
      { g.nodes row col with type := .Visited } := by
  by_cases h1 : g.startNode = some (row, col) <;> by_cases h2 : g.endNode = some (row, col) <;>
    simp [Grid.setNodeType, Grid.modify, h1, h2]

theorem setNodeType_node_path (g : Grid) (row col : Nat) :
    (g.setNodeType row col .Path).nodes row col =
      { g.nodes row col with type := .Path, fillColor := PATH_COLOR } := by
  by_cases h1 : g.startNode = some (row, col) <;> by_cases h2 : g.endNode = some (row, col) <;>
    simp [Grid.setNodeType, Grid.modify, h1, h2]

theorem clearedNode_idem (n : Node) : clearedNode (clearedNode n) = clearedNode n := by
  unfold clearedNode
  split_ifs <;> first | rfl | (exfalso; simp_all [Structural])

/-- A loop over the nodes whose body changes only the node of the iteration, by an idempotent
function of the node, applies the function to every node of the list. -/
theorem foldl_cells_node (body : Grid → Nat → Nat → Grid) (f : Node → Node)
    (hf : ∀ n, f (f n) = f n)
    (hbody : ∀ g i j, (body g i j).nodes i j = f (g.nodes i j) ∧
      ∀ r c, ¬ (r = i ∧ c = j) → (body g i j).nodes r c = g.nodes r c) :
    ∀ (l : List Cell) (g : Grid) (r c : Nat),
      (l.foldl (fun g x => body g x.1 x.2) g).nodes r c =
        if (r, c) ∈ l then f (g.nodes r c) else g.nodes r c := by
  intro l
  induction l with
  | nil => intro g r c; simp
  | cons a l ih =>
    intro g r c
    rw [List.foldl_cons, ih]
    by_cases e : r = a.1 ∧ c = a.2
    · obtain ⟨rfl, rfl⟩ := e
      rw [(hbody g a.1 a.2).1, hf, if_pos (List.mem_cons_self _ _)]
      split_ifs <;> rfl
    · rw [(hbody g a.1 a.2).2 r c e]
      have hne : (r, c) ≠ a := fun h => e ⟨congrArg Prod.fst h, congrArg Prod.snd h⟩
      simp only [List.mem_cons, hne, false_or]

/-- The effect of `clearPath` on every node of the grid. -/
theorem clearPath_node (g : Grid) (r c : Nat) (hr : r < g.rows) (hc : c < g.cols) :
    (g.clearPath).nodes r c = clearedNode (g.nodes r c) := by
  have key := foldl_cells_node
    (fun g i j =>
      let currentColor := (g.nodes i j).fillColor
      if currentColor ≠ EMPTY_COLOR ∧ currentColor ≠ START_COLOR ∧ currentColor ≠ END_COLOR ∧
          currentColor ≠ WALL_COLOR ∧ currentColor ≠ WEIGHT_COLOR then
        if (g.nodes i j).cost > 1 then g.setNodeType i j .Weight else g.setNodeType i j .Empty
      else g)
    clearedNode clearedNode_idem (fun g' i j => by
      dsimp only
      unfold clearedNode Structural
      constructor
      · split_ifs <;>
          first
          | exact setNodeType_node_weight g' i j
          | exact setNodeType_node_empty g' i j
          | rfl
          | (exfalso; tauto)
      · intro r' c' e
        split_ifs
        · exact setNodeType_other _ _ _ _ _ _ e
        · exact setNodeType_other _ _ _ _ _ _ e
        · rfl)
    (cellList g.rows g.cols) g r c
  rw [if_pos ((mem_cellList _ _ (r, c)).2 ⟨hr, hc⟩)] at key
  exact key

/-- C20, amended: `clearPath` recognises a mark by the fill colour.  A node of the grid
marked Visited or Path by assigning its type and a fill colour other than the five
structural ones (Empty, Start, End, Wall, Weight), as the search engines mark nodes, or
marked Path by `setNodeType`, is after `clearPath` a Weight node of cost 5 when its cost was
5 and an Empty node of cost 1 when its cost was 1; and if every Visited or Path node of the
grid carries such a colour, no node of the grid has type Visited or Path after `clearPath`.
A node with a structural colour that is marked Visited by `setNodeType` keeps that colour and
is still Visited after `clearPath`. -/
theorem clearPath_restores_marked (g : Grid) (r c : Nat) (hr : r < g.rows) (hc : c < g.cols)
    (ty : NodeType) (col : Color) (hcol : ¬ Structural col) :
    ((g.nodes r c).cost = 5 →
      ((g.modify r c fun n => { n with type := ty, fillColor := col }).clearPath).nodes r c
        = ⟨.Weight, 5, WEIGHT_COLOR⟩ ∧
      ((g.setNodeType r c .Path).clearPath).nodes r c = ⟨.Weight, 5, WEIGHT_COLOR⟩) ∧
    ((g.nodes r c).cost = 1 →
      ((g.modify r c fun n => { n with type := ty, fillColor := col }).clearPath).nodes r c
        = ⟨.Empty, 1, EMPTY_COLOR⟩ ∧
      ((g.setNodeType r c .Path).clearPath).nodes r c = ⟨.Empty, 1, EMPTY_COLOR⟩) ∧
    ((∀ r' c', r' < g.rows → c' < g.cols →
        (g.nodes r' c').type = .Visited ∨ (g.nodes r' c').type = .Path →
        ¬ Structural (g.nodes r' c').fillColor) →
      ∀ r' c', r' < g.rows → c' < g.cols →
        ((g.clearPath).nodes r' c').type ≠ .Visited ∧
          ((g.clearPath).nodes r' c').type ≠ .Path) ∧
    (Structural (g.nodes r c).fillColor →
      (((g.setNodeType r c .Visited).clearPath).nodes r c).type = .Visited) := by
  have hmod : ∀ k : Int, (g.nodes r c).cost = k →
      ((g.modify r c fun n => { n with type := ty, fillColor := col }).clearPath).nodes r c
        = if k > 1 then ⟨.Weight, 5, WEIGHT_COLOR⟩ else ⟨.Empty, 1, EMPTY_COLOR⟩ := by
    intro k hk
    have key := clearPath_node (g.modify r c fun n => { n with type := ty, fillColor := col })
      r c hr hc
    rw [key]
    simp only [Grid.modify, and_self, if_true]
    unfold clearedNode
    rw [if_neg hcol, hk]
  have hpath : ∀ k : Int, (g.nodes r c).cost = k →
      ((g.setNodeType r c .Path).clearPath).nodes r c
        = if k > 1 then ⟨.Weight, 5, WEIGHT_COLOR⟩ else ⟨.Empty, 1, EMPTY_COLOR⟩ := by
    intro k hk
    have hp : ¬ Structural PATH_COLOR := by decide
    rw [clearPath_node _ r c (by rw [setNodeType_rows]; exact hr)
      (by rw [setNodeType_cols]; exact hc), setNodeType_node_path]
    unfold clearedNode
    dsimp only
    rw [if_neg hp, hk]
  refine ⟨fun h5 => ⟨?_, ?_⟩, fun h1 => ⟨?_, ?_⟩, fun hall r' c' hr' hc' => ?_, fun hst => ?_⟩
  · rw [hmod 5 h5]; rfl
  · rw [hpath 5 h5]; rfl
  · rw [hmod 1 h1]; rfl
  · rw [hpath 1 h1]; rfl
  · rw [clearPath_node g r' c' hr' hc']
    unfold clearedNode
    split_ifs with h1 h2
    · constructor
      · intro e
        exact hall r' c' hr' hc' (Or.inl e) h1
      · intro e
        exact hall r' c' hr' hc' (Or.inr e) h1
    · exact ⟨by decide, by decide⟩
    · exact ⟨by decide, by decide⟩
  · rw [clearPath_node _ r c (by rw [setNodeType_rows]; exact hr)
      (by rw [setNodeType_cols]; exact hc), setNodeType_node_visited]
    unfold clearedNode
    dsimp only
    rw [if_pos hst]

theorem clearPath_restores_marked_witness :
    ((((Grid.construct 1 1 1).setNodeType 0 0 .Weight).modify 0 0 fun n =>
      { n with type := .Visited, fillColor := VISITED_WEIGHT_COLOR }).clearPath).nodes 0 0
        = ⟨.Weight, 5, WEIGHT_COLOR⟩ :=
  ((clearPath_restores_marked ((Grid.construct 1 1 1).setNodeType 0 0 .Weight) 0 0
    (by decide) (by decide) .Visited VISITED_WEIGHT_COLOR (by decide)).1 (by decide)).1

/-! ## Maze generator: connectivity -/

theorem Connected.connected_mono {g g' : Grid} {seed c : Cell}
    (h : ∀ c, g.IsEmptyAt c → g'.IsEmptyAt c) (hc : Connected g seed c) : Connected g' seed c := by
  induction hc with
  | seed hs => exact Connected.seed (h _ hs)
  | step u v _ ha hv ih => exact Connected.step u v ih ha (h _ hv)

theorem isEmptyAt_setNodeType (g : Grid) (row col : Nat) (c : Cell) :
    (g.setNodeType row col .Empty).IsEmptyAt c ↔
      c.1 < g.rows ∧ c.2 < g.cols ∧ (c = (row, col) ∨ (g.node c).type = .Empty) := by
  obtain ⟨r, k⟩ := c
  unfold Grid.IsEmptyAt Grid.node
  rw [setNodeType_rows, setNodeType_cols]
  by_cases e : r = row ∧ k = col
  · obtain ⟨rfl, rfl⟩ := e
    simp [setNodeType_type]
  · rw [setNodeType_other _ _ _ _ _ _ e]
    have : ¬ ((r, k) = (row, col)) := by simpa using e
    simp [this]

theorem mem_mazeNeighbors (g : Grid) (current next : Cell) (h : next ∈ mazeNeighbors g current) :
    next.1 < g.rows ∧ next.2 < g.cols ∧ (g.node next).type = .Wall ∧
    ((next.1 + 2 = current.1 ∧ next.2 = current.2) ∨ (next.1 = current.1 + 2 ∧ next.2 = current.2) ∨
     (next.1 = current.1 ∧ next.2 + 2 = current.2) ∨ (next.1 = current.1 ∧ next.2 = current.2 + 2)) := by
  obtain ⟨r, c⟩ := current
  obtain ⟨a, b⟩ := next
  simp only [mazeNeighbors, List.mem_filterMap, Grid.isValid, decide_eq_true_eq] at h
  obtain ⟨d, hd, hcond⟩ := h
  split_ifs at hcond with hv
  simp only [Option.some.injEq, Prod.mk.injEq] at hcond
  obtain ⟨⟨v1, v2, v3, v4⟩, hw⟩ := hv
  obtain ⟨ha, hb⟩ := hcond
  simp only [List.mem_cons, List.mem_singleton, List.not_mem_nil, or_false] at hd
  refine ⟨by omega, by omega, by rw [Grid.node, ← ha, ← hb]; exact hw, ?_⟩
  rcases hd with rfl | rfl | rfl | rfl <;> simp only at v1 v2 v3 v4 ha hb ⊢ <;> omega

/-- The invariant of the maze generator: every cell on the stack and every Empty node of the
grid is joined to the seed. -/
def MazeInv (seed : Cell) (g : Grid) (s : MazeGeneratorState) : Prop :=
  (∀ c ∈ s.stack, g.IsEmptyAt c) ∧ ∀ c, g.IsEmptyAt c → Connected g seed c

theorem tdiv_half (a b : Int) (h : b = a + 2 ∨ b + 2 = a ∨ b = a) :
    a + Int.tdiv (b - a) 2 = (if b = a + 2 then a + 1 else if b + 2 = a then a - 1 else a) := by
  rcases h with h | h | h
  · have e : b - a = 2 := by omega
    rw [e, if_pos h]; rfl
  · have e : b - a = -2 := by omega
    rw [e, if_neg (by omega), if_pos h]; rfl
  · have e : b - a = 0 := by omega
    rw [e, if_neg (by omega), if_neg (by omega)]; simp

theorem mazeStep_inv (seed : Cell) (choice : Nat) (g : Grid) (s : MazeGeneratorState)
    (h : MazeInv seed g s) : MazeInv seed (mazeStep choice g s).1 (mazeStep choice g s).2 := by
  unfold mazeStep
  split
  · exact h
  · exact h
  · rename_i current rest hgen hstack
    obtain ⟨hst, hconn⟩ := h
    rw [hstack] at hst
    unfold MazeInv
    by_cases hl : 0 < (mazeNeighbors g current).length
    · simp only [hl, dite_true]
      set next := (mazeNeighbors g current).get
        ⟨choice % (mazeNeighbors g current).length, Nat.mod_lt _ hl⟩ with hnext
      have hmem : next ∈ mazeNeighbors g current := List.get_mem _ _ _
      obtain ⟨n1, n2, _, hpos⟩ := mem_mazeNeighbors g current next hmem
      have hcur : g.IsEmptyAt current := hst current (List.mem_cons_self _ _)
      obtain ⟨c1, c2, _⟩ := hcur
      -- the wall between the two cells
      obtain ⟨wr, wc, hwr, hwc, hw1, hw2, hadj1, hadj2⟩ :
          ∃ wr wc : Nat,
            ((current.1 : Int) + Int.tdiv ((next.1 : Int) - current.1) 2).toNat = wr ∧
            ((current.2 : Int) + Int.tdiv ((next.2 : Int) - current.2) 2).toNat = wc ∧
            wr < g.rows ∧ wc < g.cols ∧ Adj4 current (wr, wc) ∧ Adj4 (wr, wc) next := by
        refine ⟨_, _, rfl, rfl, ?_⟩
        rw [tdiv_half _ _ (by omega), tdiv_half _ _ (by omega)]
        unfold Adj4
        rcases hpos with ⟨e1, e2⟩ | ⟨e1, e2⟩ | ⟨e1, e2⟩ | ⟨e1, e2⟩ <;>
          (split_ifs <;> simp only [] <;> omega)
      rw [hwr, hwc]
      have hE1 : ∀ c, g.IsEmptyAt c → (g.setNodeType wr wc .Empty).IsEmptyAt c := by
        intro c hc
        rw [isEmptyAt_setNodeType]
        exact ⟨hc.1, hc.2.1, Or.inr hc.2.2⟩
      have hE2 : ∀ c, (g.setNodeType wr wc .Empty).IsEmptyAt c →
          ((g.setNodeType wr wc .Empty).setNodeType next.1 next.2 .Empty).IsEmptyAt c := by
        intro c hc
        rw [isEmptyAt_setNodeType]
        exact ⟨hc.1, hc.2.1, Or.inr hc.2.2⟩
      have hwE : (g.setNodeType wr wc .Empty).IsEmptyAt (wr, wc) := by
        rw [isEmptyAt_setNodeType]; exact ⟨hw1, hw2, Or.inl rfl⟩
      have hnE : ((g.setNodeType wr wc .Empty).setNodeType next.1 next.2 .Empty).IsEmptyAt next := by
        rw [isEmptyAt_setNodeType, setNodeType_rows, setNodeType_cols]
        exact ⟨n1, n2, Or.inl rfl⟩
      have hcw : Connected (g.setNodeType wr wc .Empty) seed (wr, wc) :=
        Connected.step current _ (Connected.connected_mono hE1 (hconn current (hst current
          (List.mem_cons_self _ _)))) hadj1 hwE
      have hcn : Connected ((g.setNodeType wr wc .Empty).setNodeType next.1 next.2 .Empty) seed
          next := Connected.step _ _ (Connected.connected_mono hE2 hcw) hadj2 hnE
      constructor
      · intro c hc
        rcases List.mem_cons.1 hc with rfl | hc
        · exact hnE
        · exact hE2 _ (hE1 _ (hst c hc))
      · intro c hc
        rw [isEmptyAt_setNodeType, setNodeType_rows, setNodeType_cols] at hc
        rcases hc.2.2 with e | e
        · rw [e]; exact hcn
        · have hc1 : (g.setNodeType wr wc .Empty).IsEmptyAt c := ⟨by
            rw [setNodeType_rows]; exact hc.1, by rw [setNodeType_cols]; exact hc.2.1, e⟩
          rw [isEmptyAt_setNodeType] at hc1
          rcases hc1.2.2 with e1 | e1
          · rw [e1]; exact Connected.connected_mono hE2 hcw
          · exact Connected.connected_mono (fun c hc => hE2 c (hE1 c hc)) (hconn c ⟨hc1.1, hc1.2.1, e1⟩)
    · simp only [hl, dite_false]
      exact ⟨fun c hc => hst c (List.mem_cons_of_mem _ hc), hconn⟩

theorem mazeRun_inv (seed : Cell) (choices : List Nat) :
    ∀ gs : Grid × MazeGeneratorState, MazeInv seed gs.1 gs.2 →
      MazeInv seed (mazeRun choices gs).1 (mazeRun choices gs).2 := by
  induction choices with
  | nil => intro gs h; exact h
  | cons choice choices ih =>
    intro gs h
    exact ih _ (mazeStep_inv seed choice gs.1 gs.2 h)

/-- C16: on a grid whose only Empty node is the seed (every other node a Wall), started with
`stack = [seed]` and `isGenerating = true`, after the calls of `mazeStep` made with any sequence
of choices (hence after every intermediate step and at the end of the generation) every Empty
node of the grid is joined to the seed by a chain of 4-adjacent Empty nodes. -/
theorem maze_connectivity (g0 : Grid) (seed : Cell) (hs1 : seed.1 < g0.rows)
    (hs2 : seed.2 < g0.cols)
    (hinit : ∀ r, r < g0.rows → ∀ c, c < g0.cols →
      (g0.nodes r c).type = if (r, c) = seed then NodeType.Empty else NodeType.Wall)
    (choices : List Nat) (c : Cell)
    (hc : (mazeRun choices (g0, ⟨[seed], true⟩)).1.IsEmptyAt c) :
    Connected (mazeRun choices (g0, ⟨[seed], true⟩)).1 seed c := by
  have hseed : g0.IsEmptyAt seed := ⟨hs1, hs2, by
    have := hinit seed.1 hs1 seed.2 hs2
    simpa [Grid.node] using this⟩
  have h0 : MazeInv seed g0 ⟨[seed], true⟩ := by
    refine ⟨fun c hc => ?_, fun c hc => ?_⟩
    · rw [List.mem_singleton.1 hc]; exact hseed
    · have h1 := hinit c.1 hc.1 c.2 hc.2.1
      have h2 : (g0.nodes c.1 c.2).type = .Empty := hc.2.2
      by_cases e : (c.1, c.2) = seed
      · have e' : c = seed := e
        rw [e']; exact Connected.seed hseed
      · rw [if_neg e, h2] at h1
        cases h1
  exact (mazeRun_inv seed choices (g0, ⟨[seed], true⟩) h0).2 c hc

theorem maze_connectivity_witness :
    Connected (mazeRun [1, 0, 0]
      (((Grid.construct 3 3 1).fillWithWalls).setNodeType 0 0 .Empty, ⟨[(0, 0)], true⟩)).1
      (0, 0) (2, 2) :=
  maze_connectivity (((Grid.construct 3 3 1).fillWithWalls).setNodeType 0 0 .Empty) (0, 0)
    (by decide) (by decide) (by decide) [1, 0, 0] (2, 2) ⟨by decide, by decide, by decide⟩

/-! ## Path-finding engines: shared facts -/

theorem iterStep_reach_bound {σ : Type} (step : σ → Option σ) (Inv : σ → Prop) (fin : σ → Bool)
    (μ : σ → Nat)
    (hstep : ∀ s, Inv s → fin s = false → ∃ s', step s = some s' ∧ Inv s' ∧ μ s' < μ s) :
    ∀ s, Inv s → ∃ k s', k ≤ μ s ∧ iterStep step k s = some s' ∧ fin s' = true ∧ Inv s' ∧
      ∀ j, j < k → ∃ t, iterStep step j s = some t ∧ fin t = false := by
  intro s
  generalize hm : μ s = m
  induction m using Nat.strong_induction_on generalizing s with
  | _ m ih =>
    intro hinv
    cases hf : fin s with
    | true => exact ⟨0, s, Nat.zero_le _, rfl, hf, hinv, fun j hj => absurd hj (Nat.not_lt_zero j)⟩
    | false =>
      obtain ⟨s1, hs1, hinv1, hr⟩ := hstep s hinv hf
      subst hm
      obtain ⟨k, s2, hle, hk, hfin, hinv2, hbefore⟩ := ih (μ s1) hr s1 rfl hinv1
      refine ⟨k + 1, s2, by omega, ?_, hfin, hinv2, ?_⟩
      · simp [iterStep, hs1, hk]
      · intro j hj
        cases j with
        | zero => exact ⟨s, rfl, hf⟩
        | succ j =>
          obtain ⟨t, ht, hft⟩ := hbefore j (by omega)
          exact ⟨t, by simp [iterStep, hs1, ht], hft⟩

theorem iterStep_inv {σ : Type} (step : σ → Option σ) (Inv : σ → Prop)
    (hstep : ∀ s, Inv s → ∃ s', step s = some s' ∧ Inv s') :
    ∀ k s, Inv s → ∃ s', iterStep step k s = some s' ∧ Inv s' := by
  intro k
  induction k with
  | zero => intro s h; exact ⟨s, rfl, h⟩
  | succ k ih =>
    intro s h
    obtain ⟨s1, hs1, h1⟩ := hstep s h
    obtain ⟨s2, hs2, h2⟩ := ih s1 h1
    exact ⟨s2, by simp [iterStep, hs1, hs2], h2⟩

/-- The position is a node of the grid. -/
def InGrid (g : Grid) (c : Cell) : Prop := c.1 < g.rows ∧ c.2 < g.cols

instance (g : Grid) (c : Cell) : Decidable (InGrid g c) := by
  unfold InGrid; infer_instance

/-- The neighbour loop started at `u` meets `v`: `v` is a node of the grid one of the active
offsets away from `u`. -/
def Adj (g : Grid) (isDiagonal : Bool) (u v : Cell) : Prop :=
  ∃ d ∈ directions isDiagonal, neighborAt g u d = some v

theorem neighborAt_inGrid {g : Grid} {u v : Cell} {d : Int × Int}
    (h : neighborAt g u d = some v) : InGrid g v := by
  unfold neighborAt at h
  simp only at h
  split_ifs at h with hb
  cases h
  unfold InGrid
  dsimp only
  omega

theorem neighborAt_congr {g g' : Grid} (hr : g'.rows = g.rows) (hc : g'.cols = g.cols)
    (u : Cell) (d : Int × Int) : neighborAt g' u d = neighborAt g u d := by
  unfold neighborAt
  rw [hr, hc]

/-- The type of a node with the Path mark read as Visited. -/
def NodeType.base : NodeType → NodeType
  | .Path => .Visited
  | t => t

/-- The types of the nodes up to the Path mark. -/
def Grid.base (g : Grid) : Cell → NodeType := fun c => (g.node c).type.base

/-- The grid `g` has the dimensions, the references and the costs of `g0`. -/
structure Frame (g0 g : Grid) : Prop where
  rows : g.rows = g0.rows
  cols : g.cols = g0.cols
  startNode : g.startNode = g0.startNode
  endNode : g.endNode = g0.endNode
  cost : ∀ c, (g.node c).cost = (g0.node c).cost

theorem Frame.refl (g : Grid) : Frame g g := ⟨rfl, rfl, rfl, rfl, fun _ => rfl⟩

theorem modify_node (g : Grid) (r k : Nat) (f : Node → Node) (x : Cell) :
    (g.modify r k f).node x = if x = (r, k) then f (g.node x) else g.node x := by
  obtain ⟨a, b⟩ := x
  simp [Grid.modify, Grid.node]

theorem mapNodes_node (g : Grid) (f : Node → Node) (x : Cell) :
    (g.mapNodes f).node x = if InGrid g x then f (g.node x) else g.node x := by
  simp [Grid.mapNodes, Grid.node, InGrid]

theorem base_eq_empty {t : NodeType} : t.base = .Empty ↔ t = .Empty := by
  cases t <;> simp [NodeType.base]

theorem base_eq_wall {t : NodeType} : t.base = .Wall ↔ t = .Wall := by
  cases t <;> simp [NodeType.base]

theorem base_eq_start {t : NodeType} : t.base = .Start ↔ t = .Start := by
  cases t <;> simp [NodeType.base]

theorem base_eq_visited {t : NodeType} : t.base = .Visited ↔ t = .Visited ∨ t = .Path := by
  cases t <;> simp [NodeType.base]

/-- A change of one node that keeps the cost and sets the type. -/
theorem frame_modify {g0 g : Grid} (h : Frame g0 g) (w : Cell) (f : Node → Node)
    (hf : ∀ n, (f n).cost = n.cost) : Frame g0 (g.modify w.1 w.2 f) := by
  refine ⟨h.rows, h.cols, h.startNode, h.endNode, fun c => ?_⟩
  rw [modify_node]
  split_ifs
  · rw [hf]; exact h.cost c
  · exact h.cost c

theorem base_modify (g : Grid) (w : Cell) (f : Node → Node) (t : NodeType)
    (hf : ∀ n, (f n).type.base = t) : (g.modify w.1 w.2 f).base = setAt g.base w t := by
  funext c
  unfold Grid.base setAt
  rw [modify_node]
  split_ifs <;> simp_all

theorem setAt_self_eq {β : Type} (m : Cell → β) (k : Cell) (v : β) (h : m k = v) :
    setAt m k v = m := by
  funext c
  unfold setAt
  split_ifs with e
  · rw [e, h]
  · rfl

theorem frame_clearOldPath {g0 g : Grid} (h : Frame g0 g) : Frame g0 (clearOldPath g) := by
  refine ⟨h.rows, h.cols, h.startNode, h.endNode, fun c => ?_⟩
  unfold clearOldPath
  rw [mapNodes_node]
  split_ifs <;> exact h.cost c

theorem base_clearOldPath (g : Grid) : (clearOldPath g).base = g.base := by
  funext c
  unfold Grid.base clearOldPath
  rw [mapNodes_node]
  split_ifs with h1 h2
  · rw [h2]; rfl
  · rfl
  · rfl

/-- The Empty nodes of the grid for the given types. -/
def emptyCells (g0 : Grid) (ty : Cell → NodeType) : Finset Cell :=
  (Finset.range g0.rows ×ˢ Finset.range g0.cols).filter fun c => ty c = .Empty

theorem mem_emptyCells {g0 : Grid} {ty : Cell → NodeType} {c : Cell} :
    c ∈ emptyCells g0 ty ↔ InGrid g0 c ∧ ty c = .Empty := by
  simp [emptyCells, InGrid, and_assoc]

theorem emptyCells_card_lt {g0 : Grid} {t : Cell → NodeType} {c : Cell} (hc : InGrid g0 c)
    (h : t c ≠ .Empty) : (emptyCells g0 t).card < g0.rows * g0.cols := by
  have hs : emptyCells g0 t ⊂ Finset.range g0.rows ×ˢ Finset.range g0.cols := by
    unfold emptyCells
    rw [Finset.filter_ssubset]
    exact ⟨c, by simpa [InGrid] using hc, h⟩
  have := Finset.card_lt_card hs
  simpa using this

theorem emptyCells_setAt {g0 : Grid} {ty : Cell → NodeType} {w : Cell} {t : NodeType}
    (hw : InGrid g0 w) (he : ty w = .Empty) (ht : t ≠ .Empty) :
    (emptyCells g0 (setAt ty w t)).card + 1 = (emptyCells g0 ty).card := by
  have e : emptyCells g0 (setAt ty w t) = (emptyCells g0 ty).erase w := by
    ext c
    rw [Finset.mem_erase, mem_emptyCells, mem_emptyCells]
    unfold setAt
    by_cases hcw : c = w
    · simp [hcw, ht]
    · simp [hcw]
  rw [e, Finset.card_erase_of_mem (mem_emptyCells.2 ⟨hw, he⟩)]
  have : 0 < (emptyCells g0 ty).card := Finset.card_pos.2 ⟨w, mem_emptyCells.2 ⟨hw, he⟩⟩
  omega

/-! ## Parent chains of the breadth-first and depth-first engines -/

/-- The hypotheses on the grid a search starts on: the two references name distinct nodes of the
grid, the only ones of type Start and End; no node is Visited or Path; a Weight node costs 5 and
every other node 1. -/
structure WellFormed (g0 : Grid) (st en : Cell) : Prop where
  startNode : g0.startNode = some st
  endNode : g0.endNode = some en
  st_in : InGrid g0 st
  en_in : InGrid g0 en
  ne : st ≠ en
  types : ∀ r, r < g0.rows → ∀ c, c < g0.cols →
    (g0.nodes r c).type ≠ .Visited ∧ (g0.nodes r c).type ≠ .Path
  one_start : ∀ r, r < g0.rows → ∀ c, c < g0.cols → ((g0.nodes r c).type = .Start ↔ (r, c) = st)
  one_end : ∀ r, r < g0.rows → ∀ c, c < g0.cols → ((g0.nodes r c).type = .End ↔ (r, c) = en)
  costs : ∀ r, r < g0.rows → ∀ c, c < g0.cols →
    (g0.nodes r c).cost = if (g0.nodes r c).type = .Weight then 5 else 1

theorem WellFormed.st_type {g0 : Grid} {st en : Cell} (h : WellFormed g0 st en) :
    (g0.node st).type = .Start := (h.one_start st.1 h.st_in.1 st.2 h.st_in.2).2 rfl

theorem WellFormed.en_type {g0 : Grid} {st en : Cell} (h : WellFormed g0 st en) :
    (g0.node en).type = .End := (h.one_end en.1 h.en_in.1 en.2 h.en_in.2).2 rfl

theorem WellFormed.base_eq {g0 : Grid} {st en : Cell} (h : WellFormed g0 st en) {c : Cell}
    (hc : InGrid g0 c) : g0.base c = (g0.node c).type := by
  have := h.types c.1 hc.1 c.2 hc.2
  unfold Grid.base Grid.node
  cases e : (g0.nodes c.1 c.2).type <;> simp_all [NodeType.base]

/-- The node `c` is reached from the start node in `j` moves through Empty nodes. -/
inductive EmptyWalk (g0 : Grid) (isDiagonal : Bool) (st : Cell) : Nat → Cell → Prop
  | start : EmptyWalk g0 isDiagonal st 0 st
  | step (j : Nat) (p c : Cell) : EmptyWalk g0 isDiagonal st j p → Adj g0 isDiagonal p c →
      (g0.node c).type = .Empty → EmptyWalk g0 isDiagonal st (j + 1) c

/-- There is a path of `j + 1` moves from the start node to the end node all of whose inner
nodes are Empty. -/
def EmptyRoute (g0 : Grid) (isDiagonal : Bool) (st en : Cell) (j : Nat) : Prop :=
  ∃ p, EmptyWalk g0 isDiagonal st j p ∧ Adj g0 isDiagonal p en

/-- The node `c` is reached from the start node by moves through nodes that are not Walls. -/
inductive FreeWalk (g0 : Grid) (isDiagonal : Bool) (st : Cell) : Cell → Prop
  | start : FreeWalk g0 isDiagonal st st
  | step (p c : Cell) : FreeWalk g0 isDiagonal st p → Adj g0 isDiagonal p c →
      (g0.node c).type ≠ .Wall → FreeWalk g0 isDiagonal st c

theorem EmptyWalk.free {g0 : Grid} {d : Bool} {st : Cell} {j : Nat} {c : Cell}
    (h : EmptyWalk g0 d st j c) : FreeWalk g0 d st c := by
  induction h with
  | start => exact FreeWalk.start
  | step j p c _ ha he ih => exact FreeWalk.step p c ih ha (by rw [he]; decide)

/-- The node is a marked (Visited or Path) node of the grid. -/
def Marked (g0 : Grid) (ty : Cell → NodeType) (c : Cell) : Prop := InGrid g0 c ∧ ty c = .Visited

/-- The start node or a marked node. -/
def Closed (g0 : Grid) (ty : Cell → NodeType) (st c : Cell) : Prop := c = st ∨ Marked g0 ty c

/-- Following `parentMap` from `c` leads in `n` moves to the start node, through marked nodes
each of which is met by the neighbour loop of its parent. -/
inductive ParentChain (g0 : Grid) (isDiagonal : Bool) (ty : Cell → NodeType)
    (pm : Cell → Option Cell) (st : Cell) : Nat → Cell → Prop
  | start : ParentChain g0 isDiagonal ty pm st 0 st
  | step (n : Nat) (u c : Cell) : ParentChain g0 isDiagonal ty pm st n u → pm c = some u →
      Marked g0 ty c → Adj g0 isDiagonal u c → ParentChain g0 isDiagonal ty pm st (n + 1) c

theorem ParentChain.closed {g0 : Grid} {d : Bool} {ty : Cell → NodeType}
    {pm : Cell → Option Cell} {st : Cell} {n : Nat} {c : Cell}
    (h : ParentChain g0 d ty pm st n c) : Closed g0 ty st c := by
  cases h with
  | start => exact Or.inl rfl
  | step n u c _ _ hm _ => exact Or.inr hm

theorem ParentChain.congr {g0 : Grid} {d : Bool} {ty ty' : Cell → NodeType}
    {pm pm' : Cell → Option Cell} {st : Cell}
    (h : ∀ c, Marked g0 ty c → Marked g0 ty' c ∧ pm' c = pm c) {n : Nat} {c : Cell}
    (hc : ParentChain g0 d ty pm st n c) : ParentChain g0 d ty' pm' st n c := by
  induction hc with
  | start => exact ParentChain.start
  | step n u c _ hp hm ha ih =>
    exact ParentChain.step n u c ih (by rw [(h c hm).2, hp]) (h c hm).1 ha

theorem ParentChain.unique {g0 : Grid} {d : Bool} {ty : Cell → NodeType}
    {pm : Cell → Option Cell} {st : Cell} (hst : ty st ≠ .Visited) {n : Nat} {c : Cell}
    (h : ParentChain g0 d ty pm st n c) :
    ∀ {n' : Nat}, ParentChain g0 d ty pm st n' c → n = n' := by
  induction h with
  | start =>
    intro n' h'
    cases h' with
    | start => rfl
    | step n u c _ _ hm _ => exact absurd hm.2 hst
  | step n u c _ hp hm _ ih =>
    intro n' h'
    cases h' with
    | start => exact absurd hm.2 hst
    | step n' u' c hu' hp' _ _ =>
      rw [hp] at hp'
      cases hp'
      rw [ih hu']

/-- The path a parent chain describes goes through Empty nodes of the initial grid. -/
theorem ParentChain.walk {g0 : Grid} {d : Bool} {ty : Cell → NodeType}
    {pm : Cell → Option Cell} {st : Cell}
    (hty : ∀ c, Marked g0 ty c → (g0.node c).type = .Empty) {n : Nat} {c : Cell}
    (h : ParentChain g0 d ty pm st n c) : EmptyWalk g0 d st n c := by
  induction h with
  | start => exact EmptyWalk.start
  | step n u c _ _ hm ha ih => exact EmptyWalk.step n u c ih ha (hty c hm)

/-- With fuel for the length of the chain the tracing loop ends, and it changes nothing but the
Path mark of marked nodes. -/
theorem tracePath_chain {g0 : Grid} {d : Bool} {ty : Cell → NodeType}
    {pm : Cell → Option Cell} {st en : Cell} (hs : g0.startNode = some st)
    (he : g0.endNode = some en) (hen : ty en ≠ .Visited) {n : Nat} {c : Cell}
    (h : ParentChain g0 d ty pm st n c) :
    ∀ (fuel : Nat) (g : Grid), n ≤ fuel → Frame g0 g → g.base = ty →
      ∃ g', tracePath pm fuel g (some c) = some g' ∧ Frame g0 g' ∧ g'.base = ty := by
  induction h with
  | start =>
    intro fuel g _ hf hb
    refine ⟨g, ?_, hf, hb⟩
    cases fuel <;> simp [tracePath, hf.startNode, hs]
  | step n u c _ hp hm _ ih =>
    intro fuel g hfuel hf hb
    obtain ⟨fuel, rfl⟩ : ∃ f, fuel = f + 1 := ⟨fuel - 1, by omega⟩
    rw [tracePath]
    by_cases hcs : g.startNode = some c
    · rw [if_pos hcs]; exact ⟨g, rfl, hf, hb⟩
    · rw [if_neg hcs]
      have hce : g.endNode ≠ some c := by
        rw [hf.endNode, he]
        intro e
        cases e
        exact hen hm.2
      simp only [hce, ne_eq, not_false_eq_true, if_true, hp]
      apply ih fuel _ (by omega)
      · exact frame_modify hf c _ (fun _ => rfl)
      · rw [base_modify g c (fun n => { n with type := .Path, fillColor := ⟨255, 255, 0⟩ })
          .Visited (fun _ => rfl), hb]
        exact setAt_self_eq ty c _ hm.2

/-- With fuel for the length of the chain the cost loop ends. -/
theorem sumPathCost_chain {g0 : Grid} {d : Bool} {ty : Cell → NodeType}
    {pm : Cell → Option Cell} {st : Cell} (hst : pm st = none) (g : Grid) {n : Nat} {c : Cell}
    (h : ParentChain g0 d ty pm st n c) :
    ∀ (fuel : Nat) (acc : Int), n + 1 ≤ fuel →
      ∃ v, sumPathCost g pm fuel acc (some c) = some v := by
  induction h with
  | start =>
    intro fuel acc hfuel
    obtain ⟨fuel, rfl⟩ : ∃ f, fuel = f + 1 := ⟨fuel - 1, by omega⟩
    rw [sumPathCost, hst]
    cases fuel <;> exact ⟨_, rfl⟩
  | step n u c _ hp _ _ ih =>
    intro fuel acc hfuel
    obtain ⟨fuel, rfl⟩ : ∃ f, fuel = f + 1 := ⟨fuel - 1, by omega⟩
    rw [sumPathCost, hp]
    exact ih fuel _ (by omega)

/-- The part of the invariant shared by the breadth-first and the depth-first engine: a node
either has its initial type or was Empty and is marked; the start node has no parent; every
closed node has a parent chain, whose length is bounded by the number of nodes marked so far. -/
structure SearchCore (g0 : Grid) (d : Bool) (st : Cell) (ty : Cell → NodeType)
    (pm : Cell → Option Cell) : Prop where
  types : ∀ c, InGrid g0 c →
    ty c = (g0.node c).type ∨ ((g0.node c).type = .Empty ∧ ty c = .Visited)
  pm_start : pm st = none
  chain : ∀ c, Closed g0 ty st c → ∃ n,
    n + (emptyCells g0 ty).card ≤ (emptyCells g0 g0.base).card ∧ ParentChain g0 d ty pm st n c

/-- The start node and the end node are not Empty. -/
theorem emptyCells_card_add_two {g0 : Grid} {st en : Cell} (hw : WellFormed g0 st en) :
    (emptyCells g0 g0.base).card + 2 ≤ g0.rows * g0.cols := by
  have hsub : emptyCells g0 g0.base ⊆
      ((Finset.range g0.rows ×ˢ Finset.range g0.cols).erase st).erase en := by
    intro c hc
    have hc' := mem_emptyCells.1 hc
    rw [Finset.mem_erase, Finset.mem_erase]
    refine ⟨?_, ?_, ?_⟩
    · rintro rfl
      rw [hw.base_eq hw.en_in, hw.en_type] at hc'
      cases hc'.2
    · rintro rfl
      rw [hw.base_eq hw.st_in, hw.st_type] at hc'
      cases hc'.2
    · simpa [InGrid] using hc'.1
  have hcard := Finset.card_le_card hsub
  have hst_mem : st ∈ Finset.range g0.rows ×ˢ Finset.range g0.cols := by
    simpa [InGrid] using hw.st_in
  have hen_mem : en ∈ (Finset.range g0.rows ×ˢ Finset.range g0.cols).erase st := by
    rw [Finset.mem_erase]
    exact ⟨fun e => hw.ne e.symm, by simpa [InGrid] using hw.en_in⟩
  rw [Finset.card_erase_of_mem hen_mem, Finset.card_erase_of_mem hst_mem] at hcard
  have hpos : 0 < ((Finset.range g0.rows ×ˢ Finset.range g0.cols).erase st).card :=
    Finset.card_pos.2 ⟨en, hen_mem⟩
  rw [Finset.card_erase_of_mem hst_mem] at hpos
  simp only [Finset.card_product, Finset.card_range] at hcard hpos
  omega

section core
variable {g0 : Grid} {d : Bool} {st en : Cell} {ty : Cell → NodeType} {pm : Cell → Option Cell}

theorem SearchCore.ty_st (hw : WellFormed g0 st en) (h : SearchCore g0 d st ty pm) :
    ty st = .Start := by
  rcases h.types st hw.st_in with e | ⟨e, _⟩
  · rw [e, hw.st_type]
  · rw [hw.st_type] at e; cases e

theorem SearchCore.ty_en (hw : WellFormed g0 st en) (h : SearchCore g0 d st ty pm) :
    ty en = .End := by
  rcases h.types en hw.en_in with e | ⟨e, _⟩
  · rw [e, hw.en_type]
  · rw [hw.en_type] at e; cases e

theorem SearchCore.marked_orig (hw : WellFormed g0 st en) (h : SearchCore g0 d st ty pm)
    {c : Cell} (hm : Marked g0 ty c) : (g0.node c).type = .Empty := by
  rcases h.types c hm.1 with e | ⟨e, _⟩
  · rw [hm.2] at e
    exact absurd e.symm (hw.types c.1 hm.1.1 c.2 hm.1.2).1
  · exact e

theorem SearchCore.empty_orig (h : SearchCore g0 d st ty pm) {c : Cell} (hc : InGrid g0 c)
    (he : ty c = .Empty) : (g0.node c).type = .Empty := by
  rcases h.types c hc with e | ⟨_, e⟩
  · rw [← e, he]
  · rw [he] at e; cases e

theorem SearchCore.not_empty_marked (hw : WellFormed g0 st en) (h : SearchCore g0 d st ty pm)
    {c : Cell} (hc : InGrid g0 c) (ho : (g0.node c).type = .Empty) (he : ty c ≠ .Empty) :
    Marked g0 ty c := by
  have _ := hw
  rcases h.types c hc with e | ⟨_, e⟩
  · rw [ho] at e; exact absurd e he
  · exact ⟨hc, e⟩

theorem SearchCore.closed_ne (hw : WellFormed g0 st en) (h : SearchCore g0 d st ty pm)
    {c : Cell} (hc : Closed g0 ty st c) : c ≠ en ∧ ty c ≠ .Empty := by
  rcases hc with rfl | hm
  · exact ⟨hw.ne, by rw [h.ty_st hw]; decide⟩
  · refine ⟨?_, by rw [hm.2]; decide⟩
    rintro rfl
    have := h.ty_en hw
    rw [hm.2] at this
    cases this

theorem SearchCore.parent_closed (hw : WellFormed g0 st en) (h : SearchCore g0 d st ty pm)
    {c u : Cell} (hm : Marked g0 ty c) (hp : pm c = some u) : Closed g0 ty st u := by
  obtain ⟨n, _, hc⟩ := h.chain c (Or.inr hm)
  cases hc with
  | start =>
    have := h.ty_st hw
    rw [hm.2] at this
    cases this
  | step n u' c hu hp' _ _ =>
    rw [hp] at hp'
    cases hp'
    exact hu.closed

/-- Writing the parent of a node that is not closed keeps the invariant and the chains. -/
theorem SearchCore.setParent (hw : WellFormed g0 st en) (h : SearchCore g0 d st ty pm)
    {w : Cell} (x : Option Cell) (hn : ¬ Closed g0 ty st w) :
    SearchCore g0 d st ty (setAt pm w x) ∧
    (∀ n c, ParentChain g0 d ty pm st n c ↔ ParentChain g0 d ty (setAt pm w x) st n c) := by
  have _ := hw
  have h1 : ∀ c, Marked g0 ty c → Marked g0 ty c ∧ setAt pm w x c = pm c := by
    intro c hc
    refine ⟨hc, ?_⟩
    unfold setAt
    rw [if_neg]
    rintro rfl
    exact hn (Or.inr hc)
  have h2 : ∀ c, Marked g0 ty c → Marked g0 ty c ∧ pm c = setAt pm w x c :=
    fun c hc => ⟨hc, ((h1 c hc).2).symm⟩
  refine ⟨⟨h.types, ?_, fun c hc => ?_⟩, fun n c => ⟨ParentChain.congr h1, ParentChain.congr h2⟩⟩
  · unfold setAt
    rw [if_neg, h.pm_start]
    rintro rfl
    exact hn (Or.inl rfl)
  · obtain ⟨n, hb, hc'⟩ := h.chain c hc
    exact ⟨n, hb, ParentChain.congr h1 hc'⟩

/-- Marking an Empty node whose parent is a closed neighbour keeps the invariant; the chains of
the other nodes are the same and the chain of the node is the chain of its parent and one
move. -/
theorem SearchCore.mark (hw : WellFormed g0 st en) (h : SearchCore g0 d st ty pm)
    {w u : Cell} (hin : InGrid g0 w) (he : ty w = .Empty) (hp : pm w = some u)
    (hu : Closed g0 ty st u) (ha : Adj g0 d u w) :
    SearchCore g0 d st (setAt ty w .Visited) pm ∧
    (∀ n c, ParentChain g0 d ty pm st n c → ParentChain g0 d (setAt ty w .Visited) pm st n c) ∧
    (∀ n c, ParentChain g0 d (setAt ty w .Visited) pm st n c → c ≠ w →
      ParentChain g0 d ty pm st n c) ∧
    (∀ n, ParentChain g0 d (setAt ty w .Visited) pm st n w →
      ∃ n0, n = n0 + 1 ∧ ParentChain g0 d ty pm st n0 u) ∧
    (∀ n0, ParentChain g0 d ty pm st n0 u →
      ParentChain g0 d (setAt ty w .Visited) pm st (n0 + 1) w) ∧
    (emptyCells g0 (setAt ty w .Visited)).card + 1 = (emptyCells g0 ty).card := by
  have hwst : w ≠ st := by
    rintro rfl
    have := h.ty_st hw
    rw [he] at this
    cases this
  have hwn : ¬ Closed g0 ty st w := by
    rintro (e | e)
    · exact hwst e
    · have := e.2
      rw [he] at this
      cases this
  have hmk : ∀ c, Marked g0 ty c → Marked g0 (setAt ty w .Visited) c ∧ pm c = pm c := by
    intro c hc
    refine ⟨⟨hc.1, ?_⟩, rfl⟩
    unfold setAt
    split_ifs
    · rfl
    · exact hc.2
  have hmk' : ∀ c, Marked g0 (setAt ty w .Visited) c → c ≠ w → Marked g0 ty c := by
    intro c hc hcw
    refine ⟨hc.1, ?_⟩
    have := hc.2
    unfold setAt at this
    rwa [if_neg hcw] at this
  have hup : ∀ n c, ParentChain g0 d ty pm st n c →
      ParentChain g0 d (setAt ty w .Visited) pm st n c := fun n c hc => ParentChain.congr hmk hc
  have hdown : ∀ n c, ParentChain g0 d (setAt ty w .Visited) pm st n c → c ≠ w →
      ParentChain g0 d ty pm st n c := by
    intro n c hc
    induction hc with
    | start => intro _; exact ParentChain.start
    | step n u' c _ hp' hm ha' ih =>
      intro hcw
      have hm0 := hmk' c hm hcw
      have hu' : u' ≠ w := by
        rintro rfl
        exact hwn (h.parent_closed hw hm0 hp')
      exact ParentChain.step n u' c (ih hu') hp' hm0 ha'
  have huw : u ≠ w := by
    rintro rfl
    exact hwn hu
  have hcard := emptyCells_setAt (t := .Visited) hin he (by decide)
  have hnew : ∀ n0, ParentChain g0 d ty pm st n0 u →
      ParentChain g0 d (setAt ty w .Visited) pm st (n0 + 1) w := by
    intro n0 hc
    refine ParentChain.step n0 u w (hup _ _ hc) hp ⟨hin, ?_⟩ ha
    unfold setAt
    rw [if_pos rfl]
  refine ⟨⟨fun c hc => ?_, h.pm_start, fun c hc => ?_⟩, hup, hdown, fun n hc => ?_, hnew, hcard⟩
  · unfold setAt
    split_ifs with e
    · subst e
      exact Or.inr ⟨h.empty_orig hin he, rfl⟩
    · exact h.types c hc
  · by_cases hcw : c = w
    · subst hcw
      obtain ⟨n0, hb, hc0⟩ := h.chain u hu
      exact ⟨n0 + 1, by omega, hnew n0 hc0⟩
    · have hc0 : Closed g0 ty st c := by
        rcases hc with e | e
        · exact Or.inl e
        · exact Or.inr (hmk' c e hcw)
      obtain ⟨n, hb, hc1⟩ := h.chain c hc0
      exact ⟨n, by omega, hup _ _ hc1⟩
  · cases hc with
    | start => exact absurd rfl hwst
    | step n0 u' c hu' hp' _ _ =>
      rw [hp] at hp'
      cases hp'
      exact ⟨n0, rfl, hdown _ _ hu' huw⟩

end core

/-! ## Breadth-first search: invariant -/

/-- The neighbour loop of `c` over the offsets `ds` meets neither the end node nor an Empty
node. -/
def ExpandedFor (g0 : Grid) (ty : Cell → NodeType) (en c : Cell) (ds : List (Int × Int)) : Prop :=
  ∀ d ∈ ds, ∀ w, neighborAt g0 c d = some w → w ≠ en ∧ ty w ≠ .Empty

/-- Following `parentMap` from `c` leads in `n` moves to the start node, each node being met by
the neighbour loop of its parent and none being a Wall. -/
inductive ParentPath (g0 : Grid) (isDiagonal : Bool) (pm : Cell → Option Cell) (st : Cell) :
    Nat → Cell → Prop
  | start : ParentPath g0 isDiagonal pm st 0 st
  | step (n : Nat) (u c : Cell) : ParentPath g0 isDiagonal pm st n u → pm c = some u →
      Adj g0 isDiagonal u c → (g0.node c).type ≠ .Wall → ParentPath g0 isDiagonal pm st (n + 1) c

theorem ParentPath.free_walk {g0 : Grid} {d : Bool} {pm : Cell → Option Cell} {st : Cell} {n : Nat}
    {c : Cell} (h : ParentPath g0 d pm st n c) : FreeWalk g0 d st c := by
  induction h with
  | start => exact FreeWalk.start
  | step n u c _ _ ha hn ih => exact FreeWalk.step u c ih ha hn

/-- Following `parentMap` from `c` leads in `n` moves to the start node, each node being met by
the neighbour loop of its parent and being Empty in the initial grid. -/
inductive ParentWalk (g0 : Grid) (isDiagonal : Bool) (pm : Cell → Option Cell) (st : Cell) :
    Nat → Cell → Prop
  | start : ParentWalk g0 isDiagonal pm st 0 st
  | step (n : Nat) (u c : Cell) : ParentWalk g0 isDiagonal pm st n u → pm c = some u →
      Adj g0 isDiagonal u c → (g0.node c).type = .Empty → ParentWalk g0 isDiagonal pm st (n + 1) c

theorem ParentWalk.to_path {g0 : Grid} {d : Bool} {pm : Cell → Option Cell} {st : Cell} {n : Nat}
    {c : Cell} (h : ParentWalk g0 d pm st n c) : ParentPath g0 d pm st n c := by
  induction h with
  | start => exact ParentPath.start
  | step n u c _ hp ha he ih => exact ParentPath.step n u c ih hp ha (by rw [he]; decide)

theorem ParentWalk.to_walk {g0 : Grid} {d : Bool} {pm : Cell → Option Cell} {st : Cell} {n : Nat}
    {c : Cell} (h : ParentWalk g0 d pm st n c) : EmptyWalk g0 d st n c := by
  induction h with
  | start => exact EmptyWalk.start
  | step n u c _ _ ha he ih => exact EmptyWalk.step n u c ih ha he

theorem ParentChain.pwalk {g0 : Grid} {d : Bool} {ty : Cell → NodeType}
    {pm : Cell → Option Cell} {st : Cell}
    (hty : ∀ c, Marked g0 ty c → (g0.node c).type = .Empty) {n : Nat} {c : Cell}
    (h : ParentChain g0 d ty pm st n c) : ParentWalk g0 d pm st n c := by
  induction h with
  | start => exact ParentWalk.start
  | step n u c _ hp hm ha ih => exact ParentWalk.step n u c ih hp ha (hty c hm)

/-- The invariant of the breadth-first engine between two calls, for the node types `ty`, the
parent map and the queue. -/
structure BFSRunning (g0 : Grid) (d : Bool) (st en : Cell) (ty : Cell → NodeType)
    (pm : Cell → Option Cell) (q : List Cell) : Prop where
  core : SearchCore g0 d st ty pm
  queue_closed : ∀ c ∈ q, Closed g0 ty st c
  expanded : ∀ c, Closed g0 ty st c → c ∈ q ∨ ExpandedFor g0 ty en c (directions d)
  level : ∀ c n, ParentChain g0 d ty pm st n c → ∀ j, EmptyWalk g0 d st j c → n ≤ j
  sorted : q.Pairwise fun a b =>
    ∀ na nb, ParentChain g0 d ty pm st na a → ParentChain g0 d ty pm st nb b → na ≤ nb
  near : ∀ a rest, q = a :: rest → ∀ b ∈ rest, ∀ na nb,
    ParentChain g0 d ty pm st na a → ParentChain g0 d ty pm st nb b → nb ≤ na + 1

/-- The invariant inside the neighbour loop of the node `u`, whose chain has `m` moves, after
the offsets `done`. -/
structure BFSLoop (g0 : Grid) (d : Bool) (st en : Cell) (u : Cell) (m : Nat)
    (done : List (Int × Int)) (ty : Cell → NodeType) (pm : Cell → Option Cell)
    (q : List Cell) : Prop where
  core : SearchCore g0 d st ty pm
  queue_closed : ∀ c ∈ q, Closed g0 ty st c
  u_depth : ParentChain g0 d ty pm st m u
  expanded : ∀ c, Closed g0 ty st c → c ∈ q ∨ ExpandedFor g0 ty en c (directions d) ∨ c = u
  done : ExpandedFor g0 ty en u done
  level : ∀ c n, ParentChain g0 d ty pm st n c → ∀ j, EmptyWalk g0 d st j c → n ≤ j
  before : ∀ j p, j < m → EmptyWalk g0 d st j p →
    Closed g0 ty st p ∧ ExpandedFor g0 ty en p (directions d)
  sorted : q.Pairwise fun a b =>
    ∀ na nb, ParentChain g0 d ty pm st na a → ParentChain g0 d ty pm st nb b → na ≤ nb
  range : ∀ b ∈ q, ∀ nb, ParentChain g0 d ty pm st nb b → m ≤ nb ∧ nb ≤ m + 1

/-- The search has found the end node: the parent of the end node is a neighbour `u` from which
`parentMap` leads to the start node in `n` moves through Empty nodes. -/
def Found (g0 : Grid) (d : Bool) (st en : Cell) (pm : Cell → Option Cell) (n : Nat) : Prop :=
  ∃ u, pm en = some u ∧ Adj g0 d u en ∧ ParentWalk g0 d pm st n u

/-- The breadth-first search has found the end node by a path of `n + 1` moves, and no path
through Empty nodes has fewer moves. -/
def BFSFound (g0 : Grid) (d : Bool) (st en : Cell) (pm : Cell → Option Cell) : Prop :=
  ∃ n, Found g0 d st en pm n ∧ ∀ j, EmptyRoute g0 d st en j → n ≤ j

theorem Found.found_path {g0 : Grid} {d : Bool} {st en : Cell} {pm : Cell → Option Cell} {n : Nat}
    (hw : WellFormed g0 st en) (h : Found g0 d st en pm n) :
    ParentPath g0 d pm st (n + 1) en := by
  obtain ⟨u, hp, ha, hwalk⟩ := h
  exact ParentPath.step n u en hwalk.to_path hp ha (by rw [hw.en_type]; decide)

theorem Found.route {g0 : Grid} {d : Bool} {st en : Cell} {pm : Cell → Option Cell} {n : Nat}
    (h : Found g0 d st en pm n) : EmptyRoute g0 d st en n := by
  obtain ⟨u, _, ha, hwalk⟩ := h
  exact ⟨u, hwalk.to_walk, ha⟩

section bfs
variable {g0 : Grid} {d : Bool} {st en : Cell} {ty : Cell → NodeType} {pm : Cell → Option Cell}

/-- Every node reached by a walk shorter than the chains of all queued nodes is closed and its
neighbour loop has run. -/
theorem walk_closed_expanded (hw : WellFormed g0 st en) (hc : SearchCore g0 d st ty pm)
    {q : List Cell}
    (hexp : ∀ c, Closed g0 ty st c → c ∈ q ∨ ExpandedFor g0 ty en c (directions d))
    (hlevel : ∀ c n, ParentChain g0 d ty pm st n c → ∀ j, EmptyWalk g0 d st j c → n ≤ j)
    {j : Nat} {p : Cell} (hp : EmptyWalk g0 d st j p)
    (hq : ∀ c ∈ q, ∀ n, ParentChain g0 d ty pm st n c → j < n) :
    Closed g0 ty st p ∧ ExpandedFor g0 ty en p (directions d) := by
  induction hp with
  | start =>
    refine ⟨Or.inl rfl, ?_⟩
    rcases hexp st (Or.inl rfl) with h | h
    · exact absurd (hq st h 0 ParentChain.start) (Nat.lt_irrefl 0)
    · exact h
  | step j p c hwalk ha he ih =>
    obtain ⟨_, hpe⟩ := ih (fun c hc n hn => by have := hq c hc n hn; omega)
    obtain ⟨dir, hdir, hnb⟩ := ha
    have hcin : InGrid g0 c := neighborAt_inGrid hnb
    have hm : Marked g0 ty c := hc.not_empty_marked hw hcin he (hpe dir hdir c hnb).2
    refine ⟨Or.inr hm, ?_⟩
    rcases hexp c (Or.inr hm) with h | h
    · obtain ⟨n, _, hn⟩ := hc.chain c (Or.inr hm)
      have h1 := hlevel c n hn (j + 1) (EmptyWalk.step j p c hwalk ⟨dir, hdir, hnb⟩ he)
      have h2 := hq c h n hn
      omega
    · exact h

theorem BFSRunning.no_route (hw : WellFormed g0 st en) (h : BFSRunning g0 d st en ty pm [])
    (j : Nat) : ¬ EmptyRoute g0 d st en j := by
  rintro ⟨p, hp, dir, hdir, hnb⟩
  have := (walk_closed_expanded hw h.core h.expanded h.level hp
    (fun c hc => absurd hc (List.not_mem_nil c))).2
  exact (this dir hdir en hnb).1 rfl

theorem ExpandedFor.expanded_mono {ty' : Cell → NodeType} {c : Cell} {ds : List (Int × Int)}
    (hty : ∀ w, ty w ≠ .Empty → ty' w ≠ .Empty) (h : ExpandedFor g0 ty en c ds) :
    ExpandedFor g0 ty' en c ds :=
  fun dir hdir w hnb => ⟨(h dir hdir w hnb).1, hty w (h dir hdir w hnb).2⟩

theorem ExpandedFor.expanded_snoc {c : Cell} {ds : List (Int × Int)} {dir : Int × Int}
    (h : ExpandedFor g0 ty en c ds)
    (hd : ∀ w, neighborAt g0 c dir = some w → w ≠ en ∧ ty w ≠ .Empty) :
    ExpandedFor g0 ty en c (ds ++ [dir]) := by
  intro dir' hdir' w hnb
  rcases List.mem_append.1 hdir' with h1 | h1
  · exact h dir' h1 w hnb
  · rw [List.mem_singleton.1 h1] at hnb
    exact hd w hnb

/-- The loop invariant when the popped node `u` heads the queue. -/
theorem BFSRunning.loop (hw : WellFormed g0 st en) {u : Cell} {rest : List Cell}
    (h : BFSRunning g0 d st en ty pm (u :: rest)) :
    ∃ m, BFSLoop g0 d st en u m [] ty pm rest := by
  have hust := h.queue_closed u (List.mem_cons_self _ _)
  obtain ⟨m, _, hm⟩ := h.core.chain u hust
  have hst : ty st ≠ .Visited := by rw [h.core.ty_st hw]; decide
  have hsorted := List.pairwise_cons.1 h.sorted
  refine ⟨m, ⟨h.core, fun c hc => h.queue_closed c (List.mem_cons_of_mem _ hc), hm, ?_, ?_,
    h.level, ?_, hsorted.2, ?_⟩⟩
  · intro c hc
    rcases h.expanded c hc with h1 | h1
    · rcases List.mem_cons.1 h1 with h2 | h2
      · exact Or.inr (Or.inr h2)
      · exact Or.inl h2
    · exact Or.inr (Or.inl h1)
  · intro dir hdir
    cases hdir
  · intro j p hj hp
    apply walk_closed_expanded hw h.core h.expanded h.level hp
    intro c hc n hn
    rcases List.mem_cons.1 hc with h2 | h2
    · subst h2
      rw [← hm.unique hst hn]; exact hj
    · have := hsorted.1 c h2 m n hm hn
      omega
  · intro b hb nb hnb
    exact ⟨hsorted.1 b hb m nb hm hnb, h.near u rest rfl b hb m nb hm hnb⟩

/-- The invariant between two calls once the neighbour loop of `u` is over. -/
theorem BFSLoop.running (hw : WellFormed g0 st en) {u : Cell} {m : Nat} {q : List Cell}
    (h : BFSLoop g0 d st en u m (directions d) ty pm q) : BFSRunning g0 d st en ty pm q := by
  have _ := hw
  refine ⟨h.core, h.queue_closed, ?_, h.level, h.sorted, ?_⟩
  · intro c hc
    rcases h.expanded c hc with h1 | h1 | h1
    · exact Or.inl h1
    · exact Or.inr h1
    · rw [h1]; exact Or.inr h.done
  · intro a rest hq b hb na nb hna hnb
    have h1 := h.range a (by rw [hq]; exact List.mem_cons_self _ _) na hna
    have h2 := h.range b (by rw [hq]; exact List.mem_cons_of_mem _ hb) nb hnb
    omega

end bfs

section bfs_loop
variable {g0 : Grid} {d : Bool} {st en : Cell} {ty : Cell → NodeType} {pm : Cell → Option Cell}

theorem Closed.mark_closed {c : Cell} (w : Cell) (h : Closed g0 ty st c) :
    Closed g0 (setAt ty w .Visited) st c := by
  rcases h with h | h
  · exact Or.inl h
  · refine Or.inr ⟨h.1, ?_⟩
    unfold setAt
    split_ifs
    · rfl
    · exact h.2

theorem Closed.of_mark {c w : Cell} (h : Closed g0 (setAt ty w .Visited) st c) (hcw : c ≠ w) :
    Closed g0 ty st c := by
  rcases h with h | h
  · exact Or.inl h
  · refine Or.inr ⟨h.1, ?_⟩
    have := h.2
    unfold setAt at this
    rwa [if_neg hcw] at this

theorem setAt_ne_empty (w : Cell) (x : Cell) (h : ty x ≠ .Empty) :
    setAt ty w .Visited x ≠ .Empty := by
  unfold setAt
  split_ifs
  · decide
  · exact h

/-- The neighbour loop marks and enqueues an Empty neighbour. -/
theorem BFSLoop.close (hw : WellFormed g0 st en) {u : Cell} {m : Nat} {done : List (Int × Int)}
    {q : List Cell} (h : BFSLoop g0 d st en u m done ty pm q) {w : Cell} {dir : Int × Int}
    (hdir : dir ∈ directions d) (hnb : neighborAt g0 u dir = some w) (hwen : w ≠ en)
    (he : ty w = .Empty) :
    BFSLoop g0 d st en u m (done ++ [dir]) (setAt ty w .Visited) (setAt pm w (some u))
      (q ++ [w]) ∧
    (emptyCells g0 (setAt ty w .Visited)).card + 1 = (emptyCells g0 ty).card := by
  have hin : InGrid g0 w := neighborAt_inGrid hnb
  have hwst : w ≠ st := by
    rintro rfl
    have := h.core.ty_st hw
    rw [he] at this
    cases this
  have hwn : ¬ Closed g0 ty st w := by
    rintro (e | e)
    · exact hwst e
    · have := e.2
      rw [he] at this
      cases this
  have hst : ty st ≠ .Visited := by rw [h.core.ty_st hw]; decide
  obtain ⟨core1, iff1⟩ := h.core.setParent hw (some u) hwn
  have hpw : setAt pm w (some u) w = some u := by unfold setAt; rw [if_pos rfl]
  obtain ⟨core2, hup, hdown, hinv, hnew, hcard⟩ :=
    core1.mark hw hin he hpw h.u_depth.closed ⟨dir, hdir, hnb⟩
  have up : ∀ n c, ParentChain g0 d ty pm st n c →
      ParentChain g0 d (setAt ty w .Visited) (setAt pm w (some u)) st n c :=
    fun n c hc => hup n c ((iff1 n c).1 hc)
  have down : ∀ n c, ParentChain g0 d (setAt ty w .Visited) (setAt pm w (some u)) st n c →
      c ≠ w → ParentChain g0 d ty pm st n c :=
    fun n c hc hcw => (iff1 n c).2 (hdown n c hc hcw)
  have atw : ∀ n, ParentChain g0 d (setAt ty w .Visited) (setAt pm w (some u)) st n w →
      n = m + 1 := by
    intro n hc
    obtain ⟨n0, rfl, hn0⟩ := hinv n hc
    rw [h.u_depth.unique hst ((iff1 n0 u).2 hn0)]
  have hqw : ∀ c ∈ q, c ≠ w := by
    rintro c hc rfl
    exact hwn (h.queue_closed c hc)
  refine ⟨⟨core2, ?_, up _ _ h.u_depth, ?_, ?_, ?_, ?_, ?_, ?_⟩, hcard⟩
  · intro c hc
    rcases List.mem_append.1 hc with h1 | h1
    · exact (h.queue_closed c h1).mark_closed w
    · rw [List.mem_singleton.1 h1]
      refine Or.inr ⟨hin, ?_⟩
      unfold setAt
      rw [if_pos rfl]
  · intro c hc
    by_cases hcw : c = w
    · exact Or.inl (by rw [hcw]; simp)
    · rcases h.expanded c (hc.of_mark hcw) with h1 | h1 | h1
      · exact Or.inl (List.mem_append_left _ h1)
      · exact Or.inr (Or.inl (h1.expanded_mono (setAt_ne_empty w)))
      · exact Or.inr (Or.inr h1)
  · apply ExpandedFor.expanded_snoc (h.done.expanded_mono (setAt_ne_empty w))
    intro w' hw'
    rw [hnb] at hw'
    cases hw'
    refine ⟨hwen, ?_⟩
    unfold setAt
    rw [if_pos rfl]
    decide
  · intro c n hc j hwalk
    by_cases hcw : c = w
    · subst hcw
      rw [atw n hc]
      by_contra hlt
      cases hwalk with
      | start => exact hwst rfl
      | step j p c hp ha _ =>
        obtain ⟨dir', hdir', hnb'⟩ := ha
        exact ((h.before j p (by omega) hp).2 dir' hdir' c hnb').2 he
    · exact h.level c n (down n c hc hcw) j hwalk
  · intro j p hj hp
    obtain ⟨h1, h2⟩ := h.before j p hj hp
    exact ⟨h1.mark_closed w, h2.expanded_mono (setAt_ne_empty w)⟩
  · rw [List.pairwise_append]
    refine ⟨?_, List.pairwise_singleton _ _, ?_⟩
    · refine List.Pairwise.imp_of_mem ?_ h.sorted
      intro a b ha hb hab na nb hna hnb'
      exact hab na nb (down na a hna (hqw a ha)) (down nb b hnb' (hqw b hb))
    · intro a ha b hb na nb hna hnb'
      rw [List.mem_singleton.1 hb] at hnb'
      rw [atw nb hnb']
      exact (h.range a ha na (down na a hna (hqw a ha))).2
  · intro b hb nb hnb'
    rcases List.mem_append.1 hb with h1 | h1
    · exact h.range b h1 nb (down nb b hnb' (hqw b h1))
    · rw [List.mem_singleton.1 h1] at hnb'
      rw [atw nb hnb']
      omega

/-- The neighbour loop passes an offset that leads out of the grid or to a node that is neither
the end node nor Empty. -/
theorem BFSLoop.skip {u : Cell} {m : Nat} {done : List (Int × Int)}
    {q : List Cell} (h : BFSLoop g0 d st en u m done ty pm q) {e : Int × Int}
    (hd : ∀ w, neighborAt g0 u e = some w → w ≠ en ∧ ty w ≠ .Empty) :
    BFSLoop g0 d st en u m (done ++ [e]) ty pm q :=
  ⟨h.core, h.queue_closed, h.u_depth, h.expanded, h.done.expanded_snoc hd, h.level, h.before, h.sorted,
    h.range⟩

/-- The neighbour loop meets the end node. -/
theorem BFSLoop.found (hw : WellFormed g0 st en) {u : Cell} {m : Nat} {done : List (Int × Int)}
    {q : List Cell} (h : BFSLoop g0 d st en u m done ty pm q) {dir : Int × Int}
    (hdir : dir ∈ directions d) (hnb : neighborAt g0 u dir = some en) :
    SearchCore g0 d st ty (setAt pm en (some u)) ∧
    ParentChain g0 d ty (setAt pm en (some u)) st m u ∧
    m + 1 < g0.rows * g0.cols ∧
    BFSFound g0 d st en (setAt pm en (some u)) := by
  have hen : ¬ Closed g0 ty st en := fun hc => (h.core.closed_ne hw hc).1 rfl
  have hst : ty st ≠ .Visited := by rw [h.core.ty_st hw]; decide
  obtain ⟨core1, iff1⟩ := h.core.setParent hw (some u) hen
  have hu := (iff1 m u).1 h.u_depth
  have hbound : m + 1 < g0.rows * g0.cols := by
    obtain ⟨n, hb, hn⟩ := h.core.chain u h.u_depth.closed
    rw [← h.u_depth.unique hst hn] at hb
    have h2 := emptyCells_card_add_two hw
    omega
  refine ⟨core1, hu, hbound, m, ⟨u, ?_, ⟨dir, hdir, hnb⟩,
    hu.pwalk (fun c hc => h.core.marked_orig hw hc)⟩, ?_⟩
  · unfold setAt
    rw [if_pos rfl]
  · rintro j ⟨p, hp, dir', hdir', hnb'⟩
    by_contra hlt
    exact ((h.before j p (by omega) hp).2 dir' hdir' en hnb').1 rfl

end bfs_loop

section bfs_step
variable {g0 : Grid} {d : Bool} {st en : Cell}

/-- Drawing the path of a closed node ends and changes no more than Path marks. -/
theorem drawCurrentPath_closed (hw : WellFormed g0 st en) {pm : Cell → Option Cell} {g : Grid}
    (hf : Frame g0 g) (hc : SearchCore g0 d st g.base pm) {n : Nat} {c : Cell}
    (hn : ParentChain g0 d g.base pm st n c) {f : Nat} (hfuel : n ≤ f) :
    ∃ g', drawCurrentPath f g c pm = some g' ∧ Frame g0 g' ∧ g'.base = g.base := by
  unfold drawCurrentPath
  exact tracePath_chain hw.startNode hw.endNode (by rw [hc.ty_en hw]; decide) hn f
    (clearOldPath g) hfuel (frame_clearOldPath hf) (base_clearOldPath g)

/-- Drawing the path of the end node once its parent is a closed node, and summing its cost. -/
theorem drawCurrentPath_end (hw : WellFormed g0 st en) {pm : Cell → Option Cell} {g : Grid}
    (hf : Frame g0 g) (hc : SearchCore g0 d st g.base pm) {n : Nat} {u : Cell}
    (hp : pm en = some u) (hn : ParentChain g0 d g.base pm st n u) {f : Nat}
    (hfuel : n + 2 ≤ f) (acc : Int) :
    ∃ g', drawCurrentPath f g en pm = some g' ∧ Frame g0 g' ∧ g'.base = g.base ∧
      ∃ v, sumPathCost g' pm f acc (some en) = some v := by
  obtain ⟨f, rfl⟩ : ∃ k, f = k + 1 := ⟨f - 1, by omega⟩
  obtain ⟨g', h1, h2, h3⟩ := tracePath_chain hw.startNode hw.endNode
    (by rw [hc.ty_en hw]; decide) hn f (clearOldPath g) (by omega) (frame_clearOldPath hf)
    (base_clearOldPath g)
  refine ⟨g', ?_, h2, h3, ?_⟩
  · unfold drawCurrentPath
    rw [tracePath]
    have e1 : (clearOldPath g).startNode ≠ some en := by
      rw [(frame_clearOldPath hf).startNode, hw.startNode]
      intro e
      cases e
      exact hw.ne rfl
    have e2 : (clearOldPath g).endNode = some en := by
      rw [(frame_clearOldPath hf).endNode, hw.endNode]
    simp only [e1, e2, if_false, ne_eq, not_true_eq_false, hp]
    exact h1
  · rw [sumPathCost, hp]
    exact sumPathCost_chain hc.pm_start g' hn f _ (by omega)

theorem bfsNeighbors_spec (hw : WellFormed g0 st en) {fuel : Nat}
    (hfuel : g0.rows * g0.cols ≤ fuel) (u : Cell) (m : Nat) :
    ∀ (ds done : List (Int × Int)) (g : Grid) (s : BFSState),
      (∀ dir ∈ ds, dir ∈ directions d) → Frame g0 g →
      BFSLoop g0 d st en u m done g.base s.parentMap s.queue →
      ∃ g' s', bfsNeighbors fuel u ds g s = some (g', s') ∧ Frame g0 g' ∧
        s'.noPathExists = s.noPathExists ∧
        ((s'.isSearching = s.isSearching ∧ s'.isComplete = s.isComplete ∧
          BFSLoop g0 d st en u m (done ++ ds) g'.base s'.parentMap s'.queue ∧
          (emptyCells g0 g'.base).card + s'.queue.length =
            (emptyCells g0 g.base).card + s.queue.length) ∨
         (s'.isSearching = false ∧ s'.isComplete = true ∧
          BFSFound g0 d st en s'.parentMap)) := by
  intro ds
  induction ds with
  | nil =>
    intro done g s _ hf h
    exact ⟨g, s, rfl, hf, rfl, Or.inl ⟨rfl, rfl, by rw [List.append_nil]; exact h, rfl⟩⟩
  | cons dir ds ih =>
    intro done g s hds hf h
    have hdir : dir ∈ directions d := hds dir (List.mem_cons_self _ _)
    have hds' : ∀ x ∈ ds, x ∈ directions d := fun x hx => hds x (List.mem_cons_of_mem _ hx)
    have happ : done ++ [dir] ++ ds = done ++ dir :: ds := by simp
    rw [bfsNeighbors, neighborAt_congr hf.rows hf.cols]
    cases hnb : neighborAt g0 u dir with
    | none =>
      simp only
      have h1 := h.skip (e := dir) (fun w hw' => by rw [hnb] at hw'; cases hw')
      obtain ⟨g', s', e, hf', hnp, hres⟩ := ih (done ++ [dir]) g s hds' hf h1
      rw [happ] at hres
      exact ⟨g', s', e, hf', hnp, hres⟩
    | some w =>
      simp only
      by_cases hwe : g.endNode = some w
      · have hwen : w = en := by
          rw [hf.endNode, hw.endNode] at hwe
          cases hwe
          rfl
        subst hwen
        rw [if_pos hwe]
        obtain ⟨core1, hu, hbound, hfound⟩ := h.found hw hdir hnb
        obtain ⟨g', e1, hf', _, v, e2⟩ := drawCurrentPath_end hw hf core1
          (by unfold setAt; rw [if_pos rfl]) hu (f := fuel) (by omega) s.pathCost
        rw [e1, Option.some_bind, e2, Option.some_bind]
        exact ⟨_, _, rfl, hf', rfl, Or.inr ⟨rfl, rfl, hfound⟩⟩
      · rw [if_neg hwe]
        have hwen : w ≠ en := by
          rintro rfl
          exact hwe (by rw [hf.endNode, hw.endNode])
        by_cases hE : (g.node w).type = .Empty
        · rw [if_pos hE]
          have hty : g.base w = .Empty := base_eq_empty.2 hE
          obtain ⟨h1, hcard⟩ := h.close hw hdir hnb hwen hty
          have hb := base_modify g w
            (fun n => { n with type := .Visited, fillColor := ⟨173, 216, 230⟩ }) .Visited
            (fun _ => rfl)
          obtain ⟨g', s', e, hf', hnp, hres⟩ := ih (done ++ [dir])
            (g.modify w.1 w.2 fun n => { n with type := .Visited, fillColor := ⟨173, 216, 230⟩ })
            { s with parentMap := setAt s.parentMap w (some u), queue := s.queue ++ [w],
                     currentLine := 12 }
            hds' (frame_modify hf w _ (fun _ => rfl)) (by rw [hb]; exact h1)
          rw [happ, hb] at hres
          refine ⟨g', s', e, hf', hnp, ?_⟩
          rcases hres with ⟨a, b, c, e'⟩ | hres
          · refine Or.inl ⟨a, b, c, ?_⟩
            simp only [List.length_append, List.length_singleton] at e'
            omega
          · exact Or.inr hres
        · rw [if_neg hE]
          have h1 := h.skip (e := dir) (fun w' hw' => by
            rw [hnb] at hw'
            cases hw'
            exact ⟨hwen, fun e => hE (base_eq_empty.1 e)⟩)
          obtain ⟨g', s', e, hf', hnp, hres⟩ := ih (done ++ [dir]) g
            { s with currentLine := 10 } hds' hf h1
          rw [happ] at hres
          exact ⟨g', s', e, hf', hnp, hres⟩

end bfs_step

/-- The invariant of the breadth-first engine on the states of a run: the search is running and
the running invariant holds, or it has found the end node, or it has reported that no path
exists and indeed none exists through Empty nodes. -/
def BFSInv (g0 : Grid) (d : Bool) (st en : Cell) (gs : Grid × BFSState) : Prop :=
  Frame g0 gs.1 ∧
  ((gs.2.isSearching = true ∧ gs.2.isComplete = false ∧ gs.2.noPathExists = false ∧
      BFSRunning g0 d st en gs.1.base gs.2.parentMap gs.2.queue) ∨
   (gs.2.isSearching = false ∧ gs.2.isComplete = true ∧ gs.2.noPathExists = false ∧
      BFSFound g0 d st en gs.2.parentMap) ∨
   (gs.2.isSearching = false ∧ gs.2.isComplete = true ∧ gs.2.noPathExists = true ∧
      ∀ j, ¬ EmptyRoute g0 d st en j))

/-- The termination measure of the breadth-first engine. -/
def bfsMeasure (g0 : Grid) (gs : Grid × BFSState) : Nat :=
  if gs.2.isComplete = true then 0
  else (emptyCells g0 gs.1.base).card + gs.2.queue.length + 1

section bfs_main
variable {g0 : Grid} {d : Bool} {st en : Cell}

theorem bfsStep_spec (hw : WellFormed g0 st en) {fuel : Nat}
    (hfuel : g0.rows * g0.cols ≤ fuel) (gs : Grid × BFSState) (h : BFSInv g0 d st en gs) :
    ∃ gs', bfsStep fuel d gs = some gs' ∧ BFSInv g0 d st en gs' ∧
      (gs.2.isComplete = false → bfsMeasure g0 gs' < bfsMeasure g0 gs) ∧
      (gs.2.isComplete = true → gs' = gs) := by
  obtain ⟨g, s⟩ := gs
  obtain ⟨hf, hcase⟩ := h
  rcases hcase with ⟨h1, h2, h3, hrun⟩ | ⟨h1, h2, h3, hfound⟩ | ⟨h1, h2, h3, hno⟩
  · dsimp only at h1 h2 h3 hrun
    have hcond : ¬ (s.isSearching = false ∨ s.isComplete = true) := by simp [h1, h2]
    unfold bfsStep
    dsimp only
    rw [if_neg hcond]
    cases hq : s.queue with
    | nil =>
      rw [hq] at hrun
      refine ⟨_, rfl, ⟨hf, Or.inr (Or.inr ⟨rfl, rfl, rfl, hrun.no_route hw⟩)⟩, ?_, ?_⟩
      · intro _
        simp [bfsMeasure, h2]
      · intro e
        simp [h2] at e
    | cons u rest =>
      rw [hq] at hrun
      obtain ⟨m, hloop⟩ := hrun.loop hw
      have hst : g.base st ≠ .Visited := by rw [hrun.core.ty_st hw]; decide
      have hbound : m < g0.rows * g0.cols := by
        obtain ⟨n, hb, hn⟩ := hrun.core.chain u hloop.u_depth.closed
        rw [← hloop.u_depth.unique hst hn] at hb
        have := emptyCells_card_lt (t := g0.base) hw.st_in
          (by rw [hw.base_eq hw.st_in, hw.st_type]; decide)
        omega
      obtain ⟨g1, e1, hf1, hb1⟩ := drawCurrentPath_closed hw hf hrun.core hloop.u_depth
        (f := fuel) (by omega)
      have hue : g1.endNode ≠ some u := by
        rw [hf1.endNode, hw.endNode]
        intro e
        cases e
        exact (hrun.core.closed_ne hw hloop.u_depth.closed).1 rfl
      simp only [e1, Option.some_bind, hue, if_false]
      obtain ⟨g', s', e2, hf', hnp, hres⟩ := bfsNeighbors_spec hw hfuel u m (directions d) [] g1
        { s with queue := rest, nodesVisited := s.nodesVisited + 1, currentLine := 9 }
        (fun _ hx => hx) hf1 (by rw [hb1]; exact hloop)
      refine ⟨(g', s'), e2, ?_, ?_, ?_⟩
      · refine ⟨hf', ?_⟩
        rcases hres with ⟨a, b, c, _⟩ | ⟨a, b, c⟩
        · rw [List.nil_append] at c
          exact Or.inl ⟨by rw [a]; exact h1, by rw [b]; exact h2, by rw [hnp]; exact h3,
            c.running hw⟩
        · exact Or.inr (Or.inl ⟨a, b, by rw [hnp]; exact h3, c⟩)
      · intro _
        rcases hres with ⟨_, b, _, e⟩ | ⟨_, b, _⟩
        · have b' : s'.isComplete = false := by rw [b]; exact h2
          simp only [bfsMeasure, b', h2, hq, Bool.false_eq_true, if_false, List.length_cons]
          rw [hb1] at e
          dsimp only at e
          omega
        · simp [bfsMeasure, b, h2]
      · intro e
        simp [h2] at e
  · dsimp only at h1 h2 h3 hfound
    refine ⟨(g, s), ?_, ⟨hf, Or.inr (Or.inl ⟨h1, h2, h3, hfound⟩)⟩, ?_, fun _ => rfl⟩
    · unfold bfsStep
      simp [h1]
    · intro e
      simp [h2] at e
  · dsimp only at h1 h2 h3 hno
    refine ⟨(g, s), ?_, ⟨hf, Or.inr (Or.inr ⟨h1, h2, h3, hno⟩)⟩, ?_, fun _ => rfl⟩
    · unfold bfsStep
      simp [h1]
    · intro e
      simp [h2] at e

theorem bfs_init (hw : WellFormed g0 st en) :
    BFSInv g0 d st en (g0, ⟨[st], fun _ => none, true, false, false, 0, 0, 0⟩) := by
  have hnm : ∀ c, ¬ Marked g0 g0.base c := by
    intro c hc
    have := hc.2
    rw [hw.base_eq hc.1] at this
    exact (hw.types c.1 hc.1.1 c.2 hc.1.2).1 this
  have hcl : ∀ c, Closed g0 g0.base st c → c = st := by
    rintro c (e | e)
    · exact e
    · exact absurd e (hnm c)
  have hpc : ∀ n c, ParentChain g0 d g0.base (fun _ => none) st n c → n = 0 ∧ c = st := by
    intro n c hc
    cases hc with
    | start => exact ⟨rfl, rfl⟩
    | step n u c _ hp _ _ => cases hp
  refine ⟨Frame.refl g0, Or.inl ⟨rfl, rfl, rfl, ⟨⟨?_, rfl, ?_⟩, ?_, ?_, ?_, ?_, ?_⟩⟩⟩
  · intro c hc
    exact Or.inl (hw.base_eq hc)
  · intro c hc
    rw [hcl c hc]
    exact ⟨0, Nat.le_of_eq (Nat.zero_add _), ParentChain.start⟩
  · intro c hc
    rw [List.mem_singleton.1 hc]
    exact Or.inl rfl
  · intro c hc
    rw [hcl c hc]
    exact Or.inl (List.mem_singleton.2 rfl)
  · intro c n hc j _
    rw [(hpc n c hc).1]
    exact Nat.zero_le j
  · exact List.pairwise_singleton _ _
  · intro a rest e b hb
    cases e
    cases hb

theorem bfsRun_eq (hw : WellFormed g0 st en) (fuel : Nat) (k : Nat) :
    bfsRun fuel d g0 k =
      iterStep (bfsStep fuel d) k (g0, ⟨[st], fun _ => none, true, false, false, 0, 0, 0⟩) := by
  unfold bfsRun bfsStart
  rw [hw.startNode]
  rfl

/-- With enough fuel a run of the breadth-first engine reaches a complete state within
`rows * cols + 1` calls, and every state of the run satisfies the invariant. -/
theorem bfs_reach (hw : WellFormed g0 st en) {fuel : Nat} (hfuel : g0.rows * g0.cols ≤ fuel) :
    ∃ k gs, k ≤ g0.rows * g0.cols + 1 ∧ bfsRun fuel d g0 k = some gs ∧
      gs.2.isComplete = true ∧ BFSInv g0 d st en gs ∧
      ∀ i, i < k → ∃ t, bfsRun fuel d g0 i = some t ∧ t.2.isComplete = false := by
  obtain ⟨k, gs, hk, hrun, hfin, hinv, hbefore⟩ :=
    iterStep_reach_bound (bfsStep fuel d) (BFSInv g0 d st en) (fun gs => gs.2.isComplete)
      (bfsMeasure g0)
      (fun gs h hfin => by
        obtain ⟨gs', e, h', hm, _⟩ := bfsStep_spec hw hfuel gs h
        exact ⟨gs', e, h', hm hfin⟩)
      _ (bfs_init (d := d) hw)
  refine ⟨k, gs, ?_, by rw [bfsRun_eq hw]; exact hrun, hfin, hinv, fun i hi => ?_⟩
  · have h1 : bfsMeasure g0 (g0, (⟨[st], fun _ => none, true, false, false, 0, 0, 0⟩ : BFSState))
        = (emptyCells g0 g0.base).card + 2 := rfl
    rw [h1] at hk
    have h2 := emptyCells_card_lt (t := g0.base) hw.st_in
      (by rw [hw.base_eq hw.st_in, hw.st_type]; decide)
    omega
  · rw [bfsRun_eq hw]
    exact hbefore i hi

/-- With enough fuel every state of a run of the breadth-first engine is defined and satisfies
the invariant. -/
theorem bfs_safe (hw : WellFormed g0 st en) {fuel : Nat} (hfuel : g0.rows * g0.cols ≤ fuel)
    (k : Nat) : ∃ gs, bfsRun fuel d g0 k = some gs ∧ BFSInv g0 d st en gs := by
  rw [bfsRun_eq hw]
  exact iterStep_inv (bfsStep fuel d) (BFSInv g0 d st en)
    (fun gs h => by
      obtain ⟨gs', e, h', _⟩ := bfsStep_spec hw hfuel gs h
      exact ⟨gs', e, h'⟩)
    k _ (bfs_init hw)

end bfs_main

theorem lineGrid_wellFormed : WellFormed lineGrid (0, 0) (0, 2) :=
  ⟨by decide, by decide, by decide, by decide, by decide, by decide, by decide, by decide,
    by decide⟩

theorem lineGrid_route : EmptyRoute lineGrid false (0, 0) (0, 2) 1 :=
  ⟨(0, 1), EmptyWalk.step 0 (0, 0) (0, 1) EmptyWalk.start ⟨(0, 1), by decide, by decide⟩
    (by decide), ⟨(0, 1), by decide, by decide⟩⟩

/-- C11: on a well-formed grid (distinct Start and End references, no Visited or Path node), if
the end node is reachable from the start node through Empty nodes under the active adjacency,
then with fuel of at least `rows * cols` for the tracing loops a freshly started breadth-first
search reaches, within `rows * cols + 1` calls of `bfsStep`, a state with `isComplete = true`,
`noPathExists = false` and `isSearching = false`; no earlier state is complete. -/
theorem bfs_finds_path (g0 : Grid) (st en : Cell) (hw : WellFormed g0 st en) (isDiagonal : Bool)
    (fuel : Nat) (hfuel : g0.rows * g0.cols ≤ fuel) (j : Nat)
    (hroute : EmptyRoute g0 isDiagonal st en j) :
    ∃ k g s, k ≤ g0.rows * g0.cols + 1 ∧ bfsRun fuel isDiagonal g0 k = some (g, s) ∧
      s.isComplete = true ∧ s.noPathExists = false ∧ s.isSearching = false ∧
      ∀ i, i < k → ∃ g' s', bfsRun fuel isDiagonal g0 i = some (g', s') ∧
        s'.isComplete = false := by
  obtain ⟨k, ⟨g, s⟩, hk, hrun, hfin, ⟨_, hcase⟩, hbefore⟩ :=
    bfs_reach (d := isDiagonal) hw hfuel
  refine ⟨k, g, s, hk, hrun, hfin, ?_, ?_, fun i hi => ?_⟩
  · rcases hcase with ⟨_, h2, _⟩ | ⟨_, _, h3, _⟩ | ⟨_, _, _, hno⟩
    · rw [hfin] at h2; cases h2
    · exact h3
    · exact absurd hroute (hno j)
  · rcases hcase with ⟨_, h2, _⟩ | ⟨h1, _⟩ | ⟨h1, _⟩
    · rw [hfin] at h2; cases h2
    · exact h1
    · exact h1
  · obtain ⟨⟨g', s'⟩, e, hc⟩ := hbefore i hi
    exact ⟨g', s', e, hc⟩

theorem bfs_finds_path_witness :
    ∃ k g s, k ≤ lineGrid.rows * lineGrid.cols + 1 ∧ bfsRun 3 false lineGrid k = some (g, s) ∧
      s.isComplete = true ∧ s.noPathExists = false ∧ s.isSearching = false ∧
      ∀ i, i < k → ∃ g' s', bfsRun 3 false lineGrid i = some (g', s') ∧
        s'.isComplete = false :=
  bfs_finds_path lineGrid (0, 0) (0, 2) lineGrid_wellFormed false 3 (by decide) 1 lineGrid_route

/-- C12: on a well-formed grid, with fuel of at least `rows * cols`, every state of a freshly
started breadth-first search is defined, and in a state with `isComplete = true` and
`noPathExists = false` the parent of the end node is a neighbour from which `parentMap` leads
to the start node through pairwise adjacent Empty nodes in `n` moves, where the `n + 1` moves of
this path are at most the moves of any path from the start node to the end node through Empty
nodes. -/
theorem bfs_shortest_path (g0 : Grid) (st en : Cell) (hw : WellFormed g0 st en)
    (isDiagonal : Bool) (fuel : Nat) (hfuel : g0.rows * g0.cols ≤ fuel) (k : Nat) :
    ∃ g s, bfsRun fuel isDiagonal g0 k = some (g, s) ∧
      (s.isComplete = true → s.noPathExists = false →
        ∃ n u, s.parentMap en = some u ∧ Adj g0 isDiagonal u en ∧
          ParentWalk g0 isDiagonal s.parentMap st n u ∧
          ∀ j, EmptyRoute g0 isDiagonal st en j → n + 1 ≤ j + 1) := by
  obtain ⟨⟨g, s⟩, hrun, _, hcase⟩ := bfs_safe (d := isDiagonal) hw hfuel k
  refine ⟨g, s, hrun, fun hc hn => ?_⟩
  rcases hcase with ⟨_, h2, _⟩ | ⟨_, _, _, n, ⟨u, hp, ha, hwalk⟩, hmin⟩ | ⟨_, _, h3, _⟩
  · rw [hc] at h2; cases h2
  · exact ⟨n, u, hp, ha, hwalk, fun j hj => Nat.succ_le_succ (hmin j hj)⟩
  · rw [hn] at h3; cases h3

theorem bfs_shortest_path_witness :
    ∃ g s, bfsRun 3 false lineGrid 2 = some (g, s) ∧
      (s.isComplete = true → s.noPathExists = false →
        ∃ n u, s.parentMap (0, 2) = some u ∧ Adj lineGrid false u (0, 2) ∧
          ParentWalk lineGrid false s.parentMap (0, 0) n u ∧
          ∀ j, EmptyRoute lineGrid false (0, 0) (0, 2) j → n + 1 ≤ j + 1) :=
  bfs_shortest_path lineGrid (0, 0) (0, 2) lineGrid_wellFormed false 3 (by decide) 2

/-! ## Depth-first search: invariant -/

/-- The neighbour loop of `c` over the offsets `ds` meets neither the end node nor an Empty node
that is not on the stack. -/
def PushedFor (g0 : Grid) (ty : Cell → NodeType) (en : Cell) (stk : List Cell) (c : Cell)
    (ds : List (Int × Int)) : Prop :=
  ∀ dir ∈ ds, ∀ w, neighborAt g0 c dir = some w → w ≠ en ∧ (ty w ≠ .Empty ∨ w ∈ stk)

/-- A stack entry is a closed node, or an Empty node whose parent is a closed neighbour. -/
def StackOk (g0 : Grid) (d : Bool) (st : Cell) (ty : Cell → NodeType) (pm : Cell → Option Cell)
    (c : Cell) : Prop :=
  Closed g0 ty st c ∨
    (InGrid g0 c ∧ ty c = .Empty ∧ ∃ u, pm c = some u ∧ Closed g0 ty st u ∧ Adj g0 d u c)

/-- The invariant of the depth-first engine between two calls. -/
structure DFSRunning (g0 : Grid) (d : Bool) (st en : Cell) (ty : Cell → NodeType)
    (pm : Cell → Option Cell) (stk : List Cell) : Prop where
  core : SearchCore g0 d st ty pm
  stack_ok : ∀ c ∈ stk, StackOk g0 d st ty pm c
  expanded : ∀ c, Closed g0 ty st c → c ∈ stk ∨ PushedFor g0 ty en stk c (directions d)

/-- The invariant inside the neighbour loop of the node `u` after the offsets `done`. -/
structure DFSLoop (g0 : Grid) (d : Bool) (st en : Cell) (u : Cell) (done : List (Int × Int))
    (ty : Cell → NodeType) (pm : Cell → Option Cell) (stk : List Cell) : Prop where
  core : SearchCore g0 d st ty pm
  stack_ok : ∀ c ∈ stk, StackOk g0 d st ty pm c
  u_closed : Closed g0 ty st u
  expanded : ∀ c, Closed g0 ty st c →
    c ∈ stk ∨ PushedFor g0 ty en stk c (directions d) ∨ c = u
  done : PushedFor g0 ty en stk u done

/-- The flag of the termination measure: 0 when the top of the stack is an Empty node. -/
def topFlag (ty : Cell → NodeType) : List Cell → Nat
  | [] => 1
  | c :: _ => if ty c = .Empty then 0 else 1

/-- The lexicographic order on triples of naturals. -/
def lex3 : Nat × Nat × Nat → Nat × Nat × Nat → Prop := Prod.Lex (· < ·) lex2

theorem lex3_wf : WellFounded lex3 := WellFounded.prod_lex Nat.lt_wfRel.wf lex2_wf

theorem topFlag_le (ty : Cell → NodeType) (stk : List Cell) : topFlag ty stk ≤ 1 := by
  cases stk with
  | nil => exact Nat.le_refl 1
  | cons c _ =>
    simp only [topFlag]
    split_ifs <;> omega

section dfs
variable {g0 : Grid} {d : Bool} {st en : Cell} {ty : Cell → NodeType} {pm : Cell → Option Cell}

theorem DFSRunning.dfs_no_route (hw : WellFormed g0 st en) (h : DFSRunning g0 d st en ty pm [])
    (j : Nat) : ¬ EmptyRoute g0 d st en j := by
  have hexp : ∀ c, Closed g0 ty st c → PushedFor g0 ty en [] c (directions d) := by
    intro c hc
    rcases h.expanded c hc with h1 | h1
    · cases h1
    · exact h1
  have hwalk : ∀ j p, EmptyWalk g0 d st j p → Closed g0 ty st p := by
    intro j p hp
    induction hp with
    | start => exact Or.inl rfl
    | step j p c _ ha he ih =>
      obtain ⟨dir, hdir, hnb⟩ := ha
      rcases (hexp p ih dir hdir c hnb).2 with h1 | h1
      · exact Or.inr (h.core.not_empty_marked hw (neighborAt_inGrid hnb) he h1)
      · cases h1
  rintro ⟨p, hp, dir, hdir, hnb⟩
  exact (hexp p (hwalk j p hp) dir hdir en hnb).1 rfl

theorem PushedFor.pushed_snoc {stk : List Cell} {c : Cell} {ds : List (Int × Int)} {dir : Int × Int}
    (h : PushedFor g0 ty en stk c ds)
    (hd : ∀ w, neighborAt g0 c dir = some w → w ≠ en ∧ (ty w ≠ .Empty ∨ w ∈ stk)) :
    PushedFor g0 ty en stk c (ds ++ [dir]) := by
  intro dir' hdir' w hnb
  rcases List.mem_append.1 hdir' with h1 | h1
  · exact h dir' h1 w hnb
  · rw [List.mem_singleton.1 h1] at hnb
    exact hd w hnb

theorem PushedFor.pushed_mono {ty' : Cell → NodeType} {stk stk' : List Cell} {c : Cell}
    {ds : List (Int × Int)}
    (hty : ∀ w, ty w ≠ .Empty ∨ w ∈ stk → ty' w ≠ .Empty ∨ w ∈ stk')
    (h : PushedFor g0 ty en stk c ds) : PushedFor g0 ty' en stk' c ds :=
  fun dir hdir w hnb => ⟨(h dir hdir w hnb).1, hty w (h dir hdir w hnb).2⟩

/-- The loop invariant after a stale entry has been popped. -/
theorem DFSRunning.pop_stale (hw : WellFormed g0 st en) {u : Cell} {rest : List Cell}
    (h : DFSRunning g0 d st en ty pm (u :: rest)) (hu : ty u ≠ .Empty) :
    DFSLoop g0 d st en u [] ty pm rest := by
  have _ := hw
  have hcl : Closed g0 ty st u := by
    rcases h.stack_ok u (List.mem_cons_self _ _) with h1 | ⟨_, h1, _⟩
    · exact h1
    · exact absurd h1 hu
  refine ⟨h.core, fun c hc => h.stack_ok c (List.mem_cons_of_mem _ hc), hcl, fun c hc => ?_,
    fun dir hdir => by cases hdir⟩
  rcases h.expanded c hc with h1 | h1
  · rcases List.mem_cons.1 h1 with h2 | h2
    · exact Or.inr (Or.inr h2)
    · exact Or.inl h2
  · refine Or.inr (Or.inl (h1.pushed_mono (fun w hw' => ?_)))
    rcases hw' with h2 | h2
    · exact Or.inl h2
    · rcases List.mem_cons.1 h2 with h3 | h3
      · rw [h3]; exact Or.inl hu
      · exact Or.inr h3

/-- The loop invariant after an Empty node has been popped and marked. -/
theorem DFSRunning.pop_empty (hw : WellFormed g0 st en) {u : Cell} {rest : List Cell}
    (h : DFSRunning g0 d st en ty pm (u :: rest)) (hu : ty u = .Empty) :
    DFSLoop g0 d st en u [] (setAt ty u .Visited) pm rest ∧
    (emptyCells g0 (setAt ty u .Visited)).card + 1 = (emptyCells g0 ty).card := by
  obtain ⟨hin, _, p, hp, hpc, hpa⟩ : InGrid g0 u ∧ ty u = .Empty ∧
      ∃ p, pm u = some p ∧ Closed g0 ty st p ∧ Adj g0 d p u := by
    rcases h.stack_ok u (List.mem_cons_self _ _) with h1 | h1
    · exact absurd hu (h.core.closed_ne hw h1).2
    · exact h1
  obtain ⟨core', _, _, _, _, hcard⟩ := h.core.mark hw hin hu hp hpc hpa
  have hmu : Marked g0 (setAt ty u .Visited) u := ⟨hin, by unfold setAt; rw [if_pos rfl]⟩
  refine ⟨⟨core', fun c hc => ?_, Or.inr hmu, fun c hc => ?_, fun dir hdir => by cases hdir⟩,
    hcard⟩
  · rcases h.stack_ok c (List.mem_cons_of_mem _ hc) with h1 | ⟨h1, h2, q, h3, h4, h5⟩
    · exact Or.inl (h1.mark_closed u)
    · by_cases hcu : c = u
      · rw [hcu]; exact Or.inl (Or.inr hmu)
      · refine Or.inr ⟨h1, ?_, q, h3, h4.mark_closed u, h5⟩
        unfold setAt
        rw [if_neg hcu]
        exact h2
  · by_cases hcu : c = u
    · exact Or.inr (Or.inr hcu)
    · rcases h.expanded c (hc.of_mark hcu) with h1 | h1
      · rcases List.mem_cons.1 h1 with h2 | h2
        · exact absurd h2 hcu
        · exact Or.inl h2
      · refine Or.inr (Or.inl (h1.pushed_mono (fun w hw' => ?_)))
        rcases hw' with h2 | h2
        · exact Or.inl (setAt_ne_empty u w h2)
        · rcases List.mem_cons.1 h2 with h3 | h3
          · left
            rw [h3]
            unfold setAt
            rw [if_pos rfl]
            decide
          · exact Or.inr h3

/-- The neighbour loop pushes an Empty neighbour. -/
theorem DFSLoop.push (hw : WellFormed g0 st en) {u : Cell} {done : List (Int × Int)}
    {stk : List Cell} (h : DFSLoop g0 d st en u done ty pm stk) {w : Cell} {dir : Int × Int}
    (hdir : dir ∈ directions d) (hnb : neighborAt g0 u dir = some w) (hwen : w ≠ en)
    (he : ty w = .Empty) :
    DFSLoop g0 d st en u (done ++ [dir]) ty (setAt pm w (some u)) (w :: stk) := by
  have hwn : ¬ Closed g0 ty st w := fun hc => (h.core.closed_ne hw hc).2 he
  obtain ⟨core1, _⟩ := h.core.setParent hw (some u) hwn
  have hpw : setAt pm w (some u) w = some u := by unfold setAt; rw [if_pos rfl]
  have hok : StackOk g0 d st ty (setAt pm w (some u)) w :=
    Or.inr ⟨neighborAt_inGrid hnb, he, u, hpw, h.u_closed, ⟨dir, hdir, hnb⟩⟩
  refine ⟨core1, fun c hc => ?_, h.u_closed, fun c hc => ?_, ?_⟩
  · rcases List.mem_cons.1 hc with h1 | h1
    · rw [h1]; exact hok
    · rcases h.stack_ok c h1 with h2 | ⟨h2, h3, q, h4, h5, h6⟩
      · exact Or.inl h2
      · by_cases hcw : c = w
        · rw [hcw]; exact hok
        · refine Or.inr ⟨h2, h3, q, ?_, h5, h6⟩
          unfold setAt
          rw [if_neg hcw]
          exact h4
  · rcases h.expanded c hc with h1 | h1 | h1
    · exact Or.inl (List.mem_cons_of_mem _ h1)
    · exact Or.inr (Or.inl (h1.pushed_mono (fun x hx => hx.imp id (List.mem_cons_of_mem _))))
    · exact Or.inr (Or.inr h1)
  · apply PushedFor.pushed_snoc (h.done.pushed_mono (fun x hx => hx.imp id (List.mem_cons_of_mem _)))
    intro w' hw'
    rw [hnb] at hw'
    cases hw'
    exact ⟨hwen, Or.inr (List.mem_cons_self _ _)⟩

/-- The neighbour loop passes an offset that leads out of the grid or to a node that is neither
the end node nor Empty. -/
theorem DFSLoop.dfs_skip {u : Cell} {done : List (Int × Int)} {stk : List Cell}
    (h : DFSLoop g0 d st en u done ty pm stk) {e : Int × Int}
    (hd : ∀ w, neighborAt g0 u e = some w → w ≠ en ∧ ty w ≠ .Empty) :
    DFSLoop g0 d st en u (done ++ [e]) ty pm stk :=
  ⟨h.core, h.stack_ok, h.u_closed, h.expanded,
    h.done.pushed_snoc (fun w hw' => ⟨(hd w hw').1, Or.inl (hd w hw').2⟩)⟩

/-- The neighbour loop meets the end node. -/
theorem DFSLoop.dfs_found (hw : WellFormed g0 st en) {u : Cell} {done : List (Int × Int)}
    {stk : List Cell} (h : DFSLoop g0 d st en u done ty pm stk) {dir : Int × Int}
    (hdir : dir ∈ directions d) (hnb : neighborAt g0 u dir = some en) :
    SearchCore g0 d st ty (setAt pm en (some u)) ∧
    ∃ n, ParentChain g0 d ty (setAt pm en (some u)) st n u ∧ n + 2 ≤ g0.rows * g0.cols ∧
      Found g0 d st en (setAt pm en (some u)) n := by
  have hen : ¬ Closed g0 ty st en := fun hc => (h.core.closed_ne hw hc).1 rfl
  obtain ⟨core1, iff1⟩ := h.core.setParent hw (some u) hen
  obtain ⟨n, hb, hn⟩ := h.core.chain u h.u_closed
  have hu := (iff1 n u).1 hn
  have h2 := emptyCells_card_add_two hw
  refine ⟨core1, n, hu, by omega, u, ?_, ⟨dir, hdir, hnb⟩,
    hu.pwalk (fun c hc => h.core.marked_orig hw hc)⟩
  unfold setAt
  rw [if_pos rfl]

/-- The invariant between two calls once the neighbour loop of `u` is over. -/
theorem DFSLoop.dfs_running {u : Cell} {stk : List Cell}
    (h : DFSLoop g0 d st en u (directions d) ty pm stk) : DFSRunning g0 d st en ty pm stk := by
  refine ⟨h.core, h.stack_ok, fun c hc => ?_⟩
  rcases h.expanded c hc with h1 | h1 | h1
  · exact Or.inl h1
  · exact Or.inr h1
  · rw [h1]; exact Or.inr h.done

end dfs

/-- The invariant of the depth-first engine on the states of a run. -/
def DFSInv (g0 : Grid) (d : Bool) (st en : Cell) (gs : Grid × DFSState) : Prop :=
  Frame g0 gs.1 ∧
  ((gs.2.isSearching = true ∧ gs.2.isComplete = false ∧ gs.2.noPathExists = false ∧
      DFSRunning g0 d st en gs.1.base gs.2.parentMap gs.2.stack) ∨
   (gs.2.isSearching = false ∧ gs.2.isComplete = true ∧ gs.2.noPathExists = false ∧
      ∃ n, Found g0 d st en gs.2.parentMap n) ∨
   (gs.2.isSearching = false ∧ gs.2.isComplete = true ∧ gs.2.noPathExists = true ∧
      ∀ j, ¬ EmptyRoute g0 d st en j))

/-- The termination measure of the depth-first engine: the number of Empty nodes, then whether
the top of the stack is Empty, then the height of the stack. -/
def dfsMeasure (g0 : Grid) (gs : Grid × DFSState) : Nat × Nat × Nat :=
  if gs.2.isComplete = true then (0, 0, 0)
  else ((emptyCells g0 gs.1.base).card + 1, topFlag gs.1.base gs.2.stack, gs.2.stack.length)

section dfs_step
variable {g0 : Grid} {d : Bool} {st en : Cell}

theorem drawCurrentDFSPath_eq (fuel : Nat) (g : Grid) (c : Cell) (pm : Cell → Option Cell) :
    drawCurrentDFSPath fuel g c pm = drawCurrentPath fuel g c pm := rfl

theorem dfsNeighbors_spec (hw : WellFormed g0 st en) {fuel : Nat}
    (hfuel : g0.rows * g0.cols ≤ fuel) (u : Cell) :
    ∀ (ds done : List (Int × Int)) (g : Grid) (s : DFSState),
      (∀ dir ∈ ds, dir ∈ directions d) → Frame g0 g →
      DFSLoop g0 d st en u done g.base s.parentMap s.stack →
      ∃ g' s', dfsNeighbors fuel u ds g s = some (g', s') ∧ Frame g0 g' ∧
        s'.noPathExists = s.noPathExists ∧
        ((s'.isSearching = s.isSearching ∧ s'.isComplete = s.isComplete ∧ g' = g ∧
          DFSLoop g0 d st en u (done ++ ds) g.base s'.parentMap s'.stack ∧
          (s'.stack = s.stack ∨ topFlag g.base s'.stack = 0)) ∨
         (s'.isSearching = false ∧ s'.isComplete = true ∧
          ∃ n, Found g0 d st en s'.parentMap n)) := by
  intro ds
  induction ds with
  | nil =>
    intro done g s _ hf h
    exact ⟨g, s, rfl, hf, rfl, Or.inl ⟨rfl, rfl, rfl, by rw [List.append_nil]; exact h,
      Or.inl rfl⟩⟩
  | cons dir ds ih =>
    intro done g s hds hf h
    have hdir : dir ∈ directions d := hds dir (List.mem_cons_self _ _)
    have hds' : ∀ x ∈ ds, x ∈ directions d := fun x hx => hds x (List.mem_cons_of_mem _ hx)
    have happ : done ++ [dir] ++ ds = done ++ dir :: ds := by simp
    rw [dfsNeighbors, neighborAt_congr hf.rows hf.cols]
    cases hnb : neighborAt g0 u dir with
    | none =>
      simp only
      have h1 := h.dfs_skip (e := dir) (fun w hw' => by rw [hnb] at hw'; cases hw')
      obtain ⟨g', s', e, hf', hnp, hres⟩ := ih (done ++ [dir]) g s hds' hf h1
      rw [happ] at hres
      exact ⟨g', s', e, hf', hnp, hres⟩
    | some w =>
      simp only
      by_cases hwe : g.endNode = some w
      · have hwen : w = en := by
          rw [hf.endNode, hw.endNode] at hwe
          cases hwe
          rfl
        subst hwen
        rw [if_pos hwe]
        obtain ⟨core1, n, hu, hbound, hfound⟩ := h.dfs_found hw hdir hnb
        obtain ⟨g', e1, hf', _, v, e2⟩ := drawCurrentPath_end hw hf core1
          (by unfold setAt; rw [if_pos rfl]) hu (f := fuel) (by omega) s.pathCost
        rw [drawCurrentDFSPath_eq, e1, Option.some_bind, e2, Option.some_bind]
        exact ⟨_, _, rfl, hf', rfl, Or.inr ⟨rfl, rfl, n, hfound⟩⟩
      · rw [if_neg hwe]
        have hwen : w ≠ en := by
          rintro rfl
          exact hwe (by rw [hf.endNode, hw.endNode])
        by_cases hE : (g.node w).type = .Empty
        · rw [if_pos hE]
          have hty : g.base w = .Empty := base_eq_empty.2 hE
          have h1 := h.push hw hdir hnb hwen hty
          obtain ⟨g', s', e, hf', hnp, hres⟩ := ih (done ++ [dir]) g
            { s with parentMap := setAt s.parentMap w (some u), stack := w :: s.stack,
                     currentLine := 11 }
            hds' hf h1
          rw [happ] at hres
          refine ⟨g', s', e, hf', hnp, ?_⟩
          rcases hres with ⟨a, b, c, e', hstk⟩ | hres
          · refine Or.inl ⟨a, b, c, e', Or.inr ?_⟩
            rcases hstk with h2 | h2
            · rw [h2]
              simp only [topFlag, hty, if_true]
            · exact h2
          · exact Or.inr hres
        · rw [if_neg hE]
          have h1 := h.dfs_skip (e := dir) (fun w' hw' => by
            rw [hnb] at hw'
            cases hw'
            exact ⟨hwen, fun e => hE (base_eq_empty.1 e)⟩)
          obtain ⟨g', s', e, hf', hnp, hres⟩ := ih (done ++ [dir]) g
            { s with currentLine := 7 } hds' hf h1
          rw [happ] at hres
          exact ⟨g', s', e, hf', hnp, hres⟩

theorem dfsStep_spec (hw : WellFormed g0 st en) {fuel : Nat}
    (hfuel : g0.rows * g0.cols ≤ fuel) (gs : Grid × DFSState) (h : DFSInv g0 d st en gs) :
    ∃ gs', dfsStep fuel d gs = some gs' ∧ DFSInv g0 d st en gs' ∧
      (gs.2.isComplete = false → lex3 (dfsMeasure g0 gs') (dfsMeasure g0 gs)) := by
  obtain ⟨g, s⟩ := gs
  obtain ⟨hf, hcase⟩ := h
  rcases hcase with ⟨h1, h2, h3, hrun⟩ | ⟨h1, h2, h3, hfound⟩ | ⟨h1, h2, h3, hno⟩
  · dsimp only at h1 h2 h3 hrun
    have hcond : ¬ (s.isSearching = false ∨ s.isComplete = true) := by simp [h1, h2]
    unfold dfsStep
    dsimp only
    rw [if_neg hcond]
    cases hq : s.stack with
    | nil =>
      rw [hq] at hrun
      refine ⟨_, rfl, ⟨hf, Or.inr (Or.inr ⟨rfl, rfl, rfl, hrun.dfs_no_route hw⟩)⟩, ?_⟩
      intro _
      simp only [dfsMeasure, h2, if_true, Bool.false_eq_true, if_false]
      exact Prod.Lex.left _ _ (Nat.succ_pos _)
    | cons u rest =>
      rw [hq] at hrun
      dsimp only
      -- the state of the search when the neighbour loop starts
      obtain ⟨g1, hg1, hf1, hloop, hmeas⟩ : ∃ g1,
          g1 = (if (g.node u).type = .Empty then
                  g.modify u.1 u.2 fun n =>
                    { n with type := .Visited, fillColor := ⟨173, 216, 230⟩ }
                else g) ∧
          Frame g0 g1 ∧ DFSLoop g0 d st en u [] g1.base s.parentMap rest ∧
          (((emptyCells g0 g1.base).card + 1 = (emptyCells g0 g.base).card) ∨
           (g1.base = g.base ∧ g.base u ≠ .Empty)) := by
        by_cases hE : (g.node u).type = .Empty
        · have hb := base_modify g u
            (fun n => { n with type := .Visited, fillColor := ⟨173, 216, 230⟩ }) .Visited
            (fun _ => rfl)
          obtain ⟨hl, hc⟩ := hrun.pop_empty hw (base_eq_empty.2 hE)
          refine ⟨_, rfl, ?_, ?_, ?_⟩
          · rw [if_pos hE]; exact frame_modify hf u _ (fun _ => rfl)
          · rw [if_pos hE, hb]; exact hl
          · rw [if_pos hE, hb]; exact Or.inl hc
        · have hne : g.base u ≠ .Empty := fun e => hE (base_eq_empty.1 e)
          refine ⟨_, rfl, ?_, ?_, ?_⟩
          · rw [if_neg hE]; exact hf
          · rw [if_neg hE]; exact hrun.pop_stale hw hne
          · rw [if_neg hE]; exact Or.inr ⟨rfl, hne⟩
      rw [← hg1]
      obtain ⟨n, hb, hn⟩ := hloop.core.chain u hloop.u_closed
      have hE0 := emptyCells_card_add_two hw
      obtain ⟨g2, e1, hf2, hb2⟩ := drawCurrentPath_closed hw hf1 hloop.core hn
        (f := fuel) (by omega)
      rw [drawCurrentDFSPath_eq, e1, Option.some_bind]
      obtain ⟨g', s', e2, hf', hnp, hres⟩ := dfsNeighbors_spec hw hfuel u (directions d) [] g2
        { s with stack := rest, nodesVisited := s.nodesVisited + 1, currentLine := 10 }
        (fun _ hx => hx) hf2 (by rw [hb2]; exact hloop)
      have f1 : s.isSearching = s.isSearching := rfl
      have f2 : s.isComplete = s.isComplete := rfl
      have f3 : s.noPathExists = s.noPathExists := rfl
      have f4 : ({ s with stack := rest, nodesVisited := s.nodesVisited + 1,
                          currentLine := 10 } : DFSState).stack = rest := rfl
      refine ⟨(g', s'), e2, ⟨hf', ?_⟩, ?_⟩
      · rcases hres with ⟨a, b, c, hl, _⟩ | ⟨a, b, c⟩
        · rw [List.nil_append] at hl
          subst c
          exact Or.inl ⟨by rw [a]; exact f1.trans h1, by rw [b]; exact f2.trans h2,
            by rw [hnp]; exact f3.trans h3, hl.dfs_running⟩
        · exact Or.inr (Or.inl ⟨a, b, by rw [hnp]; exact f3.trans h3, c⟩)
      · intro _
        rcases hres with ⟨_, b, c, _, hstk⟩ | ⟨_, b, _⟩
        · have b' : s'.isComplete = false := by rw [b]; exact f2.trans h2
          subst c
          simp only [dfsMeasure, b', h2, hq, Bool.false_eq_true, if_false, List.length_cons]
          rw [hb2]
          rcases hmeas with hm | ⟨hm1, hm2⟩
          · exact Prod.Lex.left _ _ (by omega)
          · rw [hm1]
            refine Prod.Lex.right _ ?_
            have htop : topFlag g.base (u :: rest) = 1 := by
              simp only [topFlag, hm2, if_false]
            rw [htop]
            rcases hstk with hs | hs
            · have hs' : s'.stack = rest := hs.trans f4
              rw [hs']
              have := topFlag_le g.base rest
              rcases Nat.lt_or_ge (topFlag g.base rest) 1 with h5 | h5
              · exact lex2_left h5
              · have h6 : topFlag g.base rest = 1 := by omega
                rw [h6]
                exact lex2_right (Nat.lt_succ_self _)
            · rw [hb2, hm1] at hs
              rw [hs]
              exact lex2_left Nat.zero_lt_one
        · simp only [dfsMeasure, b, h2, if_true, Bool.false_eq_true, if_false]
          exact Prod.Lex.left _ _ (Nat.succ_pos _)
  · dsimp only at h1 h2 h3 hfound
    refine ⟨(g, s), ?_, ⟨hf, Or.inr (Or.inl ⟨h1, h2, h3, hfound⟩)⟩, ?_⟩
    · unfold dfsStep
      simp [h1]
    · intro e
      simp [h2] at e
  · dsimp only at h1 h2 h3 hno
    refine ⟨(g, s), ?_, ⟨hf, Or.inr (Or.inr ⟨h1, h2, h3, hno⟩)⟩, ?_⟩
    · unfold dfsStep
      simp [h1]
    · intro e
      simp [h2] at e

end dfs_step

section dfs_main
variable {g0 : Grid} {d : Bool} {st en : Cell}

theorem searchCore_init (hw : WellFormed g0 st en) :
    SearchCore g0 d st g0.base (fun _ => none) ∧ ∀ c, Closed g0 g0.base st c → c = st := by
  have hnm : ∀ c, ¬ Marked g0 g0.base c := by
    intro c hc
    have := hc.2
    rw [hw.base_eq hc.1] at this
    exact (hw.types c.1 hc.1.1 c.2 hc.1.2).1 this
  have hcl : ∀ c, Closed g0 g0.base st c → c = st := by
    rintro c (e | e)
    · exact e
    · exact absurd e (hnm c)
  refine ⟨⟨fun c hc => Or.inl (hw.base_eq hc), rfl, fun c hc => ?_⟩, hcl⟩
  rw [hcl c hc]
  exact ⟨0, Nat.le_of_eq (Nat.zero_add _), ParentChain.start⟩

theorem dfs_init (hw : WellFormed g0 st en) :
    DFSInv g0 d st en (g0, ⟨[st], fun _ => none, true, false, false, 0, 0, 0⟩) := by
  obtain ⟨hcore, hcl⟩ := searchCore_init (d := d) hw
  refine ⟨Frame.refl g0, Or.inl ⟨rfl, rfl, rfl, ⟨hcore, ?_, ?_⟩⟩⟩
  · intro c hc
    rw [List.mem_singleton.1 hc]
    exact Or.inl (Or.inl rfl)
  · intro c hc
    rw [hcl c hc]
    exact Or.inl (List.mem_singleton.2 rfl)

theorem dfsRun_eq (hw : WellFormed g0 st en) (fuel : Nat) (k : Nat) :
    dfsRun fuel d g0 k =
      iterStep (dfsStep fuel d) k (g0, ⟨[st], fun _ => none, true, false, false, 0, 0, 0⟩) := by
  unfold dfsRun dfsStart
  rw [hw.startNode]
  rfl

/-- With enough fuel a run of the depth-first engine reaches a complete state, and the state
satisfies the invariant. -/
theorem dfs_reach (hw : WellFormed g0 st en) {fuel : Nat} (hfuel : g0.rows * g0.cols ≤ fuel) :
    ∃ k gs, dfsRun fuel d g0 k = some gs ∧ gs.2.isComplete = true ∧ DFSInv g0 d st en gs ∧
      ∀ i, i < k → ∃ t, dfsRun fuel d g0 i = some t ∧ t.2.isComplete = false := by
  obtain ⟨k, gs, hrun, hfin, hinv, hbefore⟩ :=
    iterStep_reach (dfsStep fuel d) (DFSInv g0 d st en) (fun gs => gs.2.isComplete)
      lex3 lex3_wf (dfsMeasure g0)
      (fun gs h hfin => by
        obtain ⟨gs', e, h', hm⟩ := dfsStep_spec hw hfuel gs h
        exact ⟨gs', e, h', hm hfin⟩)
      _ (dfs_init (d := d) hw)
  refine ⟨k, gs, by rw [dfsRun_eq hw]; exact hrun, hfin, hinv, fun i hi => ?_⟩
  rw [dfsRun_eq hw]
  exact hbefore i hi

end dfs_main

/-- C13: on a well-formed grid, if the end node is reachable from the start node through Empty
nodes under the active adjacency, then with fuel of at least `rows * cols` for the tracing loops
a freshly started depth-first search reaches a state with `isComplete = true`,
`noPathExists = false` and `isSearching = false` in which following `parentMap` from the end
node leads to the start node through pairwise adjacent nodes none of which is a Wall; no earlier
state is complete. -/
theorem dfs_finds_path (g0 : Grid) (st en : Cell) (hw : WellFormed g0 st en) (isDiagonal : Bool)
    (fuel : Nat) (hfuel : g0.rows * g0.cols ≤ fuel) (j : Nat)
    (hroute : EmptyRoute g0 isDiagonal st en j) :
    ∃ k g s, dfsRun fuel isDiagonal g0 k = some (g, s) ∧
      s.isComplete = true ∧ s.noPathExists = false ∧ s.isSearching = false ∧
      (∃ n, ParentPath g0 isDiagonal s.parentMap st n en) ∧
      ∀ i, i < k → ∃ g' s', dfsRun fuel isDiagonal g0 i = some (g', s') ∧
        s'.isComplete = false := by
  obtain ⟨k, ⟨g, s⟩, hrun, hfin, ⟨_, hcase⟩, hbefore⟩ := dfs_reach (d := isDiagonal) hw hfuel
  have hfound : s.isSearching = false ∧ s.noPathExists = false ∧
      ∃ n, Found g0 isDiagonal st en s.parentMap n := by
    rcases hcase with ⟨_, h2, _⟩ | ⟨h1, _, h3, hf⟩ | ⟨_, _, _, hno⟩
    · rw [hfin] at h2; cases h2
    · exact ⟨h1, h3, hf⟩
    · exact absurd hroute (hno j)
  obtain ⟨h1, h3, n, hf⟩ := hfound
  refine ⟨k, g, s, hrun, hfin, h3, h1, ⟨n + 1, hf.found_path hw⟩, fun i hi => ?_⟩
  obtain ⟨⟨g', s'⟩, e, hc⟩ := hbefore i hi
  exact ⟨g', s', e, hc⟩

theorem dfs_finds_path_witness :
    ∃ k g s, dfsRun 3 false lineGrid k = some (g, s) ∧
      s.isComplete = true ∧ s.noPathExists = false ∧ s.isSearching = false ∧
      (∃ n, ParentPath lineGrid false s.parentMap (0, 0) n (0, 2)) ∧
      ∀ i, i < k → ∃ g' s', dfsRun 3 false lineGrid i = some (g', s') ∧
        s'.isComplete = false :=
  dfs_finds_path lineGrid (0, 0) (0, 2) lineGrid_wellFormed false 3 (by decide) 1 lineGrid_route

/-! ## Dijkstra and A*: shared invariant -/

/-- A node of the grid that is not a Wall in the initial grid. -/
def NonWall (g0 : Grid) (c : Cell) : Prop := InGrid g0 c ∧ (g0.node c).type ≠ .Wall

/-- The Walls of `g` are the Walls of `g0`. -/
def WallsEq (g0 g : Grid) : Prop := ∀ c, (g.node c).type = .Wall ↔ (g0.node c).type = .Wall

/-- The sum of the costs recorded for the nodes of the grid. -/
def costSum (g0 : Grid) (cm : Cell → Int) : Nat :=
  ∑ c in Finset.range g0.rows ×ˢ Finset.range g0.cols, (cm c).toNat

/-- The invariant on the cost map, the parent map and the nodes of the open set: costs lie
between 0 and `INT_MAX`; a parent is cheaper than its child by at least the cost of the child;
an open node is reachable from the start node without crossing a Wall and has a finite cost. -/
structure CostInv (g0 : Grid) (d : Bool) (st : Cell) (cm : Cell → Int)
    (pm : Cell → Option Cell) (nodes : List Cell) : Prop where
  nonneg : ∀ c, 0 ≤ cm c
  le_max : ∀ c, cm c ≤ INT_MAX
  parent : ∀ c u, pm c = some u → NonWall g0 c ∧ NonWall g0 u ∧ cm u + (g0.node c).cost ≤ cm c
  open_ok : ∀ c ∈ nodes, FreeWalk g0 d st c ∧ cm c < INT_MAX

section cost
variable {g0 : Grid} {d : Bool} {st en : Cell}

theorem FreeWalk.nonWall (hw : WellFormed g0 st en) {c : Cell} (h : FreeWalk g0 d st c) :
    NonWall g0 c := by
  cases h with
  | start => exact ⟨hw.st_in, by rw [hw.st_type]; decide⟩
  | step p c _ ha hn => exact ⟨by obtain ⟨dir, _, hnb⟩ := ha; exact neighborAt_inGrid hnb, hn⟩

theorem WellFormed.cost_pos (hw : WellFormed g0 st en) {c : Cell} (hc : InGrid g0 c) :
    1 ≤ (g0.node c).cost := by
  have := hw.costs c.1 hc.1 c.2 hc.2
  unfold Grid.node
  rw [this]
  split_ifs <;> decide

theorem costSum_setAt {cm : Cell → Int} {w : Cell} {v : Int} (hw : InGrid g0 w) (h0 : 0 ≤ v)
    (hlt : v < cm w) : costSum g0 (setAt cm w v) + 1 ≤ costSum g0 cm := by
  have hmem : w ∈ Finset.range g0.rows ×ˢ Finset.range g0.cols := by
    simpa [InGrid] using hw
  unfold costSum
  apply Nat.succ_le_of_lt
  apply Finset.sum_lt_sum
  · intro c _
    unfold setAt
    split_ifs with e
    · rw [e]; omega
    · exact Nat.le_refl _
  · refine ⟨w, hmem, ?_⟩
    unfold setAt
    rw [if_pos rfl]
    omega

/-- Relaxing the edge from the open node `u` to a neighbour `w` that is not a Wall keeps the
invariant and lowers the sum of the costs. -/
theorem CostInv.relax (hw : WellFormed g0 st en) {cm : Cell → Int} {pm : Cell → Option Cell}
    {nodes : List Cell} (h : CostInv g0 d st cm pm nodes) {u w : Cell}
    (hu : FreeWalk g0 d st u) (ha : Adj g0 d u w) (hn : (g0.node w).type ≠ .Wall)
    (hlt : cm u + (g0.node w).cost < cm w) :
    CostInv g0 d st (setAt cm w (cm u + (g0.node w).cost)) (setAt pm w (some u)) (w :: nodes) ∧
    costSum g0 (setAt cm w (cm u + (g0.node w).cost)) + 1 ≤ costSum g0 cm := by
  have hwin : InGrid g0 w := by obtain ⟨dir, _, hnb⟩ := ha; exact neighborAt_inGrid hnb
  have hpos := hw.cost_pos hwin
  have hu0 := h.nonneg u
  have huw : u ≠ w := by
    rintro rfl
    omega
  have hle : ∀ c, setAt cm w (cm u + (g0.node w).cost) c ≤ cm c := by
    intro c
    unfold setAt
    split_ifs with e
    · rw [e]; omega
    · exact Int.le_refl _
  have hwmax := h.le_max w
  refine ⟨⟨fun c => ?_, fun c => ?_, fun c p hp => ?_, fun c hc => ?_⟩,
    costSum_setAt hwin (by omega) hlt⟩
  · unfold setAt
    split_ifs
    · omega
    · exact h.nonneg c
  · exact Int.le_trans (hle c) (h.le_max c)
  · by_cases hcw : c = w
    · subst hcw
      have hp' : p = u := by
        unfold setAt at hp
        rw [if_pos rfl] at hp
        cases hp
        rfl
      subst hp'
      refine ⟨⟨hwin, hn⟩, hu.nonWall hw, ?_⟩
      unfold setAt
      rw [if_neg huw, if_pos rfl]
    · have hp0 : pm c = some p := by
        unfold setAt at hp
        rwa [if_neg hcw] at hp
      obtain ⟨h1, h2, h3⟩ := h.parent c p hp0
      refine ⟨h1, h2, ?_⟩
      have h4 := hle p
      have h5 : setAt cm w (cm u + (g0.node w).cost) c = cm c := by
        unfold setAt
        rw [if_neg hcw]
      rw [h5]
      omega
  · rcases List.mem_cons.1 hc with h1 | h1
    · rw [h1]
      refine ⟨FreeWalk.step u w hu ha hn, ?_⟩
      unfold setAt
      rw [if_pos rfl]
      omega
    · exact ⟨(h.open_ok c h1).1, Int.lt_of_le_of_lt (hle c) (h.open_ok c h1).2⟩

theorem CostInv.subset {cm : Cell → Int} {pm : Cell → Option Cell} {nodes nodes' : List Cell}
    (h : CostInv g0 d st cm pm nodes) (hs : ∀ c ∈ nodes', c ∈ nodes) :
    CostInv g0 d st cm pm nodes' :=
  ⟨h.nonneg, h.le_max, h.parent, fun c hc => h.open_ok c (hs c hc)⟩

/-- With fuel above the cost of the node the tracing loop ends; it keeps the frame and the
Walls. -/
theorem tracePath_cost (hw : WellFormed g0 st en) {cm : Cell → Int} {pm : Cell → Option Cell}
    {nodes : List Cell} (h : CostInv g0 d st cm pm nodes) :
    ∀ (fuel : Nat) (g : Grid) (t : Cell), (cm t).toNat < fuel → NonWall g0 t → Frame g0 g →
      WallsEq g0 g →
      ∃ g', tracePath pm fuel g (some t) = some g' ∧ Frame g0 g' ∧ WallsEq g0 g' := by
  intro fuel
  induction fuel with
  | zero => intro g t hlt; exact absurd hlt (Nat.not_lt_zero _)
  | succ fuel ih =>
    intro g t hlt hnw hf hwalls
    rw [tracePath]
    by_cases hs : g.startNode = some t
    · rw [if_pos hs]; exact ⟨g, rfl, hf, hwalls⟩
    · rw [if_neg hs]
      dsimp only
      have key : ∀ g1, Frame g0 g1 → WallsEq g0 g1 →
          ∃ g', tracePath pm fuel g1 (pm t) = some g' ∧ Frame g0 g' ∧ WallsEq g0 g' := by
        intro g1 hf1 hw1
        cases hp : pm t with
        | none =>
          refine ⟨g1, ?_, hf1, hw1⟩
          cases fuel <;> rfl
        | some u =>
          obtain ⟨_, hu, hc⟩ := h.parent t u hp
          have := hw.cost_pos hnw.1
          have := h.nonneg u
          exact ih g1 u (by omega) hu hf1 hw1
      by_cases he : g.endNode = some t
      · simp only [he, ne_eq, not_true_eq_false, if_false]
        exact key g hf hwalls
      · simp only [he, ne_eq, not_false_eq_true, if_true]
        refine key (g.modify t.1 t.2 fun n =>
          { n with type := .Path, fillColor := ⟨255, 255, 0⟩ })
          (frame_modify hf t _ (fun _ => rfl)) ?_
        intro c
        rw [modify_node]
        split_ifs with e
        · rw [e]
          exact ⟨fun x => (by cases x), fun x => absurd x hnw.2⟩
        · exact hwalls c

end cost

/-! ## Dijkstra: termination and soundness of the search -/

/-- The invariant of the Dijkstra engine on the states of a run. -/
def DijkstraInv (g0 : Grid) (d : Bool) (st en : Cell) (gs : Grid × DijkstraState) : Prop :=
  Frame g0 gs.1 ∧ WallsEq g0 gs.1 ∧
  ((gs.2.isSearching = true ∧ gs.2.isComplete = false ∧ gs.2.noPathExists = false ∧
      CostInv g0 d st gs.2.costMap gs.2.parentMap (gs.2.openSet.map DijkstraNode.node)) ∨
   (gs.2.isSearching = false ∧ gs.2.isComplete = true ∧ gs.2.noPathExists = false ∧
      FreeWalk g0 d st en) ∨
   (gs.2.isSearching = false ∧ gs.2.isComplete = true ∧ gs.2.noPathExists = true))

/-- The termination measure of the Dijkstra engine. -/
def dijkstraMeasure (g0 : Grid) (gs : Grid × DijkstraState) : Nat :=
  if gs.2.isComplete = true then 0
  else costSum g0 gs.2.costMap + gs.2.openSet.length + 1

section dijkstra
variable {g0 : Grid} {d : Bool} {st en : Cell}

theorem dijkstraMeasure_running (gs : Grid × DijkstraState) (h : gs.2.isComplete = false) :
    dijkstraMeasure g0 gs = costSum g0 gs.2.costMap + gs.2.openSet.length + 1 := by
  simp [dijkstraMeasure, h]

theorem dijkstraMeasure_complete (gs : Grid × DijkstraState) (h : gs.2.isComplete = true) :
    dijkstraMeasure g0 gs = 0 := by
  simp [dijkstraMeasure, h]

theorem WallsEq.walls_refl (g : Grid) : WallsEq g g := fun _ => Iff.rfl

theorem WallsEq.modify {g : Grid} (h : WallsEq g0 g) (w : Cell) (f : Node → Node)
    (hf : (f (g.node w)).type = .Wall ↔ (g0.node w).type = .Wall) :
    WallsEq g0 (g.modify w.1 w.2 f) := by
  intro c
  rw [modify_node]
  split_ifs with e
  · rw [e]; exact hf
  · exact h c

theorem WallsEq.walls_mapNodes {g : Grid} (h : WallsEq g0 g) (f : Node → Node)
    (hf : ∀ n, (f n).type = .Wall ↔ n.type = .Wall) : WallsEq g0 (g.mapNodes f) := by
  intro c
  rw [mapNodes_node]
  split_ifs
  · rw [hf]; exact h c
  · exact h c

theorem Frame.mapNodes {g : Grid} (h : Frame g0 g) (f : Node → Node)
    (hf : ∀ n, (f n).cost = n.cost) : Frame g0 (g.mapNodes f) := by
  refine ⟨h.rows, h.cols, h.startNode, h.endNode, fun c => ?_⟩
  rw [mapNodes_node]
  split_ifs
  · rw [hf]; exact h.cost c
  · exact h.cost c

theorem drawCurrentDijkstraPath_spec (hw : WellFormed g0 st en) {cm : Cell → Int}
    {pm : Cell → Option Cell} {nodes : List Cell} (h : CostInv g0 d st cm pm nodes)
    {fuel : Nat} (hfuel : 2147483647 ≤ fuel) {g : Grid} (hf : Frame g0 g) (hwalls : WallsEq g0 g)
    {t : Cell} (ht : NonWall g0 t) (hlt : cm t < INT_MAX) :
    ∃ g', drawCurrentDijkstraPath fuel g t pm = some g' ∧ Frame g0 g' ∧ WallsEq g0 g' := by
  unfold drawCurrentDijkstraPath
  apply tracePath_cost hw h fuel _ t _ ht
  · apply hf.mapNodes
    intro n
    split_ifs <;> rfl
  · apply hwalls.walls_mapNodes
    intro n
    by_cases e1 : n.type = .Path
    · simp [e1]
    · simp [e1]
  · have := h.nonneg t
    unfold INT_MAX at hlt
    omega

theorem dijkstraNeighbors_spec (hw : WellFormed g0 st en) (u : Cell)
    (hu : FreeWalk g0 d st u) :
    ∀ (ds : List (Int × Int)) (g : Grid) (s : DijkstraState),
      (∀ dir ∈ ds, dir ∈ directions d) → Frame g0 g → WallsEq g0 g →
      CostInv g0 d st s.costMap s.parentMap (s.openSet.map DijkstraNode.node) →
      Frame g0 (dijkstraNeighbors u ds g s).1 ∧ WallsEq g0 (dijkstraNeighbors u ds g s).1 ∧
      CostInv g0 d st (dijkstraNeighbors u ds g s).2.costMap
        (dijkstraNeighbors u ds g s).2.parentMap
        ((dijkstraNeighbors u ds g s).2.openSet.map DijkstraNode.node) ∧
      costSum g0 (dijkstraNeighbors u ds g s).2.costMap +
          (dijkstraNeighbors u ds g s).2.openSet.length ≤
        costSum g0 s.costMap + s.openSet.length ∧
      (dijkstraNeighbors u ds g s).2.isSearching = s.isSearching ∧
      (dijkstraNeighbors u ds g s).2.isComplete = s.isComplete ∧
      (dijkstraNeighbors u ds g s).2.noPathExists = s.noPathExists := by
  intro ds
  induction ds with
  | nil =>
    intro g s _ hf hwalls h
    exact ⟨hf, hwalls, h, Nat.le_refl _, rfl, rfl, rfl⟩
  | cons dir ds ih =>
    intro g s hds hf hwalls h
    have hdir : dir ∈ directions d := hds dir (List.mem_cons_self _ _)
    have hds' : ∀ x ∈ ds, x ∈ directions d := fun x hx => hds x (List.mem_cons_of_mem _ hx)
    rw [dijkstraNeighbors, neighborAt_congr hf.rows hf.cols]
    cases hnb : neighborAt g0 u dir with
    | none => exact ih g s hds' hf hwalls h
    | some w =>
      dsimp only
      by_cases hwall : (g.node w).type = .Wall
      · rw [if_pos hwall]
        exact ih g s hds' hf hwalls h
      · rw [if_neg hwall]
        by_cases hlt : s.costMap u + (g.node w).cost < s.costMap w
        · rw [if_pos hlt]
          have hn0 : (g0.node w).type ≠ .Wall := fun e => hwall ((hwalls w).2 e)
          have hlt0 : s.costMap u + (g0.node w).cost < s.costMap w := by
            rw [← hf.cost w]; exact hlt
          obtain ⟨h1, h2⟩ := h.relax hw hu ⟨dir, hdir, hnb⟩ hn0 hlt0
          rw [← hf.cost w] at h1 h2
          have hf1 : Frame g0 (if (g.node w).type ≠ .End ∧ (g.node w).type ≠ .Start then
              g.modify w.1 w.2 fun n => { n with fillColor := ⟨200, 255, 200⟩ } else g) := by
            split_ifs
            · exact frame_modify hf w _ (fun _ => rfl)
            · exact hf
          have hw1 : WallsEq g0 (if (g.node w).type ≠ .End ∧ (g.node w).type ≠ .Start then
              g.modify w.1 w.2 fun n => { n with fillColor := ⟨200, 255, 200⟩ } else g) := by
            split_ifs
            · exact hwalls.modify w _ (hwalls w)
            · exact hwalls
          obtain ⟨a, b, c, e, f1, f2, f3⟩ := ih _
            { s with costMap := setAt s.costMap w (s.costMap u + (g.node w).cost),
                     parentMap := setAt s.parentMap w (some u),
                     openSet := ⟨w, s.costMap u + (g.node w).cost⟩ :: s.openSet,
                     currentLine := 10 }
            hds' hf1 hw1 h1
          refine ⟨a, b, c, ?_, f1, f2, f3⟩
          simp only [List.length_cons] at e
          omega
        · rw [if_neg hlt]
          exact ih g { s with currentLine := 8 } hds' hf hwalls h

theorem dijkstraStep_spec (hw : WellFormed g0 st en)
    {pop : List DijkstraNode → Option (DijkstraNode × List DijkstraNode)}
    (hpop : IsMinPop DijkstraNode.cost pop) {fuel : Nat} (hfuel : 2147483647 ≤ fuel)
    (gs : Grid × DijkstraState) (h : DijkstraInv g0 d st en gs) :
    ∃ gs', dijkstraStep pop fuel d gs = some gs' ∧ DijkstraInv g0 d st en gs' ∧
      (gs.2.isComplete = false → dijkstraMeasure g0 gs' < dijkstraMeasure g0 gs) := by
  obtain ⟨g, s⟩ := gs
  obtain ⟨hf, hwalls, hcase⟩ := h
  rcases hcase with ⟨h1, h2, h3, hrun⟩ | ⟨h1, h2, h3, hfound⟩ | ⟨h1, h2, h3⟩
  · dsimp only at h1 h2 h3 hrun hf hwalls
    have hcond : ¬ (s.isSearching = false ∨ s.isComplete = true) := by simp [h1, h2]
    unfold dijkstraStep
    dsimp only
    rw [if_neg hcond]
    by_cases hq : s.openSet.isEmpty = true
    · rw [if_pos hq]
      refine ⟨_, rfl, ⟨hf, hwalls, Or.inr (Or.inr ⟨rfl, rfl, rfl⟩)⟩, fun _ => ?_⟩
      rw [dijkstraMeasure_complete _ rfl, dijkstraMeasure_running _ h2]
      exact Nat.succ_pos _
    · rw [if_neg hq]
      have hne : s.openSet ≠ [] := by
        intro e
        rw [e] at hq
        exact hq rfl
      obtain ⟨x, r, hp, hperm, _⟩ := hpop.pop_cons s.openSet hne
      rw [hp, Option.some_bind]
      dsimp only
      have hxmem : x.node ∈ s.openSet.map DijkstraNode.node :=
        List.mem_map.2 ⟨x, hperm.subset (List.mem_cons_self _ _), rfl⟩
      have hrsub : ∀ c ∈ r.map DijkstraNode.node, c ∈ s.openSet.map DijkstraNode.node := by
        intro c hc
        obtain ⟨y, hy, e⟩ := List.mem_map.1 hc
        exact List.mem_map.2 ⟨y, hperm.subset (List.mem_cons_of_mem _ hy), e⟩
      have hlen : r.length + 1 = s.openSet.length := by
        have := hperm.length_eq
        simpa using this
      obtain ⟨hxw, hxlt⟩ := hrun.open_ok x.node hxmem
      have hinv1 := hrun.subset hrsub
      by_cases hend : g.endNode = some x.node
      · rw [if_pos hend]
        obtain ⟨g', e1, hf', hw'⟩ := drawCurrentDijkstraPath_spec hw hrun hfuel hf hwalls
          (hxw.nonWall hw) hxlt
        rw [e1, Option.some_bind]
        have hxe : x.node = en := by
          rw [hf.endNode, hw.endNode] at hend
          cases hend
          rfl
        refine ⟨_, rfl, ⟨hf', hw', Or.inr (Or.inl ⟨rfl, rfl, h3, hxe ▸ hxw⟩)⟩, fun _ => ?_⟩
        rw [dijkstraMeasure_complete _ rfl, dijkstraMeasure_running _ h2]
        exact Nat.succ_pos _
      · rw [if_neg hend]
        by_cases hvis : (g.node x.node).type = .Visited
        · rw [if_pos hvis]
          refine ⟨_, rfl, ⟨hf, hwalls, Or.inl ⟨h1, h2, h3, hinv1⟩⟩, fun _ => ?_⟩
          rw [dijkstraMeasure_running _ h2, dijkstraMeasure_running _ h2]
          dsimp only
          omega
        · rw [if_neg hvis]
          have hf1 : Frame g0 (if (g.node x.node).type ≠ .Start then
              g.modify x.node.1 x.node.2 fun n =>
                { n with type := .Visited,
                         fillColor := if n.cost > 1 then VISITED_WEIGHT_COLOR
                                      else VISITED_COLOR }
              else g) := by
            split_ifs
            · exact frame_modify hf x.node _ (fun _ => rfl)
            · exact hf
          have hw1 : WallsEq g0 (if (g.node x.node).type ≠ .Start then
              g.modify x.node.1 x.node.2 fun n =>
                { n with type := .Visited,
                         fillColor := if n.cost > 1 then VISITED_WEIGHT_COLOR
                                      else VISITED_COLOR }
              else g) := by
            split_ifs
            · exact hwalls.modify x.node _
                ⟨fun e => (by cases e), fun e => absurd e (hxw.nonWall hw).2⟩
            · exact hwalls
          obtain ⟨g2, e1, hf2, hw2⟩ := drawCurrentDijkstraPath_spec hw hrun hfuel hf1 hw1
            (hxw.nonWall hw) hxlt
          rw [e1, Option.some_bind]
          obtain ⟨a, b, c, e, f1, f2, f3⟩ := dijkstraNeighbors_spec hw x.node hxw
            (directions d) g2
            { s with openSet := r, nodesVisited := s.nodesVisited + 1, currentLine := 6 }
            (fun _ hx => hx) hf2 hw2 hinv1
          refine ⟨_, rfl, ⟨a, b, Or.inl ⟨f1.trans h1, f2.trans h2, f3.trans h3, c⟩⟩, fun _ => ?_⟩
          rw [dijkstraMeasure_running _ (f2.trans h2), dijkstraMeasure_running _ h2]
          dsimp only at e ⊢
          omega
  · refine ⟨(g, s), ?_, ⟨hf, hwalls, Or.inr (Or.inl ⟨h1, h2, h3, hfound⟩)⟩, ?_⟩
    · unfold dijkstraStep
      dsimp only at h1
      simp [h1]
    · intro e
      dsimp only at h2 e
      simp [h2] at e
  · refine ⟨(g, s), ?_, ⟨hf, hwalls, Or.inr (Or.inr ⟨h1, h2, h3⟩)⟩, ?_⟩
    · unfold dijkstraStep
      dsimp only at h1
      simp [h1]
    · intro e
      dsimp only at h2 e
      simp [h2] at e

theorem costInv_init (hw : WellFormed g0 st en) :
    CostInv g0 d st (setAt (fun _ => INT_MAX) st 0) (fun _ => none) [st] := by
  refine ⟨fun c => ?_, fun c => ?_, fun c u hp => (by cases hp), fun c hc => ?_⟩
  · unfold setAt INT_MAX
    split_ifs <;> simp
  · unfold setAt INT_MAX
    split_ifs <;> simp
  · have _ := hw
    rw [List.mem_singleton.1 hc]
    refine ⟨FreeWalk.start, ?_⟩
    unfold setAt INT_MAX
    rw [if_pos rfl]
    decide

theorem dijkstraRun_eq (hw : WellFormed g0 st en)
    (pop : List DijkstraNode → Option (DijkstraNode × List DijkstraNode)) (fuel : Nat)
    (k : Nat) :
    dijkstraRun pop fuel d g0 k =
      iterStep (dijkstraStep pop fuel d) k
        (g0, ⟨[⟨st, 0⟩], fun _ => none, setAt (fun _ => INT_MAX) st 0, true, false, false,
          0, 0, 0⟩) := by
  unfold dijkstraRun dijkstraStart
  rw [hw.startNode, hw.endNode]
  rfl

/-- With enough fuel a run of the Dijkstra engine reaches a complete state, and the state
satisfies the invariant. -/
theorem dijkstra_reach (hw : WellFormed g0 st en)
    {pop : List DijkstraNode → Option (DijkstraNode × List DijkstraNode)}
    (hpop : IsMinPop DijkstraNode.cost pop) {fuel : Nat} (hfuel : 2147483647 ≤ fuel) :
    ∃ k gs, dijkstraRun pop fuel d g0 k = some gs ∧ gs.2.isComplete = true ∧
      DijkstraInv g0 d st en gs ∧
      ∀ i, i < k → ∃ t, dijkstraRun pop fuel d g0 i = some t ∧ t.2.isComplete = false := by
  obtain ⟨k, gs, _, hrun, hfin, hinv, hbefore⟩ :=
    iterStep_reach_bound (dijkstraStep pop fuel d) (DijkstraInv g0 d st en)
      (fun gs => gs.2.isComplete) (dijkstraMeasure g0)
      (fun gs h hfin => by
        obtain ⟨gs', e, h', hm⟩ := dijkstraStep_spec hw hpop hfuel gs h
        exact ⟨gs', e, h', hm hfin⟩)
      (g0, ⟨[⟨st, 0⟩], fun _ => none, setAt (fun _ => INT_MAX) st 0, true, false, false,
          0, 0, 0⟩)
      ⟨Frame.refl g0, WallsEq.walls_refl g0, Or.inl ⟨rfl, rfl, rfl, costInv_init hw⟩⟩
  refine ⟨k, gs, by rw [dijkstraRun_eq hw]; exact hrun, hfin, hinv, fun i hi => ?_⟩
  rw [dijkstraRun_eq hw]
  exact hbefore i hi

end dijkstra

/-! ## A*: termination and soundness of the search -/

/-- The invariant of the A* engine on the states of a run. -/
def AStarInv (g0 : Grid) (d : Bool) (st en : Cell) (gs : Grid × AStarState) : Prop :=
  Frame g0 gs.1 ∧ WallsEq g0 gs.1 ∧
  ((gs.2.isSearching = true ∧ gs.2.isComplete = false ∧ gs.2.noPathExists = false ∧
      CostInv g0 d st gs.2.gCost gs.2.parentMap (gs.2.openSet.map AStarNode.node)) ∨
   (gs.2.isSearching = false ∧ gs.2.isComplete = true ∧ gs.2.noPathExists = false ∧
      FreeWalk g0 d st en) ∨
   (gs.2.isSearching = false ∧ gs.2.isComplete = true ∧ gs.2.noPathExists = true))

/-- The termination measure of the A* engine. -/
def aStarMeasure (g0 : Grid) (gs : Grid × AStarState) : Nat :=
  if gs.2.isComplete = true then 0
  else costSum g0 gs.2.gCost + gs.2.openSet.length + 1

section astar
variable {g0 : Grid} {d : Bool} {st en : Cell}

theorem aStarMeasure_running (gs : Grid × AStarState) (h : gs.2.isComplete = false) :
    aStarMeasure g0 gs = costSum g0 gs.2.gCost + gs.2.openSet.length + 1 := by
  simp [aStarMeasure, h]

theorem aStarMeasure_complete (gs : Grid × AStarState) (h : gs.2.isComplete = true) :
    aStarMeasure g0 gs = 0 := by
  simp [aStarMeasure, h]

theorem drawCurrentAStarPath_spec (hw : WellFormed g0 st en) {cm : Cell → Int}
    {pm : Cell → Option Cell} {nodes : List Cell} (h : CostInv g0 d st cm pm nodes)
    {fuel : Nat} (hfuel : 2147483647 ≤ fuel) {g : Grid} (hf : Frame g0 g) (hwalls : WallsEq g0 g)
    {t : Cell} (ht : NonWall g0 t) (hlt : cm t < INT_MAX) :
    ∃ g', drawCurrentAStarPath fuel g t pm = some g' ∧ Frame g0 g' ∧ WallsEq g0 g' := by
  unfold drawCurrentAStarPath
  apply tracePath_cost hw h fuel _ t _ ht (frame_clearOldPath hf)
  · unfold clearOldPath
    apply hwalls.walls_mapNodes
    intro n
    by_cases e1 : n.type = .Path
    · simp [e1]
    · simp [e1]
  · have := h.nonneg t
    unfold INT_MAX at hlt
    omega

theorem aStarNeighbors_spec (hw : WellFormed g0 st en) (u : Cell) (endNode : Cell)
    (hu : FreeWalk g0 d st u) :
    ∀ (ds : List (Int × Int)) (g : Grid) (s : AStarState),
      (∀ dir ∈ ds, dir ∈ directions d) → Frame g0 g → WallsEq g0 g →
      CostInv g0 d st s.gCost s.parentMap (s.openSet.map AStarNode.node) →
      Frame g0 (aStarNeighbors u endNode ds g s).1 ∧
      WallsEq g0 (aStarNeighbors u endNode ds g s).1 ∧
      CostInv g0 d st (aStarNeighbors u endNode ds g s).2.gCost
        (aStarNeighbors u endNode ds g s).2.parentMap
        ((aStarNeighbors u endNode ds g s).2.openSet.map AStarNode.node) ∧
      costSum g0 (aStarNeighbors u endNode ds g s).2.gCost +
          (aStarNeighbors u endNode ds g s).2.openSet.length ≤
        costSum g0 s.gCost + s.openSet.length ∧
      (aStarNeighbors u endNode ds g s).2.isSearching = s.isSearching ∧
      (aStarNeighbors u endNode ds g s).2.isComplete = s.isComplete ∧
      (aStarNeighbors u endNode ds g s).2.noPathExists = s.noPathExists := by
  intro ds
  induction ds with
  | nil =>
    intro g s _ hf hwalls h
    exact ⟨hf, hwalls, h, Nat.le_refl _, rfl, rfl, rfl⟩
  | cons dir ds ih =>
    intro g s hds hf hwalls h
    have hdir : dir ∈ directions d := hds dir (List.mem_cons_self _ _)
    have hds' : ∀ x ∈ ds, x ∈ directions d := fun x hx => hds x (List.mem_cons_of_mem _ hx)
    rw [aStarNeighbors, neighborAt_congr hf.rows hf.cols]
    cases hnb : neighborAt g0 u dir with
    | none => exact ih g s hds' hf hwalls h
    | some w =>
      dsimp only
      by_cases hskip : (g.node w).type = .Wall ∨ (g.node w).type = .Visited
      · rw [if_pos hskip]
        exact ih g s hds' hf hwalls h
      · rw [if_neg hskip]
        have hwall : (g.node w).type ≠ .Wall := fun e => hskip (Or.inl e)
        by_cases hlt : s.gCost u + (g.node w).cost < s.gCost w
        · rw [if_pos hlt]
          have hn0 : (g0.node w).type ≠ .Wall := fun e => hwall ((hwalls w).2 e)
          have hlt0 : s.gCost u + (g0.node w).cost < s.gCost w := by
            rw [← hf.cost w]; exact hlt
          obtain ⟨h1, h2⟩ := h.relax hw hu ⟨dir, hdir, hnb⟩ hn0 hlt0
          rw [← hf.cost w] at h1 h2
          have hf1 : Frame g0 (if (g.node w).type ≠ .End ∧ (g.node w).type ≠ .Start then
              g.modify w.1 w.2 fun n => { n with fillColor := ⟨200, 255, 200⟩ } else g) := by
            split_ifs
            · exact frame_modify hf w _ (fun _ => rfl)
            · exact hf
          have hw1 : WallsEq g0 (if (g.node w).type ≠ .End ∧ (g.node w).type ≠ .Start then
              g.modify w.1 w.2 fun n => { n with fillColor := ⟨200, 255, 200⟩ } else g) := by
            split_ifs
            · exact hwalls.modify w _ (hwalls w)
            · exact hwalls
          obtain ⟨a, b, c, e, f1, f2, f3⟩ := ih _
            { s with parentMap := setAt s.parentMap w (some u),
                     gCost := setAt s.gCost w (s.gCost u + (g.node w).cost),
                     openSet := ⟨w, s.gCost u + (g.node w).cost + calculateHeuristic w endNode⟩
                       :: s.openSet,
                     currentLine := 13 }
            hds' hf1 hw1 h1
          refine ⟨a, b, c, ?_, f1, f2, f3⟩
          simp only [List.length_cons] at e
          omega
        · rw [if_neg hlt]
          exact ih g { s with currentLine := 9 } hds' hf hwalls h

theorem aStarStep_spec (hw : WellFormed g0 st en)
    {pop : List AStarNode → Option (AStarNode × List AStarNode)}
    (hpop : IsMinPop AStarNode.fCost pop) {fuel : Nat} (hfuel : 2147483647 ≤ fuel)
    (gs : Grid × AStarState) (h : AStarInv g0 d st en gs) :
    ∃ gs', aStarStep pop fuel d gs = some gs' ∧ AStarInv g0 d st en gs' ∧
      (gs.2.isComplete = false → aStarMeasure g0 gs' < aStarMeasure g0 gs) := by
  obtain ⟨g, s⟩ := gs
  obtain ⟨hf, hwalls, hcase⟩ := h
  rcases hcase with ⟨h1, h2, h3, hrun⟩ | ⟨h1, h2, h3, hfound⟩ | ⟨h1, h2, h3⟩
  · dsimp only at h1 h2 h3 hrun hf hwalls
    have hcond : ¬ (s.isSearching = false ∨ s.isComplete = true) := by simp [h1, h2]
    unfold aStarStep
    dsimp only
    rw [if_neg hcond]
    by_cases hq : s.openSet.isEmpty = true
    · rw [if_pos hq]
      refine ⟨_, rfl, ⟨hf, hwalls, Or.inr (Or.inr ⟨rfl, rfl, rfl⟩)⟩, fun _ => ?_⟩
      rw [aStarMeasure_complete _ rfl, aStarMeasure_running _ h2]
      exact Nat.succ_pos _
    · rw [if_neg hq]
      have hne : s.openSet ≠ [] := by
        intro e
        rw [e] at hq
        exact hq rfl
      obtain ⟨x, r, hp, hperm, _⟩ := hpop.pop_cons s.openSet hne
      rw [hp, Option.some_bind]
      dsimp only
      have hxmem : x.node ∈ s.openSet.map AStarNode.node :=
        List.mem_map.2 ⟨x, hperm.subset (List.mem_cons_self _ _), rfl⟩
      have hrsub : ∀ c ∈ r.map AStarNode.node, c ∈ s.openSet.map AStarNode.node := by
        intro c hc
        obtain ⟨y, hy, e⟩ := List.mem_map.1 hc
        exact List.mem_map.2 ⟨y, hperm.subset (List.mem_cons_of_mem _ hy), e⟩
      have hlen : r.length + 1 = s.openSet.length := by
        have := hperm.length_eq
        simpa using this
      obtain ⟨hxw, hxlt⟩ := hrun.open_ok x.node hxmem
      have hinv1 := hrun.subset hrsub
      obtain ⟨g1, e1, hf1, hw1⟩ := drawCurrentAStarPath_spec hw hrun hfuel hf hwalls
        (hxw.nonWall hw) hxlt
      rw [e1, Option.some_bind]
      by_cases hend : g1.endNode = some x.node
      · rw [if_pos hend]
        have hxe : x.node = en := by
          rw [hf1.endNode, hw.endNode] at hend
          cases hend
          rfl
        refine ⟨_, rfl, ⟨hf1, hw1, Or.inr (Or.inl ⟨rfl, rfl, h3, hxe ▸ hxw⟩)⟩, fun _ => ?_⟩
        rw [aStarMeasure_complete _ rfl, aStarMeasure_running _ h2]
        exact Nat.succ_pos _
      · rw [if_neg hend]
        have hf2 : Frame g0 (if (g1.node x.node).type ≠ .Start then
            g1.modify x.node.1 x.node.2 fun n =>
              { n with type := .Visited, fillColor := ⟨173, 216, 230⟩ }
            else g1) := by
          split_ifs
          · exact frame_modify hf1 x.node _ (fun _ => rfl)
          · exact hf1
        have hw2 : WallsEq g0 (if (g1.node x.node).type ≠ .Start then
            g1.modify x.node.1 x.node.2 fun n =>
              { n with type := .Visited, fillColor := ⟨173, 216, 230⟩ }
            else g1) := by
          split_ifs
          · exact hw1.modify x.node _
              ⟨fun e => (by cases e), fun e => absurd e (hxw.nonWall hw).2⟩
          · exact hw1
        rw [hf2.endNode, hw.endNode, Option.some_bind]
        obtain ⟨a, b, c, e, f1, f2, f3⟩ := aStarNeighbors_spec hw x.node en hxw
          (directions d) _
          { s with openSet := r, nodesVisited := s.nodesVisited + 1, currentLine := 7 }
          (fun _ hx => hx) hf2 hw2 hinv1
        refine ⟨_, rfl, ⟨a, b, Or.inl ⟨f1.trans h1, f2.trans h2, f3.trans h3, c⟩⟩, fun _ => ?_⟩
        rw [aStarMeasure_running _ (f2.trans h2), aStarMeasure_running _ h2]
        dsimp only at e ⊢
        omega
  · refine ⟨(g, s), ?_, ⟨hf, hwalls, Or.inr (Or.inl ⟨h1, h2, h3, hfound⟩)⟩, ?_⟩
    · unfold aStarStep
      dsimp only at h1
      simp [h1]
    · intro e
      dsimp only at h2 e
      simp [h2] at e
  · refine ⟨(g, s), ?_, ⟨hf, hwalls, Or.inr (Or.inr ⟨h1, h2, h3⟩)⟩, ?_⟩
    · unfold aStarStep
      dsimp only at h1
      simp [h1]
    · intro e
      dsimp only at h2 e
      simp [h2] at e

theorem aStarRun_eq (hw : WellFormed g0 st en)
    (pop : List AStarNode → Option (AStarNode × List AStarNode)) (fuel : Nat) (k : Nat) :
    aStarRun pop fuel d g0 k =
      iterStep (aStarStep pop fuel d) k
        (g0, ⟨[⟨st, calculateHeuristic st en⟩], fun _ => none, setAt (fun _ => INT_MAX) st 0,
          true, false, false, 0, 0, 0⟩) := by
  unfold aStarRun aStarStart
  rw [hw.startNode, hw.endNode]
  rfl

/-- With enough fuel a run of the A* engine reaches a complete state, and the state satisfies
the invariant. -/
theorem aStar_reach (hw : WellFormed g0 st en)
    {pop : List AStarNode → Option (AStarNode × List AStarNode)}
    (hpop : IsMinPop AStarNode.fCost pop) {fuel : Nat} (hfuel : 2147483647 ≤ fuel) :
    ∃ k gs, aStarRun pop fuel d g0 k = some gs ∧ gs.2.isComplete = true ∧
      AStarInv g0 d st en gs ∧
      ∀ i, i < k → ∃ t, aStarRun pop fuel d g0 i = some t ∧ t.2.isComplete = false := by
  obtain ⟨k, gs, _, hrun, hfin, hinv, hbefore⟩ :=
    iterStep_reach_bound (aStarStep pop fuel d) (AStarInv g0 d st en)
      (fun gs => gs.2.isComplete) (aStarMeasure g0)
      (fun gs h hfin => by
        obtain ⟨gs', e, h', hm⟩ := aStarStep_spec hw hpop hfuel gs h
        exact ⟨gs', e, h', hm hfin⟩)
      (g0, ⟨[⟨st, calculateHeuristic st en⟩], fun _ => none, setAt (fun _ => INT_MAX) st 0,
          true, false, false, 0, 0, 0⟩)
      ⟨Frame.refl g0, WallsEq.walls_refl g0, Or.inl ⟨rfl, rfl, rfl, costInv_init hw⟩⟩
  refine ⟨k, gs, by rw [aStarRun_eq hw]; exact hrun, hfin, hinv, fun i hi => ?_⟩
  rw [aStarRun_eq hw]
  exact hbefore i hi

end astar

/-! ## The pop of least key, and the claims on all four engines -/

theorem popMin_eq_none {α : Type} (key : α → Int) (q : List α) :
    popMin key q = none ↔ q = [] := by
  cases q with
  | nil => simp [popMin]
  | cons x q =>
    simp only [popMin]
    cases popMin key q with
    | none => simp
    | some p =>
      obtain ⟨y, r⟩ := p
      simp only
      split_ifs <;> simp

theorem popMin_isMinPop {α : Type} (key : α → Int) : IsMinPop key (popMin key) := by
  refine ⟨rfl, fun q => ?_⟩
  induction q with
  | nil => intro h; exact absurd rfl h
  | cons x q ih =>
    intro _
    simp only [popMin]
    cases hq : popMin key q with
    | none =>
      have e := (popMin_eq_none key q).1 hq
      subst e
      exact ⟨x, [], rfl, List.Perm.refl _, fun y hy => by
        rw [List.mem_singleton.1 hy]⟩
    | some p =>
      obtain ⟨y, r⟩ := p
      have hne : q ≠ [] := by
        intro e
        rw [e] at hq
        cases hq
      obtain ⟨y', r', e, hperm, hmin⟩ := ih hne
      rw [hq] at e
      cases e
      simp only
      by_cases hxy : key x ≤ key y
      · rw [if_pos hxy]
        refine ⟨x, q, rfl, List.Perm.refl _, fun z hz => ?_⟩
        rcases List.mem_cons.1 hz with h1 | h1
        · rw [h1]
        · exact Int.le_trans hxy (hmin z h1)
      · rw [if_neg hxy]
        refine ⟨y, x :: r, rfl, (List.Perm.swap x y r).trans (List.Perm.cons x hperm),
          fun z hz => ?_⟩
        rcases List.mem_cons.1 hz with h1 | h1
        · rw [h1]; omega
        · exact hmin z h1

theorem wallGrid_wellFormed : WellFormed wallGrid (0, 0) (0, 2) :=
  ⟨by decide, by decide, by decide, by decide, by decide, by decide, by decide, by decide,
    by decide⟩

theorem wallGrid_no_walk : ¬ FreeWalk wallGrid false (0, 0) (0, 2) := by
  have h : ∀ c, FreeWalk wallGrid false (0, 0) c → c = (0, 0) := by
    intro c hc
    induction hc with
    | start => rfl
    | step p c _ ha hn ih =>
      subst ih
      obtain ⟨dir, hdir, hnb⟩ := ha
      have hdir' : dir = (-1, 0) ∨ dir = (1, 0) ∨ dir = (0, -1) ∨ dir = (0, 1) := by
        simpa [directions] using hdir
      rcases hdir' with rfl | rfl | rfl | rfl
      · have e : neighborAt wallGrid (0, 0) (-1, 0) = none := by decide
        rw [e] at hnb; cases hnb
      · have e : neighborAt wallGrid (0, 0) (1, 0) = none := by decide
        rw [e] at hnb; cases hnb
      · have e : neighborAt wallGrid (0, 0) (0, -1) = none := by decide
        rw [e] at hnb; cases hnb
      · have e : neighborAt wallGrid (0, 0) (0, 1) = some (0, 1) := by decide
        rw [e] at hnb
        cases hnb
        exact absurd (by decide) hn
  intro hc
  have := h _ hc
  cases this

/-- C14: on a well-formed grid in which every path from the start node to the end node under
the active adjacency enters a Wall, each of the four engines, freshly started and given enough
fuel for the tracing loops, reaches a state with `isComplete = true`, `noPathExists = true` and
`isSearching = false`, and no earlier state of the run is complete; for Dijkstra and A* this
holds whatever minimal entry the priority queue delivers. -/
theorem no_path_reported (g0 : Grid) (st en : Cell) (hw : WellFormed g0 st en)
    (isDiagonal : Bool) (hno : ¬ FreeWalk g0 isDiagonal st en)
    (popD : List DijkstraNode → Option (DijkstraNode × List DijkstraNode))
    (hD : IsMinPop DijkstraNode.cost popD)
    (popA : List AStarNode → Option (AStarNode × List AStarNode))
    (hA : IsMinPop AStarNode.fCost popA)
    (fuel : Nat) (hfuel : g0.rows * g0.cols ≤ fuel) (hfuel' : 2147483647 ≤ fuel) :
    (∃ k g s, bfsRun fuel isDiagonal g0 k = some (g, s) ∧ s.isComplete = true ∧
      s.noPathExists = true ∧ s.isSearching = false ∧
      ∀ i, i < k → ∃ t, bfsRun fuel isDiagonal g0 i = some t ∧ t.2.isComplete = false) ∧
    (∃ k g s, dfsRun fuel isDiagonal g0 k = some (g, s) ∧ s.isComplete = true ∧
      s.noPathExists = true ∧ s.isSearching = false ∧
      ∀ i, i < k → ∃ t, dfsRun fuel isDiagonal g0 i = some t ∧ t.2.isComplete = false) ∧
    (∃ k g s, dijkstraRun popD fuel isDiagonal g0 k = some (g, s) ∧ s.isComplete = true ∧
      s.noPathExists = true ∧ s.isSearching = false ∧
      ∀ i, i < k → ∃ t, dijkstraRun popD fuel isDiagonal g0 i = some t ∧
        t.2.isComplete = false) ∧
    (∃ k g s, aStarRun popA fuel isDiagonal g0 k = some (g, s) ∧ s.isComplete = true ∧
      s.noPathExists = true ∧ s.isSearching = false ∧
      ∀ i, i < k → ∃ t, aStarRun popA fuel isDiagonal g0 i = some t ∧
        t.2.isComplete = false) := by
  refine ⟨?_, ?_, ?_, ?_⟩
  · obtain ⟨k, ⟨g, s⟩, _, hrun, hfin, ⟨_, hcase⟩, hbefore⟩ :=
      bfs_reach (d := isDiagonal) hw hfuel
    suffices hflags : s.noPathExists = true ∧ s.isSearching = false from
      ⟨k, g, s, hrun, hfin, hflags.1, hflags.2, hbefore⟩
    rcases hcase with ⟨_, h2, _⟩ | ⟨_, _, _, n, hf, _⟩ | ⟨h1, _, h3, _⟩
    · rw [hfin] at h2; cases h2
    · exact absurd (hf.found_path hw).free_walk hno
    · exact ⟨h3, h1⟩
  · obtain ⟨k, ⟨g, s⟩, hrun, hfin, ⟨_, hcase⟩, hbefore⟩ :=
      dfs_reach (d := isDiagonal) hw hfuel
    suffices hflags : s.noPathExists = true ∧ s.isSearching = false from
      ⟨k, g, s, hrun, hfin, hflags.1, hflags.2, hbefore⟩
    rcases hcase with ⟨_, h2, _⟩ | ⟨_, _, _, n, hf⟩ | ⟨h1, _, h3, _⟩
    · rw [hfin] at h2; cases h2
    · exact absurd (hf.found_path hw).free_walk hno
    · exact ⟨h3, h1⟩
  · obtain ⟨k, ⟨g, s⟩, hrun, hfin, ⟨_, _, hcase⟩, hbefore⟩ :=
      dijkstra_reach (d := isDiagonal) hw hD hfuel'
    suffices hflags : s.noPathExists = true ∧ s.isSearching = false from
      ⟨k, g, s, hrun, hfin, hflags.1, hflags.2, hbefore⟩
    rcases hcase with ⟨_, h2, _⟩ | ⟨_, _, _, hf⟩ | ⟨h1, _, h3⟩
    · rw [hfin] at h2; cases h2
    · exact absurd hf hno
    · exact ⟨h3, h1⟩
  · obtain ⟨k, ⟨g, s⟩, hrun, hfin, ⟨_, _, hcase⟩, hbefore⟩ :=
      aStar_reach (d := isDiagonal) hw hA hfuel'
    suffices hflags : s.noPathExists = true ∧ s.isSearching = false from
      ⟨k, g, s, hrun, hfin, hflags.1, hflags.2, hbefore⟩
    rcases hcase with ⟨_, h2, _⟩ | ⟨_, _, _, hf⟩ | ⟨h1, _, h3⟩
    · rw [hfin] at h2; cases h2
    · exact absurd hf hno
    · exact ⟨h3, h1⟩

theorem no_path_reported_witness :
    (∃ k g s, bfsRun 2147483647 false wallGrid k = some (g, s) ∧ s.isComplete = true ∧
      s.noPathExists = true ∧ s.isSearching = false ∧
      ∀ i, i < k → ∃ t, bfsRun 2147483647 false wallGrid i = some t ∧
        t.2.isComplete = false) ∧
    (∃ k g s, dfsRun 2147483647 false wallGrid k = some (g, s) ∧ s.isComplete = true ∧
      s.noPathExists = true ∧ s.isSearching = false ∧
      ∀ i, i < k → ∃ t, dfsRun 2147483647 false wallGrid i = some t ∧
        t.2.isComplete = false) ∧
    (∃ k g s, dijkstraRun (popMin DijkstraNode.cost) 2147483647 false wallGrid k = some (g, s) ∧
      s.isComplete = true ∧ s.noPathExists = true ∧ s.isSearching = false ∧
      ∀ i, i < k → ∃ t, dijkstraRun (popMin DijkstraNode.cost) 2147483647 false wallGrid i
        = some t ∧ t.2.isComplete = false) ∧
    (∃ k g s, aStarRun (popMin AStarNode.fCost) 2147483647 false wallGrid k = some (g, s) ∧
      s.isComplete = true ∧ s.noPathExists = true ∧ s.isSearching = false ∧
      ∀ i, i < k → ∃ t, aStarRun (popMin AStarNode.fCost) 2147483647 false wallGrid i
        = some t ∧ t.2.isComplete = false) :=
  no_path_reported wallGrid (0, 0) (0, 2) wallGrid_wellFormed false wallGrid_no_walk
    (popMin DijkstraNode.cost) (popMin_isMinPop _) (popMin AStarNode.fCost) (popMin_isMinPop _)
    2147483647 (by decide) (by decide)

/-- C15, evaluation of the code: on the grid of one row Start, Empty, End (no Weight node) the
breadth-first search completes after two calls with `pathCost = 3`, its cost loop adding the
cost of the start node, while Dijkstra completes after three calls with `pathCost = 2`. -/
theorem bfs_dijkstra_pathCost_differ :
    ((bfsRun 3 false lineGrid 2).map fun p => (p.2.isComplete, p.2.noPathExists, p.2.pathCost))
      = some (true, false, 3) ∧
    ((dijkstraRun (popMin DijkstraNode.cost) 3 false lineGrid 3).map
      fun p => (p.2.isComplete, p.2.noPathExists, p.2.pathCost)) = some (true, false, 2) := by
  decide

/-! ## Dijkstra and A*: the least cost

Both engines are instances of one search: the key of an entry of the open set is the recorded
cost of its node plus a potential `h` of the node (`0` for Dijkstra, the heuristic for A*).  The
invariant below is kept by the search whenever `h` is consistent. -/

/-- The node `c` is reached from the start node by moves through nodes that are not Walls, and
the costs of the nodes entered add up to `v`. -/
inductive CostWalk (g0 : Grid) (isDiagonal : Bool) (st : Cell) : Int → Cell → Prop
  | start : CostWalk g0 isDiagonal st 0 st
  | step (v : Int) (p c : Cell) : CostWalk g0 isDiagonal st v p → Adj g0 isDiagonal p c →
      (g0.node c).type ≠ .Wall → CostWalk g0 isDiagonal st (v + (g0.node c).cost) c

/-- Following `parentMap` from `c` leads to the start node, each node being met by the neighbour
loop of its parent, and the costs of the nodes entered on the way from the start node to `c` add
up to `v`. -/
inductive CostChain (g0 : Grid) (isDiagonal : Bool) (pm : Cell → Option Cell) (st : Cell) :
    Int → Cell → Prop
  | start : CostChain g0 isDiagonal pm st 0 st
  | step (v : Int) (u c : Cell) : CostChain g0 isDiagonal pm st v u → pm c = some u →
      Adj g0 isDiagonal u c → (g0.node c).type ≠ .Wall →
      CostChain g0 isDiagonal pm st (v + (g0.node c).cost) c

/-- The potential drops along a move by no more than the cost of the node entered. -/
def Consistent (g0 : Grid) (d : Bool) (h : Cell → Int) : Prop :=
  ∀ u w, Adj g0 d u w → h u ≤ (g0.node w).cost + h w

/-- No move out of `u` lowers the recorded cost of a node. -/
def Relaxed (g0 : Grid) (d : Bool) (cm : Cell → Int) (u : Cell) : Prop :=
  ∀ w, Adj g0 d u w → (g0.node w).type ≠ .Wall → cm w ≤ cm u + (g0.node w).cost

/-- The part of the invariant that holds at every point of a search. -/
structure OptCore (g0 : Grid) (d : Bool) (st en : Cell) (h : Cell → Int)
    (ty : Cell → NodeType) (cm : Cell → Int) (pm : Cell → Option Cell)
    (entries : List (Cell × Int)) : Prop where
  ty_st : ty st = .Start
  ty_en : ty en = .End
  ty_start : ∀ c, InGrid g0 c → ty c = .Start → c = st
  cost : CostInv g0 d st cm pm (entries.map Prod.fst)
  cm_st : cm st = 0
  real : ∀ c, cm c < INT_MAX → CostChain g0 d pm st (cm c) c
  parents : ∀ c u, pm c = some u → Closed g0 ty st u
  below : ∀ u, Closed g0 ty st u → ∀ e ∈ entries, cm u + h u ≤ e.2
  pending : ∀ c, cm c < INT_MAX → ¬ Closed g0 ty st c → (c, cm c + h c) ∈ entries
  keys : ∀ e ∈ entries, cm e.1 + h e.1 ≤ e.2

/-- The invariant between two calls of the step function: every closed node has been expanded,
except the start node as long as its first entry is in the open set. -/
structure OptRun (g0 : Grid) (d : Bool) (st en : Cell) (h : Cell → Int)
    (ty : Cell → NodeType) (cm : Cell → Int) (pm : Cell → Option Cell)
    (entries : List (Cell × Int)) : Prop where
  core : OptCore g0 d st en h ty cm pm entries
  relaxed : ∀ u, Closed g0 ty st u → (u = st ∧ (st, h st) ∈ entries) ∨ Relaxed g0 d cm u

/-- The invariant inside the neighbour loop of the node `u`, the offsets `done` being dealt
with. -/
structure OptLoop (g0 : Grid) (d : Bool) (st en : Cell) (h : Cell → Int)
    (ty : Cell → NodeType) (cm : Cell → Int) (pm : Cell → Option Cell)
    (entries : List (Cell × Int)) (u : Cell) (done : List (Int × Int)) : Prop where
  core : OptCore g0 d st en h ty cm pm entries
  u_closed : Closed g0 ty st u
  u_walk : FreeWalk g0 d st u
  u_fin : cm u < INT_MAX
  relaxed : ∀ v, Closed g0 ty st v → v ≠ u →
    (v = st ∧ (st, h st) ∈ entries) ∨ Relaxed g0 d cm v
  done : ∀ dir ∈ done, ∀ w, neighborAt g0 u dir = some w → (g0.node w).type ≠ .Wall →
    cm w ≤ cm u + (g0.node w).cost
  top : (∀ v, Closed g0 ty st v → cm v + h v ≤ cm u + h u) ∨ Relaxed g0 d cm u

section opt
variable {g0 : Grid} {d : Bool} {st en : Cell} {h : Cell → Int} {ty : Cell → NodeType}
  {cm : Cell → Int} {pm : Cell → Option Cell} {entries : List (Cell × Int)}

theorem CostChain.cost_walk {v : Int} {c : Cell} (hc : CostChain g0 d pm st v c) :
    CostWalk g0 d st v c := by
  induction hc with
  | start => exact CostWalk.start
  | step v u c _ _ ha hn ih => exact CostWalk.step v u c ih ha hn

theorem CostWalk.to_free {v : Int} {c : Cell} (hc : CostWalk g0 d st v c) :
    FreeWalk g0 d st c := by
  induction hc with
  | start => exact FreeWalk.start
  | step v u c _ ha hn ih => exact FreeWalk.step u c ih ha hn

/-- Assigning a parent to a node that is not closed keeps the chains of the other nodes. -/
theorem costChain_setAt (hp : ∀ c u, pm c = some u → Closed g0 ty st u) {w : Cell}
    (hw : ¬ Closed g0 ty st w) (x : Option Cell) {v : Int} {c : Cell}
    (hc : CostChain g0 d pm st v c) (hcw : c ≠ w) : CostChain g0 d (setAt pm w x) st v c := by
  induction hc with
  | start => exact CostChain.start
  | step v u c _ hpc ha hn ih =>
    have huw : u ≠ w := by
      rintro rfl
      exact hw (hp c u hpc)
    refine CostChain.step v u c (ih huw) ?_ ha hn
    unfold setAt
    rw [if_neg hcw]
    exact hpc

theorem adj_inGrid {u w : Cell} (ha : Adj g0 d u w) : InGrid g0 w := by
  obtain ⟨dir, _, hnb⟩ := ha
  exact neighborAt_inGrid hnb

/-- The end node is never closed. -/
theorem optCore_en_open (hw : WellFormed g0 st en) (hc : OptCore g0 d st en h ty cm pm entries) :
    ¬ Closed g0 ty st en := by
  rintro (e | ⟨_, e⟩)
  · exact hw.ne e.symm
  · rw [hc.ty_en] at e
    cases e

/-- A closed node is not relaxed by the node of the loop. -/
theorem optLoop_closed_le (hw : WellFormed g0 st en) (hcons : Consistent g0 d h) {u : Cell}
    {done : List (Int × Int)} (hl : OptLoop g0 d st en h ty cm pm entries u done) {w : Cell}
    (ha : Adj g0 d u w) (hn : (g0.node w).type ≠ .Wall) (hcl : Closed g0 ty st w) :
    cm w ≤ cm u + (g0.node w).cost := by
  have _ := hw
  rcases hl.top with ht | ht
  · have h1 := ht w hcl
    have h2 := hcons u w ha
    omega
  · exact ht w ha hn

/-- The neighbour loop passes an offset without a relaxation. -/
theorem optLoop_skip {u : Cell} {done : List (Int × Int)}
    (hl : OptLoop g0 d st en h ty cm pm entries u done) {e : Int × Int}
    (hd : ∀ w, neighborAt g0 u e = some w → (g0.node w).type ≠ .Wall →
      cm w ≤ cm u + (g0.node w).cost) :
    OptLoop g0 d st en h ty cm pm entries u (done ++ [e]) := by
  refine ⟨hl.core, hl.u_closed, hl.u_walk, hl.u_fin, hl.relaxed, ?_, hl.top⟩
  intro dir hdir w hnb hn
  rcases List.mem_append.1 hdir with h1 | h1
  · exact hl.done dir h1 w hnb hn
  · rw [List.mem_singleton.1 h1] at hnb
    exact hd w hnb hn

/-- The neighbour loop relaxes the move to `w`. -/
theorem optLoop_relax (hw : WellFormed g0 st en) (hcons : Consistent g0 d h) {u : Cell}
    {done : List (Int × Int)} (hl : OptLoop g0 d st en h ty cm pm entries u done)
    {e : Int × Int} (he : e ∈ directions d) {w : Cell} (hnb : neighborAt g0 u e = some w)
    (hn : (g0.node w).type ≠ .Wall) (hlt : cm u + (g0.node w).cost < cm w) :
    OptLoop g0 d st en h ty (setAt cm w (cm u + (g0.node w).cost)) (setAt pm w (some u))
      ((w, cm u + (g0.node w).cost + h w) :: entries) u (done ++ [e]) := by
  have ha : Adj g0 d u w := ⟨e, he, hnb⟩
  have hwin : InGrid g0 w := neighborAt_inGrid hnb
  have hpos := hw.cost_pos hwin
  have hncl : ¬ Closed g0 ty st w := by
    intro hcl
    have := optLoop_closed_le hw hcons hl ha hn hcl
    omega
  have htop : ∀ v, Closed g0 ty st v → cm v + h v ≤ cm u + h u := by
    rcases hl.top with ht | ht
    · exact ht
    · have := ht w ha hn
      omega
  have hwu : w ≠ u := by
    rintro rfl
    exact hncl hl.u_closed
  have hwst : w ≠ st := by
    rintro rfl
    exact hncl (Or.inl rfl)
  have hsame : ∀ v, v ≠ w → setAt cm w (cm u + (g0.node w).cost) v = cm v := by
    intro v hv
    unfold setAt
    rw [if_neg hv]
  have hnew : setAt cm w (cm u + (g0.node w).cost) w = cm u + (g0.node w).cost := by
    unfold setAt
    rw [if_pos rfl]
  have hle : ∀ v, setAt cm w (cm u + (g0.node w).cost) v ≤ cm v := by
    intro v
    by_cases hv : v = w
    · rw [hv, hnew]; omega
    · rw [hsame v hv]
  have hclne : ∀ v, Closed g0 ty st v → v ≠ w := by
    rintro v hv rfl
    exact hncl hv
  have hcost := (hl.core.cost.relax hw hl.u_walk ha hn hlt).1
  have hcu := hcons u w ha
  refine ⟨⟨hl.core.ty_st, hl.core.ty_en, hl.core.ty_start, ?_, ?_, ?_, ?_, ?_, ?_, ?_⟩,
    hl.u_closed, hl.u_walk, ?_,
    ?_, ?_, Or.inl ?_⟩
  · simpa using hcost
  · rw [hsame st hwst.symm]; exact hl.core.cm_st
  · intro c hc
    by_cases hcw : c = w
    · rw [hcw, hnew]
      exact CostChain.step (cm u) u w
        (costChain_setAt hl.core.parents hncl _ (hl.core.real u hl.u_fin) hwu.symm)
        (by unfold setAt; rw [if_pos rfl]) ha hn
    · rw [hsame c hcw] at hc ⊢
      exact costChain_setAt hl.core.parents hncl _ (hl.core.real c hc) hcw
  · intro c p hp
    by_cases hcw : c = w
    · unfold setAt at hp
      rw [if_pos hcw] at hp
      cases hp
      exact hl.u_closed
    · unfold setAt at hp
      rw [if_neg hcw] at hp
      exact hl.core.parents c p hp
  · intro v hv x hx
    rw [hsame v (hclne v hv)]
    rcases List.mem_cons.1 hx with h1 | h1
    · rw [h1]
      have := htop v hv
      dsimp only
      omega
    · exact hl.core.below v hv x h1
  · intro c hc hcl
    by_cases hcw : c = w
    · rw [hcw, hnew]
      exact List.mem_cons_self _ _
    · rw [hsame c hcw] at hc ⊢
      exact List.mem_cons_of_mem _ (hl.core.pending c hc hcl)
  · intro x hx
    rcases List.mem_cons.1 hx with h1 | h1
    · rw [h1]
      dsimp only
      rw [hnew]
    · have h2 := hl.core.keys x h1
      have h3 := hle x.1
      omega
  · rw [hsame u hwu.symm]; exact hl.u_fin
  · intro v hv hvu
    rcases hl.relaxed v hv hvu with ⟨h1, h2⟩ | h1
    · exact Or.inl ⟨h1, List.mem_cons_of_mem _ h2⟩
    · refine Or.inr fun x hax hnx => ?_
      rw [hsame v (hclne v hv)]
      exact Int.le_trans (hle x) (h1 x hax hnx)
  · intro dir hdir x hx hnx
    rw [hsame u hwu.symm]
    rcases List.mem_append.1 hdir with h1 | h1
    · exact Int.le_trans (hle x) (hl.done dir h1 x hx hnx)
    · rw [List.mem_singleton.1 h1, hnb] at hx
      cases hx
      rw [hnew]
  · intro v hv
    rw [hsame v (hclne v hv), hsame u hwu.symm]
    exact htop v hv

/-- At the end of the neighbour loop every closed node has been expanded. -/
theorem optLoop_exit {u : Cell} (hl : OptLoop g0 d st en h ty cm pm entries u (directions d)) :
    OptRun g0 d st en h ty cm pm entries := by
  refine ⟨hl.core, fun v hv => ?_⟩
  by_cases hvu : v = u
  · refine Or.inr fun w ha hn => ?_
    rw [hvu]
    obtain ⟨dir, hdir, hnb⟩ := hvu ▸ ha
    exact hl.done dir hdir w hnb hn
  · exact hl.relaxed v hv hvu

/-- Dropping an entry of a closed node other than the start node keeps the invariant. -/
theorem optRun_drop (hr : OptRun g0 d st en h ty cm pm entries) {x : Cell × Int}
    {r : List (Cell × Int)} (hperm : List.Perm (x :: r) entries)
    (hcl : Closed g0 ty st x.1) (hne : x.1 ≠ st) : OptRun g0 d st en h ty cm pm r := by
  have hsub : ∀ y ∈ r, y ∈ entries := fun y hy => hperm.subset (List.mem_cons_of_mem _ hy)
  have hrest : ∀ y ∈ entries, y.1 ≠ x.1 → y ∈ r := by
    intro y hy hne'
    rcases List.mem_cons.1 (hperm.symm.subset hy) with h1 | h1
    · rw [h1] at hne'
      exact absurd rfl hne'
    · exact h1
  refine ⟨⟨hr.core.ty_st, hr.core.ty_en, hr.core.ty_start, ?_, hr.core.cm_st, hr.core.real,
    hr.core.parents, ?_, ?_, ?_⟩, ?_⟩
  · refine hr.core.cost.subset fun c hc => ?_
    obtain ⟨y, hy, e⟩ := List.mem_map.1 hc
    exact List.mem_map.2 ⟨y, hsub y hy, e⟩
  · exact fun v hv y hy => hr.core.below v hv y (hsub y hy)
  · intro c hc hncl
    refine hrest _ (hr.core.pending c hc hncl) ?_
    dsimp only
    rintro rfl
    exact hncl hcl
  · exact fun y hy => hr.core.keys y (hsub y hy)
  · intro v hv
    rcases hr.relaxed v hv with ⟨h1, h2⟩ | h1
    · exact Or.inl ⟨h1, hrest _ h2 (fun e => hne e.symm)⟩
    · exact Or.inr h1

/-- Popping a least entry other than the end node and closing its node gives the invariant of
the neighbour loop. -/
theorem optRun_enter (hr : OptRun g0 d st en h ty cm pm entries)
    {x : Cell × Int} {r : List (Cell × Int)} (hperm : List.Perm (x :: r) entries)
    (hmin : ∀ y ∈ entries, x.2 ≤ y.2) {ty1 : Cell → NodeType}
    (hty : ∀ c, ty1 c = ty c ∨ (c = x.1 ∧ ty1 c = .Visited)) (hst : ty1 st = .Start)
    (hne : x.1 ≠ en) (hcl : Closed g0 ty1 st x.1) :
    OptLoop g0 d st en h ty1 cm pm r x.1 [] := by
  have hxm : x ∈ entries := hperm.subset (List.mem_cons_self _ _)
  have hsub : ∀ y ∈ r, y ∈ entries := fun y hy => hperm.subset (List.mem_cons_of_mem _ hy)
  have hrest : ∀ y ∈ entries, y.1 ≠ x.1 → y ∈ r := by
    intro y hy hne'
    rcases List.mem_cons.1 (hperm.symm.subset hy) with h1 | h1
    · rw [h1] at hne'
      exact absurd rfl hne'
    · exact h1
  have hmono : ∀ v, Closed g0 ty st v → Closed g0 ty1 st v := by
    rintro v (e | ⟨h1, h2⟩)
    · exact Or.inl e
    · refine Or.inr ⟨h1, ?_⟩
      rcases hty v with h3 | ⟨_, h3⟩
      · rw [h3, h2]
      · exact h3
  have hinv : ∀ v, Closed g0 ty1 st v → v ≠ x.1 → Closed g0 ty st v := by
    rintro v (e | ⟨h1, h2⟩) hv
    · exact Or.inl e
    · rcases hty v with h3 | ⟨h3, _⟩
      · exact Or.inr ⟨h1, by rw [← h3, h2]⟩
      · exact absurd h3 hv
  obtain ⟨hxw, hxfin⟩ := hr.core.cost.open_ok x.1 (List.mem_map.2 ⟨x, hxm, rfl⟩)
  have hkey := hr.core.keys x hxm
  refine ⟨⟨hst, ?_, ?_, ?_, hr.core.cm_st, hr.core.real,
    fun c u hp => hmono u (hr.core.parents c u hp), ?_, ?_, ?_⟩, hcl, hxw, hxfin, ?_, ?_, ?_⟩
  · rcases hty en with h3 | ⟨h3, _⟩
    · rw [h3]; exact hr.core.ty_en
    · exact absurd h3.symm hne
  · intro c hc hs
    rcases hty c with h3 | ⟨_, h3⟩
    · exact hr.core.ty_start c hc (by rw [← h3, hs])
    · rw [hs] at h3
      cases h3
  · refine hr.core.cost.subset fun c hc => ?_
    obtain ⟨y, hy, e⟩ := List.mem_map.1 hc
    exact List.mem_map.2 ⟨y, hsub y hy, e⟩
  · intro v hv y hy
    by_cases hvx : v = x.1
    · rw [hvx]
      exact Int.le_trans hkey (hmin y (hsub y hy))
    · exact hr.core.below v (hinv v hv hvx) y (hsub y hy)
  · intro c hc hncl
    have hcx : c ≠ x.1 := by
      rintro rfl
      exact hncl hcl
    exact hrest _ (hr.core.pending c hc (fun e => hncl (hmono c e))) hcx
  · exact fun y hy => hr.core.keys y (hsub y hy)
  · intro v hv hvx
    rcases hr.relaxed v (hinv v hv hvx) with ⟨h1, h2⟩ | h1
    · refine Or.inl ⟨h1, hrest _ h2 ?_⟩
      dsimp only
      rw [← h1]
      exact hvx
    · exact Or.inr h1
  · intro dir hdir
    cases hdir
  · have hfresh : (x.1, cm x.1 + h x.1) ∈ entries →
        ∀ v, Closed g0 ty1 st v → cm v + h v ≤ cm x.1 + h x.1 := by
      intro hmem v hv
      by_cases hvx : v = x.1
      · rw [hvx]
      · have h1 := hr.core.below v (hinv v hv hvx) x hxm
        have h2 := hmin _ hmem
        dsimp only at h2
        omega
    by_cases hold : Closed g0 ty st x.1
    · rcases hr.relaxed x.1 hold with ⟨h1, h2⟩ | h1
      · refine Or.inl (hfresh ?_)
        rw [h1, hr.core.cm_st, Int.zero_add]
        exact h2
      · exact Or.inr h1
    · exact Or.inl (hfresh (hr.core.pending x.1 hxfin hold))

/-- Every walk of a cost below `INT_MAX` ends in a closed node of no higher recorded cost, or
some entry of the open set has a key that is no higher than the cost of the walk plus the
potential of its last node. -/
theorem optRun_lower (hw : WellFormed g0 st en) (hcons : Consistent g0 d h)
    (hr : OptRun g0 d st en h ty cm pm entries) {v : Int} {c : Cell}
    (hc : CostWalk g0 d st v c) (hv : v < INT_MAX) :
    (Closed g0 ty st c ∧ cm c ≤ v) ∨ ∃ e ∈ entries, e.2 ≤ v + h c := by
  induction hc with
  | start => exact Or.inl ⟨Or.inl rfl, Int.le_of_eq hr.core.cm_st⟩
  | step v p c _ ha hn ih =>
    have hpos := hw.cost_pos (adj_inGrid ha)
    have hcp := hcons p c ha
    rcases ih (by omega) with ⟨h1, h2⟩ | ⟨e, h1, h2⟩
    · rcases hr.relaxed p h1 with ⟨h3, h4⟩ | h3
      · refine Or.inr ⟨_, h4, ?_⟩
        dsimp only
        rw [h3, hr.core.cm_st] at h2
        rw [h3] at hcp
        omega
      · have h4 := h3 c ha hn
        by_cases hcl : Closed g0 ty st c
        · exact Or.inl ⟨hcl, by omega⟩
        · refine Or.inr ⟨_, hr.core.pending c (by omega) hcl, ?_⟩
          dsimp only
          omega
    · exact Or.inr ⟨e, h1, by omega⟩

/-- When the end node is popped as a least entry its recorded cost is the least cost of a walk
to it, and its parent chain has that cost. -/
theorem optRun_found (hw : WellFormed g0 st en) (hcons : Consistent g0 d h)
    (hr : OptRun g0 d st en h ty cm pm entries) {x : Cell × Int} (hx : x ∈ entries)
    (hmin : ∀ y ∈ entries, x.2 ≤ y.2) (hxe : x.1 = en) :
    CostChain g0 d pm st (cm en) en ∧ ∀ v, CostWalk g0 d st v en → cm en ≤ v := by
  have hfin : cm en < INT_MAX := by
    rw [← hxe]
    exact (hr.core.cost.open_ok x.1 (List.mem_map.2 ⟨x, hx, rfl⟩)).2
  refine ⟨hr.core.real en hfin, fun v hv => ?_⟩
  by_cases hlt : v < INT_MAX
  · rcases optRun_lower hw hcons hr hv hlt with ⟨h1, _⟩ | ⟨e, h1, h2⟩
    · exact absurd h1 (optCore_en_open hw hr.core)
    · have h3 := hmin e h1
      have h4 := hr.core.keys x hx
      rw [hxe] at h4
      omega
  · omega

/-- When the open set is empty no walk of a cost below `INT_MAX` leads to the end node. -/
theorem optRun_empty (hw : WellFormed g0 st en) (hcons : Consistent g0 d h)
    (hr : OptRun g0 d st en h ty cm pm []) {v : Int} (hv : CostWalk g0 d st v en) :
    INT_MAX ≤ v := by
  by_contra hlt
  rcases optRun_lower hw hcons hr hv (by omega) with ⟨h1, _⟩ | ⟨e, h1, _⟩
  · exact optCore_en_open hw hr.core h1
  · cases h1

/-- The invariant holds when a search starts. -/
theorem optRun_init (hw : WellFormed g0 st en) (hty : ∀ c, InGrid g0 c → ty c = (g0.node c).type) :
    OptRun g0 d st en h ty (setAt (fun _ => INT_MAX) st 0) (fun _ => none) [(st, h st)] := by
  have h0 : setAt (fun _ => INT_MAX) st (0 : Int) st = 0 := by
    unfold setAt
    rw [if_pos rfl]
  have hne : ∀ c, setAt (fun _ => INT_MAX) st (0 : Int) c < INT_MAX → c = st := by
    intro c hc
    by_contra hcs
    unfold setAt at hc
    rw [if_neg hcs] at hc
    exact absurd hc (Int.lt_irrefl _)
  have hcl : ∀ c, Closed g0 ty st c → c = st := by
    rintro c (e | ⟨h1, h2⟩)
    · exact e
    · rw [hty c h1] at h2
      exact absurd h2 (hw.types c.1 h1.1 c.2 h1.2).1
  refine ⟨⟨?_, ?_, ?_, ?_, h0, ?_, ?_, ?_, ?_, ?_⟩, ?_⟩
  · rw [hty st hw.st_in]; exact hw.st_type
  · rw [hty en hw.en_in]; exact hw.en_type
  · intro c hc hs
    rw [hty c hc] at hs
    exact (hw.one_start c.1 hc.1 c.2 hc.2).1 hs
  · simpa using costInv_init hw
  · intro c hc
    rw [hne c hc, h0]
    exact CostChain.start
  · intro c u hp
    cases hp
  · intro u hu e he
    rw [hcl u hu, h0, List.mem_singleton.1 he]
    dsimp only
    omega
  · intro c hc hncl
    exact absurd (Or.inl (hne c hc)) hncl
  · intro e he
    rw [List.mem_singleton.1 he]
    dsimp only
    rw [h0]
    omega
  · intro u hu
    exact Or.inl ⟨hcl u hu, List.mem_singleton.2 rfl⟩

end opt

/-! ## The tracing loop and the types of the nodes -/

section trace
variable {g0 : Grid} {d : Bool} {st en : Cell}

theorem frame_trans {g g' : Grid} (h : Frame g0 g) (h' : Frame g g') : Frame g0 g' :=
  ⟨h'.rows.trans h.rows, h'.cols.trans h.cols, h'.startNode.trans h.startNode,
    h'.endNode.trans h.endNode, fun c => (h'.cost c).trans (h.cost c)⟩

/-- The tracing loop changes nothing but the type and the colour of nodes on the parent chain of
`t` other than the start node and the end node, which it turns into Path nodes. -/
theorem tracePath_nodes (pm : Cell → Option Cell) :
    ∀ (fuel : Nat) (g : Grid) (t : Cell) (g' : Grid), tracePath pm fuel g (some t) = some g' →
      Frame g g' ∧ ∀ c, g'.node c = g.node c ∨
        ((g'.node c).type = .Path ∧ g.startNode ≠ some c ∧ g.endNode ≠ some c ∧
          (c = t ∨ ∃ x, pm x = some c)) := by
  intro fuel
  induction fuel with
  | zero =>
    intro g t g' htr
    rw [tracePath] at htr
    split_ifs at htr
    cases htr
    exact ⟨Frame.refl g, fun c => Or.inl rfl⟩
  | succ fuel ih =>
    intro g t g' htr
    rw [tracePath] at htr
    by_cases hs : g.startNode = some t
    · rw [if_pos hs] at htr
      cases htr
      exact ⟨Frame.refl g, fun c => Or.inl rfl⟩
    · rw [if_neg hs] at htr
      dsimp only at htr
      have key : ∀ g1, Frame g g1 →
          (∀ c, g1.node c = g.node c ∨ ((g1.node c).type = .Path ∧ c = t ∧
            g.endNode ≠ some t)) →
          tracePath pm fuel g1 (pm t) = some g' →
          Frame g g' ∧ ∀ c, g'.node c = g.node c ∨
            ((g'.node c).type = .Path ∧ g.startNode ≠ some c ∧ g.endNode ≠ some c ∧
              (c = t ∨ ∃ x, pm x = some c)) := by
        intro g1 hf1 h1 htr1
        have first : ∀ c, g1.node c = g.node c ∨
            ((g1.node c).type = .Path ∧ g.startNode ≠ some c ∧ g.endNode ≠ some c ∧
              (c = t ∨ ∃ x, pm x = some c)) := by
          intro c
          rcases h1 c with e | ⟨e1, e2, e3⟩
          · exact Or.inl e
          · exact Or.inr ⟨e1, by rw [e2]; exact hs, by rw [e2]; exact e3, Or.inl e2⟩
        cases hp : pm t with
        | none =>
          rw [hp] at htr1
          have e : g' = g1 := by
            cases fuel <;> simp [tracePath] at htr1 <;> exact htr1.symm
          rw [e]
          exact ⟨hf1, first⟩
        | some u =>
          rw [hp] at htr1
          obtain ⟨hf2, h2⟩ := ih g1 u g' htr1
          refine ⟨frame_trans hf1 hf2, fun c => ?_⟩
          rcases h2 c with e | ⟨e1, e2, e3, e4⟩
          · rw [e]
            rcases first c with e' | e'
            · exact Or.inl e'
            · rw [← e] at e' ⊢
              exact Or.inr e'
          · refine Or.inr ⟨e1, by rw [← hf1.startNode]; exact e2,
              by rw [← hf1.endNode]; exact e3, ?_⟩
            rcases e4 with e5 | e5
            · exact Or.inr ⟨t, by rw [hp, e5]⟩
            · exact Or.inr e5
      by_cases he : g.endNode = some t
      · simp only [he, ne_eq, not_true_eq_false, if_false] at htr
        exact key g (Frame.refl g) (fun c => Or.inl rfl) htr
      · simp only [he, ne_eq, not_false_eq_true, if_true] at htr
        refine key (g.modify t.1 t.2 fun n => { n with type := .Path, fillColor := ⟨255, 255, 0⟩ })
          (frame_modify (Frame.refl g) t _ (fun _ => rfl)) (fun c => ?_) htr
        rw [modify_node]
        by_cases hc : c = t
        · rw [if_pos hc]
          exact Or.inr ⟨rfl, hc, he⟩
        · rw [if_neg hc]
          exact Or.inl rfl

/-- When the parents are closed nodes the tracing loop keeps the types of the nodes up to the
Path mark, except that of `t`, which may become a marked node. -/
theorem tracePath_base (hw : WellFormed g0 st en) {pm : Cell → Option Cell} {fuel : Nat}
    {g g' : Grid} {t : Cell} (hf : Frame g0 g)
    (hp : ∀ c u, pm c = some u → Closed g0 g.base st u)
    (htr : tracePath pm fuel g (some t) = some g') :
    ∀ c, g'.base c = g.base c ∨ (c = t ∧ c ≠ st ∧ c ≠ en ∧ g'.base c = .Visited) := by
  obtain ⟨_, h1⟩ := tracePath_nodes pm fuel g t g' htr
  intro c
  rcases h1 c with e | ⟨e1, e2, e3, e4⟩
  · left
    unfold Grid.base
    rw [e]
  · have hcs : c ≠ st := by
      rintro rfl
      exact e2 (by rw [hf.startNode, hw.startNode])
    have hce : c ≠ en := by
      rintro rfl
      exact e3 (by rw [hf.endNode, hw.endNode])
    have hb : g'.base c = .Visited := by
      unfold Grid.base
      rw [e1]
      rfl
    rcases e4 with e5 | ⟨x, e5⟩
    · exact Or.inr ⟨e5, hcs, hce, hb⟩
    · rcases hp x c e5 with e6 | ⟨_, e6⟩
      · exact absurd e6 hcs
      · left
        rw [hb, e6]

/-- A loop over the nodes that keeps the types up to the Path mark. -/
theorem base_mapNodes (g : Grid) (f : Node → Node) (hf : ∀ n, (f n).type.base = n.type.base) :
    (g.mapNodes f).base = g.base := by
  funext c
  unfold Grid.base
  rw [mapNodes_node]
  split_ifs
  · exact hf _
  · rfl

/-- Closing the node `u`: the types of the other nodes stay, `u` becomes a marked node unless
it is of type Start. -/
theorem base_close (g : Grid) (u : Cell) (f : Node → Node) (hf : ∀ n, (f n).type = .Visited)
    (hst : g.base st = .Start) :
    (∀ c, (if (g.node u).type ≠ .Start then g.modify u.1 u.2 f else g).base c = g.base c ∨
      (c = u ∧ c ≠ st ∧ (if (g.node u).type ≠ .Start then g.modify u.1 u.2 f else g).base c
        = .Visited)) ∧
    (g.base u ≠ .Start →
      (if (g.node u).type ≠ .Start then g.modify u.1 u.2 f else g).base u = .Visited) := by
  have hm : ∀ c, (g.modify u.1 u.2 f).base c = if c = u then .Visited else g.base c := by
    intro c
    unfold Grid.base
    rw [modify_node]
    split_ifs
    · rw [hf]; rfl
    · rfl
  refine ⟨fun c => ?_, fun hs => ?_⟩
  · by_cases hs : (g.node u).type = .Start
    · rw [if_neg (fun e => e hs)]
      exact Or.inl rfl
    · rw [if_pos hs, hm]
      by_cases hc : c = u
      · rw [if_pos hc]
        refine Or.inr ⟨hc, ?_, rfl⟩
        rintro rfl
        rw [hc] at hst
        exact hs (base_eq_start.1 hst)
      · rw [if_neg hc]; exact Or.inl rfl
  · have hs' : (g.node u).type ≠ .Start := fun e => hs (base_eq_start.2 e)
    rw [if_pos hs', hm, if_pos rfl]

/-- The types after closing the popped node and tracing its parent chain, in the form the
neighbour loop needs them. -/
theorem closed_types {ty ty1 ty2 : Cell → NodeType} {u : Cell} (hu : InGrid g0 u)
    (hst : ty st = .Start)
    (h1 : ∀ c, ty1 c = ty c ∨ (c = u ∧ c ≠ st ∧ ty1 c = .Visited))
    (h2 : ∀ c, ty2 c = ty1 c ∨ (c = u ∧ c ≠ st ∧ ty2 c = .Visited))
    (hmark : u ≠ st → ty1 u = .Visited ∨ ty2 u = .Visited) :
    (∀ c, ty2 c = ty c ∨ (c = u ∧ ty2 c = .Visited)) ∧ ty2 st = .Start ∧
      Closed g0 ty2 st u := by
  refine ⟨fun c => ?_, ?_, ?_⟩
  · rcases h2 c with e | ⟨e1, _, e2⟩
    · rcases h1 c with e' | ⟨e1, _, e2⟩
      · exact Or.inl (e.trans e')
      · exact Or.inr ⟨e1, e.trans e2⟩
    · exact Or.inr ⟨e1, e2⟩
  · rcases h2 st with e | ⟨_, e1, _⟩
    · rcases h1 st with e' | ⟨_, e1, _⟩
      · rw [e, e', hst]
      · exact absurd rfl e1
    · exact absurd rfl e1
  · by_cases hus : u = st
    · exact Or.inl hus
    · refine Or.inr ⟨hu, ?_⟩
      rcases hmark hus with e | e
      · rcases h2 u with e' | ⟨_, _, e'⟩
        · rw [e', e]
        · exact e'
      · exact e

end trace

/-! ## Walks without a repeated node

A node that can be reached is reached in fewer moves than the grid has nodes, hence at a cost of
at most five times that number. -/

/-- The node `c` is reached from the start node in `n` moves through nodes that are not
Walls. -/
inductive StepWalk (g0 : Grid) (isDiagonal : Bool) (st : Cell) : Nat → Cell → Prop
  | start : StepWalk g0 isDiagonal st 0 st
  | step (n : Nat) (p c : Cell) : StepWalk g0 isDiagonal st n p → Adj g0 isDiagonal p c →
      (g0.node c).type ≠ .Wall → StepWalk g0 isDiagonal st (n + 1) c

section layers
variable {g0 : Grid} {d : Bool} {st en : Cell}

theorem stepWalk_inGrid (hw : WellFormed g0 st en) {n : Nat} {c : Cell}
    (h : StepWalk g0 d st n c) : InGrid g0 c := by
  cases h with
  | start => exact hw.st_in
  | step n p c _ ha _ => exact adj_inGrid ha

theorem stepWalk_cost (hw : WellFormed g0 st en) {n : Nat} {c : Cell}
    (h : StepWalk g0 d st n c) : ∃ v, CostWalk g0 d st v c ∧ v ≤ 5 * n := by
  induction h with
  | start => exact ⟨0, CostWalk.start, by omega⟩
  | step n p c _ ha hn ih =>
    obtain ⟨v, h1, h2⟩ := ih
    refine ⟨_, CostWalk.step v p c h1 ha hn, ?_⟩
    have hc : (g0.node c).cost ≤ 5 := by
      have hin := adj_inGrid ha
      have := hw.costs c.1 hin.1 c.2 hin.2
      unfold Grid.node
      rw [this]
      split_ifs <;> decide
    push_cast
    omega

/-- Either every node that can be reached is reached within `n` moves, or more than `n` nodes
are. -/
theorem layers (g0 : Grid) (d : Bool) (st : Cell) (n : Nat) :
    (∀ c, FreeWalk g0 d st c → ∃ m, m ≤ n ∧ StepWalk g0 d st m c) ∨
    ∃ S : Finset Cell, (∀ c ∈ S, ∃ m, m ≤ n ∧ StepWalk g0 d st m c) ∧ n + 1 ≤ S.card := by
  induction n with
  | zero =>
    right
    refine ⟨{st}, fun c hc => ?_, by simp⟩
    rw [Finset.mem_singleton.1 hc]
    exact ⟨0, Nat.le_refl _, StepWalk.start⟩
  | succ n ih =>
    rcases ih with h1 | ⟨S, h1, h2⟩
    · left
      intro c hc
      obtain ⟨m, hm, hs⟩ := h1 c hc
      exact ⟨m, Nat.le_succ_of_le hm, hs⟩
    · by_cases hex : ∃ c, (∃ m, m ≤ n + 1 ∧ StepWalk g0 d st m c) ∧ c ∉ S
      · obtain ⟨c, hc, hcS⟩ := hex
        right
        refine ⟨insert c S, fun x hx => ?_, ?_⟩
        · rcases Finset.mem_insert.1 hx with e | e
          · rw [e]; exact hc
          · obtain ⟨m, hm, hs⟩ := h1 x e
            exact ⟨m, Nat.le_succ_of_le hm, hs⟩
        · rw [Finset.card_insert_of_not_mem hcS]
          omega
      · left
        have hall : ∀ c, (∃ m, m ≤ n + 1 ∧ StepWalk g0 d st m c) → c ∈ S := by
          intro c hc
          by_contra hcS
          exact hex ⟨c, hc, hcS⟩
        have key : ∀ c, FreeWalk g0 d st c → ∃ m, m ≤ n ∧ StepWalk g0 d st m c := by
          intro c hc
          induction hc with
          | start => exact ⟨0, Nat.zero_le _, StepWalk.start⟩
          | step p c _ ha hn ih' =>
            obtain ⟨m, hm, hs⟩ := ih'
            exact h1 c (hall c ⟨m + 1, by omega, StepWalk.step m p c hs ha hn⟩)
        intro c hc
        obtain ⟨m, hm, hs⟩ := key c hc
        exact ⟨m, Nat.le_succ_of_le hm, hs⟩

/-- A node that can be reached is reached in fewer moves than the grid has nodes. -/
theorem freeWalk_short (hw : WellFormed g0 st en) {c : Cell} (hc : FreeWalk g0 d st c) :
    ∃ m, m + 1 ≤ g0.rows * g0.cols ∧ StepWalk g0 d st m c := by
  have hpos : 0 < g0.rows * g0.cols := Nat.mul_pos (by have := hw.st_in.1; omega)
    (by have := hw.st_in.2; omega)
  rcases layers g0 d st (g0.rows * g0.cols - 1) with h1 | ⟨S, h1, h2⟩
  · obtain ⟨m, hm, hs⟩ := h1 c hc
    exact ⟨m, by omega, hs⟩
  · have hsub : S ⊆ Finset.range g0.rows ×ˢ Finset.range g0.cols := by
      intro x hx
      obtain ⟨m, _, hs⟩ := h1 x hx
      have := stepWalk_inGrid hw hs
      simpa [InGrid] using this
    have hcard : (Finset.range g0.rows ×ˢ Finset.range g0.cols).card ≤ S.card := by
      simp only [Finset.card_product, Finset.card_range]
      omega
    have hS := Finset.eq_of_subset_of_card_le hsub hcard
    have hcin : c ∈ S := by
      rw [hS]
      have := (hc.nonWall hw).1
      simpa [InGrid] using this
    obtain ⟨m, hm, hs⟩ := h1 c hcin
    exact ⟨m, by omega, hs⟩

/-- On a grid of at most `INT_MAX / 5` nodes a node that can be reached is reached by a walk of
a cost below `INT_MAX`. -/
theorem freeWalk_cost (hw : WellFormed g0 st en) (hsize : 5 * (g0.rows * g0.cols) ≤ 2147483647)
    {c : Cell} (hc : FreeWalk g0 d st c) : ∃ v, CostWalk g0 d st v c ∧ v < INT_MAX := by
  obtain ⟨m, hm, hs⟩ := freeWalk_short hw hc
  obtain ⟨v, h1, h2⟩ := stepWalk_cost hw hs
  refine ⟨v, h1, ?_⟩
  unfold INT_MAX
  omega

end layers

/-! ## Dijkstra: the reported cost is the least cost -/

/-- The entries of the open set of the Dijkstra engine with their keys. -/
def dijkstraEntries (q : List DijkstraNode) : List (Cell × Int) :=
  q.map fun e => (e.node, e.cost)

/-- What a state of a Dijkstra run says about the least cost: the invariant of the search while
it runs, the least cost once the end node is found, and no walk of a cost below `INT_MAX` when
the engine reports that there is no path. -/
def DijkstraOpt (g0 : Grid) (d : Bool) (st en : Cell) (gs : Grid × DijkstraState) : Prop :=
  (gs.2.isComplete = false ∧
    OptRun g0 d st en (fun _ => 0) gs.1.base gs.2.costMap gs.2.parentMap
      (dijkstraEntries gs.2.openSet)) ∨
  (gs.2.isComplete = true ∧ gs.2.noPathExists = false ∧
    CostChain g0 d gs.2.parentMap st gs.2.pathCost en ∧
    ∀ v, CostWalk g0 d st v en → gs.2.pathCost ≤ v) ∨
  (gs.2.isComplete = true ∧ gs.2.noPathExists = true ∧
    ∀ v, CostWalk g0 d st v en → INT_MAX ≤ v)

section dijkstra_opt
variable {g0 : Grid} {d : Bool} {st en : Cell}

theorem consistent_zero (hw : WellFormed g0 st en) : Consistent g0 d (fun _ => 0) := by
  intro u w ha
  have := hw.cost_pos (adj_inGrid ha)
  dsimp only
  omega

theorem closed_mono {ty ty1 : Cell → NodeType} (h : ∀ c, ty c = .Visited → ty1 c = .Visited)
    {c : Cell} (hc : Closed g0 ty st c) : Closed g0 ty1 st c := by
  rcases hc with e | ⟨h1, h2⟩
  · exact Or.inl e
  · exact Or.inr ⟨h1, h c h2⟩

/-- A change of the colour of one node keeps the types. -/
theorem base_recolor (g : Grid) (w : Cell) (f : Node → Node) (hf : ∀ n, (f n).type = n.type) :
    (g.modify w.1 w.2 f).base = g.base := by
  funext c
  unfold Grid.base
  rw [modify_node]
  split_ifs
  · rw [hf]
  · rfl

theorem perm_entries {α : Type} (f : α → Cell × Int) (key : α → Int)
    (hkey : ∀ a, (f a).2 = key a) {x : α} {r q : List α} (hperm : List.Perm (x :: r) q)
    (hmin : ∀ y ∈ q, key x ≤ key y) :
    List.Perm (f x :: r.map f) (q.map f) ∧ f x ∈ q.map f ∧
      ∀ y ∈ q.map f, (f x).2 ≤ y.2 := by
  refine ⟨hperm.map f, List.mem_map.2 ⟨x, hperm.subset (List.mem_cons_self _ _), rfl⟩, ?_⟩
  intro y hy
  obtain ⟨a, ha, e⟩ := List.mem_map.1 hy
  rw [← e, hkey, hkey]
  exact hmin a ha

theorem dijkstraNeighbors_opt (hw : WellFormed g0 st en) (u : Cell) (ty : Cell → NodeType) :
    ∀ (ds done : List (Int × Int)) (g : Grid) (s : DijkstraState),
      done ++ ds = directions d → Frame g0 g → WallsEq g0 g → g.base = ty →
      OptLoop g0 d st en (fun _ => 0) ty s.costMap s.parentMap (dijkstraEntries s.openSet)
        u done →
      (dijkstraNeighbors u ds g s).1.base = ty ∧
      (dijkstraNeighbors u ds g s).2.isComplete = s.isComplete ∧
      OptRun g0 d st en (fun _ => 0) ty (dijkstraNeighbors u ds g s).2.costMap
        (dijkstraNeighbors u ds g s).2.parentMap
        (dijkstraEntries (dijkstraNeighbors u ds g s).2.openSet) := by
  intro ds
  induction ds with
  | nil =>
    intro done g s hds hf hwalls hb hl
    rw [List.append_nil] at hds
    rw [hds] at hl
    exact ⟨hb, rfl, optLoop_exit hl⟩
  | cons dir ds ih =>
    intro done g s hds hf hwalls hb hl
    have hdir : dir ∈ directions d := by
      rw [← hds]
      exact List.mem_append_right _ (List.mem_cons_self _ _)
    have hds' : (done ++ [dir]) ++ ds = directions d := by
      rw [← hds, List.append_assoc]
      rfl
    rw [dijkstraNeighbors, neighborAt_congr hf.rows hf.cols]
    cases hnb : neighborAt g0 u dir with
    | none =>
      exact ih _ g s hds' hf hwalls hb
        (optLoop_skip hl (fun w hw' => by rw [hnb] at hw'; cases hw'))
    | some w =>
      dsimp only
      by_cases hwall : (g.node w).type = .Wall
      · rw [if_pos hwall]
        refine ih _ g s hds' hf hwalls hb (optLoop_skip hl (fun w' hw' hn => ?_))
        rw [hnb] at hw'
        cases hw'
        exact absurd ((hwalls w).1 hwall) hn
      · rw [if_neg hwall]
        have hn0 : (g0.node w).type ≠ .Wall := fun e => hwall ((hwalls w).2 e)
        by_cases hlt : s.costMap u + (g.node w).cost < s.costMap w
        · rw [if_pos hlt]
          have hlt0 : s.costMap u + (g0.node w).cost < s.costMap w := by
            rw [← hf.cost w]; exact hlt
          have hl' := optLoop_relax hw (consistent_zero hw) hl hdir hnb hn0 hlt0
          rw [← hf.cost w, Int.add_zero] at hl'
          have hf1 : Frame g0 (if (g.node w).type ≠ .End ∧ (g.node w).type ≠ .Start then
              g.modify w.1 w.2 fun n => { n with fillColor := ⟨200, 255, 200⟩ } else g) := by
            split_ifs
            · exact frame_modify hf w _ (fun _ => rfl)
            · exact hf
          have hw1 : WallsEq g0 (if (g.node w).type ≠ .End ∧ (g.node w).type ≠ .Start then
              g.modify w.1 w.2 fun n => { n with fillColor := ⟨200, 255, 200⟩ } else g) := by
            split_ifs
            · exact hwalls.modify w _ (hwalls w)
            · exact hwalls
          have hb1 : (if (g.node w).type ≠ .End ∧ (g.node w).type ≠ .Start then
              g.modify w.1 w.2 fun n => { n with fillColor := ⟨200, 255, 200⟩ }
              else g).base = ty := by
            split_ifs
            · exact (base_recolor g w (fun n => { n with fillColor := ⟨200, 255, 200⟩ })
                (fun _ => rfl)).trans hb
            · exact hb
          exact ih _ _
            { s with costMap := setAt s.costMap w (s.costMap u + (g.node w).cost),
                     parentMap := setAt s.parentMap w (some u),
                     openSet := ⟨w, s.costMap u + (g.node w).cost⟩ :: s.openSet,
                     currentLine := 10 }
            hds' hf1 hw1 hb1 hl'
        · rw [if_neg hlt]
          refine ih _ g { s with currentLine := 8 } hds' hf hwalls hb
            (optLoop_skip hl (fun w' hw' _ => ?_))
          rw [hnb] at hw'
          cases hw'
          rw [← hf.cost w]
          omega

theorem dijkstraStep_opt (hw : WellFormed g0 st en)
    {pop : List DijkstraNode → Option (DijkstraNode × List DijkstraNode)}
    (hpop : IsMinPop DijkstraNode.cost pop) {fuel : Nat} (hfuel : 2147483647 ≤ fuel)
    (gs : Grid × DijkstraState) (hinv : DijkstraInv g0 d st en gs)
    (hopt : DijkstraOpt g0 d st en gs) :
    ∃ gs', dijkstraStep pop fuel d gs = some gs' ∧ DijkstraOpt g0 d st en gs' := by
  obtain ⟨g, s⟩ := gs
  obtain ⟨hf, hwalls, hcase⟩ := hinv
  rcases hcase with ⟨h1, h2, h3, -⟩ | ⟨h1, h2, h3, -⟩ | ⟨h1, h2, h3⟩
  · dsimp only at h1 h2 h3 hf hwalls
    have hr : OptRun g0 d st en (fun _ => 0) g.base s.costMap s.parentMap
        (dijkstraEntries s.openSet) := by
      rcases hopt with ⟨_, hr⟩ | ⟨e, _⟩ | ⟨e, _⟩
      · exact hr
      · dsimp only at e
        rw [h2] at e
        cases e
      · dsimp only at e
        rw [h2] at e
        cases e
    have hcons : Consistent g0 d (fun _ => (0 : Int)) := consistent_zero hw
    have hcond : ¬ (s.isSearching = false ∨ s.isComplete = true) := by simp [h1, h2]
    unfold dijkstraStep
    dsimp only
    rw [if_neg hcond]
    by_cases hq : s.openSet.isEmpty = true
    · rw [if_pos hq]
      refine ⟨_, rfl, Or.inr (Or.inr ⟨rfl, rfl, fun v hv => ?_⟩)⟩
      have he : s.openSet = [] := List.isEmpty_iff.1 hq
      rw [he] at hr
      exact optRun_empty hw hcons hr hv
    · rw [if_neg hq]
      have hne : s.openSet ≠ [] := by
        intro e
        rw [e] at hq
        exact hq rfl
      obtain ⟨x, r, hp, hperm, hmin⟩ := hpop.pop_cons s.openSet hne
      rw [hp, Option.some_bind]
      dsimp only
      obtain ⟨hperm', hxm, hmin'⟩ := perm_entries (fun e : DijkstraNode => (e.node, e.cost))
        DijkstraNode.cost (fun _ => rfl) hperm hmin
      obtain ⟨hxw, hxlt⟩ := hr.core.cost.open_ok x.node
        (List.mem_map.2 ⟨(x.node, x.cost), hxm, rfl⟩)
      have hxin : InGrid g0 x.node := (hxw.nonWall hw).1
      by_cases hend : g.endNode = some x.node
      · rw [if_pos hend]
        obtain ⟨g', e1, _, _⟩ := drawCurrentDijkstraPath_spec hw hr.core.cost hfuel hf hwalls
          (hxw.nonWall hw) hxlt
        rw [e1, Option.some_bind]
        have hxe : x.node = en := by
          rw [hf.endNode, hw.endNode] at hend
          cases hend
          rfl
        obtain ⟨c1, c2⟩ := optRun_found hw hcons hr hxm hmin' hxe
        refine ⟨_, rfl, Or.inr (Or.inl ⟨rfl, h3, ?_, ?_⟩)⟩
        · dsimp only
          rw [hxe]
          exact c1
        · dsimp only
          rw [hxe]
          exact c2
      · rw [if_neg hend]
        have hxe : x.node ≠ en := by
          intro e
          rw [e, hf.endNode, hw.endNode] at hend
          exact hend rfl
        by_cases hvis : (g.node x.node).type = .Visited
        · rw [if_pos hvis]
          have hbv : g.base x.node = .Visited := by
            unfold Grid.base
            rw [hvis]
            rfl
          refine ⟨_, rfl, Or.inl ⟨h2, ?_⟩⟩
          refine optRun_drop hr hperm' (Or.inr ⟨hxin, hbv⟩) ?_
          intro e
          dsimp only at e
          rw [e, hr.core.ty_st] at hbv
          cases hbv
        · rw [if_neg hvis]
          have hf1 : Frame g0 (if (g.node x.node).type ≠ .Start then
              g.modify x.node.1 x.node.2 fun n =>
                { n with type := .Visited,
                         fillColor := if n.cost > 1 then VISITED_WEIGHT_COLOR
                                      else VISITED_COLOR }
              else g) := by
            split_ifs
            · exact frame_modify hf x.node _ (fun _ => rfl)
            · exact hf
          have hw1 : WallsEq g0 (if (g.node x.node).type ≠ .Start then
              g.modify x.node.1 x.node.2 fun n =>
                { n with type := .Visited,
                         fillColor := if n.cost > 1 then VISITED_WEIGHT_COLOR
                                      else VISITED_COLOR }
              else g) := by
            split_ifs
            · exact hwalls.modify x.node _
                ⟨fun e => (by cases e), fun e => absurd e (hxw.nonWall hw).2⟩
            · exact hwalls
          obtain ⟨hb1, hb1'⟩ := base_close g x.node
            (fun n => { n with type := .Visited,
                               fillColor := if n.cost > 1 then VISITED_WEIGHT_COLOR
                                            else VISITED_COLOR })
            (fun _ => rfl) hr.core.ty_st
          obtain ⟨g2, e1, hf2, hw2⟩ := drawCurrentDijkstraPath_spec hw hr.core.cost hfuel hf1
            hw1 (hxw.nonWall hw) hxlt
          rw [e1, Option.some_bind]
          unfold drawCurrentDijkstraPath at e1
          have hbm := base_mapNodes
            (if (g.node x.node).type ≠ .Start then
              g.modify x.node.1 x.node.2 fun n =>
                { n with type := .Visited,
                         fillColor := if n.cost > 1 then VISITED_WEIGHT_COLOR
                                      else VISITED_COLOR }
              else g)
            (fun n =>
              if n.type = .Path then
                { n with type := .Visited,
                         fillColor := if n.cost > 1 then VISITED_WEIGHT_COLOR
                                      else VISITED_COLOR }
              else n)
            (fun n => by
              by_cases e : n.type = .Path
              · simp only [e, if_true]; rfl
              · simp only [e, if_false])
          have hb2 := tracePath_base hw
            (hf1.mapNodes _ (fun n => by split_ifs <;> rfl))
            (fun c p hcp => by
              rw [hbm]
              refine closed_mono (fun c hc => ?_) (hr.core.parents c p hcp)
              rcases hb1 c with e | ⟨_, _, e⟩
              · rw [e, hc]
              · exact e)
            e1
          rw [hbm] at hb2
          obtain ⟨hty, hst2, hcl⟩ := closed_types hxin hr.core.ty_st hb1
            (fun c => by
              rcases hb2 c with e | ⟨e1, e2, _, e3⟩
              · exact Or.inl e
              · exact Or.inr ⟨e1, e2, e3⟩)
            (fun hus => Or.inl (hb1' (fun e => hus (hr.core.ty_start _ hxin e))))
          have hl := optRun_enter hr hperm' hmin' hty hst2 hxe hcl
          obtain ⟨c1, c2, c3⟩ := dijkstraNeighbors_opt hw x.node g2.base (directions d) [] g2
            { s with openSet := r, nodesVisited := s.nodesVisited + 1, currentLine := 6 }
            rfl hf2 hw2 rfl hl
          rw [← c1] at c3
          exact ⟨_, rfl, Or.inl ⟨c2.trans h2, c3⟩⟩
  · refine ⟨(g, s), ?_, hopt⟩
    unfold dijkstraStep
    dsimp only at h1
    simp [h1]
  · refine ⟨(g, s), ?_, hopt⟩
    unfold dijkstraStep
    dsimp only at h1
    simp [h1]

/-- With enough fuel a run of the Dijkstra engine reaches a complete state that satisfies both
invariants. -/
theorem dijkstra_reach_opt (hw : WellFormed g0 st en)
    {pop : List DijkstraNode → Option (DijkstraNode × List DijkstraNode)}
    (hpop : IsMinPop DijkstraNode.cost pop) {fuel : Nat} (hfuel : 2147483647 ≤ fuel) :
    ∃ k gs, dijkstraRun pop fuel d g0 k = some gs ∧ gs.2.isComplete = true ∧
      DijkstraInv g0 d st en gs ∧ DijkstraOpt g0 d st en gs ∧
      ∀ i, i < k → ∃ t, dijkstraRun pop fuel d g0 i = some t ∧ t.2.isComplete = false := by
  obtain ⟨k, gs, _, hrun, hfin, hinv, hbefore⟩ :=
    iterStep_reach_bound (dijkstraStep pop fuel d)
      (fun gs => DijkstraInv g0 d st en gs ∧ DijkstraOpt g0 d st en gs)
      (fun gs => gs.2.isComplete) (dijkstraMeasure g0)
      (fun gs h hfin => by
        obtain ⟨gs', e, h', hm⟩ := dijkstraStep_spec hw hpop hfuel gs h.1
        obtain ⟨gs'', e', h''⟩ := dijkstraStep_opt hw hpop hfuel gs h.1 h.2
        rw [e] at e'
        cases e'
        exact ⟨gs', e, ⟨h', h''⟩, hm hfin⟩)
      (g0, ⟨[⟨st, 0⟩], fun _ => none, setAt (fun _ => INT_MAX) st 0, true, false, false,
          0, 0, 0⟩)
      ⟨⟨Frame.refl g0, WallsEq.walls_refl g0, Or.inl ⟨rfl, rfl, rfl, costInv_init hw⟩⟩,
        Or.inl ⟨rfl, optRun_init hw (fun c hc => hw.base_eq hc)⟩⟩
  refine ⟨k, gs, by rw [dijkstraRun_eq hw]; exact hrun, hfin, hinv.1, hinv.2, fun i hi => ?_⟩
  rw [dijkstraRun_eq hw]
  exact hbefore i hi

end dijkstra_opt

/-! ## A* without diagonal moves: the reported cost is the least cost -/

/-- The entries of the open set of the A* engine with their keys. -/
def aStarEntries (q : List AStarNode) : List (Cell × Int) :=
  q.map fun e => (e.node, e.fCost)

/-- What a state of an A* run says about the least cost: the invariant of the search while it
runs, the least cost once the end node is found, and no walk of a cost below `INT_MAX` when the
engine reports that there is no path. -/
def AStarOpt (g0 : Grid) (d : Bool) (st en : Cell) (gs : Grid × AStarState) : Prop :=
  (gs.2.isComplete = false ∧
    OptRun g0 d st en (fun c => calculateHeuristic c en) gs.1.base gs.2.gCost gs.2.parentMap
      (aStarEntries gs.2.openSet)) ∨
  (gs.2.isComplete = true ∧ gs.2.noPathExists = false ∧
    CostChain g0 d gs.2.parentMap st gs.2.pathCost en ∧
    ∀ v, CostWalk g0 d st v en → gs.2.pathCost ≤ v) ∨
  (gs.2.isComplete = true ∧ gs.2.noPathExists = true ∧
    ∀ v, CostWalk g0 d st v en → INT_MAX ≤ v)

section astar_opt
variable {g0 : Grid} {d : Bool} {st en : Cell}

/-- Without diagonal moves a move changes the Manhattan distance to the end node by one, which
is at most the cost of the node entered. -/
theorem consistent_manhattan (hw : WellFormed g0 st en) :
    Consistent g0 false (fun c => calculateHeuristic c en) := by
  intro u w ha
  have hpos := hw.cost_pos (adj_inGrid ha)
  generalize (g0.node w).cost = k at hpos ⊢
  obtain ⟨dir, hdir, hnb⟩ := ha
  unfold neighborAt at hnb
  dsimp only at hnb
  split_ifs at hnb with hb
  cases hnb
  simp [directions] at hdir
  unfold calculateHeuristic
  dsimp only
  rcases hdir with e | e | e | e <;> rw [e] at hb ⊢ <;> dsimp only at hb ⊢ <;> omega

theorem aStarNeighbors_opt (hw : WellFormed g0 st en)
    (hcons : Consistent g0 d (fun c => calculateHeuristic c en)) (u : Cell)
    (ty : Cell → NodeType) :
    ∀ (ds done : List (Int × Int)) (g : Grid) (s : AStarState),
      done ++ ds = directions d → Frame g0 g → WallsEq g0 g → g.base = ty →
      OptLoop g0 d st en (fun c => calculateHeuristic c en) ty s.gCost s.parentMap
        (aStarEntries s.openSet) u done →
      (aStarNeighbors u en ds g s).1.base = ty ∧
      (aStarNeighbors u en ds g s).2.isComplete = s.isComplete ∧
      OptRun g0 d st en (fun c => calculateHeuristic c en) ty
        (aStarNeighbors u en ds g s).2.gCost (aStarNeighbors u en ds g s).2.parentMap
        (aStarEntries (aStarNeighbors u en ds g s).2.openSet) := by
  intro ds
  induction ds with
  | nil =>
    intro done g s hds hf hwalls hb hl
    rw [List.append_nil] at hds
    rw [hds] at hl
    exact ⟨hb, rfl, optLoop_exit hl⟩
  | cons dir ds ih =>
    intro done g s hds hf hwalls hb hl
    have hdir : dir ∈ directions d := by
      rw [← hds]
      exact List.mem_append_right _ (List.mem_cons_self _ _)
    have hds' : (done ++ [dir]) ++ ds = directions d := by
      rw [← hds, List.append_assoc]
      rfl
    rw [aStarNeighbors, neighborAt_congr hf.rows hf.cols]
    cases hnb : neighborAt g0 u dir with
    | none =>
      exact ih _ g s hds' hf hwalls hb
        (optLoop_skip hl (fun w hw' => by rw [hnb] at hw'; cases hw'))
    | some w =>
      dsimp only
      by_cases hskip : (g.node w).type = .Wall ∨ (g.node w).type = .Visited
      · rw [if_pos hskip]
        refine ih _ g s hds' hf hwalls hb (optLoop_skip hl (fun w' hw' hn => ?_))
        rw [hnb] at hw'
        cases hw'
        rcases hskip with hwall | hvis
        · exact absurd ((hwalls w).1 hwall) hn
        · refine optLoop_closed_le hw hcons hl ⟨dir, hdir, hnb⟩ hn
            (Or.inr ⟨neighborAt_inGrid hnb, ?_⟩)
          rw [← hb]
          unfold Grid.base
          rw [hvis]
          rfl
      · rw [if_neg hskip]
        have hn0 : (g0.node w).type ≠ .Wall := fun e => hskip (Or.inl ((hwalls w).2 e))
        by_cases hlt : s.gCost u + (g.node w).cost < s.gCost w
        · rw [if_pos hlt]
          have hlt0 : s.gCost u + (g0.node w).cost < s.gCost w := by
            rw [← hf.cost w]; exact hlt
          have hl' := optLoop_relax hw hcons hl hdir hnb hn0 hlt0
          rw [← hf.cost w] at hl'
          have hf1 : Frame g0 (if (g.node w).type ≠ .End ∧ (g.node w).type ≠ .Start then
              g.modify w.1 w.2 fun n => { n with fillColor := ⟨200, 255, 200⟩ } else g) := by
            split_ifs
            · exact frame_modify hf w _ (fun _ => rfl)
            · exact hf
          have hw1 : WallsEq g0 (if (g.node w).type ≠ .End ∧ (g.node w).type ≠ .Start then
              g.modify w.1 w.2 fun n => { n with fillColor := ⟨200, 255, 200⟩ } else g) := by
            split_ifs
            · exact hwalls.modify w _ (hwalls w)
            · exact hwalls
          have hb1 : (if (g.node w).type ≠ .End ∧ (g.node w).type ≠ .Start then
              g.modify w.1 w.2 fun n => { n with fillColor := ⟨200, 255, 200⟩ }
              else g).base = ty := by
            split_ifs
            · exact (base_recolor g w (fun n => { n with fillColor := ⟨200, 255, 200⟩ })
                (fun _ => rfl)).trans hb
            · exact hb
          exact ih _ _
            { s with parentMap := setAt s.parentMap w (some u),
                     gCost := setAt s.gCost w (s.gCost u + (g.node w).cost),
                     openSet := ⟨w, s.gCost u + (g.node w).cost + calculateHeuristic w en⟩ ::
                       s.openSet,
                     currentLine := 13 }
            hds' hf1 hw1 hb1 hl'
        · rw [if_neg hlt]
          refine ih _ g { s with currentLine := 9 } hds' hf hwalls hb
            (optLoop_skip hl (fun w' hw' _ => ?_))
          rw [hnb] at hw'
          cases hw'
          rw [← hf.cost w]
          omega

theorem aStarStep_opt (hw : WellFormed g0 st en)
    (hcons : Consistent g0 d (fun c => calculateHeuristic c en))
    {pop : List AStarNode → Option (AStarNode × List AStarNode)}
    (hpop : IsMinPop AStarNode.fCost pop) {fuel : Nat} (hfuel : 2147483647 ≤ fuel)
    (gs : Grid × AStarState) (hinv : AStarInv g0 d st en gs)
    (hopt : AStarOpt g0 d st en gs) :
    ∃ gs', aStarStep pop fuel d gs = some gs' ∧ AStarOpt g0 d st en gs' := by
  obtain ⟨g, s⟩ := gs
  obtain ⟨hf, hwalls, hcase⟩ := hinv
  rcases hcase with ⟨h1, h2, h3, -⟩ | ⟨h1, h2, h3, -⟩ | ⟨h1, h2, h3⟩
  · dsimp only at h1 h2 h3 hf hwalls
    have hr : OptRun g0 d st en (fun c => calculateHeuristic c en) g.base s.gCost s.parentMap
        (aStarEntries s.openSet) := by
      rcases hopt with ⟨_, hr⟩ | ⟨e, _⟩ | ⟨e, _⟩
      · exact hr
      · dsimp only at e
        rw [h2] at e
        cases e
      · dsimp only at e
        rw [h2] at e
        cases e
    have hcond : ¬ (s.isSearching = false ∨ s.isComplete = true) := by simp [h1, h2]
    unfold aStarStep
    dsimp only
    rw [if_neg hcond]
    by_cases hq : s.openSet.isEmpty = true
    · rw [if_pos hq]
      refine ⟨_, rfl, Or.inr (Or.inr ⟨rfl, rfl, fun v hv => ?_⟩)⟩
      have he : s.openSet = [] := List.isEmpty_iff.1 hq
      rw [he] at hr
      exact optRun_empty hw hcons hr hv
    · rw [if_neg hq]
      have hne : s.openSet ≠ [] := by
        intro e
        rw [e] at hq
        exact hq rfl
      obtain ⟨x, r, hp, hperm, hmin⟩ := hpop.pop_cons s.openSet hne
      rw [hp, Option.some_bind]
      dsimp only
      obtain ⟨hperm', hxm, hmin'⟩ := perm_entries (fun e : AStarNode => (e.node, e.fCost))
        AStarNode.fCost (fun _ => rfl) hperm hmin
      obtain ⟨hxw, hxlt⟩ := hr.core.cost.open_ok x.node
        (List.mem_map.2 ⟨(x.node, x.fCost), hxm, rfl⟩)
      have hxin : InGrid g0 x.node := (hxw.nonWall hw).1
      obtain ⟨g1, e1, hf1, hw1⟩ := drawCurrentAStarPath_spec hw hr.core.cost hfuel hf hwalls
        (hxw.nonWall hw) hxlt
      rw [e1, Option.some_bind]
      by_cases hend : g1.endNode = some x.node
      · rw [if_pos hend]
        have hxe : x.node = en := by
          rw [hf1.endNode, hw.endNode] at hend
          cases hend
          rfl
        obtain ⟨c1, c2⟩ := optRun_found hw hcons hr hxm hmin' hxe
        refine ⟨_, rfl, Or.inr (Or.inl ⟨rfl, h3, ?_, ?_⟩)⟩
        · dsimp only
          rw [hxe]
          exact c1
        · dsimp only
          rw [hxe]
          exact c2
      · rw [if_neg hend]
        have hxe : x.node ≠ en := by
          intro e
          rw [e, hf1.endNode, hw.endNode] at hend
          exact hend rfl
        unfold drawCurrentAStarPath at e1
        have hb1 := tracePath_base hw (frame_clearOldPath hf)
          (fun c p hcp => by
            rw [base_clearOldPath]
            exact hr.core.parents c p hcp)
          e1
        rw [base_clearOldPath] at hb1
        have hst1 : g1.base st = .Start := by
          rcases hb1 st with e | ⟨_, e, _⟩
          · rw [e]; exact hr.core.ty_st
          · exact absurd rfl e
        have hu1 : x.node ≠ st → g1.base x.node ≠ .Start := by
          intro hus
          rcases hb1 x.node with e | ⟨_, _, _, e⟩
          · rw [e]
            exact fun e' => hus (hr.core.ty_start _ hxin e')
          · rw [e]
            exact fun e' => by cases e'
        obtain ⟨hb2, hb2'⟩ := base_close g1 x.node
          (fun n => { n with type := .Visited, fillColor := ⟨173, 216, 230⟩ })
          (fun _ => rfl) hst1
        have hf2 : Frame g0 (if (g1.node x.node).type ≠ .Start then
            g1.modify x.node.1 x.node.2 fun n =>
              { n with type := .Visited, fillColor := ⟨173, 216, 230⟩ }
            else g1) := by
          split_ifs
          · exact frame_modify hf1 x.node _ (fun _ => rfl)
          · exact hf1
        have hw2 : WallsEq g0 (if (g1.node x.node).type ≠ .Start then
            g1.modify x.node.1 x.node.2 fun n =>
              { n with type := .Visited, fillColor := ⟨173, 216, 230⟩ }
            else g1) := by
          split_ifs
          · exact hw1.modify x.node _
              ⟨fun e => (by cases e), fun e => absurd e (hxw.nonWall hw).2⟩
          · exact hw1
        rw [hf2.endNode, hw.endNode, Option.some_bind]
        obtain ⟨hty, hst2, hcl⟩ := closed_types hxin hr.core.ty_st
          (fun c => by
            rcases hb1 c with e | ⟨e1, e2, _, e3⟩
            · exact Or.inl e
            · exact Or.inr ⟨e1, e2, e3⟩)
          hb2 (fun hus => Or.inr (hb2' (hu1 hus)))
        have hl := optRun_enter hr hperm' hmin' hty hst2 hxe hcl
        obtain ⟨c1, c2, c3⟩ := aStarNeighbors_opt hw hcons x.node _ (directions d) [] _
          { s with openSet := r, nodesVisited := s.nodesVisited + 1, currentLine := 7 }
          rfl hf2 hw2 rfl hl
        rw [← c1] at c3
        exact ⟨_, rfl, Or.inl ⟨c2.trans h2, c3⟩⟩
  · refine ⟨(g, s), ?_, hopt⟩
    unfold aStarStep
    dsimp only at h1
    simp [h1]
  · refine ⟨(g, s), ?_, hopt⟩
    unfold aStarStep
    dsimp only at h1
    simp [h1]

/-- With enough fuel a run of the A* engine reaches a complete state that satisfies both
invariants, when the heuristic is consistent. -/
theorem aStar_reach_opt (hw : WellFormed g0 st en)
    (hcons : Consistent g0 d (fun c => calculateHeuristic c en))
    {pop : List AStarNode → Option (AStarNode × List AStarNode)}
    (hpop : IsMinPop AStarNode.fCost pop) {fuel : Nat} (hfuel : 2147483647 ≤ fuel) :
    ∃ k gs, aStarRun pop fuel d g0 k = some gs ∧ gs.2.isComplete = true ∧
      AStarInv g0 d st en gs ∧ AStarOpt g0 d st en gs ∧
      ∀ i, i < k → ∃ t, aStarRun pop fuel d g0 i = some t ∧ t.2.isComplete = false := by
  obtain ⟨k, gs, _, hrun, hfin, hinv, hbefore⟩ :=
    iterStep_reach_bound (aStarStep pop fuel d)
      (fun gs => AStarInv g0 d st en gs ∧ AStarOpt g0 d st en gs)
      (fun gs => gs.2.isComplete) (aStarMeasure g0)
      (fun gs h hfin => by
        obtain ⟨gs', e, h', hm⟩ := aStarStep_spec hw hpop hfuel gs h.1
        obtain ⟨gs'', e', h''⟩ := aStarStep_opt hw hcons hpop hfuel gs h.1 h.2
        rw [e] at e'
        cases e'
        exact ⟨gs', e, ⟨h', h''⟩, hm hfin⟩)
      (g0, ⟨[⟨st, calculateHeuristic st en⟩], fun _ => none, setAt (fun _ => INT_MAX) st 0,
          true, false, false, 0, 0, 0⟩)
      ⟨⟨Frame.refl g0, WallsEq.walls_refl g0, Or.inl ⟨rfl, rfl, rfl, costInv_init hw⟩⟩,
        Or.inl ⟨rfl, optRun_init hw (fun c hc => hw.base_eq hc)⟩⟩
  refine ⟨k, gs, by rw [aStarRun_eq hw]; exact hrun, hfin, hinv.1, hinv.2, fun i hi => ?_⟩
  rw [aStarRun_eq hw]
  exact hbefore i hi

end astar_opt

/-! ## Dijkstra and A*: the claims on the reported cost -/

/-- Following `parentMap` from `c` leads to the start node in `n` moves, `k` of the nodes entered
on the way from the start node to `c` being Weight nodes. -/
inductive WeightChain (g0 : Grid) (isDiagonal : Bool) (pm : Cell → Option Cell) (st : Cell) :
    Nat → Nat → Cell → Prop
  | start : WeightChain g0 isDiagonal pm st 0 0 st
  | step (n k : Nat) (u c : Cell) : WeightChain g0 isDiagonal pm st n k u → pm c = some u →
      Adj g0 isDiagonal u c → (g0.node c).type ≠ .Wall →
      WeightChain g0 isDiagonal pm st (n + 1)
        (k + if (g0.node c).type = .Weight then 1 else 0) c

/-- The node `c` is reached from the start node in `m` moves that enter neither a Wall nor a
Weight node. -/
inductive PlainWalk (g0 : Grid) (isDiagonal : Bool) (st : Cell) : Nat → Cell → Prop
  | start : PlainWalk g0 isDiagonal st 0 st
  | step (m : Nat) (p c : Cell) : PlainWalk g0 isDiagonal st m p → Adj g0 isDiagonal p c →
      (g0.node c).type ≠ .Wall → (g0.node c).type ≠ .Weight →
      PlainWalk g0 isDiagonal st (m + 1) c

/-- One row of three nodes: Start, Weight, End. -/
def weightGrid : Grid := lineGrid.setNodeType 0 1 .Weight

/-- Three rows of four nodes: Start, Weight, Empty, Empty; Empty, Wall, Empty, Empty; Empty,
Weight, Empty, End. -/
def detourGrid : Grid :=
  (((((Grid.construct 4 3 1).setNodeType 0 0 .Start).setNodeType 2 3 .End).setNodeType 0 1
    .Weight).setNodeType 1 1 .Wall).setNodeType 2 1 .Weight

section weighted
variable {g0 : Grid} {d : Bool} {st en : Cell}

theorem costChain_weights (hw : WellFormed g0 st en) {pm : Cell → Option Cell} {v : Int}
    {c : Cell} (hc : CostChain g0 d pm st v c) :
    ∃ n k : Nat, WeightChain g0 d pm st n k c ∧ v = (n : Int) + 4 * (k : Int) := by
  induction hc with
  | start => exact ⟨0, 0, WeightChain.start, by simp⟩
  | step v u c _ hp ha hn ih =>
    obtain ⟨n, k, h1, h2⟩ := ih
    refine ⟨_, _, WeightChain.step n k u c h1 hp ha hn, ?_⟩
    have hin := adj_inGrid ha
    have hcost := hw.costs c.1 hin.1 c.2 hin.2
    unfold Grid.node at hcost ⊢
    rw [hcost, h2]
    split_ifs <;> push_cast <;> omega

theorem plainWalk_cost (hw : WellFormed g0 st en) {m : Nat} {c : Cell}
    (hc : PlainWalk g0 d st m c) : CostWalk g0 d st (m : Int) c := by
  induction hc with
  | start => exact CostWalk.start
  | step m p c _ ha hn hnw ih =>
    have hin := adj_inGrid ha
    have hcost : (g0.node c).cost = 1 := by
      have := hw.costs c.1 hin.1 c.2 hin.2
      unfold Grid.node at hnw ⊢
      rw [this, if_neg hnw]
    have := CostWalk.step _ p c ih ha hn
    rw [hcost] at this
    exact_mod_cast this

/-- A chain of least cost enters no Weight node when a walk of no more moves enters none. -/
theorem weightChain_plain (hw : WellFormed g0 st en) {pm : Cell → Option Cell} {v : Int}
    (hc : CostChain g0 d pm st v en) (hmin : ∀ v', CostWalk g0 d st v' en → v ≤ v') :
    ∃ n k : Nat, WeightChain g0 d pm st n k en ∧ v = (n : Int) + 4 * (k : Int) ∧
      ∀ m, PlainWalk g0 d st m en → m ≤ n → k = 0 := by
  obtain ⟨n, k, h1, h2⟩ := costChain_weights hw hc
  refine ⟨n, k, h1, h2, fun m hm hle => ?_⟩
  have := hmin _ (plainWalk_cost hw hm)
  omega

/-- On a grid of at most `INT_MAX / 5` nodes whose end node can be reached, a Dijkstra run ends
with the least cost of a walk to the end node. -/
theorem dijkstra_least (hw : WellFormed g0 st en)
    (hsize : 5 * (g0.rows * g0.cols) ≤ 2147483647) (hreach : FreeWalk g0 d st en)
    {pop : List DijkstraNode → Option (DijkstraNode × List DijkstraNode)}
    (hpop : IsMinPop DijkstraNode.cost pop) {fuel : Nat} (hfuel : 2147483647 ≤ fuel) :
    ∃ k g s, dijkstraRun pop fuel d g0 k = some (g, s) ∧
      (∀ i, i < k → ∃ t, dijkstraRun pop fuel d g0 i = some t ∧ t.2.isComplete = false) ∧
      s.isComplete = true ∧ s.noPathExists = false ∧ s.isSearching = false ∧
      CostChain g0 d s.parentMap st s.pathCost en ∧
      ∀ v, CostWalk g0 d st v en → s.pathCost ≤ v := by
  obtain ⟨k, ⟨g, s⟩, hrun, hfin, ⟨_, _, hcase⟩, hopt, hbefore⟩ :=
    dijkstra_reach_opt (d := d) hw hpop hfuel
  obtain ⟨v0, hv0, hlt⟩ := freeWalk_cost hw hsize hreach
  have hs : s.isSearching = false := by
    rcases hcase with ⟨_, h2, _⟩ | ⟨h1, _⟩ | ⟨h1, _⟩
    · rw [hfin] at h2; cases h2
    · exact h1
    · exact h1
  rcases hopt with ⟨h1, _⟩ | ⟨_, h2, h3, h4⟩ | ⟨_, _, h3⟩
  · rw [hfin] at h1; cases h1
  · exact ⟨k, g, s, hrun, hbefore, hfin, h2, hs, h3, h4⟩
  · have := h3 v0 hv0
    omega

/-- On a grid of at most `INT_MAX / 5` nodes whose end node can be reached, an A* run without
diagonal moves ends with the least cost of a walk to the end node. -/
theorem aStar_least (hw : WellFormed g0 st en)
    (hsize : 5 * (g0.rows * g0.cols) ≤ 2147483647) (hreach : FreeWalk g0 false st en)
    {pop : List AStarNode → Option (AStarNode × List AStarNode)}
    (hpop : IsMinPop AStarNode.fCost pop) {fuel : Nat} (hfuel : 2147483647 ≤ fuel) :
    ∃ k g s, aStarRun pop fuel false g0 k = some (g, s) ∧
      (∀ i, i < k → ∃ t, aStarRun pop fuel false g0 i = some t ∧ t.2.isComplete = false) ∧
      s.isComplete = true ∧ s.noPathExists = false ∧ s.isSearching = false ∧
      CostChain g0 false s.parentMap st s.pathCost en ∧
      ∀ v, CostWalk g0 false st v en → s.pathCost ≤ v := by
  obtain ⟨k, ⟨g, s⟩, hrun, hfin, ⟨_, _, hcase⟩, hopt, hbefore⟩ :=
    aStar_reach_opt hw (consistent_manhattan hw) hpop hfuel
  obtain ⟨v0, hv0, hlt⟩ := freeWalk_cost hw hsize hreach
  have hs : s.isSearching = false := by
    rcases hcase with ⟨_, h2, _⟩ | ⟨h1, _⟩ | ⟨h1, _⟩
    · rw [hfin] at h2; cases h2
    · exact h1
    · exact h1
  rcases hopt with ⟨h1, _⟩ | ⟨_, h2, h3, h4⟩ | ⟨_, _, h3⟩
  · rw [hfin] at h1; cases h1
  · exact ⟨k, g, s, hrun, hbefore, hfin, h2, hs, h3, h4⟩
  · have := h3 v0 hv0
    omega

end weighted

theorem weightGrid_wellFormed : WellFormed weightGrid (0, 0) (0, 2) :=
  ⟨by decide, by decide, by decide, by decide, by decide, by decide, by decide, by decide,
    by decide⟩

theorem weightGrid_free : FreeWalk weightGrid false (0, 0) (0, 2) :=
  FreeWalk.step (0, 1) (0, 2)
    (FreeWalk.step (0, 0) (0, 1) FreeWalk.start ⟨(0, 1), by decide, by decide⟩ (by decide))
    ⟨(0, 1), by decide, by decide⟩ (by decide)

/-- C8: on a well-formed grid (distinct Start and End references, no Visited or Path node, a
Weight node costing 5 and the others 1) of at most `INT_MAX / 5` nodes whose end node can be
reached from the start node through nodes that are not Walls, under either adjacency, a freshly
started Dijkstra search given enough fuel for the tracing loop reaches a first complete state,
with `isComplete = true`, `noPathExists = false` and `isSearching = false`, whatever minimal
entry the priority queue delivers.  Its `pathCost` is the cost of the path `parentMap` describes
from the start node to the end node (the costs of the nodes entered, the end node included, the
start node not) and no walk through nodes that are not Walls has a lower cost.  This path
enters no Weight node when some walk of no more moves reaches the end node without entering
one. -/
theorem dijkstra_min_cost (g0 : Grid) (st en : Cell) (hw : WellFormed g0 st en)
    (isDiagonal : Bool) (hsize : 5 * (g0.rows * g0.cols) ≤ 2147483647)
    (hreach : FreeWalk g0 isDiagonal st en)
    (pop : List DijkstraNode → Option (DijkstraNode × List DijkstraNode))
    (hpop : IsMinPop DijkstraNode.cost pop) (fuel : Nat) (hfuel : 2147483647 ≤ fuel) :
    ∃ k g s, dijkstraRun pop fuel isDiagonal g0 k = some (g, s) ∧
      (∀ i, i < k → ∃ t, dijkstraRun pop fuel isDiagonal g0 i = some t ∧
        t.2.isComplete = false) ∧
      s.isComplete = true ∧ s.noPathExists = false ∧ s.isSearching = false ∧
      CostChain g0 isDiagonal s.parentMap st s.pathCost en ∧
      (∀ v, CostWalk g0 isDiagonal st v en → s.pathCost ≤ v) ∧
      ∃ n w : Nat, WeightChain g0 isDiagonal s.parentMap st n w en ∧
        s.pathCost = (n : Int) + 4 * (w : Int) ∧
        ∀ m, PlainWalk g0 isDiagonal st m en → m ≤ n → w = 0 := by
  obtain ⟨k, g, s, h1, h2, h3, h4, h5, h6, h7⟩ := dijkstra_least hw hsize hreach hpop hfuel
  exact ⟨k, g, s, h1, h2, h3, h4, h5, h6, h7, weightChain_plain hw h6 h7⟩

theorem dijkstra_min_cost_witness :
    ∃ k g s, dijkstraRun (popMin DijkstraNode.cost) 2147483647 false weightGrid k
        = some (g, s) ∧
      (∀ i, i < k → ∃ t, dijkstraRun (popMin DijkstraNode.cost) 2147483647 false weightGrid i
        = some t ∧ t.2.isComplete = false) ∧
      s.isComplete = true ∧ s.noPathExists = false ∧ s.isSearching = false ∧
      CostChain weightGrid false s.parentMap (0, 0) s.pathCost (0, 2) ∧
      (∀ v, CostWalk weightGrid false (0, 0) v (0, 2) → s.pathCost ≤ v) ∧
      ∃ n w : Nat, WeightChain weightGrid false s.parentMap (0, 0) n w (0, 2) ∧
        s.pathCost = (n : Int) + 4 * (w : Int) ∧
        ∀ m, PlainWalk weightGrid false (0, 0) m (0, 2) → m ≤ n → w = 0 :=
  dijkstra_min_cost weightGrid (0, 0) (0, 2) weightGrid_wellFormed false (by decide)
    weightGrid_free (popMin DijkstraNode.cost) (popMin_isMinPop _) 2147483647 (by decide)

/-- C9: on a well-formed grid of at most `INT_MAX / 5` nodes whose end node can be reached from
the start node through nodes that are not Walls by moves along the four axis directions, a
freshly started A* search without diagonal moves, given enough fuel for the tracing loop,
reaches a first complete state, with `isComplete = true`, `noPathExists = false` and
`isSearching = false`, whatever minimal entry the priority queue delivers.  Its `pathCost` is
the cost of the path `parentMap` describes from the start node to the end node, no walk through
nodes that are not Walls has a lower cost, and every Dijkstra search on the grid ends with the
same `pathCost`. -/
theorem aStar_min_cost (g0 : Grid) (st en : Cell) (hw : WellFormed g0 st en)
    (hsize : 5 * (g0.rows * g0.cols) ≤ 2147483647) (hreach : FreeWalk g0 false st en)
    (pop : List AStarNode → Option (AStarNode × List AStarNode))
    (hpop : IsMinPop AStarNode.fCost pop)
    (popD : List DijkstraNode → Option (DijkstraNode × List DijkstraNode))
    (hpopD : IsMinPop DijkstraNode.cost popD) (fuel : Nat) (hfuel : 2147483647 ≤ fuel) :
    ∃ k g s, aStarRun pop fuel false g0 k = some (g, s) ∧
      (∀ i, i < k → ∃ t, aStarRun pop fuel false g0 i = some t ∧ t.2.isComplete = false) ∧
      s.isComplete = true ∧ s.noPathExists = false ∧ s.isSearching = false ∧
      CostChain g0 false s.parentMap st s.pathCost en ∧
      (∀ v, CostWalk g0 false st v en → s.pathCost ≤ v) ∧
      ∃ k' g' s', dijkstraRun popD fuel false g0 k' = some (g', s') ∧ s'.isComplete = true ∧
        s'.pathCost = s.pathCost := by
  obtain ⟨k, g, s, h1, h2, h3, h4, h5, h6, h7⟩ := aStar_least hw hsize hreach hpop hfuel
  obtain ⟨k', g', s', d1, _, d3, _, _, d6, d7⟩ := dijkstra_least hw hsize hreach hpopD hfuel
  refine ⟨k, g, s, h1, h2, h3, h4, h5, h6, h7, k', g', s', d1, d3, ?_⟩
  exact Int.le_antisymm (d7 _ h6.cost_walk) (h7 _ d6.cost_walk)

theorem aStar_min_cost_witness :
    ∃ k g s, aStarRun (popMin AStarNode.fCost) 2147483647 false weightGrid k = some (g, s) ∧
      (∀ i, i < k → ∃ t, aStarRun (popMin AStarNode.fCost) 2147483647 false weightGrid i
        = some t ∧ t.2.isComplete = false) ∧
      s.isComplete = true ∧ s.noPathExists = false ∧ s.isSearching = false ∧
      CostChain weightGrid false s.parentMap (0, 0) s.pathCost (0, 2) ∧
      (∀ v, CostWalk weightGrid false (0, 0) v (0, 2) → s.pathCost ≤ v) ∧
      ∃ k' g' s', dijkstraRun (popMin DijkstraNode.cost) 2147483647 false weightGrid k'
          = some (g', s') ∧ s'.isComplete = true ∧ s'.pathCost = s.pathCost :=
  aStar_min_cost weightGrid (0, 0) (0, 2) weightGrid_wellFormed (by decide) weightGrid_free
    (popMin AStarNode.fCost) (popMin_isMinPop _) (popMin DijkstraNode.cost) (popMin_isMinPop _)
    2147483647 (by decide)

/-- C10, evaluation of the code: on the grid of three rows Start, Weight, Empty, Empty; Empty,
Wall, Empty, Empty; Empty, Weight, Empty, End with diagonal moves, the A* search is first
complete after six calls of `aStarStep` and reports a path of cost 8, while the Dijkstra search
is complete after eight calls of `dijkstraStep` and reports cost 7.  At each of the six calls
exactly one entry of the open set of A* has the least key, so the result does not depend on the
order in which the priority queue delivers equal keys. -/
theorem aStar_diagonal_not_least :
    ((aStarRun (popMin AStarNode.fCost) 8 true detourGrid 6).map
      fun p => (p.2.isComplete, p.2.noPathExists, p.2.pathCost)) = some (true, false, 8) ∧
    ((dijkstraRun (popMin DijkstraNode.cost) 8 true detourGrid 8).map
      fun p => (p.2.isComplete, p.2.noPathExists, p.2.pathCost)) = some (true, false, 7) ∧
    ∀ i, i < 6 →
      ((aStarRun (popMin AStarNode.fCost) 8 true detourGrid i).map fun p =>
        (p.2.isComplete,
          ((p.2.openSet.map AStarNode.fCost).filter fun f =>
            decide (∀ y ∈ p.2.openSet, f ≤ y.fCost)).length)) = some (false, 1) := by
  decide


/-! ## Sorting engines: reset, finished states and the work of one call -/

/-- C21, evaluation of the code: after the completed insertion sort of `[2, 1]` (two calls)
`resetInsertionSort` leaves `key = 1`, whereas on a fresh record it leaves `key = 0`; after the
completed quick sort of `[2, 1]` (three calls) `resetQuickSort` leaves `pivot = 1`, `i = -1` and
`j = 1`, whereas on a fresh record it leaves `0`, `0` and `0`.  The reset functions of bubble
sort, selection sort and merge sort assign every field, so their result does not depend on the
record they are applied to. -/
theorem reset_keeps_stale_fields :
    ((insertionRun [2, 1] 2).map fun p =>
      (p.2.isSorted, decide (resetInsertionSort p.2 = resetInsertionSort {}),
        (resetInsertionSort p.2).key, (resetInsertionSort {}).key))
      = some (true, false, 1, 0) ∧
    ((quickRun [2, 1] 3).map fun p =>
      (p.2.isSorted, decide (resetQuickSort p.2 2 = resetQuickSort {} 2),
        (resetQuickSort p.2 2).pivot, (resetQuickSort p.2 2).i, (resetQuickSort p.2 2).j))
      = some (true, false, 1, -1, 1) ∧
    ((resetQuickSort {} 2).pivot, (resetQuickSort {} 2).i, (resetQuickSort {} 2).j)
      = (0, 0, 0) ∧
    (∀ s, resetBubbleSort s = resetBubbleSort {}) ∧
    (∀ s, resetSelectionSort s = resetSelectionSort {}) ∧
    (∀ s n, resetMergeSort s n = resetMergeSort {} n) :=
  ⟨by decide, by decide, by decide, fun _ => rfl, fun _ => rfl, fun _ _ => rfl⟩

/-- C22, the claim fails: on a finished state whose `currentLine` is 0 each of the five step
functions returns a state that differs from the one it was called on; and in the runs on
`[2, 1]` the call that follows the one setting `isSorted` changes `currentLine` (from 3 to 12
for bubble sort, 9 to 11 for selection sort, 8 to 10 for insertion sort, 1 to 15 for quick
sort, 2 to 7 for merge sort). -/
theorem finished_step_changes_state :
    ((List.range 2).map fun k =>
      (bubbleRun [2, 1] (2 + k)).map fun p => (p.2.isSorted, p.2.currentLine))
      = [some (true, 3), some (true, 12)] ∧
    ((List.range 2).map fun k =>
      (selectionRun [2, 1] (3 + k)).map fun p => (p.2.isSorted, p.2.currentLine))
      = [some (true, 9), some (true, 11)] ∧
    ((List.range 2).map fun k =>
      (insertionRun [2, 1] (2 + k)).map fun p => (p.2.isSorted, p.2.currentLine))
      = [some (true, 8), some (true, 10)] ∧
    ((List.range 2).map fun k =>
      (quickRun [2, 1] (3 + k)).map fun p => (p.2.isSorted, p.2.currentLine))
      = [some (true, 1), some (true, 15)] ∧
    ((List.range 2).map fun k =>
      (mergeRun [2, 1] (4 + k)).map fun p => (p.2.isSorted, p.2.currentLine))
      = [some (true, 2), some (true, 7)] ∧
    ((bubbleSortStep [1, 2] { isSorted := true }).map fun p =>
      decide (p.2 = { isSorted := true })) = some false ∧
    ((selectionSortStep [1, 2] { isSorted := true }).map fun p =>
      decide (p.2 = { isSorted := true })) = some false ∧
    ((insertionSortStep [1, 2] { isSorted := true }).map fun p =>
      decide (p.2 = { isSorted := true })) = some false ∧
    ((quickSortStep [1, 2] { isSorted := true }).map fun p =>
      decide (p.2 = { isSorted := true })) = some false ∧
    ((mergeSortStep [1, 2] { isSorted := true }).map fun p =>
      decide (p.2 = { isSorted := true })) = some false := by
  decide

/-- C22, amended: a call of a step function on a finished state (`isSorted = true`) leaves the
array as it is and changes no field of the state other than `currentLine`, which it sets to
the last line of the pseudocode of the engine (12, 11, 10, 15 and 7); a further call changes
nothing at all. -/
theorem finished_step_sets_line_only (arr : List Int)
    (sb : BubbleSortState) (hb : sb.isSorted = true)
    (ss : SelectionSortState) (hs : ss.isSorted = true)
    (si : InsertionSortState) (hi : si.isSorted = true)
    (sq : QuickSortState) (hq : sq.isSorted = true)
    (sm : MergeSortState) (hm : sm.isSorted = true) :
    (bubbleSortStep arr sb = some (arr, { sb with currentLine := 12 }) ∧
      bubbleSortStep arr { sb with currentLine := 12 }
        = some (arr, { sb with currentLine := 12 })) ∧
    (selectionSortStep arr ss = some (arr, { ss with currentLine := 11 }) ∧
      selectionSortStep arr { ss with currentLine := 11 }
        = some (arr, { ss with currentLine := 11 })) ∧
    (insertionSortStep arr si = some (arr, { si with currentLine := 10 }) ∧
      insertionSortStep arr { si with currentLine := 10 }
        = some (arr, { si with currentLine := 10 })) ∧
    (quickSortStep arr sq = some (arr, { sq with currentLine := 15 }) ∧
      quickSortStep arr { sq with currentLine := 15 }
        = some (arr, { sq with currentLine := 15 })) ∧
    (mergeSortStep arr sm = some (arr, { sm with currentLine := 7 }) ∧
      mergeSortStep arr { sm with currentLine := 7 }
        = some (arr, { sm with currentLine := 7 })) := by
  refine ⟨⟨?_, ?_⟩, ⟨?_, ?_⟩, ⟨?_, ?_⟩, ⟨?_, ?_⟩, ⟨?_, ?_⟩⟩
  · simp [bubbleSortStep, hb]
  · simp [bubbleSortStep, hb]
  · simp [selectionSortStep, hs]
  · simp [selectionSortStep, hs]
  · simp [insertionSortStep, hi]
  · simp [insertionSortStep, hi]
  · simp [quickSortStep, hq]
  · simp [quickSortStep, hq]
  · simp [mergeSortStep, hm]
  · simp [mergeSortStep, hm]

theorem finished_step_sets_line_only_witness :
    (bubbleSortStep [1, 2] { isSorted := true }
        = some ([1, 2], { isSorted := true, currentLine := 12 }) ∧
      bubbleSortStep [1, 2] { isSorted := true, currentLine := 12 }
        = some ([1, 2], { isSorted := true, currentLine := 12 })) ∧
    (selectionSortStep [1, 2] { isSorted := true }
        = some ([1, 2], { isSorted := true, currentLine := 11 }) ∧
      selectionSortStep [1, 2] { isSorted := true, currentLine := 11 }
        = some ([1, 2], { isSorted := true, currentLine := 11 })) ∧
    (insertionSortStep [1, 2] { isSorted := true }
        = some ([1, 2], { isSorted := true, currentLine := 10 }) ∧
      insertionSortStep [1, 2] { isSorted := true, currentLine := 10 }
        = some ([1, 2], { isSorted := true, currentLine := 10 })) ∧
    (quickSortStep [1, 2] { isSorted := true }
        = some ([1, 2], { isSorted := true, currentLine := 15 }) ∧
      quickSortStep [1, 2] { isSorted := true, currentLine := 15 }
        = some ([1, 2], { isSorted := true, currentLine := 15 })) ∧
    (mergeSortStep [1, 2] { isSorted := true }
        = some ([1, 2], { isSorted := true, currentLine := 7 }) ∧
      mergeSortStep [1, 2] { isSorted := true, currentLine := 7 }
        = some ([1, 2], { isSorted := true, currentLine := 7 })) :=
  finished_step_sets_line_only [1, 2] { isSorted := true } rfl { isSorted := true } rfl
    { isSorted := true } rfl { isSorted := true } rfl { isSorted := true } rfl

theorem bubbleCompare_work (arr : List Int) (s : BubbleSortState) (arr' : List Int)
    (s' : BubbleSortState) (h : bubbleCompare arr s = some (arr', s')) :
    (s'.comparisons = s.comparisons ∧ arr' = arr) ∨
    (s'.comparisons = u64 (s.comparisons + 1) ∧
      (arr' = arr ∨ swapAt arr (s'.j - 1) s'.j = some arr')) := by
  unfold bubbleCompare at h
  split_ifs at h with h1
  · simp only [Option.some.injEq, Prod.mk.injEq] at h
    obtain ⟨rfl, rfl⟩ := h
    exact Or.inl ⟨rfl, rfl⟩
  · simp only [Option.bind_eq_bind, Option.bind_eq_some] at h
    obtain ⟨_, _, _, _, a, _, b, _, h⟩ := h
    split_ifs at h with h2
    · simp only [Option.bind_eq_some, Option.some.injEq, Prod.mk.injEq] at h
      obtain ⟨arr1, hsw, rfl, rfl⟩ := h
      refine Or.inr ⟨rfl, Or.inr ?_⟩
      dsimp only
      rw [Int.add_sub_cancel]
      exact hsw
    · simp only [Option.some.injEq, Prod.mk.injEq] at h
      obtain ⟨rfl, rfl⟩ := h
      exact Or.inr ⟨rfl, Or.inl rfl⟩

theorem bubbleSortStep_work (arr : List Int) (s : BubbleSortState) (arr' : List Int)
    (s' : BubbleSortState) (h : bubbleSortStep arr s = some (arr', s')) :
    (s'.comparisons = s.comparisons ∧ arr' = arr) ∨
    (s'.comparisons = u64 (s.comparisons + 1) ∧
      (arr' = arr ∨ swapAt arr (s'.j - 1) s'.j = some arr')) := by
  unfold bubbleSortStep at h
  split_ifs at h with h1
  · simp only [Option.some.injEq, Prod.mk.injEq] at h
    obtain ⟨rfl, rfl⟩ := h
    exact Or.inl ⟨rfl, rfl⟩
  · simp only [Option.bind_eq_bind, Option.bind_eq_some] at h
    obtain ⟨_, _, h⟩ := h
    split_ifs at h <;>
      first
      | (simp only [Option.bind_eq_bind, Option.bind_eq_some, Option.some.injEq,
           Prod.mk.injEq] at h
         obtain ⟨_, _, rfl, rfl⟩ := h
         exact Or.inl ⟨rfl, rfl⟩)
      | (simp only [Option.bind_eq_bind, Option.bind_eq_some] at h
         obtain ⟨_, _, h⟩ := h
         have key := bubbleCompare_work arr _ arr' s' h
         exact key)
      | (have key := bubbleCompare_work arr _ arr' s' h
         exact key)

theorem selectionSortStep_work (arr : List Int) (s : SelectionSortState) (arr' : List Int)
    (s' : SelectionSortState) (h : selectionSortStep arr s = some (arr', s')) :
    (s'.comparisons = u64 (s.comparisons + 1) ∧ arr' = arr) ∨
    (s'.comparisons = s.comparisons ∧ (arr' = arr ∨ swapAt arr s.min_idx s.i = some arr')) := by
  unfold selectionSortStep at h
  split_ifs at h with h1
  · simp only [Option.some.injEq, Prod.mk.injEq] at h
    obtain ⟨rfl, rfl⟩ := h
    exact Or.inr ⟨rfl, Or.inl rfl⟩
  · simp only [Option.bind_eq_bind, Option.bind_eq_some] at h
    obtain ⟨_, _, _, _, h⟩ := h
    split_ifs at h with h2 h3 h4
    · simp only [Option.bind_eq_bind, Option.bind_eq_some, Option.some.injEq, Prod.mk.injEq] at h
      obtain ⟨_, _, _, _, a, _, b, _, rfl, rfl⟩ := h
      left
      refine ⟨?_, rfl⟩
      dsimp only
      split_ifs <;> rfl
    · simp only [Option.some.injEq, Prod.mk.injEq] at h
      obtain ⟨rfl, rfl⟩ := h
      exact Or.inr ⟨rfl, Or.inl rfl⟩
    all_goals
      simp only [Option.bind_eq_bind, Option.bind_eq_some, Option.some.injEq, Prod.mk.injEq] at h
      obtain ⟨arr1, hsw, rfl, rfl⟩ := h
      exact Or.inr ⟨rfl, Or.inr hsw⟩

theorem insertionSortStep_work (arr : List Int) (s : InsertionSortState) (arr' : List Int)
    (s' : InsertionSortState) (h : insertionSortStep arr s = some (arr', s')) :
    (s.isSorted = true ∧ arr' = arr ∧ s'.comparisons = s.comparisons) ∨
    (s.isSorted = false ∧
      (s'.comparisons = s.comparisons ∨ s'.comparisons = u64 (s.comparisons + 1)) ∧
      ∃ idx v, writeAt arr idx v = some arr') := by
  unfold insertionSortStep at h
  split_ifs at h with h1
  · simp only [Option.some.injEq, Prod.mk.injEq] at h
    obtain ⟨rfl, rfl⟩ := h
    exact Or.inl ⟨h1, rfl, rfl⟩
  · simp only [Option.bind_eq_bind, Option.bind_eq_some] at h
    obtain ⟨_, _, _, _, s1, hp, h⟩ := h
    have hc : s1.comparisons = s.comparisons := by
      unfold insertionPickUp at hp
      split_ifs at hp
      · simp only [Option.bind_eq_bind, Option.bind_eq_some, Option.some.injEq] at hp
        obtain ⟨_, _, rfl⟩ := hp
        rfl
      · simp only [Option.some.injEq] at hp
        subst hp
        rfl
    rw [← hc]
    clear hc hp
    refine Or.inr ⟨by simpa using h1, ?_⟩
    unfold insertionShiftOrInsert at h
    by_cases hj : s1.j ≥ 0
    · simp only [hj, if_true, Option.bind_eq_bind, Option.bind_eq_some] at h
      obtain ⟨_, _, _, _, aj, _, ⟨c, s3⟩, h3, h⟩ := h
      simp only [Option.some.injEq, Prod.mk.injEq] at h3
      obtain ⟨rfl, rfl⟩ := h3
      dsimp only at h
      split_ifs at h <;>
        (simp only [Option.bind_eq_bind, Option.bind_eq_some, Option.some.injEq,
           Prod.mk.injEq] at h)
      · obtain ⟨v, _, arr1, hw, rfl, rfl⟩ := h
        exact ⟨Or.inr rfl, _, _, hw⟩
      all_goals
        obtain ⟨arr1, hw, rfl, rfl⟩ := h
        exact ⟨Or.inr rfl, _, _, hw⟩
    · simp only [hj, if_false, Option.bind_eq_bind, Option.bind_eq_some] at h
      obtain ⟨_, _, _, _, ⟨c, s3⟩, h3, h⟩ := h
      simp only [Option.some.injEq, Prod.mk.injEq] at h3
      obtain ⟨rfl, rfl⟩ := h3
      simp only [Bool.false_eq_true, if_false, Option.bind_eq_bind, Option.bind_eq_some] at h
      obtain ⟨arr1, hw, h⟩ := h
      split_ifs at h <;>
        (simp only [Option.some.injEq, Prod.mk.injEq] at h
         obtain ⟨rfl, rfl⟩ := h
         exact ⟨Or.inl rfl, _, _, hw⟩)

/-- C24, the claim fails: from the reset states, the first call of `bubbleSortStep` on
`[2, 1]` increments `comparisons` from 0 to 1 and swaps the two elements, and the first call
of `insertionSortStep` on `[2, 1]` increments `comparisons` from 0 to 1 and writes `arr[1]`. -/
theorem step_compares_and_writes :
    (resetBubbleSort {}).comparisons = 0 ∧
    ((bubbleSortStep [2, 1] (resetBubbleSort {})).map fun p => (p.1, p.2.comparisons))
      = some ([1, 2], 1) ∧
    (resetInsertionSort {}).comparisons = 0 ∧
    ((insertionSortStep [2, 1] (resetInsertionSort {})).map fun p => (p.1, p.2.comparisons))
      = some ([2, 2], 1) := by
  decide

/-- C24, amended: a call of `bubbleSortStep` either leaves the array and `comparisons` as they
are, or performs one comparison and, in the same call, at most the swap of the two compared
elements `arr[j]`, `arr[j + 1]`; a call of `selectionSortStep` either performs one comparison
and leaves the array, or leaves `comparisons` and at most swaps `arr[min_idx]` with `arr[i]`;
a call of `insertionSortStep` on an unfinished state writes exactly one element of the array
and performs at most one comparison in the same call. -/
theorem sort_step_work (arr : List Int)
    (sb : BubbleSortState) (ab : List Int) (sb' : BubbleSortState)
    (hb : bubbleSortStep arr sb = some (ab, sb'))
    (ss : SelectionSortState) (as : List Int) (ss' : SelectionSortState)
    (hs : selectionSortStep arr ss = some (as, ss'))
    (si : InsertionSortState) (ai : List Int) (si' : InsertionSortState)
    (hi : insertionSortStep arr si = some (ai, si')) :
    ((sb'.comparisons = sb.comparisons ∧ ab = arr) ∨
      (sb'.comparisons = u64 (sb.comparisons + 1) ∧
        (ab = arr ∨ swapAt arr (sb'.j - 1) sb'.j = some ab))) ∧
    ((ss'.comparisons = u64 (ss.comparisons + 1) ∧ as = arr) ∨
      (ss'.comparisons = ss.comparisons ∧
        (as = arr ∨ swapAt arr ss.min_idx ss.i = some as))) ∧
    ((si.isSorted = true ∧ ai = arr ∧ si'.comparisons = si.comparisons) ∨
      (si.isSorted = false ∧
        (si'.comparisons = si.comparisons ∨ si'.comparisons = u64 (si.comparisons + 1)) ∧
        ∃ idx v, writeAt arr idx v = some ai)) :=
  ⟨bubbleSortStep_work arr sb ab sb' hb, selectionSortStep_work arr ss as ss' hs,
    insertionSortStep_work arr si ai si' hi⟩

theorem sort_step_work_witness :
    (((⟨0, 1, true, false, 7, 1, 6⟩ : BubbleSortState).comparisons
          = (resetBubbleSort {}).comparisons ∧ ([1, 2] : List Int) = [2, 1]) ∨
      ((⟨0, 1, true, false, 7, 1, 6⟩ : BubbleSortState).comparisons
          = u64 ((resetBubbleSort {}).comparisons + 1) ∧
        (([1, 2] : List Int) = [2, 1] ∨ swapAt [2, 1] ((⟨0, 1, true, false, 7, 1, 6⟩ : BubbleSortState).j - 1)
          (⟨0, 1, true, false, 7, 1, 6⟩ : BubbleSortState).j = some [1, 2]))) ∧
    (((⟨0, 2, 1, false, true, 6, 1, 2⟩ : SelectionSortState).comparisons
          = u64 ((resetSelectionSort {}).comparisons + 1) ∧ ([2, 1] : List Int) = [2, 1]) ∨
      ((⟨0, 2, 1, false, true, 6, 1, 2⟩ : SelectionSortState).comparisons
          = (resetSelectionSort {}).comparisons ∧
        (([2, 1] : List Int) = [2, 1] ∨ swapAt [2, 1] (resetSelectionSort {}).min_idx
          (resetSelectionSort {}).i = some [2, 1]))) ∧
    (((resetInsertionSort {}).isSorted = true ∧ ([2, 2] : List Int) = [2, 1] ∧
        (⟨1, -1, 1, false, true, 6, 1, 4⟩ : InsertionSortState).comparisons
          = (resetInsertionSort {}).comparisons) ∨
      ((resetInsertionSort {}).isSorted = false ∧
        ((⟨1, -1, 1, false, true, 6, 1, 4⟩ : InsertionSortState).comparisons
            = (resetInsertionSort {}).comparisons ∨
          (⟨1, -1, 1, false, true, 6, 1, 4⟩ : InsertionSortState).comparisons
            = u64 ((resetInsertionSort {}).comparisons + 1)) ∧
        ∃ idx v, writeAt [2, 1] idx v = some [2, 2])) :=
  sort_step_work [2, 1] (resetBubbleSort {}) [1, 2] ⟨0, 1, true, false, 7, 1, 6⟩ (by decide)
    (resetSelectionSort {}) [2, 1] ⟨0, 2, 1, false, true, 6, 1, 2⟩ (by decide)
    (resetInsertionSort {}) [2, 2] ⟨1, -1, 1, false, true, 6, 1, 4⟩ (by decide)

theorem swapAt_same {arr : List Int} {a : Nat} (ha : a < arr.length) :
    swapAt arr a a = some arr := by
  rw [swapAt_ok ha ha]
  congr 1
  apply list_ext_getD (by simp)
  intro k _
  rw [getD_swap ha ha]
  by_cases e : k = a
  · rw [if_pos e, e]
  · rw [if_neg e, if_neg e]

theorem quickSetUp_scan (arr : List Int) (s : QuickSortState) (job : QuickSortJob)
    (rest : List QuickSortJob) (hs : s.isSorted = false) (hg : s.isSorting = true)
    (hn : s.needsPartition = true) (hj : s.jobs = job :: rest)
    (h0 : 0 ≤ job.low) (h1 : job.low < job.high) (h2 : job.high < arr.length) :
    ∃ s', quickSortStep arr s = some (arr, s') ∧ s'.jobs = rest ∧ s'.needsPartition = false ∧
      s'.current_low = job.low ∧ s'.current_high = job.high ∧
      s'.pivot = arr.getD job.high.toNat 0 ∧
      s'.comparisons = u64 (s.comparisons + 1) ∧ s'.j = job.low + 1 ∧
      s'.i = if arr.getD job.low.toNat 0 < arr.getD job.high.toNat 0 then job.low
        else job.low - 1 := by
  obtain ⟨jobs, isSorted, isSorting, np, pivot, i, j, cl, ch, line, cmp, acc⟩ := s
  obtain ⟨low, high⟩ := job
  simp only at hs hg hn hj h0 h1 h2
  subst hs hg hn hj
  obtain ⟨lo, rfl⟩ : ∃ lo : Nat, low = lo := ⟨low.toNat, by omega⟩
  obtain ⟨hi, rfl⟩ : ∃ hi : Nat, high = hi := ⟨high.toNat, by omega⟩
  have hhn : hi < arr.length := by omega
  have hln : lo < arr.length := by omega
  have c1 : chk arr.length (hi : Int) = some () := chk_ok (by omega) (by omega)
  have c3 : chk arr.length (lo : Int) = some () := chk_ok (by omega) (by omega)
  have hc : ¬ (lo : Int) - 1 ≥ (lo : Int) := by omega
  have e1 : (lo : Int) - 1 + 1 = lo := by omega
  simp only [Int.toNat_ofNat]
  by_cases hcmp : arr.getD lo 0 < arr.getD hi 0
  · refine ⟨⟨rest, false, true, false, arr.getD hi 0, (lo : Int), (lo : Int) + 1, (lo : Int),
      (hi : Int), 13, u64 (cmp + 1), u64 (u64 (u64 (acc + 1) + 1) + 4)⟩, ?_, rfl, rfl, rfl, rfl,
      rfl, rfl, rfl, ?_⟩
    · simp only [quickSortStep, quickSetUp, quickScanOrPlace, readAt_ok hhn, readAt_ok hln,
        List.isEmpty_cons, c1, c3, hc, h1, hcmp, e1, swapAt_same hln,
        Bool.false_eq_true, Bool.false_and, Bool.not_true, Bool.not_false, Bool.or_self,
        if_false, if_true, Option.bind_eq_bind, Option.some_bind, bind, Option.bind]
    · simp only [hcmp, if_true]
  · refine ⟨⟨rest, false, true, false, arr.getD hi 0, (lo : Int) - 1, (lo : Int) + 1, (lo : Int),
      (hi : Int), 11, u64 (cmp + 1), u64 (u64 (acc + 1) + 1)⟩, ?_, rfl, rfl, rfl, rfl,
      rfl, rfl, rfl, ?_⟩
    · simp only [quickSortStep, quickSetUp, quickScanOrPlace, readAt_ok hhn, readAt_ok hln,
        List.isEmpty_cons, c1, c3, hc, h1, hcmp,
        Bool.false_eq_true, Bool.false_and, Bool.not_true, Bool.not_false, Bool.or_self,
        if_false, if_true, Option.bind_eq_bind, Option.some_bind, bind, Option.bind]
    · simp only [hcmp, if_false]

/-- C25, the claim fails: the first call of `quickSortStep` on `[3, 1, 2]` enters with
`needsPartition = true` and `comparisons = 0`; it pops the job, caches the pivot 2 and, in the
same call, compares `arr[0]` with the pivot and advances `j` to 1.  On `[1, 3, 2]` the first
call also performs the swap of the scan (`i` becomes 0, six array accesses are counted). -/
theorem setup_call_compares :
    ((quickStart [3, 1, 2] {}).needsPartition, (quickStart [3, 1, 2] {}).comparisons)
      = (true, 0) ∧
    ((quickRun [3, 1, 2] 1).map fun p =>
      (p.2.needsPartition, p.2.pivot, p.2.comparisons, p.2.i, p.2.j)) = some (false, 2, 1, -1, 1) ∧
    ((quickRun [1, 3, 2] 1).map fun p =>
      (p.2.needsPartition, p.2.pivot, p.2.comparisons, p.2.i, p.2.j, p.2.arrayAccesses))
      = some (false, 2, 1, 0, 1, 6) := by
  decide

/-- C25, amended: a call of `quickSortStep` that enters with `needsPartition = true` on an
unfinished active state whose top job is `[low, high]` (with `0 ≤ low < high < n`) pops the
job, caches `pivot = arr[high]` and the range, and in the same call performs the first scan
step: it compares `arr[low]` with the pivot (`comparisons` grows by one), sets `j = low + 1`,
and sets `i = low` when `arr[low] < pivot` (the swap of `arr[low]` with itself leaves the array
as it is) and `i = low - 1` otherwise. -/
theorem quick_setup_call_scans (arr : List Int) (s : QuickSortState) (job : QuickSortJob)
    (rest : List QuickSortJob) (hs : s.isSorted = false) (hg : s.isSorting = true)
    (hn : s.needsPartition = true) (hj : s.jobs = job :: rest)
    (h0 : 0 ≤ job.low) (h1 : job.low < job.high) (h2 : job.high < arr.length) :
    ∃ s', quickSortStep arr s = some (arr, s') ∧ s'.jobs = rest ∧ s'.needsPartition = false ∧
      s'.current_low = job.low ∧ s'.current_high = job.high ∧
      s'.pivot = arr.getD job.high.toNat 0 ∧
      s'.comparisons = u64 (s.comparisons + 1) ∧ s'.j = job.low + 1 ∧
      s'.i = if arr.getD job.low.toNat 0 < arr.getD job.high.toNat 0 then job.low
        else job.low - 1 :=
  quickSetUp_scan arr s job rest hs hg hn hj h0 h1 h2

theorem quick_setup_call_scans_witness :
    ∃ s', quickSortStep [1, 3, 2] (quickStart [1, 3, 2] {}) = some ([1, 3, 2], s') ∧
      s'.jobs = [] ∧ s'.needsPartition = false ∧
      s'.current_low = (⟨0, 2⟩ : QuickSortJob).low ∧
      s'.current_high = (⟨0, 2⟩ : QuickSortJob).high ∧
      s'.pivot = ([1, 3, 2] : List Int).getD (⟨0, 2⟩ : QuickSortJob).high.toNat 0 ∧
      s'.comparisons = u64 ((quickStart [1, 3, 2] {}).comparisons + 1) ∧
      s'.j = (⟨0, 2⟩ : QuickSortJob).low + 1 ∧
      s'.i = if ([1, 3, 2] : List Int).getD (⟨0, 2⟩ : QuickSortJob).low.toNat 0
          < ([1, 3, 2] : List Int).getD (⟨0, 2⟩ : QuickSortJob).high.toNat 0
        then (⟨0, 2⟩ : QuickSortJob).low else (⟨0, 2⟩ : QuickSortJob).low - 1 :=
  quick_setup_call_scans [1, 3, 2] (quickStart [1, 3, 2] {}) ⟨0, 2⟩ [] rfl rfl rfl rfl
    (by decide) (by decide) (by decide)

/-! ## Path-finding engines: an idle or finished search stays as it is -/

theorem iterStep_fixed {σ : Type} (step : σ → Option σ) (s : σ) (h : step s = some s) (k : Nat) :
    iterStep step k s = some s := by
  induction k with
  | zero => rfl
  | succ k ih => rw [iterStep, h, Option.some_bind, ih]

theorem bfsStep_idle (fuel : Nat) (d : Bool) (g : Grid) (s : BFSState)
    (h : s.isSearching = false ∨ s.isComplete = true) : bfsStep fuel d (g, s) = some (g, s) := by
  unfold bfsStep
  exact if_pos h

theorem dfsStep_idle (fuel : Nat) (d : Bool) (g : Grid) (s : DFSState)
    (h : s.isSearching = false ∨ s.isComplete = true) : dfsStep fuel d (g, s) = some (g, s) := by
  unfold dfsStep
  exact if_pos h

theorem dijkstraStep_idle (pop : List DijkstraNode → Option (DijkstraNode × List DijkstraNode))
    (fuel : Nat) (d : Bool) (g : Grid) (s : DijkstraState)
    (h : s.isSearching = false ∨ s.isComplete = true) :
    dijkstraStep pop fuel d (g, s) = some (g, s) := by
  unfold dijkstraStep
  exact if_pos h

theorem aStarStep_idle (pop : List AStarNode → Option (AStarNode × List AStarNode))
    (fuel : Nat) (d : Bool) (g : Grid) (s : AStarState)
    (h : s.isSearching = false ∨ s.isComplete = true) :
    aStarStep pop fuel d (g, s) = some (g, s) := by
  unfold aStarStep
  exact if_pos h

/-- C23. A finished or idle search never resumes by itself: on a state with
`isSearching = false` or `isComplete = true`, any number `k` of calls of `bfsStep`, `dfsStep`,
`dijkstraStep` or `aStarStep` (one call is `k = 1`) is defined and returns the very same grid
and the very same state, so every field, in particular `isComplete`, `noPathExists`,
`isSearching`, `nodesVisited` and `pathCost`, stays as it is. -/
theorem idle_search_stays (fuel : Nat) (d : Bool) (g : Grid) (k : Nat)
    (popD : List DijkstraNode → Option (DijkstraNode × List DijkstraNode))
    (popA : List AStarNode → Option (AStarNode × List AStarNode))
    (sb : BFSState) (hb : sb.isSearching = false ∨ sb.isComplete = true)
    (sd : DFSState) (hd : sd.isSearching = false ∨ sd.isComplete = true)
    (sj : DijkstraState) (hj : sj.isSearching = false ∨ sj.isComplete = true)
    (sa : AStarState) (ha : sa.isSearching = false ∨ sa.isComplete = true) :
    iterStep (bfsStep fuel d) k (g, sb) = some (g, sb) ∧
    iterStep (dfsStep fuel d) k (g, sd) = some (g, sd) ∧
    iterStep (dijkstraStep popD fuel d) k (g, sj) = some (g, sj) ∧
    iterStep (aStarStep popA fuel d) k (g, sa) = some (g, sa) :=
  ⟨iterStep_fixed _ _ (bfsStep_idle fuel d g sb hb) k,
    iterStep_fixed _ _ (dfsStep_idle fuel d g sd hd) k,
    iterStep_fixed _ _ (dijkstraStep_idle popD fuel d g sj hj) k,
    iterStep_fixed _ _ (aStarStep_idle popA fuel d g sa ha) k⟩

theorem idle_search_stays_witness :
    iterStep (bfsStep 9 false) 1 (lineGrid, ⟨[(0, 1)], fun _ => none, true, true, false, 13, 3, 2⟩)
      = some (lineGrid, ⟨[(0, 1)], fun _ => none, true, true, false, 13, 3, 2⟩) ∧
    iterStep (dfsStep 9 false) 1 (lineGrid, ⟨[(0, 1)], fun _ => none, false, false, false, 0, 0, 0⟩)
      = some (lineGrid, ⟨[(0, 1)], fun _ => none, false, false, false, 0, 0, 0⟩) ∧
    iterStep (dijkstraStep (popMin DijkstraNode.cost) 9 false) 1
        (lineGrid, ⟨[⟨(0, 1), 1⟩], fun _ => none, fun _ => 0, false, true, true, 14, 3, 0⟩)
      = some (lineGrid, ⟨[⟨(0, 1), 1⟩], fun _ => none, fun _ => 0, false, true, true, 14, 3, 0⟩) ∧
    iterStep (aStarStep (popMin AStarNode.fCost) 9 false) 1
        (lineGrid, (resetAStar ⟨[], fun _ => none, fun _ => 0, true, true, false, 0, 0, 0⟩))
      = some (lineGrid, (resetAStar ⟨[], fun _ => none, fun _ => 0, true, true, false, 0, 0, 0⟩)) :=
  idle_search_stays 9 false lineGrid 1 (popMin DijkstraNode.cost) (popMin AStarNode.fCost)
    ⟨[(0, 1)], fun _ => none, true, true, false, 13, 3, 2⟩ (Or.inr rfl)
    ⟨[(0, 1)], fun _ => none, false, false, false, 0, 0, 0⟩ (Or.inl rfl)
    ⟨[⟨(0, 1), 1⟩], fun _ => none, fun _ => 0, false, true, true, 14, 3, 0⟩ (Or.inr rfl)
    (resetAStar ⟨[], fun _ => none, fun _ => 0, true, true, false, 0, 0, 0⟩) (Or.inl rfl)

/-! ## Quick sort: the job stack and the partition of one job -/

theorem iterStep_add {σ : Type} (step : σ → Option σ) (a b : Nat) (s : σ) :
    iterStep step (a + b) s = (iterStep step a s).bind (iterStep step b) := by
  induction a generalizing s with
  | zero => simp [iterStep]
  | succ a ih =>
    rw [Nat.succ_add, iterStep, iterStep]
    cases step s with
    | none => rfl
    | some t => simp only [Option.some_bind, ih]

theorem quickPlacePivot_sorted (arr : List Int) (s : QuickSortState) (p : List Int × QuickSortState)
    (h : quickPlacePivot arr s = some p) : p.2.isSorted = s.isSorted := by
  unfold quickPlacePivot at h
  simp only [Option.bind_eq_bind, Option.bind_eq_some] at h
  obtain ⟨arr1, -, h⟩ := h
  split_ifs at h <;> try simp only [Option.some_bind, Option.bind_eq_some] at h
  all_goals try obtain ⟨_, -, h⟩ := h
  all_goals (split_ifs at h <;> try simp only [Option.some_bind, Option.bind_eq_some] at h)
  all_goals first
    | (simp only [Option.some.injEq] at h
       subst h
       rfl)
    | (obtain ⟨_, -, h⟩ := h
       simp only [Option.some.injEq] at h
       subst h
       rfl)

theorem quickScanOrPlace_sorted (arr : List Int) (s : QuickSortState)
    (p : List Int × QuickSortState) (h : quickScanOrPlace arr s = some p) :
    p.2.isSorted = s.isSorted := by
  unfold quickScanOrPlace at h
  repeat' first
    | (have key := quickPlacePivot_sorted arr _ p h
       exact key)
    | (simp only [Option.some.injEq] at h
       subst h
       rfl)
    | split_ifs at h
    | simp only [Option.bind_eq_bind, Option.some_bind, Option.bind_eq_some] at h
    | obtain ⟨_, -, h⟩ := h

theorem quickSetUp_sorted (arr : List Int) (s s1 : QuickSortState)
    (h : quickSetUp arr s = some s1) : s1.isSorted = s.isSorted := by
  unfold quickSetUp at h
  split_ifs at h with h1
  · cases hj : s.jobs with
    | nil => rw [hj] at h; simp at h
    | cons job rest =>
      rw [hj] at h
      simp only [Option.bind_eq_bind, Option.bind_eq_some, Option.some.injEq] at h
      obtain ⟨_, _, rfl⟩ := h
      rfl
  · simp only [Option.some.injEq] at h
    subst h
    rfl

theorem quickStep_finish (p p' : List Int × QuickSortState) (h : quickStep p = some p')
    (hs : p.2.isSorted = false) (hs' : p'.2.isSorted = true) :
    p'.2.jobs = [] ∧ p'.2.needsPartition = true := by
  unfold quickStep quickSortStep at h
  split_ifs at h with h1
  · simp only [Option.some.injEq] at h
    subst h
    simp only at hs'
    rw [hs] at hs'
    exact absurd hs' (by simp)
  · dsimp only at h
    split_ifs at h with h2
    · simp only [Option.some.injEq] at h
      subst h
      simp only [Bool.and_eq_true, List.isEmpty_iff] at h2
      exact ⟨h2.1, h2.2⟩
    · simp only [Option.bind_eq_bind, Option.bind_eq_some] at h
      obtain ⟨s1, h3, h4⟩ := h
      have e1 := quickSetUp_sorted _ _ _ h3
      have e2 := quickScanOrPlace_sorted _ _ _ h4
      rw [e2, e1] at hs'
      simp only at hs'
      rw [hs] at hs'
      exact absurd hs' (by simp)

/-- The invariant of the quick sort run, together with the shape of a finished state. -/
def QuickFull (orig : List Int) (p : List Int × QuickSortState) : Prop :=
  QuickInv orig p ∧ (p.2.isSorted = true → p.2.jobs = [] ∧ p.2.needsPartition = true)

theorem quick_full_step (orig : List Int) (p : List Int × QuickSortState)
    (h : QuickFull orig p) : ∃ p', quickStep p = some p' ∧ QuickFull orig p' := by
  obtain ⟨hinv, hfin⟩ := h
  cases hs : p.2.isSorted with
  | true =>
    refine ⟨(p.1, { p.2 with currentLine := 15 }), ?_, ⟨hinv.1, fun _ => hinv.2.1 hs, ?_⟩, ?_⟩
    · simp [quickStep, quickSortStep, hs]
    · intro h'
      simp only at h'
      rw [hs] at h'
      exact absurd h' (by simp)
    · intro _
      exact hfin hs
  | false =>
    obtain ⟨p', hp', hinv', -⟩ := quick_step_inv orig p hinv hs
    exact ⟨p', hp', hinv', fun h' => quickStep_finish p p' hp' hs h'⟩

theorem quick_full_init (arr : List Int) (s0 : QuickSortState) (h2 : arr.length < 2 ^ 31) :
    QuickFull arr (arr, quickStart arr s0) := by
  have e : toInt32 (arr.length : Int) = arr.length :=
    toInt32_eq (by omega) (by exact_mod_cast h2)
  by_cases hn : 1 < arr.length
  · have hn' : (arr.length : Int) > 1 := by omega
    have hs : quickStart arr s0 =
        ⟨[⟨0, (arr.length : Int) - 1⟩], false, true, true, s0.pivot, s0.i, s0.j, 0,
          (arr.length : Int) - 1, 0, 0, 0⟩ := by
      simp [quickStart, resetQuickSort, e, hn']
    rw [hs]
    refine ⟨⟨List.Perm.refl _, by intro h; simp at h,
      fun _ => ⟨rfl, ⟨?_, ?_⟩, fun _ => ?_, ?_⟩⟩, by intro h; simp at h⟩
    · simp
    · intro t ht
      simp only [List.mem_singleton] at ht
      subst ht
      simp only
      omega
    · intro k
      by_cases hk : 0 < k ∧ k < arr.length
      · right
        exact ⟨_, List.mem_singleton.mpr rfl, by simp only; omega, by simp only; omega⟩
      · left
        intro a b ha hb hbl
        simp only at hbl
        omega
    · intro h; simp at h
  · have hn' : ¬ (arr.length : Int) > 1 := by omega
    have hs : quickStart arr s0 =
        ⟨[], true, true, true, s0.pivot, s0.i, s0.j, 0, (arr.length : Int) - 1, 0, 0, 0⟩ := by
      simp [quickStart, resetQuickSort, e, hn']
    rw [hs]
    refine ⟨⟨List.Perm.refl _, fun _ => ?_, fun h => ?_⟩, fun _ => ⟨rfl, rfl⟩⟩
    · apply sorted_of_getD
      intro a b hab hb
      simp only at hb
      omega
    · simp at h

theorem quick_full_reach (arr : List Int) (s0 : QuickSortState) (h2 : arr.length < 2 ^ 31)
    (k : Nat) : ∃ p, iterStep quickStep k (arr, quickStart arr s0) = some p ∧ QuickFull arr p :=
  iterStep_inv quickStep (QuickFull arr) (quick_full_step arr) k _ (quick_full_init arr s0 h2)

/-- C26. The job stack of quick sort: in every state reached from the orchestrator's start
(`resetQuickSort(state, n)` on any previous record, `isSorting = true`) by any number of
`quickSortStep` calls, every call so far was free of out-of-range accesses, every job on the
stack satisfies `0 ≤ low < high ≤ n - 1`, the ranges on the stack are pairwise disjoint, and
during a partition (`needsPartition = false`) the range in work is in bounds and disjoint from
the stack and the cursors satisfy `low - 1 ≤ i < j ≤ high`, so that the indices `j`, `i + 1`
and `high`, and `i` whenever `i ≥ low`, lie in `[0, n)`. -/
theorem quick_jobs_invariant (arr : List Int) (h2 : arr.length < 2 ^ 31) (s0 : QuickSortState)
    (k : Nat) :
    ∃ a s, iterStep quickStep k (arr, quickStart arr s0) = some (a, s) ∧
      a.length = arr.length ∧
      (∀ t ∈ s.jobs, 0 ≤ t.low ∧ t.low < t.high ∧ t.high ≤ (arr.length : Int) - 1) ∧
      s.jobs.Pairwise (fun x y => x.high < y.low ∨ y.high < x.low) ∧
      (s.needsPartition = false →
        0 ≤ s.current_low ∧ s.current_low < s.current_high ∧
        s.current_high ≤ (arr.length : Int) - 1 ∧
        s.current_low - 1 ≤ s.i ∧ s.i < s.j ∧ s.j ≤ s.current_high ∧
        (∀ t ∈ s.jobs, t.high < s.current_low ∨ s.current_high < t.low) ∧
        (0 ≤ s.j ∧ s.j < arr.length) ∧ (0 ≤ s.i + 1 ∧ s.i + 1 < arr.length) ∧
        (0 ≤ s.current_high ∧ s.current_high < arr.length) ∧
        (s.current_low ≤ s.i → 0 ≤ s.i ∧ s.i < arr.length)) := by
  obtain ⟨⟨a, s⟩, hk, ⟨hperm, -, hrun⟩, hfin⟩ := quick_full_reach arr s0 h2 k
  have hlen : a.length = arr.length := hperm.length_eq
  refine ⟨a, s, hk, hlen, ?_⟩
  cases hs : s.isSorted with
  | true =>
    obtain ⟨hj, hn⟩ := hfin hs
    simp only at hj hn
    rw [hj]
    refine ⟨by simp, List.Pairwise.nil, fun h => ?_⟩
    rw [hn] at h
    exact absurd h (by simp)
  | false =>
    obtain ⟨-, ⟨hpw, hb⟩, -, hpart⟩ := hrun hs
    simp only at hpw hb hpart
    rw [hlen] at hb
    refine ⟨fun t ht => ?_, hpw.imp (fun h => Or.inr h), fun hn => ?_⟩
    · have := hb t ht
      omega
    · obtain ⟨lo, hi, I, J, hlo, hhi, hi', hj, h1, h3, h4, h5, h6, hleft, -⟩ := hpart hn
      rw [hlen] at h3
      rw [hlo, hhi, hi', hj]
      refine ⟨by omega, by omega, by omega, by omega, by omega, by omega,
        fun t ht => Or.inl (hleft t ht), by omega, by omega, by omega, by omega⟩

theorem quick_jobs_invariant_witness :
    ∃ a s, iterStep quickStep 2 ([3, 1, 2], quickStart [3, 1, 2] {}) = some (a, s) ∧
      a.length = ([3, 1, 2] : List Int).length ∧
      (∀ t ∈ s.jobs, 0 ≤ t.low ∧ t.low < t.high ∧
        t.high ≤ (([3, 1, 2] : List Int).length : Int) - 1) ∧
      s.jobs.Pairwise (fun x y => x.high < y.low ∨ y.high < x.low) ∧
      (s.needsPartition = false →
        0 ≤ s.current_low ∧ s.current_low < s.current_high ∧
        s.current_high ≤ (([3, 1, 2] : List Int).length : Int) - 1 ∧
        s.current_low - 1 ≤ s.i ∧ s.i < s.j ∧ s.j ≤ s.current_high ∧
        (∀ t ∈ s.jobs, t.high < s.current_low ∨ s.current_high < t.low) ∧
        (0 ≤ s.j ∧ s.j < ([3, 1, 2] : List Int).length) ∧
        (0 ≤ s.i + 1 ∧ s.i + 1 < ([3, 1, 2] : List Int).length) ∧
        (0 ≤ s.current_high ∧ s.current_high < ([3, 1, 2] : List Int).length) ∧
        (s.current_low ≤ s.i → 0 ≤ s.i ∧ s.i < ([3, 1, 2] : List Int).length)) :=
  quick_jobs_invariant [3, 1, 2] (by decide) {} 2

/-! ## Quick sort: the Lomuto partition of one job -/

/-- The state of a partition in progress on the range `[lo, hi]` of the job popped when the
array was `base`: the cursors are `i = I - 1` and `j = J`, the elements before `I` are less
than the pivot, those from `I` to `J - 1` are not, and nothing outside `[lo, hi - 1]` has
changed. -/
structure PartState (base : List Int) (rest : List QuickSortJob) (lo hi I J : Nat)
    (p : List Int × QuickSortState) : Prop where
  unsorted : p.2.isSorted = false
  active : p.2.isSorting = true
  scanning : p.2.needsPartition = false
  stack : p.2.jobs = rest
  low_eq : p.2.current_low = lo
  high_eq : p.2.current_high = hi
  i_eq : p.2.i = (I : Int) - 1
  j_eq : p.2.j = J
  lo_le : lo ≤ I
  i_le : I ≤ J
  j_le : J ≤ hi
  hi_lt : hi < p.1.length
  perm : p.1.Perm base
  outside : ∀ k, k < lo ∨ hi ≤ k → p.1.getD k 0 = base.getD k 0
  pivot_eq : p.2.pivot = base.getD hi 0
  less : ∀ k, lo ≤ k → k < I → p.1.getD k 0 < p.2.pivot
  notless : ∀ k, I ≤ k → k < J → p.2.pivot ≤ p.1.getD k 0

/-- The state right after the pivot of the range `[lo, hi]` has been placed at index `P`. -/
structure PartDone (base : List Int) (rest : List QuickSortJob) (lo hi P : Nat)
    (p : List Int × QuickSortState) : Prop where
  unsorted : p.2.isSorted = false
  placed : p.2.needsPartition = true
  stack : p.2.jobs = pushedJobs lo hi P rest
  p_eq : p.2.i + 1 = P
  lo_le : lo ≤ P
  p_le : P ≤ hi
  hi_lt : hi < p.1.length
  perm : p.1.Perm base
  outside : ∀ k, k < lo ∨ hi < k → p.1.getD k 0 = base.getD k 0
  less : ∀ k, lo ≤ k → k < P → p.1.getD k 0 < p.1.getD P 0
  notless : ∀ k, P < k → k ≤ hi → p.1.getD P 0 ≤ p.1.getD k 0

theorem part_scan {base : List Int} {rest : List QuickSortJob} {lo hi I J : Nat}
    {arr : List Int} {t : QuickSortState} (h : PartState base rest lo hi I J (arr, t))
    (hJ : J < hi) :
    ∃ p' I', quickScanOrPlace arr t = some p' ∧ PartState base rest lo hi I' (J + 1) p' := by
  obtain ⟨hns, hsg, hnp, hjobs, hlo, hhi, hi', hj, h3, h4, -, h2, hperm, hout, hpiv, hlt, hge⟩ := h
  obtain ⟨jobs, isSorted, isSorting, np, pivot, i, j, cl, ch, line, cmp, acc⟩ := t
  simp only at hns hsg hnp hjobs hlo hhi hi' hj h2 hperm hout hpiv hlt hge
  subst hns hsg hnp hlo hhi hi' hj hjobs
  have c1 : chk arr.length (hi : Int) = some () := chk_ok (by omega) (by omega)
  have c3 : chk arr.length (J : Int) = some () := chk_ok (by omega) (by omega)
  have hJn : J < arr.length := by omega
  have hIn : I < arr.length := by omega
  have e1 : (I : Int) - 1 + 1 = I := by omega
  have hs' : (J : Int) < (hi : Int) := by omega
  by_cases hcmp : arr.getD J 0 < pivot
  · have sw := swapAt_ok hIn hJn
    refine ⟨((arr.set I (arr.getD J 0)).set J (arr.getD I 0),
      ⟨jobs, false, true, false, pivot, (I : Int), (J : Int) + 1, (lo : Int), (hi : Int), 13,
        u64 (cmp + 1), u64 (u64 (acc + 1) + 4)⟩), I + 1, ?_, ?_⟩
    · by_cases hc : (I : Int) - 1 ≥ (lo : Int)
      · have c2 : chk arr.length ((I : Int) - 1) = some () := chk_ok (by omega) (by omega)
        simp only [quickScanOrPlace, c1, hc, c2, c3, hs', readAt_ok hJn, hcmp, e1, sw, if_true,
          if_false, Bool.not_false, Option.bind_eq_bind, Option.some_bind, bind, Option.bind]
      · simp only [quickScanOrPlace, c1, hc, c3, hs', readAt_ok hJn, hcmp, e1, sw, if_true,
          if_false, Bool.not_false, Option.bind_eq_bind, Option.some_bind, bind, Option.bind]
    · refine ⟨rfl, rfl, rfl, rfl, rfl, rfl, by push_cast; omega, by push_cast; rfl, by omega,
        by omega, by omega, by simpa using h2, (swap_perm hIn hJn).trans hperm, ?_, hpiv, ?_, ?_⟩
      · intro k hk
        simp only
        rw [getD_swap hIn hJn]
        have e1 : ¬ k = J := by omega
        have e2 : ¬ k = I := by omega
        simp only [e1, e2, if_false]
        exact hout k hk
      · intro k hk1 hk2
        simp only
        rw [getD_swap hIn hJn]
        by_cases e : k = I
        · subst e
          by_cases e' : k = J
          · subst e'; simpa using hcmp
          · simp only [e', if_false, if_true]; exact hcmp
        · have e' : ¬ k = J := by omega
          simp only [e, e', if_false]
          exact hlt k hk1 (by omega)
      · intro k hk1 hk2
        simp only
        rw [getD_swap hIn hJn]
        by_cases e : k = J
        · subst e
          simp only [if_true]
          exact hge I (le_refl _) (by omega)
        · have e' : ¬ k = I := by omega
          simp only [e, e', if_false]
          exact hge k (by omega) (by omega)
  · refine ⟨(arr, ⟨jobs, false, true, false, pivot, (I : Int) - 1, (J : Int) + 1, (lo : Int),
        (hi : Int), 11, u64 (cmp + 1), u64 (acc + 1)⟩), I, ?_, ?_⟩
    · by_cases hc : (I : Int) - 1 ≥ (lo : Int)
      · have c2 : chk arr.length ((I : Int) - 1) = some () := chk_ok (by omega) (by omega)
        simp only [quickScanOrPlace, c1, hc, c2, c3, hs', readAt_ok hJn, hcmp, if_true,
          if_false, Bool.not_false, Option.bind_eq_bind, Option.some_bind, bind, Option.bind]
      · simp only [quickScanOrPlace, c1, hc, c3, hs', readAt_ok hJn, hcmp, if_true,
          if_false, Bool.not_false, Option.bind_eq_bind, Option.some_bind, bind, Option.bind]
    · refine ⟨rfl, rfl, rfl, rfl, rfl, rfl, rfl, by push_cast; rfl, h3, by omega, by omega, h2,
        hperm, hout, hpiv, hlt, ?_⟩
      intro k hk1 hk2
      by_cases e : k = J
      · subst e
        simp only at hcmp ⊢
        omega
      · exact hge k hk1 (by omega)

theorem part_place {base : List Int} {rest : List QuickSortJob} {lo hi I : Nat}
    {arr : List Int} {t : QuickSortState} (h : PartState base rest lo hi I hi (arr, t)) :
    ∃ p', quickScanOrPlace arr t = some p' ∧ PartDone base rest lo hi I p' := by
  obtain ⟨hns, hsg, hnp, hjobs, hlo, hhi, hi', hj, h3, h4, -, h2, hperm, hout, hpiv, hlt, hge⟩ := h
  obtain ⟨jobs, isSorted, isSorting, np, pivot, i, j, cl, ch, line, cmp, acc⟩ := t
  simp only at hns hsg hnp hjobs hlo hhi hi' hj h2 hperm hout hpiv hlt hge
  subst hns hsg hnp hlo hhi hi' hj hjobs
  have c1 : chk arr.length (hi : Int) = some () := chk_ok (by omega) (by omega)
  have hJn : hi < arr.length := h2
  have hIn : I < arr.length := by omega
  have hs' : ¬ (hi : Int) < (hi : Int) := by omega
  have hplace := quickPlacePivot_eq arr
    ⟨jobs, false, true, false, pivot, (I : Int) - 1, (hi : Int), (lo : Int), (hi : Int), 16, cmp,
      acc⟩ lo hi I rfl rfl rfl h3 h4 h2
  have hph : pivot = arr.getD hi 0 := by rw [hpiv, hout hi (Or.inr (le_refl _))]
  refine ⟨((arr.set I (arr.getD hi 0)).set hi (arr.getD I 0),
    ⟨pushedJobs lo hi I jobs, false, true, true, pivot, (I : Int) - 1, (hi : Int), (lo : Int),
      (hi : Int), 4, cmp, u64 (acc + 4)⟩), ?_, ?_⟩
  · by_cases hc : (I : Int) - 1 ≥ (lo : Int)
    · have c2 : chk arr.length ((I : Int) - 1) = some () := chk_ok (by omega) (by omega)
      simp only [quickScanOrPlace, c1, hc, c2, hs', hplace, if_false, Bool.not_false, if_true,
        Option.bind_eq_bind, Option.some_bind, bind, Option.bind]
    · simp only [quickScanOrPlace, c1, hc, hs', hplace, if_false, Bool.not_false, if_true,
        Option.bind_eq_bind, Option.some_bind, bind, Option.bind]
  · have p2 : ((arr.set I (arr.getD hi 0)).set hi (arr.getD I 0)).getD I 0 = pivot := by
      rw [getD_swap hIn hJn, hph]
      congr 1
      split
      · omega
      · simp
    refine ⟨rfl, rfl, rfl, by simp only; omega, h3, h4, by simpa using h2,
      (swap_perm hIn hJn).trans hperm, ?_, ?_, ?_⟩
    · intro k hk
      simp only
      rw [getD_swap hIn hJn]
      have e1 : ¬ k = hi := by omega
      have e2 : ¬ k = I := by omega
      simp only [e1, e2, if_false]
      exact hout k (by omega)
    · intro k hk1 hk2
      simp only at p2 ⊢
      rw [p2, getD_swap hIn hJn]
      have e1 : ¬ k = hi := by omega
      have e2 : ¬ k = I := by omega
      simp only [e1, e2, if_false]
      exact hlt k hk1 hk2
    · intro k hk1 hk2
      simp only at p2 ⊢
      rw [p2, getD_swap hIn hJn]
      by_cases e1 : k = hi
      · simp only [e1, if_true]
        exact hge I (le_refl _) (by omega)
      · have e2 : ¬ k = I := by omega
        simp only [e1, e2, if_false]
        exact hge k (by omega) (by omega)

theorem quickStep_running (arr : List Int) (s : QuickSortState) (hs : s.isSorted = false)
    (hg : s.isSorting = true) (hn : s.needsPartition = false) :
    quickStep (arr, s) = quickScanOrPlace arr { s with currentLine := 1 } := by
  simp only [quickStep, quickSortStep, quickSetUp, hs, hg, hn, Bool.false_eq_true,
    Bool.and_false, Bool.not_true, Bool.or_self, if_false, Option.bind_eq_bind, Option.some_bind,
    bind, Option.bind]

theorem part_step {base : List Int} {rest : List QuickSortJob} {lo hi I J : Nat}
    {p : List Int × QuickSortState} (h : PartState base rest lo hi I J p) (hJ : J < hi) :
    ∃ p' I', quickStep p = some p' ∧ PartState base rest lo hi I' (J + 1) p' := by
  obtain ⟨arr, s⟩ := p
  rw [quickStep_running arr s h.unsorted h.active h.scanning]
  exact part_scan (t := { s with currentLine := 1 })
    ⟨h.unsorted, h.active, h.scanning, h.stack, h.low_eq, h.high_eq, h.i_eq, h.j_eq, h.lo_le,
      h.i_le, h.j_le, h.hi_lt, h.perm, h.outside, h.pivot_eq, h.less, h.notless⟩ hJ

theorem part_finish {base : List Int} {rest : List QuickSortJob} {lo hi I : Nat}
    {p : List Int × QuickSortState} (h : PartState base rest lo hi I hi p) :
    ∃ p', quickStep p = some p' ∧ PartDone base rest lo hi I p' := by
  obtain ⟨arr, s⟩ := p
  rw [quickStep_running arr s h.unsorted h.active h.scanning]
  exact part_place (t := { s with currentLine := 1 })
    ⟨h.unsorted, h.active, h.scanning, h.stack, h.low_eq, h.high_eq, h.i_eq, h.j_eq, h.lo_le,
      h.i_le, h.j_le, h.hi_lt, h.perm, h.outside, h.pivot_eq, h.less, h.notless⟩

theorem part_run (base : List Int) (rest : List QuickSortJob) (lo hi : Nat) :
    ∀ (d : Nat) (p : List Int × QuickSortState) (I J : Nat), hi - J = d →
      PartState base rest lo hi I J p →
      ∃ p' P, iterStep quickStep (d + 1) p = some p' ∧ PartDone base rest lo hi P p' ∧
        ∀ m, m ≤ d → ∃ q I' J', iterStep quickStep m p = some q ∧
          PartState base rest lo hi I' J' q := by
  intro d
  induction d with
  | zero =>
    intro p I J hd h
    have hJ : J = hi := by have := h.j_le; omega
    subst hJ
    obtain ⟨p', hp', hdone⟩ := part_finish h
    refine ⟨p', I, ?_, hdone, ?_⟩
    · rw [iterStep, hp']
      rfl
    · intro m hm
      have : m = 0 := by omega
      subst this
      exact ⟨p, I, J, rfl, h⟩
  | succ d ih =>
    intro p I J hd h
    obtain ⟨p1, I1, hp1, h1⟩ := part_step h (by omega)
    obtain ⟨p', P, hp', hdone, hmid⟩ := ih p1 I1 (J + 1) (by omega) h1
    refine ⟨p', P, ?_, hdone, ?_⟩
    · rw [iterStep, hp1]
      exact hp'
    · intro m hm
      cases m with
      | zero => exact ⟨p, I, J, rfl, h⟩
      | succ m =>
        obtain ⟨q, I', J', hq, hq'⟩ := hmid m (by omega)
        refine ⟨q, I', J', ?_, hq'⟩
        rw [iterStep, hp1]
        exact hq

theorem part_pop (arr : List Int) (s : QuickSortState) (rest : List QuickSortJob) (lo hi : Nat)
    (hs : s.isSorted = false) (hg : s.isSorting = true) (hn : s.needsPartition = true)
    (hj : s.jobs = ⟨(lo : Int), (hi : Int)⟩ :: rest) (h1 : lo < hi) (h2 : hi < arr.length) :
    ∃ p' I', quickStep (arr, s) = some p' ∧ PartState arr rest lo hi I' (lo + 1) p' := by
  have hhn : hi < arr.length := h2
  have e : quickStep (arr, s) = quickScanOrPlace arr
      { s with currentLine := 8, jobs := rest, current_low := lo, current_high := hi,
               pivot := arr.getD hi 0, arrayAccesses := u64 (s.arrayAccesses + 1),
               i := (lo : Int) - 1, j := lo, needsPartition := false } := by
    simp only [quickStep, quickSortStep, quickSetUp, hs, hg, hn, hj, readAt_ok hhn,
      List.isEmpty_cons, Bool.false_eq_true, Bool.false_and, Bool.not_true, Bool.or_self,
      if_false, if_true, Option.bind_eq_bind, Option.some_bind, bind, Option.bind]
  rw [e]
  exact part_scan
    ⟨hs, hg, rfl, rfl, rfl, rfl, rfl, rfl, le_refl _, le_refl _, by omega, h2, List.Perm.refl _,
      fun _ _ => rfl, rfl, fun k hk1 hk2 => by omega, fun k hk1 hk2 => by omega⟩ h1

theorem part_from_pop (arr : List Int) (s : QuickSortState) (rest : List QuickSortJob)
    (lo hi : Nat) (hs : s.isSorted = false) (hg : s.isSorting = true)
    (hn : s.needsPartition = true) (hj : s.jobs = ⟨(lo : Int), (hi : Int)⟩ :: rest)
    (h1 : lo < hi) (h2 : hi < arr.length) :
    ∃ p' P, iterStep quickStep (hi - lo + 1) (arr, s) = some p' ∧ PartDone arr rest lo hi P p' ∧
      ∀ m, 0 < m → m ≤ hi - lo → ∃ q I' J', iterStep quickStep m (arr, s) = some q ∧
        PartState arr rest lo hi I' J' q := by
  obtain ⟨p1, I1, hp1, hst⟩ := part_pop arr s rest lo hi hs hg hn hj h1 h2
  obtain ⟨p', P, hp', hdone, hmid⟩ := part_run arr rest lo hi (hi - (lo + 1)) p1 I1 (lo + 1) rfl hst
  have e : hi - lo + 1 = (hi - (lo + 1) + 1) + 1 := by omega
  refine ⟨p', P, ?_, hdone, ?_⟩
  · rw [e, iterStep, hp1]
    exact hp'
  · intro m hm0 hm
    obtain ⟨m, rfl⟩ : ∃ m', m = m' + 1 := ⟨m - 1, by omega⟩
    obtain ⟨q, I', J', hq, hq'⟩ := hmid m (by omega)
    refine ⟨q, I', J', ?_, hq'⟩
    rw [iterStep, hp1]
    exact hq

theorem slice_perm_inside {a b : List Int} {lo hi : Nat} (hlo : lo ≤ hi) (hlt : hi < a.length)
    (hp : a.Perm b) (ho : ∀ k, k < lo ∨ hi < k → a.getD k 0 = b.getD k 0) :
    (slice a lo (hi + 1)).Perm (slice b lo (hi + 1)) := by
  have hlen : a.length = b.length := hp.length_eq
  have ea : a = slice a 0 lo ++ (slice a lo (hi + 1) ++ slice a (hi + 1) a.length) := by
    rw [← slice_append a (by omega) (by omega), ← slice_append a (Nat.zero_le _) (by omega),
      slice_full]
  have eb : b = slice b 0 lo ++ (slice b lo (hi + 1) ++ slice b (hi + 1) b.length) := by
    rw [← slice_append b (by omega) (by omega), ← slice_append b (Nat.zero_le _) (by omega),
      slice_full]
  have e1 : slice a 0 lo = slice b 0 lo := slice_congr (fun x _ hx => ho x (Or.inl hx))
  have e2 : slice a (hi + 1) a.length = slice b (hi + 1) b.length := by
    rw [hlen]
    exact slice_congr (fun x hx _ => ho x (Or.inr (by omega)))
  rw [ea, eb, e1, e2] at hp
  exact (List.perm_append_right_iff _).mp ((List.perm_append_left_iff _).mp hp)

/-- C27. The Lomuto partition postcondition: let a state of the quick sort run (from the
orchestrator's start, after `k` calls) be about to pop the job `[low, high]`
(`needsPartition = true`, the job on top of the stack), with array `a`.  Then the next
`high - low + 1` calls are defined; all of them but the last leave `needsPartition = false`
with the range `[low, high]` in work and the elements outside the range untouched; the last
one places the pivot at `p = i + 1` and sets `needsPartition = true`, and at that point every
element of `arr[low..p-1]` is less than `arr[p]`, every element of `arr[p+1..high]` is at least
`arr[p]`, `arr[low..high]` is a permutation of `a[low..high]` and the elements outside
`[low, high]` are those of `a`. -/
theorem lomuto_partition_post (arr : List Int) (h2 : arr.length < 2 ^ 31)
    (s0 : QuickSortState) (k : Nat) (a : List Int) (s : QuickSortState) (job : QuickSortJob)
    (rest : List QuickSortJob)
    (hrun : iterStep quickStep k (arr, quickStart arr s0) = some (a, s))
    (hnp : s.needsPartition = true) (hjobs : s.jobs = job :: rest) :
    ∃ a' s', iterStep quickStep (k + (job.high - job.low + 1).toNat) (arr, quickStart arr s0)
        = some (a', s') ∧
      s'.needsPartition = true ∧ job.low ≤ s'.i + 1 ∧ s'.i + 1 ≤ job.high ∧
      (∀ m, 0 < m → m < (job.high - job.low + 1).toNat →
        ∃ q, iterStep quickStep (k + m) (arr, quickStart arr s0) = some q ∧
          q.2.needsPartition = false ∧ q.2.current_low = job.low ∧
          q.2.current_high = job.high ∧
          ∀ x : Nat, ((x : Int) < job.low ∨ job.high < x) → q.1.getD x 0 = a.getD x 0) ∧
      (∀ x : Nat, job.low ≤ x → (x : Int) < s'.i + 1 →
        a'.getD x 0 < a'.getD (s'.i + 1).toNat 0) ∧
      (∀ x : Nat, s'.i + 1 < x → (x : Int) ≤ job.high →
        a'.getD (s'.i + 1).toNat 0 ≤ a'.getD x 0) ∧
      (slice a' job.low.toNat (job.high.toNat + 1)).Perm
        (slice a job.low.toNat (job.high.toNat + 1)) ∧
      (∀ x : Nat, ((x : Int) < job.low ∨ job.high < x) → a'.getD x 0 = a.getD x 0) := by
  obtain ⟨p, hp, ⟨-, -, hinv⟩, hfin⟩ := quick_full_reach arr s0 h2 k
  rw [hrun] at hp
  simp only [Option.some.injEq] at hp
  subst hp
  have hs : s.isSorted = false := by
    cases h : s.isSorted with
    | false => rfl
    | true =>
      have := (hfin h).1
      simp only at this
      rw [hjobs] at this
      exact absurd this (by simp)
  obtain ⟨hg, ⟨-, hb⟩, -, -⟩ := hinv hs
  simp only at hg hb
  obtain ⟨hb0, hb1, hb2⟩ := hb job (by rw [hjobs]; simp)
  obtain ⟨low, high⟩ := job
  simp only at hb0 hb1 hb2 ⊢
  obtain ⟨lo, rfl⟩ : ∃ lo : Nat, low = lo := ⟨low.toNat, by omega⟩
  obtain ⟨hi, rfl⟩ : ∃ hi : Nat, high = hi := ⟨high.toNat, by omega⟩
  have h1 : lo < hi := by omega
  have hhn : hi < a.length := by omega
  obtain ⟨⟨a', s'⟩, P, hp', hdone, hmid⟩ := part_from_pop a s rest lo hi hs hg hnp hjobs h1 hhn
  have en : ((hi : Int) - (lo : Int) + 1).toNat = hi - lo + 1 := by omega
  have eP : s'.i + 1 = (P : Int) := hdone.p_eq
  have hlo := hdone.lo_le
  have hle := hdone.p_le
  rw [en]
  simp only [Int.toNat_ofNat]
  refine ⟨a', s', ?_, hdone.placed, by omega, by omega, ?_, ?_, ?_, ?_, ?_⟩
  · rw [iterStep_add, hrun, Option.some_bind, hp']
  · intro m hm0 hm
    obtain ⟨q, I', J', hq, hq'⟩ := hmid m hm0 (by omega)
    refine ⟨q, ?_, hq'.scanning, hq'.low_eq, hq'.high_eq, fun x hx => ?_⟩
    · rw [iterStep_add, hrun, Option.some_bind, hq]
    · exact hq'.outside x (by omega)
  · intro x hx1 hx2
    rw [eP, Int.toNat_ofNat]
    exact hdone.less x (by omega) (by omega)
  · intro x hx1 hx2
    rw [eP, Int.toNat_ofNat]
    exact hdone.notless x (by omega) (by omega)
  · exact slice_perm_inside (by omega) hdone.hi_lt hdone.perm hdone.outside
  · intro x hx
    exact hdone.outside x (by omega)

theorem lomuto_partition_post_witness :
    ∃ a' s', iterStep quickStep
          (0 + ((⟨0, 2⟩ : QuickSortJob).high - (⟨0, 2⟩ : QuickSortJob).low + 1).toNat)
          ([3, 1, 2], quickStart [3, 1, 2] {}) = some (a', s') ∧
      s'.needsPartition = true ∧ (⟨0, 2⟩ : QuickSortJob).low ≤ s'.i + 1 ∧
      s'.i + 1 ≤ (⟨0, 2⟩ : QuickSortJob).high ∧
      (∀ m, 0 < m →
        m < ((⟨0, 2⟩ : QuickSortJob).high - (⟨0, 2⟩ : QuickSortJob).low + 1).toNat →
        ∃ q, iterStep quickStep (0 + m) ([3, 1, 2], quickStart [3, 1, 2] {}) = some q ∧
          q.2.needsPartition = false ∧ q.2.current_low = (⟨0, 2⟩ : QuickSortJob).low ∧
          q.2.current_high = (⟨0, 2⟩ : QuickSortJob).high ∧
          ∀ x : Nat, ((x : Int) < (⟨0, 2⟩ : QuickSortJob).low ∨
            (⟨0, 2⟩ : QuickSortJob).high < x) → q.1.getD x 0 = ([3, 1, 2] : List Int).getD x 0) ∧
      (∀ x : Nat, (⟨0, 2⟩ : QuickSortJob).low ≤ x → (x : Int) < s'.i + 1 →
        a'.getD x 0 < a'.getD (s'.i + 1).toNat 0) ∧
      (∀ x : Nat, s'.i + 1 < x → (x : Int) ≤ (⟨0, 2⟩ : QuickSortJob).high →
        a'.getD (s'.i + 1).toNat 0 ≤ a'.getD x 0) ∧
      (slice a' (⟨0, 2⟩ : QuickSortJob).low.toNat ((⟨0, 2⟩ : QuickSortJob).high.toNat + 1)).Perm
        (slice [3, 1, 2] (⟨0, 2⟩ : QuickSortJob).low.toNat
          ((⟨0, 2⟩ : QuickSortJob).high.toNat + 1)) ∧
      (∀ x : Nat, ((x : Int) < (⟨0, 2⟩ : QuickSortJob).low ∨ (⟨0, 2⟩ : QuickSortJob).high < x) →
        a'.getD x 0 = ([3, 1, 2] : List Int).getD x 0) :=
  lomuto_partition_post [3, 1, 2] (by decide) {} 0 [3, 1, 2] (quickStart [3, 1, 2] {}) ⟨0, 2⟩ []
    rfl rfl rfl

/-! ## Merge sort: the order of the jobs and the work of one call -/

theorem mergeSortStep_shape (arr : List Int) (s : MergeSortState) (job : MergeJob)
    (rest : List MergeJob) (a' : List Int) (s' : MergeSortState)
    (h : mergeSortStep arr s = some (a', s')) (hs : s.isSorted = false)
    (hg : s.isSorting = true) (hj : s.jobs = job :: rest) :
    ((job.i ≤ job.mid ∨ job.j ≤ job.right) ∧
      (∃ v, (v = s.tempArray.getD job.i.toNat 0 ∨ v = s.tempArray.getD job.j.toNat 0) ∧
        writeAt arr job.k v = some a') ∧
      s'.tempArray = s.tempArray ∧ s'.isSorted = false ∧
      (s'.jobs = { job with i := job.i + 1, k := job.k + 1 } :: rest ∨
        s'.jobs = { job with j := job.j + 1, k := job.k + 1 } :: rest) ∧
      s'.comparisons =
        if job.i ≤ job.mid ∧ job.j ≤ job.right then u64 (s.comparisons + 1)
        else s.comparisons) ∨
    (¬ job.i ≤ job.mid ∧ ¬ job.j ≤ job.right ∧ a' = arr ∧ s'.jobs = rest ∧
      s'.isSorted = false ∧ s'.comparisons = s.comparisons ∧
      mergeCopyBack arr (job.right + 1 - job.left).toNat job.left s.tempArray
        = some s'.tempArray) := by
  unfold mergeSortStep at h
  rw [hs, hg, hj] at h
  simp only [Bool.false_eq_true, Bool.not_true, Bool.or_self, if_false] at h
  by_cases c1 : job.i ≤ job.mid <;> by_cases c2 : job.j ≤ job.right
  · simp only [c1, c2, and_self, if_true, Option.bind_eq_bind, Option.bind_eq_some] at h
    obtain ⟨ti, hti, tj, htj, h⟩ := h
    have eti : ti = s.tempArray.getD job.i.toNat 0 := by
      unfold readAt at hti
      split_ifs at hti
      simp only [Option.some.injEq] at hti
      exact hti.symm
    have etj : tj = s.tempArray.getD job.j.toNat 0 := by
      unfold readAt at htj
      split_ifs at htj
      simp only [Option.some.injEq] at htj
      exact htj.symm
    left
    split_ifs at h with c3
    · simp only [Option.bind_eq_some, Option.some.injEq, Prod.mk.injEq] at h
      obtain ⟨arr1, hw, rfl, rfl⟩ := h
      exact ⟨Or.inl c1, ⟨ti, Or.inl eti, hw⟩, rfl, rfl, Or.inl rfl,
        by simp only [c1, c2, and_self, if_true]⟩
    · simp only [Option.bind_eq_some, Option.some.injEq, Prod.mk.injEq] at h
      obtain ⟨arr1, hw, rfl, rfl⟩ := h
      exact ⟨Or.inl c1, ⟨tj, Or.inr etj, hw⟩, rfl, rfl, Or.inr rfl,
        by simp only [c1, c2, and_self, if_true]⟩
  · simp only [c1, c2, and_false, if_true, if_false, Option.bind_eq_bind,
      Option.bind_eq_some, Option.some.injEq, Prod.mk.injEq] at h
    obtain ⟨ti, hti, arr1, hw, rfl, rfl⟩ := h
    have eti : ti = s.tempArray.getD job.i.toNat 0 := by
      unfold readAt at hti
      split_ifs at hti
      simp only [Option.some.injEq] at hti
      exact hti.symm
    left
    refine ⟨Or.inl c1, ⟨ti, Or.inl eti, hw⟩, rfl, rfl, Or.inl rfl, ?_⟩
    simp only [c2, and_false, if_false]
  · simp only [c1, c2, false_and, if_true, if_false, Option.bind_eq_bind,
      Option.bind_eq_some, Option.some.injEq, Prod.mk.injEq] at h
    obtain ⟨tj, htj, arr1, hw, rfl, rfl⟩ := h
    have etj : tj = s.tempArray.getD job.j.toNat 0 := by
      unfold readAt at htj
      split_ifs at htj
      simp only [Option.some.injEq] at htj
      exact htj.symm
    left
    refine ⟨Or.inr c2, ⟨tj, Or.inr etj, hw⟩, rfl, rfl, Or.inr rfl, ?_⟩
    simp only [c1, false_and, if_false]
  · simp only [c1, c2, false_and, if_false, Option.bind_eq_bind,
      Option.bind_eq_some, Option.some.injEq, Prod.mk.injEq] at h
    obtain ⟨temp1, hc, rfl, rfl⟩ := h
    right
    exact ⟨c1, c2, rfl, rfl, rfl, rfl, hc⟩

/-- The stack `jobs` is what remains of the list `gen` of jobs: either nothing, or a tail of
`gen` whose first job may have had its cursors advanced. -/
def Drained (gen jobs : List MergeJob) : Prop :=
  jobs = [] ∨ ∃ done cur top rest, gen = done ++ cur :: rest ∧ jobs = top :: rest ∧
    top.left = cur.left ∧ top.mid = cur.mid ∧ top.right = cur.right

/-- The invariant of the merge sort run, together with the shape of the job stack. -/
def MergeFull (orig : List Int) (p : List Int × MergeSortState) : Prop :=
  MergeInv orig p ∧ (p.2.isSorted = true → p.2.jobs = []) ∧
    Drained (genOuter orig.length orig.length 1) p.2.jobs

/-- One call changes the job stack in one of three ways: not at all, by advancing the
cursors of the top job, or by removing the top job. -/
def JobsMove (jobs jobs' : List MergeJob) : Prop :=
  jobs' = jobs ∨
  (∃ top top' rest, jobs = top :: rest ∧ jobs' = top' :: rest ∧ top'.left = top.left ∧
    top'.mid = top.mid ∧ top'.right = top.right) ∨
  ∃ top, jobs = top :: jobs'

theorem drained_move {gen jobs jobs' : List MergeJob} (h : Drained gen jobs)
    (hm : JobsMove jobs jobs') : Drained gen jobs' := by
  rcases hm with rfl | ⟨top, top', rest, rfl, rfl, e1, e2, e3⟩ | ⟨top, rfl⟩
  · exact h
  · rcases h with h | ⟨done, cur, top0, rest0, hg, hj, f1, f2, f3⟩
    · simp at h
    · simp only [List.cons.injEq] at hj
      obtain ⟨rfl, rfl⟩ := hj
      exact Or.inr ⟨done, cur, top', rest, hg, rfl, by rw [e1, f1], by rw [e2, f2],
        by rw [e3, f3]⟩
  · rcases h with h | ⟨done, cur, top0, rest0, hg, hj, -⟩
    · simp at h
    · simp only [List.cons.injEq] at hj
      obtain ⟨rfl, rfl⟩ := hj
      cases jobs' with
      | nil => exact Or.inl rfl
      | cons r rest' =>
        refine Or.inr ⟨done ++ [cur], r, r, rest', ?_, rfl, rfl, rfl, rfl⟩
        rw [hg]
        simp

theorem merge_full_step (orig : List Int) (p : List Int × MergeSortState)
    (h : MergeFull orig p) :
    ∃ p', mergeStep p = some p' ∧ MergeFull orig p' ∧ JobsMove p.2.jobs p'.2.jobs := by
  obtain ⟨hinv, hfin, hdr⟩ := h
  obtain ⟨arr, s⟩ := p
  cases hs : s.isSorted with
  | true =>
    refine ⟨(arr, { s with currentLine := 7 }), ?_, ⟨⟨fun _ => hinv.1 hs, ?_⟩, fun _ => hfin hs,
      hdr⟩, Or.inl rfl⟩
    · simp [mergeStep, mergeSortStep, hs]
    · intro h'
      simp only at h'
      rw [hs] at h'
      exact absurd h' (by simp)
  | false =>
    obtain ⟨⟨a', s'⟩, hp', hinv', -⟩ := merge_step_inv orig (arr, s) hinv hs
    have hg : s.isSorting = true := (hinv.2 hs).1
    cases hj : s.jobs with
    | nil =>
      have e : mergeStep (arr, s) =
          some (arr, { s with currentLine := 2, isSorted := true, isSorting := false }) := by
        simp [mergeStep, mergeSortStep, hs, hg, hj]
      rw [e] at hp'
      simp only [Option.some.injEq, Prod.mk.injEq] at hp'
      obtain ⟨rfl, rfl⟩ := hp'
      refine ⟨_, e, ⟨hinv', fun _ => hj, ?_⟩, ?_⟩
      · exact Or.inl hj
      · exact Or.inl hj
    | cons job rest =>
      have hmove : JobsMove (job :: rest) s'.jobs ∧ s'.isSorted = false := by
        rcases mergeSortStep_shape arr s job rest a' s' hp' hs hg hj with
          ⟨-, -, -, hs', hj' | hj', -⟩ | ⟨-, -, -, hj', hs', -⟩
        · exact ⟨Or.inr (Or.inl ⟨job, _, rest, rfl, hj', rfl, rfl, rfl⟩), hs'⟩
        · exact ⟨Or.inr (Or.inl ⟨job, _, rest, rfl, hj', rfl, rfl, rfl⟩), hs'⟩
        · exact ⟨Or.inr (Or.inr ⟨job, by rw [hj']⟩), hs'⟩
      refine ⟨(a', s'), hp', ⟨hinv', fun h' => ?_, ?_⟩, ?_⟩
      · simp only at h'
        rw [hmove.2] at h'
        exact absurd h' (by simp)
      · simp only at hdr ⊢
        rw [hj] at hdr
        exact drained_move hdr hmove.1
      · exact hmove.1

theorem merge_full_init (arr : List Int) :
    MergeFull arr (arr, ⟨genOuter arr.length arr.length 1, arr, true, false, 0, 0, 0⟩) := by
  refine ⟨merge_init_inv arr _ rfl rfl rfl rfl, by intro h; simp at h, ?_⟩
  simp only
  cases hg : genOuter arr.length arr.length 1 with
  | nil => exact Or.inl rfl
  | cons t rest => exact Or.inr ⟨[], t, t, rest, rfl, rfl, rfl, rfl, rfl⟩

theorem merge_full_reach (arr : List Int) (k : Nat) :
    ∃ p, iterStep mergeStep k
        (arr, ⟨genOuter arr.length arr.length 1, arr, true, false, 0, 0, 0⟩) = some p ∧
      MergeFull arr p :=
  iterStep_inv mergeStep (MergeFull arr)
    (fun p hp => by
      obtain ⟨p', h1, h2, -⟩ := merge_full_step arr p hp
      exact ⟨p', h1, h2⟩) k _ (merge_full_init arr)

theorem mergeStart_any (arr : List Int) (s0 : MergeSortState) (h2 : arr.length ≤ 2 ^ 30) :
    mergeStart arr s0 = some ⟨genOuter arr.length arr.length 1, arr, true, false, 0, 0, 0⟩ := by
  rw [mergeStart_eq arr s0 h2]

theorem resetMergeSort_jobs (arr : List Int) (s0 : MergeSortState) (h2 : arr.length ≤ 2 ^ 30) :
    ∃ r, resetMergeSort s0 (toInt32 arr.length) = some r ∧
      r.jobs = (genOuter arr.length arr.length 1).reverse := by
  have h3 : (arr.length : Int) ≤ 2 ^ 30 := by exact_mod_cast h2
  have e : toInt32 (arr.length : Int) = arr.length :=
    toInt32_eq (by omega) (by omega)
  have hneg : ¬ ((arr.length : Int) < 0) := by omega
  simp only [resetMergeSort, e, Int.toNat_ofNat, hneg, if_false]
  rw [mergeJobsOuter_eq _ (by omega) h3 _ _ (le_refl _) _ (by omega)]
  simp

/-- C28, the claim fails: for `n = 4` the stack left by `resetMergeSort` has, from top to
bottom, the jobs `[0, 1, 3]`, `[2, 2, 3]`, `[0, 0, 1]` (left, mid, right): the job generated
first (`left = 0`, run size 1) is at the bottom and the job generated last (run size 2) is on
top, and `isSorting` is false.  A `mergeSortStep` call on that state with only `isSorting`
set operates on the job of run size 2. -/
theorem reset_stack_top_is_last_job :
    ((resetMergeSort {} 4).map fun s => (s.jobs, s.isSorting))
      = some ([⟨0, 1, 3, 0, 2, 0⟩, ⟨2, 2, 3, 2, 3, 2⟩, ⟨0, 0, 1, 0, 1, 0⟩], false) ∧
    ((resetMergeSort {} 4).bind fun s =>
      (mergeSortStep [4, 3, 2, 1] { s with isSorting := true }).map fun p =>
        (p.1, p.2.jobs.head?)) = some ([0, 3, 2, 1], some ⟨0, 1, 3, 1, 2, 1⟩) := by
  decide

/-- C28, amended: the jobs are processed in the order of their generation under the
orchestrator's start protocol (`resetMergeSort`, `tempArray = arr`, the job stack reversed,
`isSorting = true`), not after `resetMergeSort` alone.  For every array of at most `2 ^ 30`
elements (beyond that the `int` arithmetic of the job generation overflows) the reset and
the start are defined; the start stack is, from top to
bottom, the stack of `resetMergeSort` from bottom to top, so its top is the job generated
first (`left = 0`, run size 1, when `n ≥ 2`); after any number `k` of `mergeSortStep` calls the
stack is empty or a tail of the start stack whose top job has the range of the job at that
place and possibly advanced cursors; and the next call either leaves the stack as it is,
advances the cursors of the top job, or removes the top job. -/
theorem merge_drain_order (arr : List Int) (h2 : arr.length ≤ 2 ^ 30) (s0 : MergeSortState)
    (k : Nat) :
    ∃ r st a s a' s', resetMergeSort s0 (toInt32 arr.length) = some r ∧
      mergeStart arr s0 = some st ∧ st.jobs = r.jobs.reverse ∧
      (2 ≤ arr.length → st.jobs.head? = some ⟨0, 0, 1, 0, 1, 0⟩) ∧
      iterStep mergeStep k (arr, st) = some (a, s) ∧
      (s.jobs = [] ∨ ∃ done cur top rest, st.jobs = done ++ cur :: rest ∧ s.jobs = top :: rest ∧
        top.left = cur.left ∧ top.mid = cur.mid ∧ top.right = cur.right) ∧
      mergeSortStep a s = some (a', s') ∧
      (s'.jobs = s.jobs ∨
        (∃ top top' rest, s.jobs = top :: rest ∧ s'.jobs = top' :: rest ∧
          top'.left = top.left ∧ top'.mid = top.mid ∧ top'.right = top.right) ∨
        ∃ top, s.jobs = top :: s'.jobs) := by
  obtain ⟨r, hr, hrj⟩ := resetMergeSort_jobs arr s0 h2
  obtain ⟨⟨a, s⟩, hk, hfull⟩ := merge_full_reach arr k
  obtain ⟨⟨a', s'⟩, hstep, -, hmove⟩ := merge_full_step arr (a, s) hfull
  refine ⟨r, _, a, s, a', s', hr, mergeStart_any arr s0 h2, by rw [hrj, List.reverse_reverse],
    ?_, hk, hfull.2.2, hstep, hmove⟩
  intro hn
  obtain ⟨n', hn'⟩ : ∃ n', arr.length = n' + 1 := ⟨arr.length - 1, by omega⟩
  have h0 : (0 : Int) < (arr.length : Int) - 1 := by omega
  have h1 : (1 : Int) ≤ (arr.length : Int) - 1 := by omega
  simp only
  nth_rewrite 2 [hn']
  simp only [genOuter, h1, if_true, Int.toNat_ofNat]
  nth_rewrite 2 [hn']
  have m1 : min ((0 : Int) + 1 - 1) ((arr.length : Int) - 1) = 0 := by omega
  have m2 : min ((0 : Int) + 2 * 1 - 1) ((arr.length : Int) - 1) = 1 := by omega
  simp only [genInner, h0, if_true, List.cons_append, freshJob, List.head?_cons, m1, m2]
  rfl

theorem merge_drain_order_witness :
    ∃ r st a s a' s', resetMergeSort {} (toInt32 ([4, 3, 2, 1] : List Int).length) = some r ∧
      mergeStart [4, 3, 2, 1] {} = some st ∧ st.jobs = r.jobs.reverse ∧
      (2 ≤ ([4, 3, 2, 1] : List Int).length → st.jobs.head? = some ⟨0, 0, 1, 0, 1, 0⟩) ∧
      iterStep mergeStep 3 ([4, 3, 2, 1], st) = some (a, s) ∧
      (s.jobs = [] ∨ ∃ done cur top rest, st.jobs = done ++ cur :: rest ∧ s.jobs = top :: rest ∧
        top.left = cur.left ∧ top.mid = cur.mid ∧ top.right = cur.right) ∧
      mergeSortStep a s = some (a', s') ∧
      (s'.jobs = s.jobs ∨
        (∃ top top' rest, s.jobs = top :: rest ∧ s'.jobs = top' :: rest ∧
          top'.left = top.left ∧ top'.mid = top.mid ∧ top'.right = top.right) ∨
        ∃ top, s.jobs = top :: s'.jobs) :=
  merge_drain_order [4, 3, 2, 1] (by decide) {} 3

/-- C29. The granularity and index safety of `mergeSortStep`: for every array of `n` elements,
`n` at most `2 ^ 30` (beyond that the `int` arithmetic of the job generation in
`resetMergeSort` overflows), in every state reached from the orchestrator's start by any
number of calls, the array and `tempArray` have `n` elements,
and if there is a job on the stack then the state is unfinished and active, the top job
satisfies `0 ≤ left ≤ i ≤ mid + 1`, `mid + 1 ≤ j ≤ right + 1`, `mid ≤ right < n` and
`k = left + (i - left) + (j - mid - 1)`, and the next call is defined and does one of two
things.  While a run is not exhausted it writes exactly one element `arr[k]`, with
`left ≤ k ≤ right`, taken from `tempArray[i]` or `tempArray[j]`, advances `k` and one of `i`,
`j` by one, leaves `tempArray` as it is, and counts one comparison when both runs are
non-exhausted and none otherwise.  When both runs are exhausted it leaves the array and the
counter as they are, copies `arr[left..right]` into `tempArray` and pops the job. -/
theorem merge_step_granularity (arr : List Int) (h2 : arr.length ≤ 2 ^ 30)
    (s0 : MergeSortState) (k : Nat) :
    ∃ st a s, mergeStart arr s0 = some st ∧ iterStep mergeStep k (arr, st) = some (a, s) ∧
      a.length = arr.length ∧
      ∀ job rest, s.jobs = job :: rest →
        s.isSorted = false ∧ s.isSorting = true ∧ s.tempArray.length = arr.length ∧
        0 ≤ job.left ∧ job.left ≤ job.i ∧ job.i ≤ job.mid + 1 ∧ job.mid + 1 ≤ job.j ∧
        job.j ≤ job.right + 1 ∧ job.mid ≤ job.right ∧ job.right < arr.length ∧
        job.k = job.left + (job.i - job.left) + (job.j - job.mid - 1) ∧
        ∃ a' s', mergeSortStep a s = some (a', s') ∧
          (((job.i ≤ job.mid ∨ job.j ≤ job.right) ∧ job.left ≤ job.k ∧ job.k ≤ job.right ∧
            (∃ v, (v = s.tempArray.getD job.i.toNat 0 ∨ v = s.tempArray.getD job.j.toNat 0) ∧
              writeAt a job.k v = some a') ∧
            s'.tempArray = s.tempArray ∧
            (s'.jobs = { job with i := job.i + 1, k := job.k + 1 } :: rest ∨
              s'.jobs = { job with j := job.j + 1, k := job.k + 1 } :: rest) ∧
            s'.comparisons =
              if job.i ≤ job.mid ∧ job.j ≤ job.right then u64 (s.comparisons + 1)
              else s.comparisons) ∨
          (¬ job.i ≤ job.mid ∧ ¬ job.j ≤ job.right ∧ a' = a ∧ s'.jobs = rest ∧
            s'.comparisons = s.comparisons ∧ s'.tempArray.length = arr.length ∧
            ∀ x : Nat, s'.tempArray.getD x 0 =
              if job.left ≤ x ∧ (x : Int) ≤ job.right then a.getD x 0
              else s.tempArray.getD x 0)) := by
  obtain ⟨⟨a, s⟩, hk, hfull⟩ := merge_full_reach arr k
  obtain ⟨⟨a', s'⟩, hstep, -, -⟩ := merge_full_step arr (a, s) hfull
  obtain ⟨⟨hsorted, hinv⟩, hfin, -⟩ := hfull
  have hlen : a.length = arr.length := by
    cases hs : s.isSorted with
    | true => exact (hsorted hs).2.length_eq
    | false =>
      rcases (hinv hs).2 with ⟨-, -, hp⟩ | ⟨cs, L, M, R, I, J, K, f1, f2, h⟩
      · exact hp.length_eq
      · have e1 := h.prog.hlen
        have e2 := h.tperm.length_eq
        simp only at e1 e2 ⊢
        omega
  refine ⟨_, a, s, mergeStart_any arr s0 h2, hk, hlen, ?_⟩
  intro job rest hj
  have hs : s.isSorted = false := by
    cases h : s.isSorted with
    | false => rfl
    | true =>
      have := hfin h
      simp only at this
      rw [hj] at this
      exact absurd this (by simp)
  obtain ⟨hg, hcase⟩ := hinv hs
  simp only at hg hcase
  rcases hcase with ⟨hnil, -, -⟩ | ⟨cs, L, M, R, I, J, K, f1, f2, h⟩
  · rw [hj] at hnil
    exact absurd hnil (by simp)
  have hjobs := h.jobs
  rw [hj] at hjobs
  simp only [List.cons.injEq] at hjobs
  obtain ⟨rfl, -⟩ := hjobs
  have hp := h.prog
  have e1 := hp.hlen
  have hLI := hp.hLI
  have hIM := hp.hIM
  have hMJ := hp.hMJ
  have hJR := hp.hJR
  have hK := hp.hK
  have hRn := hp.hRn
  have hMR := hp.hMR
  simp only
  refine ⟨hs, hg, by omega, by omega, by omega, by omega, by omega, by omega, by omega,
    by omega, by omega, a', s', hstep, ?_⟩
  rcases mergeSortStep_shape a s _ rest a' s' hstep hs hg hj with
    ⟨c, hw, ht, -, hj', hc⟩ | ⟨c1, c2, ha, hj', -, hc, hcopy⟩
  · left
    simp only at c hw hj' hc
    exact ⟨c, by omega, by omega, hw, ht, hj', hc⟩
  · right
    simp only at c1 c2 hcopy
    have ecnt : ((R : Int) + 1 - (L : Int)).toNat = R + 1 - L := by omega
    rw [ecnt] at hcopy
    obtain ⟨t, ht, htl, hget⟩ := mergeCopyBack_spec a (R + 1 - L) L s.tempArray e1 (by omega)
    rw [ht] at hcopy
    simp only [Option.some.injEq] at hcopy
    subst hcopy
    refine ⟨c1, c2, ha, hj', hc, by omega, fun x => ?_⟩
    rw [hget x]
    by_cases hx : L ≤ x ∧ x < L + (R + 1 - L)
    · have hx' : (L : Int) ≤ x ∧ (x : Int) ≤ R := by omega
      rw [if_pos hx, if_pos hx']
    · have hx' : ¬ ((L : Int) ≤ x ∧ (x : Int) ≤ R) := by omega
      rw [if_neg hx, if_neg hx']

theorem merge_step_granularity_witness :
    ∃ st a s, mergeStart [4, 3, 2, 1] {} = some st ∧
      iterStep mergeStep 2 ([4, 3, 2, 1], st) = some (a, s) ∧
      a.length = ([4, 3, 2, 1] : List Int).length ∧
      ∀ job rest, s.jobs = job :: rest →
        s.isSorted = false ∧ s.isSorting = true ∧
        s.tempArray.length = ([4, 3, 2, 1] : List Int).length ∧
        0 ≤ job.left ∧ job.left ≤ job.i ∧ job.i ≤ job.mid + 1 ∧ job.mid + 1 ≤ job.j ∧
        job.j ≤ job.right + 1 ∧ job.mid ≤ job.right ∧
        job.right < ([4, 3, 2, 1] : List Int).length ∧
        job.k = job.left + (job.i - job.left) + (job.j - job.mid - 1) ∧
        ∃ a' s', mergeSortStep a s = some (a', s') ∧
          (((job.i ≤ job.mid ∨ job.j ≤ job.right) ∧ job.left ≤ job.k ∧ job.k ≤ job.right ∧
            (∃ v, (v = s.tempArray.getD job.i.toNat 0 ∨ v = s.tempArray.getD job.j.toNat 0) ∧
              writeAt a job.k v = some a') ∧
            s'.tempArray = s.tempArray ∧
            (s'.jobs = { job with i := job.i + 1, k := job.k + 1 } :: rest ∨
              s'.jobs = { job with j := job.j + 1, k := job.k + 1 } :: rest) ∧
            s'.comparisons =
              if job.i ≤ job.mid ∧ job.j ≤ job.right then u64 (s.comparisons + 1)
              else s.comparisons) ∨
          (¬ job.i ≤ job.mid ∧ ¬ job.j ≤ job.right ∧ a' = a ∧ s'.jobs = rest ∧
            s'.comparisons = s.comparisons ∧
            s'.tempArray.length = ([4, 3, 2, 1] : List Int).length ∧
            ∀ x : Nat, s'.tempArray.getD x 0 =
              if job.left ≤ x ∧ (x : Int) ≤ job.right then a.getD x 0
              else s.tempArray.getD x 0)) :=
  merge_step_granularity [4, 3, 2, 1] (by decide) {} 2

/-! ## Dijkstra: every node enters the open set at most once

The cost of a move is the cost of the node entered, so the first cost recorded for a node is
its final one: the node that records it is popped before every node popped later, whose
recorded cost is therefore not smaller. -/

/-- The invariant between two calls of `dijkstraStep`: the entries of the open set name
distinct nodes and carry the recorded cost of their node, and every recorded cost below
`INT_MAX`, except that of the start node, is the recorded cost of some node `p` plus the cost
of the node itself, where the recorded cost of `p` is at most every key of the open set. -/
structure Once (g0 : Grid) (st : Cell) (cm : Cell → Int) (q : List DijkstraNode) : Prop where
  cm_st : cm st = 0
  nonneg : ∀ c, 0 ≤ cm c
  le_max : ∀ c, cm c ≤ INT_MAX
  nodup : (q.map DijkstraNode.node).Nodup
  keys : ∀ e ∈ q, e.cost = cm e.node ∧ cm e.node < INT_MAX
  parent : ∀ w, cm w < INT_MAX → w = st ∨
    ∃ p, cm w = cm p + (g0.node w).cost ∧ ∀ e ∈ q, cm p ≤ e.cost

/-- The invariant inside the neighbour loop of the node `u`. -/
structure OnceLoop (g0 : Grid) (st : Cell) (cm : Cell → Int) (q : List DijkstraNode)
    (u : Cell) : Prop where
  cm_st : cm st = 0
  nonneg : ∀ c, 0 ≤ cm c
  le_max : ∀ c, cm c ≤ INT_MAX
  nodup : (q.map DijkstraNode.node).Nodup
  keys : ∀ e ∈ q, e.cost = cm e.node ∧ cm e.node < INT_MAX
  u_fin : cm u < INT_MAX
  u_low : ∀ e ∈ q, cm u ≤ e.cost
  parent : ∀ w, cm w < INT_MAX → w = st ∨
    ∃ p, cm w = cm p + (g0.node w).cost ∧ cm p ≤ cm u ∧ ∀ e ∈ q, cm p ≤ e.cost

section once
variable {g0 : Grid} {d : Bool} {st en : Cell}

theorem OnceLoop.once_exit {cm : Cell → Int} {q : List DijkstraNode} {u : Cell}
    (h : OnceLoop g0 st cm q u) : Once g0 st cm q :=
  ⟨h.cm_st, h.nonneg, h.le_max, h.nodup, h.keys, fun w hw => by
    rcases h.parent w hw with e | ⟨p, e1, -, e2⟩
    · exact Or.inl e
    · exact Or.inr ⟨p, e1, e2⟩⟩

theorem Once.once_enter {cm : Cell → Int} {q r : List DijkstraNode} {x : DijkstraNode}
    (h : Once g0 st cm q) (hperm : List.Perm (x :: r) q) (hmin : ∀ y ∈ q, x.cost ≤ y.cost) :
    OnceLoop g0 st cm r x.node := by
  have hx : x ∈ q := hperm.subset (List.mem_cons_self _ _)
  have hsub : ∀ e ∈ r, e ∈ q := fun e he => hperm.subset (List.mem_cons_of_mem _ he)
  have hnd : ((x :: r).map DijkstraNode.node).Nodup := (hperm.map _).nodup_iff.mpr h.nodup
  rw [List.map_cons, List.nodup_cons] at hnd
  refine ⟨h.cm_st, h.nonneg, h.le_max, hnd.2, fun e he => h.keys e (hsub e he), (h.keys x hx).2,
    fun e he => ?_, fun w hw => ?_⟩
  · rw [← (h.keys x hx).1]
    exact hmin e (hsub e he)
  · rcases h.parent w hw with e | ⟨p, e1, e2⟩
    · exact Or.inl e
    · refine Or.inr ⟨p, e1, ?_, fun e he => e2 e (hsub e he)⟩
      rw [← (h.keys x hx).1]
      exact e2 x hx

theorem Once.once_drop {cm : Cell → Int} {q r : List DijkstraNode} {x : DijkstraNode}
    (h : Once g0 st cm q) (hperm : List.Perm (x :: r) q) (hmin : ∀ y ∈ q, x.cost ≤ y.cost) :
    Once g0 st cm r :=
  (h.once_enter hperm hmin).once_exit

theorem OnceLoop.once_relax (hw : WellFormed g0 st en) {cm : Cell → Int} {q : List DijkstraNode}
    {u w : Cell} (h : OnceLoop g0 st cm q u) (hin : InGrid g0 w)
    (hlt : cm u + (g0.node w).cost < cm w) :
    OnceLoop g0 st (setAt cm w (cm u + (g0.node w).cost))
      (⟨w, cm u + (g0.node w).cost⟩ :: q) u := by
  have hc := hw.cost_pos hin
  have hu0 := h.nonneg u
  have hinf : ¬ cm w < INT_MAX := by
    intro hfin
    rcases h.parent w hfin with e | ⟨p, e1, e2, -⟩
    · rw [e] at hlt hc
      rw [h.cm_st] at hlt
      omega
    · omega
  have hwmax := h.le_max w
  have hne : ∀ c, cm c < INT_MAX → c ≠ w := fun c hc e => hinf (e ▸ hc)
  have hset : ∀ c, cm c < INT_MAX → setAt cm w (cm u + (g0.node w).cost) c = cm c := by
    intro c hc
    unfold setAt
    rw [if_neg (hne c hc)]
  have hself : setAt cm w (cm u + (g0.node w).cost) w = cm u + (g0.node w).cost := by
    unfold setAt
    rw [if_pos rfl]
  have hst : (0 : Int) < INT_MAX := by unfold INT_MAX; decide
  refine ⟨?_, ?_, ?_, ?_, ?_, ?_, ?_, ?_⟩
  · rw [hset st (by rw [h.cm_st]; exact hst), h.cm_st]
  · intro c
    unfold setAt
    split_ifs
    · omega
    · exact h.nonneg c
  · intro c
    unfold setAt
    split_ifs
    · omega
    · exact h.le_max c
  · rw [List.map_cons, List.nodup_cons]
    refine ⟨fun hmem => ?_, h.nodup⟩
    obtain ⟨e, he, hew⟩ := List.mem_map.mp hmem
    exact hne e.node (h.keys e he).2 hew
  · intro e he
    rcases List.mem_cons.mp he with rfl | he
    · simp only
      rw [hself]
      exact ⟨rfl, by omega⟩
    · rw [hset e.node (h.keys e he).2]
      exact h.keys e he
  · rw [hset u h.u_fin]
    exact h.u_fin
  · intro e he
    rw [hset u h.u_fin]
    rcases List.mem_cons.mp he with rfl | he
    · simp only
      omega
    · exact h.u_low e he
  · intro x hx
    by_cases hxw : x = w
    · subst hxw
      refine Or.inr ⟨u, ?_, ?_, ?_⟩
      · rw [hself, hset u h.u_fin]
      · rw [hset u h.u_fin]
      · intro e he
        rw [hset u h.u_fin]
        rcases List.mem_cons.mp he with rfl | he
        · simp only
          omega
        · exact h.u_low e he
    · have hx' : cm x < INT_MAX := by
        unfold setAt at hx
        rw [if_neg hxw] at hx
        exact hx
      rcases h.parent x hx' with e | ⟨p, e1, e2, e3⟩
      · exact Or.inl e
      · have hp : cm p < INT_MAX := by have := h.u_fin; omega
        refine Or.inr ⟨p, ?_, ?_, ?_⟩
        · rw [hset x hx', hset p hp, e1]
        · rw [hset p hp, hset u h.u_fin]
          exact e2
        · intro e he
          rw [hset p hp]
          rcases List.mem_cons.mp he with rfl | he
          · simp only
            omega
          · exact e3 e he

theorem dijkstraNeighbors_once (hw : WellFormed g0 st en) (u : Cell) :
    ∀ (ds : List (Int × Int)) (g : Grid) (s : DijkstraState), Frame g0 g →
      OnceLoop g0 st s.costMap s.openSet u →
      Frame g0 (dijkstraNeighbors u ds g s).1 ∧
        OnceLoop g0 st (dijkstraNeighbors u ds g s).2.costMap
          (dijkstraNeighbors u ds g s).2.openSet u := by
  intro ds
  induction ds with
  | nil =>
    intro g s hF h
    exact ⟨hF, h⟩
  | cons dir ds ih =>
    intro g s hF h
    rw [dijkstraNeighbors]
    cases hnb : neighborAt g u dir with
    | none => exact ih g s hF h
    | some w =>
      dsimp only
      have hin : InGrid g0 w := by
        have := neighborAt_inGrid hnb
        unfold InGrid at this ⊢
        rw [hF.rows, hF.cols] at this
        exact this
      split_ifs with h1 h2 h3
      · exact ih g s hF h
      · refine ih _ _ (frame_modify hF w _ (fun _ => rfl)) ?_
        dsimp only
        rw [hF.cost w]
        rw [hF.cost w] at h2
        exact h.once_relax hw hin h2
      · refine ih _ _ hF ?_
        dsimp only
        rw [hF.cost w]
        rw [hF.cost w] at h2
        exact h.once_relax hw hin h2
      · exact ih g _ hF h

theorem drawCurrentDijkstraPath_frame {fuel : Nat} {g g' : Grid} {c : Cell}
    {pm : Cell → Option Cell} (hF : Frame g0 g)
    (h : drawCurrentDijkstraPath fuel g c pm = some g') : Frame g0 g' := by
  unfold drawCurrentDijkstraPath at h
  refine frame_trans (Frame.mapNodes hF _ (fun n => ?_)) (tracePath_nodes pm fuel _ c g' h).1
  split_ifs <;> rfl

theorem dijkstraStep_once (hw : WellFormed g0 st en)
    {pop : List DijkstraNode → Option (DijkstraNode × List DijkstraNode)}
    (hpop : IsMinPop DijkstraNode.cost pop) {fuel : Nat} (gs gs' : Grid × DijkstraState)
    (hstep : dijkstraStep pop fuel d gs = some gs')
    (h : Frame g0 gs.1 ∧ Once g0 st gs.2.costMap gs.2.openSet) :
    Frame g0 gs'.1 ∧ Once g0 st gs'.2.costMap gs'.2.openSet := by
  obtain ⟨g, s⟩ := gs
  obtain ⟨hF, ho⟩ := h
  dsimp only at hF ho
  unfold dijkstraStep at hstep
  dsimp only at hstep
  split_ifs at hstep with h1 h2
  · cases hstep
    exact ⟨hF, ho⟩
  · cases hstep
    exact ⟨hF, ho⟩
  · have hne : s.openSet ≠ [] := by
      intro e
      rw [e] at h2
      exact h2 rfl
    obtain ⟨x, r, hx, hperm, hmin⟩ := hpop.pop_cons _ hne
    rw [hx, Option.some_bind] at hstep
    dsimp only at hstep
    split_ifs at hstep with h3 h4 h5
    · simp only [Option.bind_eq_some] at hstep
      obtain ⟨g1, hg1, hstep⟩ := hstep
      cases hstep
      exact ⟨drawCurrentDijkstraPath_frame hF hg1, ho.once_drop hperm hmin⟩
    · cases hstep
      exact ⟨hF, ho.once_drop hperm hmin⟩
    · simp only [Option.bind_eq_some] at hstep
      obtain ⟨g2, hg2, hstep⟩ := hstep
      cases hstep
      have hF1 : Frame g0 (g.modify x.node.1 x.node.2 fun n =>
          { n with type := .Visited,
                   fillColor := if n.cost > 1 then VISITED_WEIGHT_COLOR else VISITED_COLOR }) :=
        frame_modify hF x.node _ (fun _ => rfl)
      have hF2 := drawCurrentDijkstraPath_frame hF1 hg2
      have key := dijkstraNeighbors_once hw x.node (directions d) g2
        { s with openSet := r, nodesVisited := s.nodesVisited + 1, currentLine := 6 } hF2
        (ho.once_enter hperm hmin)
      exact ⟨key.1, key.2.once_exit⟩
    · simp only [Option.bind_eq_some] at hstep
      obtain ⟨g2, hg2, hstep⟩ := hstep
      cases hstep
      have hF2 := drawCurrentDijkstraPath_frame hF hg2
      have key := dijkstraNeighbors_once hw x.node (directions d) g2
        { s with openSet := r, nodesVisited := s.nodesVisited + 1, currentLine := 6 } hF2
        (ho.once_enter hperm hmin)
      exact ⟨key.1, key.2.once_exit⟩

theorem iterStep_keeps {σ : Type} (step : σ → Option σ) (Inv : σ → Prop)
    (hstep : ∀ s s', step s = some s' → Inv s → Inv s') :
    ∀ (k : Nat) (s s' : σ), iterStep step k s = some s' → Inv s → Inv s' := by
  intro k
  induction k with
  | zero =>
    intro s s' h hi
    simp only [iterStep, Option.some.injEq] at h
    exact h ▸ hi
  | succ k ih =>
    intro s s' h hi
    rw [iterStep] at h
    cases hs : step s with
    | none => rw [hs] at h; simp at h
    | some t =>
      rw [hs, Option.some_bind] at h
      exact ih t s' h (hstep s t hs hi)

theorem once_init (g0 : Grid) (st : Cell) :
    Once g0 st (setAt (fun _ => INT_MAX) st 0) [⟨st, 0⟩] := by
  have hst : (0 : Int) < INT_MAX := by unfold INT_MAX; decide
  have hself : setAt (fun _ => INT_MAX) st 0 st = 0 := by
    unfold setAt
    rw [if_pos rfl]
  refine ⟨hself, fun c => ?_, fun c => ?_, by simp, fun e he => ?_, fun w hw' => ?_⟩
  · unfold setAt
    dsimp only
    split_ifs <;> omega
  · unfold setAt
    dsimp only
    split_ifs <;> omega
  · rw [List.mem_singleton] at he
    subst he
    simp only
    rw [hself]
    exact ⟨rfl, hst⟩
  · left
    by_contra hne
    unfold setAt at hw'
    rw [if_neg hne] at hw'
    exact lt_irrefl _ hw'

theorem dijkstra_once_reach (hw : WellFormed g0 st en)
    {pop : List DijkstraNode → Option (DijkstraNode × List DijkstraNode)}
    (hpop : IsMinPop DijkstraNode.cost pop) (fuel : Nat) (k : Nat) (gs : Grid × DijkstraState)
    (hrun : dijkstraRun pop fuel d g0 k = some gs) :
    Once g0 st gs.2.costMap gs.2.openSet := by
  rw [dijkstraRun_eq hw] at hrun
  exact (iterStep_keeps (dijkstraStep pop fuel d)
    (fun gs => Frame g0 gs.1 ∧ Once g0 st gs.2.costMap gs.2.openSet)
    (fun s s' hs hi => dijkstraStep_once hw hpop s s' hs hi) k _ gs hrun
    ⟨Frame.refl g0, once_init g0 st⟩).2

theorem dijkstra_run_defined (hw : WellFormed g0 st en)
    {pop : List DijkstraNode → Option (DijkstraNode × List DijkstraNode)}
    (hpop : IsMinPop DijkstraNode.cost pop) {fuel : Nat} (hfuel : 2147483647 ≤ fuel) (k : Nat) :
    ∃ gs, dijkstraRun pop fuel d g0 k = some gs := by
  obtain ⟨gs, hk, -⟩ := iterStep_inv (dijkstraStep pop fuel d) (DijkstraInv g0 d st en)
    (fun gs h => by
      obtain ⟨gs', e, h', -⟩ := dijkstraStep_spec hw hpop hfuel gs h
      exact ⟨gs', e, h'⟩) k
    (g0, ⟨[⟨st, 0⟩], fun _ => none, setAt (fun _ => INT_MAX) st 0, true, false, false,
        0, 0, 0⟩)
    ⟨Frame.refl g0, WallsEq.walls_refl g0, Or.inl ⟨rfl, rfl, rfl, costInv_init hw⟩⟩
  exact ⟨gs, by rw [dijkstraRun_eq hw]; exact hk⟩

end once

/-- C30, the claim fails: no grid whose nodes are Empty, Start, End, Wall or Weight nodes (one
Start and one End node, a Weight node costing 5 and every other node 1), no pop operation of
a min-priority queue and no number of `dijkstraStep` calls after the orchestrator's start lead
to a state whose open set holds two entries for the same node with different costs. -/
theorem no_two_costs_for_a_cell :
    ¬ ∃ (g0 : Grid) (st en : Cell)
        (pop : List DijkstraNode → Option (DijkstraNode × List DijkstraNode)) (fuel : Nat)
        (d : Bool) (k : Nat) (gs : Grid × DijkstraState) (e1 e2 : DijkstraNode),
      WellFormed g0 st en ∧ IsMinPop DijkstraNode.cost pop ∧
      dijkstraRun pop fuel d g0 k = some gs ∧ e1 ∈ gs.2.openSet ∧ e2 ∈ gs.2.openSet ∧
      e1.node = e2.node ∧ e1.cost ≠ e2.cost := by
  rintro ⟨g0, st, en, pop, fuel, d, k, gs, e1, e2, hw, hpop, hrun, h1, h2, hn, hc⟩
  have ho := dijkstra_once_reach hw hpop fuel k gs hrun
  apply hc
  rw [(ho.keys e1 h1).1, (ho.keys e2 h2).1, hn]

/-- C30, amended: in every state of a Dijkstra run (the orchestrator's start followed by any
number of `dijkstraStep` calls, on a grid of Empty, Start, End, Wall and Weight nodes) the
entries of the open set name pairwise distinct nodes, and every entry carries the cost
recorded in `costMap` for its node: a node enters the open set at most once, so the open set
never holds a stale entry. -/
theorem frontier_entries_distinct (g0 : Grid) (st en : Cell) (hw : WellFormed g0 st en)
    (d : Bool) (pop : List DijkstraNode → Option (DijkstraNode × List DijkstraNode))
    (hpop : IsMinPop DijkstraNode.cost pop) (fuel : Nat) (hfuel : 2147483647 ≤ fuel) (k : Nat) :
    ∃ g s, dijkstraRun pop fuel d g0 k = some (g, s) ∧
      (s.openSet.map DijkstraNode.node).Nodup ∧
      ∀ e ∈ s.openSet, e.cost = s.costMap e.node := by
  obtain ⟨⟨g, s⟩, hrun⟩ := dijkstra_run_defined (d := d) hw hpop hfuel k
  have ho := dijkstra_once_reach hw hpop fuel k (g, s) hrun
  exact ⟨g, s, hrun, ho.nodup, fun e he => (ho.keys e he).1⟩

theorem frontier_entries_distinct_witness :
    ∃ g s, dijkstraRun (popMin DijkstraNode.cost) 2147483647 false weightGrid 1 = some (g, s) ∧
      (s.openSet.map DijkstraNode.node).Nodup ∧
      ∀ e ∈ s.openSet, e.cost = s.costMap e.node :=
  frontier_entries_distinct weightGrid (0, 0) (0, 2) weightGrid_wellFormed false
    (popMin DijkstraNode.cost) (popMin_isMinPop _) 2147483647 (by decide) 1

/-! ## Sorting engines: statistics and the start protocol -/

/-- C33, the claim fails: on `[3, 1, 2]` bubble sort is complete after four calls with
`comparisons = 3`, not 2, and the array changes in two of the calls (two swaps), not one. -/
theorem bubble_312_not_one_swap :
    ((bubbleRun [3, 1, 2] 4).map fun p => (p.2.isSorted, decide (p.2.comparisons = 2)))
      = some (true, false) ∧
    ((List.range 4).filter fun k =>
      decide ((bubbleRun [3, 1, 2] (k + 1)).map Prod.fst
        ≠ (bubbleRun [3, 1, 2] k).map Prod.fst)).length = 2 := by
  decide

/-- C33, amended: the run of `resetBubbleSort` and `bubbleSortStep` on `[3, 1, 2]`, call by
call (array, `i`, `j`, `swapped`, then `isSorted`, `comparisons`, `arrayAccesses`): the first pass
makes two comparisons and two swaps, the third call closes the pass and makes the one
comparison of the second pass, the fourth call finds that pass free of swaps and sets
`isSorted`; the totals are two passes, `comparisons = 3`, two swaps and
`arrayAccesses = 14`. -/
theorem bubble_312_statistics :
    ((List.range 5).map fun k =>
      (bubbleRun [3, 1, 2] k).map fun p => (p.1, p.2.i, p.2.j, p.2.swapped))
      = [some ([3, 1, 2], 0, 0, false), some ([1, 3, 2], 0, 1, true),
         some ([1, 2, 3], 0, 2, true), some ([1, 2, 3], 1, 1, false),
         some ([1, 2, 3], 1, 1, false)] ∧
    ((List.range 5).map fun k =>
      (bubbleRun [3, 1, 2] k).map fun p => (p.2.isSorted, p.2.comparisons, p.2.arrayAccesses))
      = [some (false, 0, 0), some (false, 1, 6), some (false, 2, 12), some (false, 3, 14),
         some (true, 3, 14)] := by
  decide

theorem resetMergeSort_defined (s : MergeSortState) (n : Int) (hn : 0 ≤ n)
    (hn2 : n ≤ 2 ^ 30) :
    resetMergeSort s n =
      some { s with isSorted := false, isSorting := false,
                    tempArray := List.replicate n.toNat 0, currentLine := 0,
                    comparisons := 0, arrayAccesses := 0,
                    jobs := (genOuter n n.toNat 1).reverse } := by
  unfold resetMergeSort
  rw [if_neg (by omega), mergeJobsOuter_eq n hn hn2 _ _ (le_refl _) _ (by omega)]
  simp

theorem iterStep_settle {σ : Type} (step : σ → Option σ) (s t : σ) (h1 : step s = some t)
    (h2 : step t = some t) (k : Nat) : iterStep step (k + 1) s = some t := by
  rw [iterStep, h1, Option.some_bind]
  exact iterStep_fixed step t h2 k

/-- C35. Merge sort and quick sort do not run on reset alone: after `resetMergeSort(state, n)`
or `resetQuickSort(state, n)` with `1 < n ≤ 2 ^ 30` (beyond that the `int` arithmetic of the
job generation in `resetMergeSort` overflows) the flags `isSorted` and `isSorting` are false, and
any number of calls of the step function on any array returns the array as it is and the
reset record with only `currentLine` changed (to 7 and 15): the job stack, `tempArray`, the
counters and `isSorted` stay as the reset left them. -/
theorem reset_alone_does_not_run (n : Int) (hn : 1 < n) (hn2 : n ≤ 2 ^ 30)
    (sm : MergeSortState) (sq : QuickSortState) (arr : List Int) (k : Nat) :
    (∃ r, resetMergeSort sm n = some r ∧ r.isSorted = false ∧ r.isSorting = false ∧
      r.jobs ≠ [] ∧
      iterStep mergeStep (k + 1) (arr, r) = some (arr, { r with currentLine := 7 })) ∧
    ((resetQuickSort sq n).isSorted = false ∧ (resetQuickSort sq n).isSorting = false ∧
      (resetQuickSort sq n).jobs ≠ [] ∧
      iterStep quickStep (k + 1) (arr, resetQuickSort sq n)
        = some (arr, { resetQuickSort sq n with currentLine := 15 })) := by
  constructor
  · refine ⟨_, resetMergeSort_defined sm n (by omega) hn2, rfl, rfl, ?_, ?_⟩
    · obtain ⟨m, hm⟩ : ∃ m : Nat, n.toNat = m + 1 := ⟨n.toNat - 1, by omega⟩
      have h1 : (1 : Int) ≤ n - 1 := by omega
      have h0 : (0 : Int) < n - 1 := by omega
      simp only [hm, genOuter, h1, if_true]
      simp [genInner, h0]
    · apply iterStep_settle
      · simp [mergeStep, mergeSortStep]
      · simp [mergeStep, mergeSortStep]
  · have hq : resetQuickSort sq n =
        ⟨[⟨0, n - 1⟩], false, false, true, sq.pivot, sq.i, sq.j, 0, n - 1, 0, 0, 0⟩ := by
      simp [resetQuickSort, hn]
    rw [hq]
    refine ⟨rfl, rfl, by simp, ?_⟩
    apply iterStep_settle
    · simp [quickStep, quickSortStep]
    · simp [quickStep, quickSortStep]

theorem reset_alone_does_not_run_witness :
    (∃ r, resetMergeSort {} 4 = some r ∧ r.isSorted = false ∧ r.isSorting = false ∧
      r.jobs ≠ [] ∧
      iterStep mergeStep (2 + 1) ([4, 3, 2, 1], r)
        = some ([4, 3, 2, 1], { r with currentLine := 7 })) ∧
    ((resetQuickSort {} 4).isSorted = false ∧ (resetQuickSort {} 4).isSorting = false ∧
      (resetQuickSort {} 4).jobs ≠ [] ∧
      iterStep quickStep (2 + 1) ([4, 3, 2, 1], resetQuickSort {} 4)
        = some ([4, 3, 2, 1], { resetQuickSort {} 4 with currentLine := 15 })) :=
  reset_alone_does_not_run 4 (by decide) (by decide) {} {} [4, 3, 2, 1] 2

/-- The statistics of a selection sort in progress on `n` elements. -/
def SelectionStats (n : Nat) (s : SelectionSortState) : Prop :=
  (s.arrayAccesses : Int) = 2 * s.comparisons + 4 * s.i ∧
  (s.isSorted = false → ∃ I J : Nat, s.i = I ∧ s.j = J ∧ I + 1 < n ∧ I < J ∧ J ≤ n ∧
    (s.findingMin = false → J = n) ∧
    2 * s.comparisons + I * I + 3 * I + 2 = 2 * I * n + 2 * J) ∧
  (s.isSorted = true → s.i = (n : Int) - 1 ∧ 2 * s.comparisons = n * (n - 1))

theorem selectionStats_bound {n I J cmp : Nat} (hn : n < 2 ^ 31) (hI : I + 1 < n) (hJ : J ≤ n)
    (h : 2 * cmp + I * I + 3 * I + 2 = 2 * I * n + 2 * J) : cmp < 2 ^ 62 + 2 ^ 32 := by
  have h1 : I * n ≤ 2 ^ 31 * 2 ^ 31 := Nat.mul_le_mul (by omega) (by omega)
  have h2 : (2 : Nat) ^ 31 * 2 ^ 31 = 2 ^ 62 := by norm_num
  have h3 : 2 * I * n = 2 * (I * n) := by ring
  omega

theorem selectionSortStep_stats (arr : List Int) (hn : arr.length < 2 ^ 31)
    (s : SelectionSortState) (arr' : List Int) (s' : SelectionSortState)
    (h : selectionSortStep arr s = some (arr', s')) (hs : SelectionStats arr.length s) :
    arr'.length = arr.length ∧ SelectionStats arr.length s' := by
  obtain ⟨i, j, min_idx, isSorted, findingMin, cl, cmp, acc⟩ := s
  obtain ⟨hacc, hrun, hfin⟩ := hs
  simp only at hacc hrun hfin
  unfold selectionSortStep at h
  cases isSorted with
  | true =>
    simp only [if_true, Option.some.injEq, Prod.mk.injEq] at h
    obtain ⟨rfl, rfl⟩ := h
    exact ⟨rfl, hacc, by intro e; simp at e, fun _ => hfin rfl⟩
  | false =>
    obtain ⟨I, J, rfl, rfl, hI, hIJ, hJ, hfm, hcnt⟩ := hrun rfl
    have hb := selectionStats_bound hn hI hJ hcnt
    simp only [Bool.false_eq_true, if_false, Option.bind_eq_bind, Option.bind_eq_some] at h
    obtain ⟨_, -, _, -, h⟩ := h
    cases findingMin with
    | true =>
      simp only [if_true] at h
      by_cases hJn : J < arr.length
      · have h1 : toSizeT (J : Int) < (arr.length : Int) := by unfold toSizeT; omega
        simp only [h1, if_true, Option.bind_eq_bind, Option.bind_eq_some, Option.some.injEq,
          Prod.mk.injEq] at h
        obtain ⟨_, -, _, -, a, -, b, -, rfl, rfl⟩ := h
        have e1 : u64 (cmp + 1) = cmp + 1 := u64_eq (by omega)
        have e2 : u64 (acc + 2) = acc + 2 := u64_eq (by omega)
        refine ⟨rfl, ?_, ?_, ?_⟩
        · dsimp only
          split_ifs <;> (simp only [e1, e2]; push_cast; omega)
        · intro _
          refine ⟨I, J + 1, ?_, ?_, hI, by omega, by omega, ?_, ?_⟩
          · dsimp only; split_ifs <;> rfl
          · dsimp only; split_ifs <;> (push_cast; rfl)
          · dsimp only; split_ifs <;> (intro e; simp at e)
          · dsimp only
            split_ifs <;> (simp only [e1]; omega)
        · dsimp only
          split_ifs <;> (intro e; simp at e)
      · have h1 : ¬ toSizeT (J : Int) < (arr.length : Int) := by unfold toSizeT; omega
        simp only [h1, if_false, Option.some.injEq, Prod.mk.injEq] at h
        obtain ⟨rfl, rfl⟩ := h
        exact ⟨rfl, hacc, fun _ => ⟨I, J, rfl, rfl, hI, hIJ, hJ, fun _ => by omega, hcnt⟩,
          by intro e; simp at e⟩
    | false =>
      have hJn : J = arr.length := hfm rfl
      subst hJn
      simp only [Bool.false_eq_true, if_false, Option.bind_eq_bind, Option.bind_eq_some] at h
      obtain ⟨arr1, hsw, h⟩ := h
      have hlen : arr1.length = arr.length := by
        unfold swapAt at hsw
        simp only [Option.bind_eq_bind, Option.bind_eq_some] at hsw
        obtain ⟨a, -, b, -, t, ht, hw⟩ := hsw
        unfold writeAt at ht hw
        split_ifs at ht hw
        simp only [Option.some.injEq] at ht hw
        subst ht hw
        simp
      have e2 : u64 (acc + 4) = acc + 4 := u64_eq (by omega)
      have hII : (I + 1) * (I + 1) = I * I + 2 * I + 1 := by ring
      have hIn : 2 * (I + 1) * arr.length = 2 * I * arr.length + 2 * arr.length := by ring
      by_cases hlast : I + 2 ≥ arr.length
      · have h2 : toSizeT ((I : Int) + 1) ≥ toSizeT ((arr.length : Int) - 1) := by
          unfold toSizeT; omega
        simp only [h2, if_true, Option.some.injEq, Prod.mk.injEq] at h
        obtain ⟨rfl, rfl⟩ := h
        refine ⟨hlen, ?_, by intro e; simp at e, fun _ => ⟨?_, ?_⟩⟩
        · simp only [e2]; push_cast; omega
        · simp only; omega
        · simp only
          obtain ⟨m, hm⟩ : ∃ m, arr.length = m + 2 := ⟨arr.length - 2, by omega⟩
          have hIm : I = m := by omega
          subst hIm
          rw [hm] at hcnt ⊢
          have e3 : 2 * I * (I + 2) = 2 * (I * I) + 4 * I := by ring
          have e4 : (I + 2) * (I + 2 - 1) = I * I + 3 * I + 2 := by
            have : I + 2 - 1 = I + 1 := by omega
            rw [this]; ring
          omega
      · have h2 : ¬ toSizeT ((I : Int) + 1) ≥ toSizeT ((arr.length : Int) - 1) := by
          unfold toSizeT; omega
        simp only [h2, if_false, Option.some.injEq, Prod.mk.injEq] at h
        obtain ⟨rfl, rfl⟩ := h
        refine ⟨hlen, ?_, fun _ => ⟨I + 1, I + 2, ?_, ?_, by omega, by omega, by omega,
          by intro e; simp at e, ?_⟩, by intro e; simp at e⟩
        · simp only [e2]; push_cast; omega
        · simp only; push_cast; rfl
        · simp only; push_cast; omega
        · simp only
          omega

/-- The invariant of the selection sort run together with its statistics. -/
def SelectionFull (orig : List Int) (p : List Int × SelectionSortState) : Prop :=
  SelectionInv orig p ∧ p.1.length = orig.length ∧ SelectionStats orig.length p.2

theorem selection_full_step (orig : List Int) (hlen : orig.length < 2 ^ 31)
    (p : List Int × SelectionSortState) (h : SelectionFull orig p) :
    ∃ p', selectionStep p = some p' ∧ SelectionFull orig p' ∧
      (p.2.isSorted = false → lex2 (selectionMeasure p') (selectionMeasure p)) := by
  obtain ⟨hinv, hl, hst⟩ := h
  obtain ⟨arr, s⟩ := p
  simp only at hl hst
  cases hs : s.isSorted with
  | true =>
    refine ⟨(arr, { s with currentLine := 11 }), ?_, ⟨⟨hinv.1, fun _ => hinv.2.1 hs, ?_⟩, hl,
      hst.1, ?_, fun _ => hst.2.2 hs⟩, by intro e; simp at e⟩
    · simp [selectionStep, selectionSortStep, hs]
    · intro e
      simp only at e
      rw [hs] at e
      exact absurd e (by simp)
    · intro e
      simp only at e
      rw [hs] at e
      exact absurd e (by simp)
  | false =>
    obtain ⟨⟨a', s'⟩, hp', hinv', hm⟩ := selection_step_inv orig hlen (arr, s) hinv hs
    have key := selectionSortStep_stats arr (by rw [hl]; exact hlen) s a' s' hp'
      (by rw [hl]; exact hst)
    rw [hl] at key
    exact ⟨(a', s'), hp', ⟨hinv', key.1, key.2⟩, fun _ => hm⟩

theorem selection_full_init (arr : List Int) (h1 : 2 ≤ arr.length) :
    SelectionFull arr (arr, resetSelectionSort {}) := by
  refine ⟨selection_init_inv arr (by omega), rfl, rfl, fun _ => ?_, ?_⟩
  · exact ⟨0, 1, rfl, rfl, by omega, by omega, by omega, by intro e; simp [resetSelectionSort] at e,
      by simp [resetSelectionSort]⟩
  · intro e
    simp [resetSelectionSort] at e

/-- C36. The statistics of selection sort do not depend on the contents of the array: for
every array of length `n` with `2 ≤ n` (and `n` fitting in `int`), `resetSelectionSort`
followed by repeated `selectionSortStep` reaches `isSorted = true`, and in the first finished
state `comparisons = n * (n - 1) / 2` and `arrayAccesses = n * (n - 1) + 4 * (n - 1)`; after
any number of calls the state is defined and `arrayAccesses = 2 * comparisons + 4 * i`. -/
theorem selection_statistics (arr : List Int) (h1 : 2 ≤ arr.length)
    (h2 : arr.length < 2 ^ 31) :
    (∃ k a s, selectionRun arr k = some (a, s) ∧ s.isSorted = true ∧
      (∀ j, j < k → ∃ a' s', selectionRun arr j = some (a', s') ∧ s'.isSorted = false) ∧
      s.comparisons = arr.length * (arr.length - 1) / 2 ∧
      s.arrayAccesses = arr.length * (arr.length - 1) + 4 * (arr.length - 1)) ∧
    ∀ k, ∃ a s, selectionRun arr k = some (a, s) ∧
      (s.arrayAccesses : Int) = 2 * s.comparisons + 4 * s.i := by
  constructor
  · obtain ⟨k, p, hk, hfin, hinv, hbefore⟩ :=
      iterStep_reach selectionStep (SelectionFull arr) (fun p => p.2.isSorted) lex2 lex2_wf
        selectionMeasure (fun p hp hf => by
          obtain ⟨p', e, h', hm⟩ := selection_full_step arr h2 p hp
          exact ⟨p', e, h', hm hf⟩) _ (selection_full_init arr h1)
    obtain ⟨hacc, -, hdone⟩ := hinv.2.2
    obtain ⟨hi, hc⟩ := hdone hfin
    refine ⟨k, p.1, p.2, hk, hfin, fun j hj => ?_, ?_, ?_⟩
    · obtain ⟨t, ht, hft⟩ := hbefore j hj
      exact ⟨t.1, t.2, ht, hft⟩
    · omega
    · rw [hi] at hacc
      have e : ((arr.length - 1 : Nat) : Int) = (arr.length : Int) - 1 := by omega
      have e' : ((arr.length * (arr.length - 1) : Nat) : Int)
          = 2 * (p.2.comparisons : Int) := by
        rw [← hc]; push_cast; ring
      have : ((p.2.arrayAccesses : Nat) : Int)
          = ((arr.length * (arr.length - 1) + 4 * (arr.length - 1) : Nat) : Int) := by
        rw [hacc]
        push_cast [e]
        push_cast at e'
        rw [e] at e'
        linarith
      exact_mod_cast this
  · intro k
    obtain ⟨p, hk, hfull⟩ := iterStep_inv selectionStep (SelectionFull arr)
      (fun p hp => by
        obtain ⟨p', e, h', -⟩ := selection_full_step arr h2 p hp
        exact ⟨p', e, h'⟩) k _ (selection_full_init arr h1)
    exact ⟨p.1, p.2, hk, hfull.2.2.1⟩

theorem selection_statistics_witness :
    (∃ k a s, selectionRun [3, 1, 2] k = some (a, s) ∧ s.isSorted = true ∧
      (∀ j, j < k → ∃ a' s', selectionRun [3, 1, 2] j = some (a', s') ∧ s'.isSorted = false) ∧
      s.comparisons = ([3, 1, 2] : List Int).length * (([3, 1, 2] : List Int).length - 1) / 2 ∧
      s.arrayAccesses = ([3, 1, 2] : List Int).length * (([3, 1, 2] : List Int).length - 1)
        + 4 * (([3, 1, 2] : List Int).length - 1)) ∧
    ∀ k, ∃ a s, selectionRun [3, 1, 2] k = some (a, s) ∧
      (s.arrayAccesses : Int) = 2 * s.comparisons + 4 * s.i :=
  selection_statistics [3, 1, 2] (by decide) (by decide)
/-! ## The parent map is a forest

Every engine assigns `parentMap[neighbor] = current` only for a node `current` it has taken
from its frontier and a neighbour that is not the parent of any node, or whose recorded cost
stays above that of `current`; following `parentMap` therefore ends at a node without a
parent. -/

/-- The node reached from `c` by following `parentMap` for `n` hops, if every node on the way
has a parent. -/
def hops (pm : Cell → Option Cell) : Nat → Cell → Option Cell
  | 0, c => some c
  | n + 1, c => (pm c).bind (hops pm n)

/-- Following `parentMap` from `c` reaches a node without a parent. -/
def Rooted (pm : Cell → Option Cell) (c : Cell) : Prop :=
  ∃ n r, hops pm n c = some r ∧ pm r = none

/-- A parent map along which a rank decreases has no cycle. -/
theorem rooted_of_rank (pm : Cell → Option Cell) (rank : Cell → Nat)
    (h : ∀ x p, pm x = some p → rank p < rank x) : ∀ c, Rooted pm c := by
  have key : ∀ m c, rank c ≤ m → Rooted pm c := by
    intro m
    induction m with
    | zero =>
      intro c hc
      cases hp : pm c with
      | none => exact ⟨0, c, rfl, hp⟩
      | some p =>
        have := h c p hp
        omega
    | succ m ih =>
      intro c hc
      cases hp : pm c with
      | none => exact ⟨0, c, rfl, hp⟩
      | some p =>
        have hlt := h c p hp
        obtain ⟨n, r, hn, hr⟩ := ih p (by omega)
        refine ⟨n + 1, r, ?_, hr⟩
        rw [hops, hp, Option.some_bind]
        exact hn
  exact fun c => key (rank c) c le_rfl

/-- The invariant of the parent map of the two weighted engines: the recorded costs are not
negative, that of the start node is 0, the start node has no parent, and the recorded cost of
a parent is below that of its child. -/
structure CostTree (st : Cell) (cm : Cell → Int) (pm : Cell → Option Cell) : Prop where
  cm_st : cm st = 0
  nonneg : ∀ c, 0 ≤ cm c
  pm_st : pm st = none
  down : ∀ x p, pm x = some p → cm p < cm x

theorem CostTree.cost_rooted {st : Cell} {cm : Cell → Int} {pm : Cell → Option Cell}
    (h : CostTree st cm pm) (c : Cell) : Rooted pm c := by
  refine rooted_of_rank pm (fun c => (cm c).toNat) (fun x p hp => ?_) c
  have h1 := h.down x p hp
  have h2 := h.nonneg p
  dsimp only
  omega

theorem costTree_init (st : Cell) :
    CostTree st (setAt (fun _ => INT_MAX) st 0) (fun _ => none) := by
  refine ⟨?_, fun c => ?_, rfl, fun x p hp => by cases hp⟩
  · unfold setAt
    rw [if_pos rfl]
  · unfold setAt INT_MAX
    dsimp only
    split_ifs <;> omega

/-- A relaxation keeps the invariant. -/
theorem CostTree.tree_relax {st : Cell} {cm : Cell → Int} {pm : Cell → Option Cell}
    (h : CostTree st cm pm) {u w : Cell} {cost : Int} (hc : 1 ≤ cost)
    (hlt : cm u + cost < cm w) :
    CostTree st (setAt cm w (cm u + cost)) (setAt pm w (some u)) := by
  have hu := h.nonneg u
  have hst : st ≠ w := by
    rintro rfl
    have := h.cm_st
    omega
  have huw : u ≠ w := by
    rintro rfl
    omega
  refine ⟨?_, fun c => ?_, ?_, fun x p hp => ?_⟩
  · unfold setAt
    rw [if_neg hst]
    exact h.cm_st
  · unfold setAt
    split_ifs
    · omega
    · exact h.nonneg c
  · unfold setAt
    rw [if_neg hst]
    exact h.pm_st
  · unfold setAt at hp ⊢
    by_cases hx : x = w
    · rw [if_pos hx] at hp
      cases hp
      rw [if_neg huw, if_pos hx]
      omega
    · rw [if_neg hx] at hp
      have := h.down x p hp
      rw [if_neg hx]
      split_ifs with hpw
      · rw [hpw] at this
        omega
      · exact this

section cost_tree
variable {g0 : Grid} {d : Bool} {st en : Cell}

theorem dijkstraNeighbors_tree (hw : WellFormed g0 st en) (u : Cell) :
    ∀ (ds : List (Int × Int)) (g : Grid) (s : DijkstraState), Frame g0 g →
      CostTree st s.costMap s.parentMap →
      Frame g0 (dijkstraNeighbors u ds g s).1 ∧
        CostTree st (dijkstraNeighbors u ds g s).2.costMap
          (dijkstraNeighbors u ds g s).2.parentMap := by
  intro ds
  induction ds with
  | nil =>
    intro g s hF h
    exact ⟨hF, h⟩
  | cons dir ds ih =>
    intro g s hF h
    rw [dijkstraNeighbors]
    cases hnb : neighborAt g u dir with
    | none => exact ih g s hF h
    | some w =>
      dsimp only
      have hin : InGrid g0 w := by
        have := neighborAt_inGrid hnb
        unfold InGrid at this ⊢
        rw [hF.rows, hF.cols] at this
        exact this
      have hpos : 1 ≤ (g.node w).cost := by
        rw [hF.cost w]
        exact hw.cost_pos hin
      split_ifs with h1 h2 h3
      · exact ih g s hF h
      · exact ih _ _ (frame_modify hF w _ (fun _ => rfl)) (h.tree_relax hpos h2)
      · exact ih _ _ hF (h.tree_relax hpos h2)
      · exact ih g _ hF h

theorem dijkstraStep_tree (hw : WellFormed g0 st en)
    {pop : List DijkstraNode → Option (DijkstraNode × List DijkstraNode)} {fuel : Nat}
    (gs gs' : Grid × DijkstraState) (hstep : dijkstraStep pop fuel d gs = some gs')
    (h : Frame g0 gs.1 ∧ CostTree st gs.2.costMap gs.2.parentMap) :
    Frame g0 gs'.1 ∧ CostTree st gs'.2.costMap gs'.2.parentMap := by
  obtain ⟨g, s⟩ := gs
  obtain ⟨hF, ho⟩ := h
  dsimp only at hF ho
  unfold dijkstraStep at hstep
  dsimp only at hstep
  split_ifs at hstep with h1 h2
  · cases hstep
    exact ⟨hF, ho⟩
  · cases hstep
    exact ⟨hF, ho⟩
  · simp only [Option.bind_eq_bind, Option.bind_eq_some] at hstep
    obtain ⟨top, -, hstep⟩ := hstep
    split_ifs at hstep with h3 h4 h5
    · simp only [Option.bind_eq_some] at hstep
      obtain ⟨g1, hg1, hstep⟩ := hstep
      cases hstep
      exact ⟨drawCurrentDijkstraPath_frame hF hg1, ho⟩
    · cases hstep
      exact ⟨hF, ho⟩
    · simp only [Option.bind_eq_some] at hstep
      obtain ⟨g2, hg2, hstep⟩ := hstep
      cases hstep
      have hF1 : Frame g0 (g.modify top.1.node.1 top.1.node.2 fun n =>
          { n with type := .Visited,
                   fillColor := if n.cost > 1 then VISITED_WEIGHT_COLOR else VISITED_COLOR }) :=
        frame_modify hF top.1.node _ (fun _ => rfl)
      exact dijkstraNeighbors_tree hw top.1.node (directions d) g2
        { s with openSet := top.2, nodesVisited := s.nodesVisited + 1, currentLine := 6 }
        (drawCurrentDijkstraPath_frame hF1 hg2) ho
    · simp only [Option.bind_eq_some] at hstep
      obtain ⟨g2, hg2, hstep⟩ := hstep
      cases hstep
      exact dijkstraNeighbors_tree hw top.1.node (directions d) g2
        { s with openSet := top.2, nodesVisited := s.nodesVisited + 1, currentLine := 6 }
        (drawCurrentDijkstraPath_frame hF hg2) ho

theorem aStarNeighbors_tree (hw : WellFormed g0 st en) (u e : Cell) :
    ∀ (ds : List (Int × Int)) (g : Grid) (s : AStarState), Frame g0 g →
      CostTree st s.gCost s.parentMap →
      Frame g0 (aStarNeighbors u e ds g s).1 ∧
        CostTree st (aStarNeighbors u e ds g s).2.gCost
          (aStarNeighbors u e ds g s).2.parentMap := by
  intro ds
  induction ds with
  | nil =>
    intro g s hF h
    exact ⟨hF, h⟩
  | cons dir ds ih =>
    intro g s hF h
    rw [aStarNeighbors]
    cases hnb : neighborAt g u dir with
    | none => exact ih g s hF h
    | some w =>
      dsimp only
      have hin : InGrid g0 w := by
        have := neighborAt_inGrid hnb
        unfold InGrid at this ⊢
        rw [hF.rows, hF.cols] at this
        exact this
      have hpos : 1 ≤ (g.node w).cost := by
        rw [hF.cost w]
        exact hw.cost_pos hin
      split_ifs with h1 h2 h3
      · exact ih g s hF h
      · exact ih _ _ (frame_modify hF w _ (fun _ => rfl)) (h.tree_relax hpos h2)
      · exact ih _ _ hF (h.tree_relax hpos h2)
      · exact ih g _ hF h

theorem drawCurrentAStarPath_frame {fuel : Nat} {g g' : Grid} {c : Cell}
    {pm : Cell → Option Cell} (hF : Frame g0 g)
    (h : drawCurrentAStarPath fuel g c pm = some g') : Frame g0 g' := by
  unfold drawCurrentAStarPath at h
  exact frame_trans (frame_clearOldPath hF) (tracePath_nodes pm fuel _ c g' h).1

theorem aStarStep_tree (hw : WellFormed g0 st en)
    {pop : List AStarNode → Option (AStarNode × List AStarNode)} {fuel : Nat}
    (gs gs' : Grid × AStarState) (hstep : aStarStep pop fuel d gs = some gs')
    (h : Frame g0 gs.1 ∧ CostTree st gs.2.gCost gs.2.parentMap) :
    Frame g0 gs'.1 ∧ CostTree st gs'.2.gCost gs'.2.parentMap := by
  obtain ⟨g, s⟩ := gs
  obtain ⟨hF, ho⟩ := h
  dsimp only at hF ho
  unfold aStarStep at hstep
  dsimp only at hstep
  split_ifs at hstep with h1 h2
  · cases hstep
    exact ⟨hF, ho⟩
  · cases hstep
    exact ⟨hF, ho⟩
  · simp only [Option.bind_eq_bind, Option.bind_eq_some] at hstep
    obtain ⟨top, -, g1, hg1, hstep⟩ := hstep
    have hF1 := drawCurrentAStarPath_frame hF hg1
    split_ifs at hstep with h3 h4
    · cases hstep
      exact ⟨hF1, ho⟩
    · simp only [Option.bind_eq_some] at hstep
      obtain ⟨e, -, hstep⟩ := hstep
      cases hstep
      exact aStarNeighbors_tree hw top.1.node e (directions d) _
        { s with openSet := top.2, nodesVisited := s.nodesVisited + 1, currentLine := 7 }
        (frame_modify hF1 top.1.node _ (fun _ => rfl)) ho
    · simp only [Option.bind_eq_some] at hstep
      obtain ⟨e, -, hstep⟩ := hstep
      cases hstep
      exact aStarNeighbors_tree hw top.1.node e (directions d) _
        { s with openSet := top.2, nodesVisited := s.nodesVisited + 1, currentLine := 7 }
        hF1 ho

theorem dijkstra_tree_reach (hw : WellFormed g0 st en)
    (pop : List DijkstraNode → Option (DijkstraNode × List DijkstraNode)) (fuel : Nat)
    (k : Nat) (gs : Grid × DijkstraState) (hrun : dijkstraRun pop fuel d g0 k = some gs) :
    CostTree st gs.2.costMap gs.2.parentMap := by
  rw [dijkstraRun_eq hw] at hrun
  exact (iterStep_keeps (dijkstraStep pop fuel d)
    (fun gs => Frame g0 gs.1 ∧ CostTree st gs.2.costMap gs.2.parentMap)
    (fun s s' hs hi => dijkstraStep_tree hw s s' hs hi) k _ gs hrun
    ⟨Frame.refl g0, costTree_init st⟩).2

theorem aStar_tree_reach (hw : WellFormed g0 st en)
    (pop : List AStarNode → Option (AStarNode × List AStarNode)) (fuel : Nat)
    (k : Nat) (gs : Grid × AStarState) (hrun : aStarRun pop fuel d g0 k = some gs) :
    CostTree st gs.2.gCost gs.2.parentMap := by
  rw [aStarRun_eq hw] at hrun
  exact (iterStep_keeps (aStarStep pop fuel d)
    (fun gs => Frame g0 gs.1 ∧ CostTree st gs.2.gCost gs.2.parentMap)
    (fun s s' hs hi => aStarStep_tree hw s s' hs hi) k _ gs hrun
    ⟨Frame.refl g0, costTree_init st⟩).2

theorem aStar_run_defined (hw : WellFormed g0 st en)
    {pop : List AStarNode → Option (AStarNode × List AStarNode)}
    (hpop : IsMinPop AStarNode.fCost pop) {fuel : Nat} (hfuel : 2147483647 ≤ fuel) (k : Nat) :
    ∃ gs, aStarRun pop fuel d g0 k = some gs := by
  obtain ⟨gs, hk, -⟩ := iterStep_inv (aStarStep pop fuel d) (AStarInv g0 d st en)
    (fun gs h => by
      obtain ⟨gs', e, h', -⟩ := aStarStep_spec hw hpop hfuel gs h
      exact ⟨gs', e, h'⟩) k
    (g0, ⟨[⟨st, calculateHeuristic st en⟩], fun _ => none, setAt (fun _ => INT_MAX) st 0,
        true, false, false, 0, 0, 0⟩)
    ⟨Frame.refl g0, WallsEq.walls_refl g0, Or.inl ⟨rfl, rfl, rfl, costInv_init hw⟩⟩
  exact ⟨gs, by rw [aStarRun_eq hw]; exact hk⟩

theorem dfs_run_defined (hw : WellFormed g0 st en) {fuel : Nat}
    (hfuel : g0.rows * g0.cols ≤ fuel) (k : Nat) :
    ∃ gs, dfsRun fuel d g0 k = some gs ∧ DFSInv g0 d st en gs := by
  rw [dfsRun_eq hw]
  exact iterStep_inv (dfsStep fuel d) (DFSInv g0 d st en)
    (fun gs h => by
      obtain ⟨gs', e, h', _⟩ := dfsStep_spec hw hfuel gs h
      exact ⟨gs', e, h'⟩)
    k _ (dfs_init hw)

end cost_tree
/-! ## Breadth-first and depth-first search: the parent map, the frontier and `pathCost` -/

/-- The start node, or a node the search has marked Visited or Path. -/
def Shut (g : Grid) (st c : Cell) : Prop :=
  c = st ∨ (g.node c).type = .Visited ∨ (g.node c).type = .Path

/-- The grid `g'` has the references of `g` and differs in type only at nodes other than the
start and the end node, which it marks Visited or Path. -/
structure Grow (st en : Cell) (g g' : Grid) : Prop where
  startNode : g'.startNode = g.startNode
  endNode : g'.endNode = g.endNode
  cost : ∀ c, (g'.node c).cost = (g.node c).cost
  types : ∀ c, (g'.node c).type = (g.node c).type ∨
    (c ≠ st ∧ c ≠ en ∧ ((g'.node c).type = .Visited ∨ (g'.node c).type = .Path))

/-- The invariant of the parent map of the breadth-first and the depth-first engine: the
references of the grid name the start and the end node, which keep their types; the start
node has no parent; every parent is the start node or a marked node; a rank decreases from a
node to its parent. -/
structure ParentTree (g : Grid) (st en : Cell) (pm : Cell → Option Cell) : Prop where
  startNode : g.startNode = some st
  endNode : g.endNode = some en
  st_type : (g.node st).type = .Start
  en_type : (g.node en).type = .End
  pm_st : pm st = none
  shut : ∀ x p, pm x = some p → Shut g st p
  ranked : ∃ rank : Cell → Nat, ∀ x p, pm x = some p → rank p < rank x

/-- The nodes met by following `parentMap` from `c` until a node without a parent, `c` and
that node included. -/
inductive ParentList (pm : Cell → Option Cell) : Cell → List Cell → Prop
  | root (c : Cell) : pm c = none → ParentList pm c [c]
  | step (c p : Cell) (l : List Cell) : pm c = some p → ParentList pm p l →
      ParentList pm c (c :: l)

theorem ParentList.list_unique {pm : Cell → Option Cell} {c : Cell} {l l' : List Cell}
    (h : ParentList pm c l) (h' : ParentList pm c l') : l = l' := by
  induction h generalizing l' with
  | root c hc =>
    cases h' with
    | root _ _ => rfl
    | step _ p _ hp _ => rw [hc] at hp; cases hp
  | step c p l hp _ ih =>
    cases h' with
    | root _ hc => rw [hc] at hp; cases hp
    | step _ p' l'' hp' hl' =>
      rw [hp] at hp'
      cases hp'
      rw [ih hl']

/-- The cost loop adds the costs of the nodes of the parent list. -/
theorem sumPathCost_list (g : Grid) (pm : Cell → Option Cell) :
    ∀ (fuel : Nat) (acc : Int) (c : Cell) (v : Int),
      sumPathCost g pm fuel acc (some c) = some v →
      ∃ l, ParentList pm c l ∧ v = acc + (l.map fun x => (g.node x).cost).sum := by
  intro fuel
  induction fuel with
  | zero =>
    intro acc c v h
    simp [sumPathCost] at h
  | succ fuel ih =>
    intro acc c v h
    rw [sumPathCost] at h
    cases hp : pm c with
    | none =>
      rw [hp] at h
      have hv : v = acc + (g.node c).cost := by
        cases fuel <;> simp only [sumPathCost, Option.some.injEq] at h <;> exact h.symm
      exact ⟨[c], ParentList.root c hp, by simp [hv]⟩
    | some p =>
      rw [hp] at h
      obtain ⟨l, hl, hv⟩ := ih _ p v h
      refine ⟨c :: l, ParentList.step c p l hp hl, ?_⟩
      rw [hv, List.map_cons, List.sum_cons]
      ring

section search_tree
variable {st en : Cell}

theorem Grow.grow_refl (g : Grid) : Grow st en g g := ⟨rfl, rfl, fun _ => rfl, fun _ => Or.inl rfl⟩

theorem Grow.trans {g g' g'' : Grid} (h : Grow st en g g') (h' : Grow st en g' g'') :
    Grow st en g g'' := by
  refine ⟨h'.startNode.trans h.startNode, h'.endNode.trans h.endNode,
    fun c => (h'.cost c).trans (h.cost c), fun c => ?_⟩
  rcases h'.types c with e | e
  · rcases h.types c with e' | e'
    · exact Or.inl (e.trans e')
    · exact Or.inr ⟨e'.1, e'.2.1, by rw [e]; exact e'.2.2⟩
  · exact Or.inr e

theorem Shut.shut_grow {g g' : Grid} {c : Cell} (h : Shut g st c) (hg : Grow st en g g') :
    Shut g' st c := by
  rcases hg.types c with e | e
  · unfold Shut
    rw [e]
    exact h
  · exact Or.inr e.2.2

theorem ParentTree.tree_grow {g g' : Grid} {pm : Cell → Option Cell} (h : ParentTree g st en pm)
    (hg : Grow st en g g') : ParentTree g' st en pm := by
  refine ⟨hg.startNode.trans h.startNode, hg.endNode.trans h.endNode, ?_, ?_, h.pm_st,
    fun x p hp => (h.shut x p hp).shut_grow hg, h.ranked⟩
  · rcases hg.types st with e | e
    · rw [e]; exact h.st_type
    · exact absurd rfl e.1
  · rcases hg.types en with e | e
    · rw [e]; exact h.en_type
    · exact absurd rfl e.2.1

theorem ParentTree.ne {g : Grid} {pm : Cell → Option Cell} (h : ParentTree g st en pm) :
    st ≠ en := by
  rintro rfl
  have := h.st_type
  rw [h.en_type] at this
  cases this

theorem ParentTree.en_open {g : Grid} {pm : Cell → Option Cell} (h : ParentTree g st en pm) :
    ¬ Shut g st en := by
  rintro (e | e | e)
  · exact h.ne e.symm
  · rw [h.en_type] at e; cases e
  · rw [h.en_type] at e; cases e

theorem ParentTree.empty_open {g : Grid} {pm : Cell → Option Cell} (h : ParentTree g st en pm)
    {w : Cell} (hw : (g.node w).type = .Empty) : ¬ Shut g st w ∧ w ≠ st ∧ w ≠ en := by
  refine ⟨?_, ?_, ?_⟩
  · rintro (e | e | e)
    · rw [e, h.st_type] at hw; cases hw
    · rw [hw] at e; cases e
    · rw [hw] at e; cases e
  · rintro rfl
    rw [h.st_type] at hw; cases hw
  · rintro rfl
    rw [h.en_type] at hw; cases hw

/-- The assignment `parentMap[w] = u` for a frontier node `u` and a node `w` that is neither
the start node nor marked keeps the invariant. -/
theorem ParentTree.add {g : Grid} {pm : Cell → Option Cell} (h : ParentTree g st en pm)
    {u w : Cell} (hu : Shut g st u) (hw : ¬ Shut g st w) :
    ParentTree g st en (setAt pm w (some u)) := by
  have hst : st ≠ w := fun e => hw (Or.inl e.symm)
  have huw : u ≠ w := fun e => hw (e ▸ hu)
  obtain ⟨rank, hr⟩ := h.ranked
  refine ⟨h.startNode, h.endNode, h.st_type, h.en_type, ?_, fun x p hp => ?_,
    ⟨setAt rank w (rank u + 1), fun x p hp => ?_⟩⟩
  · unfold setAt
    rw [if_neg hst]
    exact h.pm_st
  · unfold setAt at hp
    split_ifs at hp
    · cases hp
      exact hu
    · exact h.shut x p hp
  · unfold setAt at hp ⊢
    by_cases hx : x = w
    · rw [if_pos hx] at hp
      cases hp
      rw [if_neg huw, if_pos hx]
      omega
    · rw [if_neg hx] at hp
      have hpw : p ≠ w := fun e => hw (e ▸ h.shut x p hp)
      rw [if_neg hx, if_neg hpw]
      exact hr x p hp

theorem ParentTree.tree_rooted {g : Grid} {pm : Cell → Option Cell} (h : ParentTree g st en pm)
    (c : Cell) : Rooted pm c := by
  obtain ⟨rank, hr⟩ := h.ranked
  exact rooted_of_rank pm rank hr c

theorem grow_mark {g : Grid} {pm : Cell → Option Cell} (h : ParentTree g st en pm) (w : Cell)
    (hw : (g.node w).type = .Empty) (f : Node → Node) (hf : ∀ n, (f n).type = .Visited)
    (hc : ∀ n, (f n).cost = n.cost) :
    Grow st en g (g.modify w.1 w.2 f) ∧ Shut (g.modify w.1 w.2 f) st w := by
  refine ⟨⟨rfl, rfl, fun c => ?_, fun c => ?_⟩, Or.inr (Or.inl ?_)⟩
  · rw [modify_node]
    split_ifs
    · exact hc _
    · rfl
  · rw [modify_node]
    split_ifs with e
    · have e' : c = w := e
      subst e'
      exact Or.inr ⟨(h.empty_open hw).2.1, (h.empty_open hw).2.2, Or.inl (hf _)⟩
    · exact Or.inl rfl
  · rw [modify_node, if_pos rfl]
    exact hf _

theorem grow_clearOldPath {g : Grid} {pm : Cell → Option Cell} (h : ParentTree g st en pm) :
    Grow st en g (clearOldPath g) := by
  refine ⟨rfl, rfl, fun c => ?_, fun c => ?_⟩
  · unfold clearOldPath
    rw [mapNodes_node]
    split_ifs <;> rfl
  · unfold clearOldPath
    rw [mapNodes_node]
    split_ifs with h1 h2
    · refine Or.inr ⟨?_, ?_, Or.inl rfl⟩
      · rintro rfl
        rw [h.st_type] at h2; cases h2
      · rintro rfl
        rw [h.en_type] at h2; cases h2
    · exact Or.inl rfl
    · exact Or.inl rfl

theorem grow_tracePath {g g' : Grid} {pm pm' : Cell → Option Cell}
    (h : ParentTree g st en pm) {fuel : Nat} {t : Cell}
    (htr : tracePath pm' fuel g (some t) = some g') : Grow st en g g' := by
  obtain ⟨hF, hn⟩ := tracePath_nodes pm' fuel g t g' htr
  refine ⟨hF.startNode, hF.endNode, hF.cost, fun c => ?_⟩
  rcases hn c with e | ⟨e1, e2, e3, -⟩
  · exact Or.inl (by rw [e])
  · refine Or.inr ⟨?_, ?_, Or.inr e1⟩
    · rintro rfl
      exact e2 h.startNode
    · rintro rfl
      exact e3 h.endNode

/-- The drawing helper of the two engines keeps the invariant. -/
theorem grow_draw {g g' : Grid} {pm pm' : Cell → Option Cell}
    (h : ParentTree g st en pm) {fuel : Nat} {t : Cell}
    (htr : tracePath pm' fuel (clearOldPath g) (some t) = some g') : Grow st en g g' :=
  (grow_clearOldPath h).trans (grow_tracePath (h.tree_grow (grow_clearOldPath h)) htr)

/-- The invariant of the breadth-first engine used here: the parent map is a forest, every
node of the queue is the start node or a marked node, `pathCost` is 0 while the search runs
and the sum of the costs of the parent list of the end node once a path is found. -/
structure BFSTree (st en : Cell) (gs : Grid × BFSState) : Prop where
  tree : ParentTree gs.1 st en gs.2.parentMap
  front : ∀ c ∈ gs.2.queue, Shut gs.1 st c
  running : gs.2.isComplete = false → gs.2.pathCost = 0
  found : gs.2.isComplete = true → gs.2.noPathExists = true ∨
    ∃ l, ParentList gs.2.parentMap en l ∧
      gs.2.pathCost = (l.map fun x => (gs.1.node x).cost).sum

/-- The invariant of the depth-first engine used here: as for the breadth-first engine, but a
node of the stack may also still be Empty. -/
structure DFSTree (st en : Cell) (gs : Grid × DFSState) : Prop where
  tree : ParentTree gs.1 st en gs.2.parentMap
  front : ∀ c ∈ gs.2.stack, Shut gs.1 st c ∨ (gs.1.node c).type = .Empty
  running : gs.2.isComplete = false → gs.2.pathCost = 0
  found : gs.2.isComplete = true → gs.2.noPathExists = true ∨
    ∃ l, ParentList gs.2.parentMap en l ∧
      gs.2.pathCost = (l.map fun x => (gs.1.node x).cost).sum

theorem bfsNeighbors_tree (fuel : Nat) (u : Cell) :
    ∀ (ds : List (Int × Int)) (g : Grid) (s : BFSState) (gs' : Grid × BFSState),
      bfsNeighbors fuel u ds g s = some gs' → ParentTree g st en s.parentMap →
      Shut g st u → (∀ c ∈ s.queue, Shut g st c) → s.isComplete = false → s.pathCost = 0 →
      BFSTree st en gs' := by
  intro ds
  induction ds with
  | nil =>
    intro g s gs' h ht _ hq hc hp
    simp only [bfsNeighbors, Option.some.injEq] at h
    subst h
    exact ⟨ht, hq, fun _ => hp, fun e => by rw [hc] at e; cases e⟩
  | cons dir ds ih =>
    intro g s gs' h ht hu hq hc hp
    rw [bfsNeighbors] at h
    cases hnb : neighborAt g u dir with
    | none =>
      rw [hnb] at h
      exact ih g s gs' h ht hu hq hc hp
    | some w =>
      rw [hnb] at h
      dsimp only at h
      split_ifs at h with h1 h2
      · simp only [Option.bind_eq_bind, Option.bind_eq_some] at h
        obtain ⟨g1, hg1, v, hv, h⟩ := h
        simp only [Option.some.injEq] at h
        subst h
        have hwe : w = en := by
          rw [ht.endNode] at h1
          exact (Option.some.inj h1).symm
        subst hwe
        have ht' := ht.add hu ht.en_open
        unfold drawCurrentPath at hg1
        have hgrow := grow_draw ht' hg1
        obtain ⟨l, hl, hv'⟩ := sumPathCost_list _ _ _ _ _ _ hv
        refine ⟨ht'.tree_grow hgrow, fun c hcq => (hq c hcq).shut_grow hgrow, fun e => (by cases e),
          fun _ => Or.inr ⟨l, hl, ?_⟩⟩
        dsimp only
        rw [hv', hp, zero_add]
      · obtain ⟨hgrow, hsw⟩ := grow_mark ht w h2
          (fun n => { n with type := .Visited, fillColor := ⟨173, 216, 230⟩ })
          (fun _ => rfl) (fun _ => rfl)
        refine ih _ _ gs' h ((ht.add hu (ht.empty_open h2).1).tree_grow hgrow) (hu.shut_grow hgrow)
          (fun c hcq => ?_) hc hp
        rcases List.mem_append.1 hcq with hcq | hcq
        · exact (hq c hcq).shut_grow hgrow
        · rw [List.mem_singleton.1 hcq]
          exact hsw
      · exact ih g _ gs' h ht hu hq hc hp

theorem bfsStep_tree (fuel : Nat) (d : Bool) (gs gs' : Grid × BFSState)
    (hstep : bfsStep fuel d gs = some gs') (h : BFSTree st en gs) : BFSTree st en gs' := by
  obtain ⟨g, s⟩ := gs
  obtain ⟨ht, hq, hrun, hfound⟩ := h
  dsimp only at ht hq hrun hfound
  unfold bfsStep at hstep
  dsimp only at hstep
  split_ifs at hstep with h1
  · cases hstep
    exact ⟨ht, hq, hrun, hfound⟩
  · have hc : s.isComplete = false := by
      cases e : s.isComplete
      · rfl
      · exact absurd (Or.inr e) h1
    cases hqe : s.queue with
    | nil =>
      rw [hqe] at hstep
      cases hstep
      exact ⟨ht, fun c hcq => (by cases hcq), fun e => (by cases e), fun _ => Or.inl rfl⟩
    | cons u rest =>
      rw [hqe] at hstep
      dsimp only at hstep
      simp only [Option.bind_eq_bind, Option.bind_eq_some] at hstep
      obtain ⟨g1, hg1, hstep⟩ := hstep
      unfold drawCurrentPath at hg1
      have hgrow := grow_draw ht hg1
      have hu : Shut g st u := hq u (by rw [hqe]; exact List.mem_cons_self _ _)
      have ht1 := ht.tree_grow hgrow
      split_ifs at hstep with h2
      · exfalso
        rw [ht1.endNode] at h2
        cases h2
        exact ht.en_open hu
      · exact bfsNeighbors_tree fuel u (directions d) g1 _ gs' hstep ht1 (hu.shut_grow hgrow)
          (fun c hcq => (hq c (by rw [hqe]; exact List.mem_cons_of_mem _ hcq)).shut_grow hgrow)
          hc (hrun hc)

theorem dfsNeighbors_tree (fuel : Nat) (u : Cell) :
    ∀ (ds : List (Int × Int)) (g : Grid) (s : DFSState) (gs' : Grid × DFSState),
      dfsNeighbors fuel u ds g s = some gs' → ParentTree g st en s.parentMap →
      Shut g st u → (∀ c ∈ s.stack, Shut g st c ∨ (g.node c).type = .Empty) →
      s.isComplete = false → s.pathCost = 0 → DFSTree st en gs' := by
  intro ds
  induction ds with
  | nil =>
    intro g s gs' h ht _ hq hc hp
    simp only [dfsNeighbors, Option.some.injEq] at h
    subst h
    exact ⟨ht, hq, fun _ => hp, fun e => by rw [hc] at e; cases e⟩
  | cons dir ds ih =>
    intro g s gs' h ht hu hq hc hp
    rw [dfsNeighbors] at h
    cases hnb : neighborAt g u dir with
    | none =>
      rw [hnb] at h
      exact ih g s gs' h ht hu hq hc hp
    | some w =>
      rw [hnb] at h
      dsimp only at h
      split_ifs at h with h1 h2
      · simp only [Option.bind_eq_bind, Option.bind_eq_some] at h
        obtain ⟨g1, hg1, v, hv, h⟩ := h
        simp only [Option.some.injEq] at h
        subst h
        have hwe : w = en := by
          rw [ht.endNode] at h1
          exact (Option.some.inj h1).symm
        subst hwe
        have ht' := ht.add hu ht.en_open
        unfold drawCurrentDFSPath at hg1
        have hgrow := grow_draw ht' hg1
        obtain ⟨l, hl, hv'⟩ := sumPathCost_list _ _ _ _ _ _ hv
        refine ⟨ht'.tree_grow hgrow, fun c hcq => ?_, fun e => (by cases e),
          fun _ => Or.inr ⟨l, hl, ?_⟩⟩
        · rcases hq c hcq with e | e
          · exact Or.inl (e.shut_grow hgrow)
          · rcases hgrow.types c with e' | e'
            · exact Or.inr (e'.trans e)
            · exact Or.inl (Or.inr e'.2.2)
        · dsimp only
          rw [hv', hp, zero_add]
      · refine ih _ _ gs' h (ht.add hu (ht.empty_open h2).1) hu (fun c hcq => ?_) hc hp
        rcases List.mem_cons.1 hcq with hcq | hcq
        · rw [hcq]
          exact Or.inr h2
        · exact hq c hcq
      · exact ih g _ gs' h ht hu hq hc hp

theorem dfsStep_tree (fuel : Nat) (d : Bool) (gs gs' : Grid × DFSState)
    (hstep : dfsStep fuel d gs = some gs') (h : DFSTree st en gs) : DFSTree st en gs' := by
  obtain ⟨g, s⟩ := gs
  obtain ⟨ht, hq, hrun, hfound⟩ := h
  dsimp only at ht hq hrun hfound
  unfold dfsStep at hstep
  dsimp only at hstep
  split_ifs at hstep with h1
  · cases hstep
    exact ⟨ht, hq, hrun, hfound⟩
  · have hc : s.isComplete = false := by
      cases e : s.isComplete
      · rfl
      · exact absurd (Or.inr e) h1
    cases hqe : s.stack with
    | nil =>
      rw [hqe] at hstep
      cases hstep
      exact ⟨ht, fun c hcq => (by cases hcq), fun e => (by cases e), fun _ => Or.inl rfl⟩
    | cons u rest =>
      rw [hqe] at hstep
      dsimp only at hstep
      simp only [Option.bind_eq_bind, Option.bind_eq_some] at hstep
      obtain ⟨g2, hg2, hstep⟩ := hstep
      unfold drawCurrentDFSPath at hg2
      have hu := hq u (by rw [hqe]; exact List.mem_cons_self _ _)
      have hrest : ∀ c ∈ rest, Shut g st c ∨ (g.node c).type = .Empty :=
        fun c hcq => hq c (by rw [hqe]; exact List.mem_cons_of_mem _ hcq)
      have key : ∀ g1 : Grid, Grow st en g g1 → Shut g1 st u →
          tracePath s.parentMap fuel (clearOldPath g1) (some u) = some g2 →
          DFSTree st en gs' := by
        intro g1 hg1 hu1 htr
        have ht1 := ht.tree_grow hg1
        have hgrow := grow_draw ht1 htr
        have hall := hg1.trans hgrow
        refine dfsNeighbors_tree fuel u (directions d) g2 _ gs' hstep (ht1.tree_grow hgrow)
          (hu1.shut_grow hgrow) (fun c hcq => ?_) hc (hrun hc)
        rcases hrest c hcq with e | e
        · exact Or.inl (e.shut_grow hall)
        · rcases hall.types c with e' | e'
          · exact Or.inr (e'.trans e)
          · exact Or.inl (Or.inr e'.2.2)
      by_cases hty : (g.node u).type = .Empty
      · rw [if_pos hty] at hg2
        obtain ⟨hgrow, hsu⟩ := grow_mark ht u hty
          (fun n => { n with type := .Visited, fillColor := ⟨173, 216, 230⟩ })
          (fun _ => rfl) (fun _ => rfl)
        exact key _ hgrow hsu hg2
      · rw [if_neg hty] at hg2
        exact key g (Grow.grow_refl g) (hu.resolve_right hty) hg2

end search_tree
/-! ## The parent map, the frontier and `pathCost` on the states of a run -/

/-- The path-tracing loop and the cost loop started at `c` end: some amount of fuel is enough
for both, whatever the grid and the initial sum. -/
def LoopsEnd (pm : Cell → Option Cell) (c : Cell) : Prop :=
  ∃ n, ∀ (fuel : Nat) (g : Grid) (acc : Int), n ≤ fuel →
    (sumPathCost g pm fuel acc (some c)).isSome = true ∧
    (tracePath pm fuel g (some c)).isSome = true

theorem hops_loops (pm : Cell → Option Cell) :
    ∀ (n : Nat) (c r : Cell), hops pm n c = some r → pm r = none →
      ∀ (fuel : Nat) (g : Grid) (acc : Int), n + 1 ≤ fuel →
        (sumPathCost g pm fuel acc (some c)).isSome = true ∧
        (tracePath pm fuel g (some c)).isSome = true := by
  intro n
  induction n with
  | zero =>
    intro c r h hr fuel g acc hf
    simp only [hops, Option.some.injEq] at h
    subst h
    obtain ⟨f, rfl⟩ : ∃ f, fuel = f + 1 := ⟨fuel - 1, by omega⟩
    constructor
    · rw [sumPathCost, hr]
      cases f <;> rfl
    · rw [tracePath, hr]
      dsimp only
      split_ifs <;> first | rfl | (cases f <;> rfl)
  | succ n ih =>
    intro c r h hr fuel g acc hf
    rw [hops] at h
    simp only [Option.bind_eq_some] at h
    obtain ⟨p, hp, h⟩ := h
    obtain ⟨f, rfl⟩ : ∃ f, fuel = f + 1 := ⟨fuel - 1, by omega⟩
    constructor
    · rw [sumPathCost, hp]
      exact (ih p r h hr f g _ (by omega)).1
    · rw [tracePath, hp]
      dsimp only
      split_ifs <;> first | rfl | exact (ih p r h hr f _ 0 (by omega)).2

theorem Rooted.loops {pm : Cell → Option Cell} {c : Cell} (h : Rooted pm c) :
    LoopsEnd pm c := by
  obtain ⟨n, r, hn, hr⟩ := h
  exact ⟨n + 1, fun fuel g acc hf => hops_loops pm n c r hn hr fuel g acc hf⟩

section search_claims
variable {g0 : Grid} {d : Bool} {st en : Cell}

theorem parentTree_init (hw : WellFormed g0 st en) :
    ParentTree g0 st en (fun _ => none) :=
  ⟨hw.startNode, hw.endNode, hw.st_type, hw.en_type, rfl, fun _ _ hp => (by cases hp),
    ⟨fun _ => 0, fun _ _ hp => by cases hp⟩⟩

theorem bfs_tree_reach (hw : WellFormed g0 st en) (fuel : Nat) (k : Nat)
    (gs : Grid × BFSState) (hrun : bfsRun fuel d g0 k = some gs) : BFSTree st en gs := by
  rw [bfsRun_eq hw] at hrun
  refine iterStep_keeps (bfsStep fuel d) (BFSTree st en)
    (fun s s' hs hi => bfsStep_tree fuel d s s' hs hi) k _ gs hrun
    ⟨parentTree_init hw, fun c hc => ?_, fun _ => rfl, fun e => (by cases e)⟩
  rw [List.mem_singleton.1 hc]
  exact Or.inl rfl

theorem dfs_tree_reach (hw : WellFormed g0 st en) (fuel : Nat) (k : Nat)
    (gs : Grid × DFSState) (hrun : dfsRun fuel d g0 k = some gs) : DFSTree st en gs := by
  rw [dfsRun_eq hw] at hrun
  refine iterStep_keeps (dfsStep fuel d) (DFSTree st en)
    (fun s s' hs hi => dfsStep_tree fuel d s s' hs hi) k _ gs hrun
    ⟨parentTree_init hw, fun c hc => ?_, fun _ => rfl, fun e => (by cases e)⟩
  rw [List.mem_singleton.1 hc]
  exact Or.inl (Or.inl rfl)

/-- The parent list of a node whose parent chain has `n` moves through Empty nodes: `n + 1`
nodes of cost 1, the last of which is the start node. -/
theorem ParentWalk.list (hw : WellFormed g0 st en) {pm : Cell → Option Cell}
    (hst : pm st = none) {n : Nat} {c : Cell} (h : ParentWalk g0 d pm st n c) :
    ∃ l, ParentList pm c l ∧ l.length = n + 1 ∧ l.getLast? = some st ∧
      ∀ x ∈ l, (g0.node x).cost = 1 := by
  induction h with
  | start =>
    refine ⟨[st], ParentList.root st hst, rfl, rfl, fun x hx => ?_⟩
    rw [List.mem_singleton.1 hx]
    have h1 := hw.costs st.1 hw.st_in.1 st.2 hw.st_in.2
    have h2 := hw.st_type
    unfold Grid.node at h2 ⊢
    rw [h1, h2]
    rfl
  | step n u c _ hp ha he ih =>
    obtain ⟨l, hl, hlen, hlast, hcost⟩ := ih
    refine ⟨c :: l, ParentList.step c u l hp hl, by simp [hlen], ?_, fun x hx => ?_⟩
    · cases l with
      | nil => cases hlen
      | cons a l => rw [List.getLast?_cons_cons]; exact hlast
    · rcases List.mem_cons.1 hx with rfl | hx
      · obtain ⟨dir, -, hnb⟩ := ha
        have hin := neighborAt_inGrid hnb
        have h1 := hw.costs x.1 hin.1 x.2 hin.2
        unfold Grid.node at he ⊢
        rw [h1, he]
        rfl
      · exact hcost x hx

end search_claims

/-- C31: on a grid of Empty, Start, End, Wall and Weight nodes with one Start and one End node,
every state of a run of the breadth-first, the depth-first, the Dijkstra and the A* engine
(the orchestrator's start followed by any number of step calls, with enough fuel for the
pointer loops) is defined, and in it the start node has no parent and following `parentMap`
from any node reaches, after finitely many hops, a node without a parent; so the
path-tracing loop and the cost loop started at any node end. -/
theorem parent_map_acyclic (g0 : Grid) (st en : Cell) (hw : WellFormed g0 st en) (d : Bool)
    (popD : List DijkstraNode → Option (DijkstraNode × List DijkstraNode))
    (hpopD : IsMinPop DijkstraNode.cost popD)
    (popA : List AStarNode → Option (AStarNode × List AStarNode))
    (hpopA : IsMinPop AStarNode.fCost popA)
    (fuel : Nat) (hfuel : g0.rows * g0.cols ≤ fuel) (hfuel2 : 2147483647 ≤ fuel) (k : Nat) :
    (∃ g s, bfsRun fuel d g0 k = some (g, s) ∧ s.parentMap st = none ∧
      ∀ c, Rooted s.parentMap c ∧ LoopsEnd s.parentMap c) ∧
    (∃ g s, dfsRun fuel d g0 k = some (g, s) ∧ s.parentMap st = none ∧
      ∀ c, Rooted s.parentMap c ∧ LoopsEnd s.parentMap c) ∧
    (∃ g s, dijkstraRun popD fuel d g0 k = some (g, s) ∧ s.parentMap st = none ∧
      ∀ c, Rooted s.parentMap c ∧ LoopsEnd s.parentMap c) ∧
    (∃ g s, aStarRun popA fuel d g0 k = some (g, s) ∧ s.parentMap st = none ∧
      ∀ c, Rooted s.parentMap c ∧ LoopsEnd s.parentMap c) := by
  refine ⟨?_, ?_, ?_, ?_⟩
  · obtain ⟨⟨g, s⟩, hrun, -⟩ := bfs_safe (d := d) hw hfuel k
    have ht := (bfs_tree_reach hw fuel k (g, s) hrun).tree
    exact ⟨g, s, hrun, ht.pm_st, fun c => ⟨ht.tree_rooted c, (ht.tree_rooted c).loops⟩⟩
  · obtain ⟨⟨g, s⟩, hrun, -⟩ := dfs_run_defined (d := d) hw hfuel k
    have ht := (dfs_tree_reach hw fuel k (g, s) hrun).tree
    exact ⟨g, s, hrun, ht.pm_st, fun c => ⟨ht.tree_rooted c, (ht.tree_rooted c).loops⟩⟩
  · obtain ⟨⟨g, s⟩, hrun⟩ := dijkstra_run_defined (d := d) hw hpopD hfuel2 k
    have ht := dijkstra_tree_reach hw popD fuel k (g, s) hrun
    exact ⟨g, s, hrun, ht.pm_st, fun c => ⟨ht.cost_rooted c, (ht.cost_rooted c).loops⟩⟩
  · obtain ⟨⟨g, s⟩, hrun⟩ := aStar_run_defined (d := d) hw hpopA hfuel2 k
    have ht := aStar_tree_reach hw popA fuel k (g, s) hrun
    exact ⟨g, s, hrun, ht.pm_st, fun c => ⟨ht.cost_rooted c, (ht.cost_rooted c).loops⟩⟩

theorem parent_map_acyclic_witness :
    (∃ g s, bfsRun 2147483647 false weightGrid 2 = some (g, s) ∧ s.parentMap (0, 0) = none ∧
      ∀ c, Rooted s.parentMap c ∧ LoopsEnd s.parentMap c) ∧
    (∃ g s, dfsRun 2147483647 false weightGrid 2 = some (g, s) ∧ s.parentMap (0, 0) = none ∧
      ∀ c, Rooted s.parentMap c ∧ LoopsEnd s.parentMap c) ∧
    (∃ g s, dijkstraRun (popMin DijkstraNode.cost) 2147483647 false weightGrid 2 = some (g, s) ∧
      s.parentMap (0, 0) = none ∧ ∀ c, Rooted s.parentMap c ∧ LoopsEnd s.parentMap c) ∧
    (∃ g s, aStarRun (popMin AStarNode.fCost) 2147483647 false weightGrid 2 = some (g, s) ∧
      s.parentMap (0, 0) = none ∧ ∀ c, Rooted s.parentMap c ∧ LoopsEnd s.parentMap c) :=
  parent_map_acyclic weightGrid (0, 0) (0, 2) weightGrid_wellFormed false
    (popMin DijkstraNode.cost) (popMin_isMinPop _) (popMin AStarNode.fCost) (popMin_isMinPop _)
    2147483647 (by decide) (by decide) 2

/-- C32: on a grid of Empty, Start, End, Wall and Weight nodes with one Start and one End node
(a Weight node costing 5 and every other node 1), every state of a breadth-first run is
defined; `pathCost` is 0 until the search is complete, and once it has found a path `pathCost`
is the sum of the `cost` fields of the nodes met by following `parentMap` from the end node
until the start node, both included. These are `n + 2` nodes for a shortest path of `n + 1`
moves (no path through Empty nodes has fewer), and each costs 1, so `pathCost` is the number
of moves plus one. -/
theorem bfs_path_cost (g0 : Grid) (st en : Cell) (hw : WellFormed g0 st en) (d : Bool)
    (fuel : Nat) (hfuel : g0.rows * g0.cols ≤ fuel) (k : Nat) :
    ∃ g s, bfsRun fuel d g0 k = some (g, s) ∧
      (s.isComplete = false → s.pathCost = 0) ∧
      (s.isComplete = true → s.noPathExists = false →
        ∃ (n : Nat) (l : List Cell), ParentList s.parentMap en l ∧
          l.head? = some en ∧ l.getLast? = some st ∧ l.length = n + 2 ∧
          s.pathCost = (l.map fun c => (g.node c).cost).sum ∧
          EmptyRoute g0 d st en n ∧ (∀ j, EmptyRoute g0 d st en j → n ≤ j) ∧
          s.pathCost = (n + 1) + 1) := by
  obtain ⟨⟨g, s⟩, hrun, hF, hinv⟩ := bfs_safe (d := d) hw hfuel k
  have ht := bfs_tree_reach hw fuel k (g, s) hrun
  refine ⟨g, s, hrun, ht.running, fun hc hn => ?_⟩
  dsimp only at hinv hF
  rcases hinv with ⟨-, h2, -⟩ | ⟨-, -, -, n, hfound, hmin⟩ | ⟨-, -, h3, -⟩
  · rw [hc] at h2; cases h2
  · rcases ht.found hc with e | ⟨l, hl, hsum⟩
    · have e' : s.noPathExists = true := e
      rw [hn] at e'; cases e'
    · dsimp only at hl hsum
      obtain ⟨u, hp, ha, hwalk⟩ := id hfound
      obtain ⟨l', hl', hlen, hlast, hcost⟩ := hwalk.list hw ht.tree.pm_st
      have hl2 : l = en :: l' := hl.list_unique (ParentList.step en u l' hp hl')
      have hen : (g0.node en).cost = 1 := by
        have h1 := hw.costs en.1 hw.en_in.1 en.2 hw.en_in.2
        have h2 := hw.en_type
        unfold Grid.node at h2 ⊢
        rw [h1, h2]
        rfl
      have hones : ∀ m : List Cell, (∀ x ∈ m, (g0.node x).cost = 1) →
          (m.map fun c => (g.node c).cost).sum = m.length := by
        intro m
        induction m with
        | nil => intro _; rfl
        | cons a m ih =>
          intro hm
          rw [List.map_cons, List.sum_cons, ih (fun x hx => hm x (List.mem_cons_of_mem _ hx)),
            hF.cost a, hm a (List.mem_cons_self _ _), List.length_cons]
          push_cast
          ring
      refine ⟨n, l, hl, ?_, ?_, ?_, hsum, hfound.route, hmin, ?_⟩
      · rw [hl2]; rfl
      · rw [hl2]
        cases l' with
        | nil => cases hlen
        | cons a l' => rw [List.getLast?_cons_cons]; exact hlast
      · rw [hl2, List.length_cons, hlen]
      · rw [hsum, hl2, hones (en :: l') (fun x hx => by
          rcases List.mem_cons.1 hx with rfl | hx
          · exact hen
          · exact hcost x hx), List.length_cons, hlen]
        push_cast
        ring
  · rw [hn] at h3; cases h3

theorem bfs_path_cost_witness :
    ∃ g s, bfsRun 3 false lineGrid 2 = some (g, s) ∧
      (s.isComplete = false → s.pathCost = 0) ∧
      (s.isComplete = true → s.noPathExists = false →
        ∃ (n : Nat) (l : List Cell), ParentList s.parentMap (0, 2) l ∧
          l.head? = some (0, 2) ∧ l.getLast? = some (0, 0) ∧ l.length = n + 2 ∧
          s.pathCost = (l.map fun c => (g.node c).cost).sum ∧
          EmptyRoute lineGrid false (0, 0) (0, 2) n ∧
          (∀ j, EmptyRoute lineGrid false (0, 0) (0, 2) j → n ≤ j) ∧
          s.pathCost = (n + 1) + 1) :=
  bfs_path_cost lineGrid (0, 0) (0, 2) lineGrid_wellFormed false 3 (by decide) 2

/-- C34: on a grid of Empty, Start, End, Wall and Weight nodes with one Start and one End node,
every state of a breadth-first and of a depth-first run is defined, the end reference of its
grid still names the end node, and no node of the queue, respectively of the stack, is the
end node or has the type End; so the node a step call takes from the frontier is never the
end node. -/
theorem end_never_on_frontier (g0 : Grid) (st en : Cell) (hw : WellFormed g0 st en) (d : Bool)
    (fuel : Nat) (hfuel : g0.rows * g0.cols ≤ fuel) (k : Nat) :
    (∃ g s, bfsRun fuel d g0 k = some (g, s) ∧ g.endNode = some en ∧
      ∀ c ∈ s.queue, c ≠ en ∧ (g.node c).type ≠ .End) ∧
    (∃ g s, dfsRun fuel d g0 k = some (g, s) ∧ g.endNode = some en ∧
      ∀ c ∈ s.stack, c ≠ en ∧ (g.node c).type ≠ .End) := by
  constructor
  · obtain ⟨⟨g, s⟩, hrun, -⟩ := bfs_safe (d := d) hw hfuel k
    have ht := bfs_tree_reach hw fuel k (g, s) hrun
    refine ⟨g, s, hrun, ht.tree.endNode, fun c hc => ⟨?_, fun e => ?_⟩⟩
    · rintro rfl
      exact ht.tree.en_open (ht.front c hc)
    · rcases ht.front c hc with rfl | e' | e'
      · rw [ht.tree.st_type] at e; cases e
      · rw [e] at e'; cases e'
      · rw [e] at e'; cases e'
  · obtain ⟨⟨g, s⟩, hrun, -⟩ := dfs_run_defined (d := d) hw hfuel k
    have ht := dfs_tree_reach hw fuel k (g, s) hrun
    refine ⟨g, s, hrun, ht.tree.endNode, fun c hc => ⟨?_, fun e => ?_⟩⟩
    · rintro rfl
      rcases ht.front c hc with e | e
      · exact ht.tree.en_open e
      · rw [ht.tree.en_type] at e; cases e
    · rcases ht.front c hc with (rfl | e' | e') | e'
      · rw [ht.tree.st_type] at e; cases e
      · rw [e] at e'; cases e'
      · rw [e] at e'; cases e'
      · rw [e] at e'; cases e'

theorem end_never_on_frontier_witness :
    (∃ g s, bfsRun 3 false lineGrid 1 = some (g, s) ∧ g.endNode = some (0, 2) ∧
      ∀ c ∈ s.queue, c ≠ (0, 2) ∧ (g.node c).type ≠ .End) ∧
    (∃ g s, dfsRun 3 false lineGrid 1 = some (g, s) ∧ g.endNode = some (0, 2) ∧
      ∀ c ∈ s.stack, c ≠ (0, 2) ∧ (g.node c).type ≠ .End) :=
  end_never_on_frontier lineGrid (0, 0) (0, 2) lineGrid_wellFormed false 3 (by decide) 1
/-! ## Maze generator: the lattice of the seed

The carver moves two nodes at a time, so the nodes it stands on have even row and column
offsets from the seed; the nodes it opens between two of them have one odd offset. -/

/-- The row offset and the column offset of `c` from the seed are both even. -/
def Lat (seed c : Cell) : Prop := c.1 % 2 = seed.1 % 2 ∧ c.2 % 2 = seed.2 % 2

instance (seed c : Cell) : Decidable (Lat seed c) := by
  unfold Lat; infer_instance

/-- The row offset and the column offset of `c` from the seed are both odd. -/
def OddOdd (seed c : Cell) : Prop := c.1 % 2 ≠ seed.1 % 2 ∧ c.2 % 2 ≠ seed.2 % 2

instance (seed c : Cell) : Decidable (OddOdd seed c) := by
  unfold OddOdd; infer_instance

/-- The node `v` is two rows or two columns away from `u`. -/
def Two (u v : Cell) : Prop :=
  (v.1 + 2 = u.1 ∧ v.2 = u.2) ∨ (v.1 = u.1 + 2 ∧ v.2 = u.2) ∨
  (v.1 = u.1 ∧ v.2 + 2 = u.2) ∨ (v.1 = u.1 ∧ v.2 = u.2 + 2)

/-- The Empty nodes of the grid. -/
def carved (g : Grid) : Finset Cell :=
  (Finset.range g.rows ×ˢ Finset.range g.cols).filter fun c => (g.node c).type = .Empty

/-- The nodes of the grid with even row and column offsets from the seed. -/
def lattice (g : Grid) (seed : Cell) : Finset Cell :=
  (Finset.range g.rows ×ˢ Finset.range g.cols).filter (Lat seed)

/-- The Empty nodes with even row and column offsets from the seed. -/
def emptyLattice (g : Grid) (seed : Cell) : Finset Cell := (carved g).filter (Lat seed)

/-- The Empty nodes with an odd row or column offset from the seed. -/
def emptyOthers (g : Grid) (seed : Cell) : Finset Cell :=
  (carved g).filter fun c => ¬ Lat seed c

/-- The node `c` lies between two Empty nodes of the lattice that are two apart. -/
def Between (g : Grid) (seed c : Cell) : Prop :=
  ∃ a b, g.IsEmptyAt a ∧ g.IsEmptyAt b ∧ Lat seed a ∧ Lat seed b ∧ Two a b ∧
    Adj4 a c ∧ Adj4 c b

theorem mem_carved {g : Grid} {c : Cell} : c ∈ carved g ↔ g.IsEmptyAt c := by
  simp [carved, Grid.IsEmptyAt, and_assoc]

theorem mem_lattice {g : Grid} {seed c : Cell} :
    c ∈ lattice g seed ↔ InGrid g c ∧ Lat seed c := by
  simp [lattice, InGrid, and_assoc]

theorem mem_emptyLattice {g : Grid} {seed c : Cell} :
    c ∈ emptyLattice g seed ↔ g.IsEmptyAt c ∧ Lat seed c := by
  simp [emptyLattice, mem_carved]

theorem mem_emptyOthers {g : Grid} {seed c : Cell} :
    c ∈ emptyOthers g seed ↔ g.IsEmptyAt c ∧ ¬ Lat seed c := by
  simp [emptyOthers, mem_carved]

theorem carved_card (g : Grid) (seed : Cell) :
    (carved g).card = (emptyLattice g seed).card + (emptyOthers g seed).card := by
  unfold emptyLattice emptyOthers
  exact (Finset.filter_card_add_filter_neg_card_eq_card (Lat seed)).symm

theorem emptyLattice_subset (g : Grid) (seed : Cell) : emptyLattice g seed ⊆ lattice g seed := by
  intro c hc
  rw [mem_emptyLattice] at hc
  rw [mem_lattice]
  exact ⟨⟨hc.1.1, hc.1.2.1⟩, hc.2⟩

theorem lattice_congr {g g0 : Grid} (hr : g.rows = g0.rows) (hc : g.cols = g0.cols)
    (seed : Cell) : lattice g seed = lattice g0 seed := by
  unfold lattice
  rw [hr, hc]

/-- The grid after a carving step: the node between and the node two away are Empty, every
other node is as before. -/
theorem carve_isEmptyAt (g : Grid) (w n : Cell) (hw : InGrid g w) (hn : InGrid g n) (c : Cell) :
    ((g.setNodeType w.1 w.2 .Empty).setNodeType n.1 n.2 .Empty).IsEmptyAt c ↔
      c = n ∨ c = w ∨ g.IsEmptyAt c := by
  rw [isEmptyAt_setNodeType, setNodeType_rows, setNodeType_cols]
  constructor
  · rintro ⟨h1, h2, h3 | h3⟩
    · exact Or.inl h3
    · have : (g.setNodeType w.1 w.2 .Empty).IsEmptyAt c :=
        ⟨by rw [setNodeType_rows]; exact h1, by rw [setNodeType_cols]; exact h2, h3⟩
      rw [isEmptyAt_setNodeType] at this
      rcases this.2.2 with e | e
      · exact Or.inr (Or.inl e)
      · exact Or.inr (Or.inr ⟨h1, h2, e⟩)
  · rintro (rfl | rfl | h)
    · exact ⟨hn.1, hn.2, Or.inl rfl⟩
    · refine ⟨hw.1, hw.2, Or.inr ?_⟩
      have : (g.setNodeType c.1 c.2 .Empty).IsEmptyAt c := by
        rw [isEmptyAt_setNodeType]
        exact ⟨hw.1, hw.2, Or.inl rfl⟩
      exact this.2.2
    · refine ⟨h.1, h.2.1, Or.inr ?_⟩
      have : (g.setNodeType w.1 w.2 .Empty).IsEmptyAt c := by
        rw [isEmptyAt_setNodeType]
        exact ⟨h.1, h.2.1, Or.inr h.2.2⟩
      exact this.2.2

theorem carve_node_other (g : Grid) (w n c : Cell) (hn : c ≠ n) (hw : c ≠ w) :
    ((g.setNodeType w.1 w.2 .Empty).setNodeType n.1 n.2 .Empty).node c = g.node c := by
  unfold Grid.node
  rw [setNodeType_other _ _ _ _ _ _ (fun e => hn (Prod.ext e.1 e.2)),
    setNodeType_other _ _ _ _ _ _ (fun e => hw (Prod.ext e.1 e.2))]

/-- A Wall node of the grid two away from `current` is a candidate. -/
theorem mazeNeighbors_mem (g : Grid) (current next : Cell) (h1 : next.1 < g.rows)
    (h2 : next.2 < g.cols) (hw : (g.node next).type = .Wall) (hpos : Two current next) :
    next ∈ mazeNeighbors g current := by
  obtain ⟨r, c⟩ := current
  obtain ⟨a, b⟩ := next
  unfold Two at hpos
  unfold Grid.node at hw
  dsimp only at h1 h2 hw hpos
  simp only [mazeNeighbors, List.mem_filterMap, Grid.isValid, decide_eq_true_eq]
  have key : ∀ d : Int × Int, ((r : Int) + d.1).toNat = a → ((c : Int) + d.2).toNat = b →
      0 ≤ (r : Int) + d.1 → 0 ≤ (c : Int) + d.2 →
      (if (((r : Int) + d.1 ≥ 0 ∧ (r : Int) + d.1 < g.rows ∧ (c : Int) + d.2 ≥ 0 ∧
            (c : Int) + d.2 < g.cols) ∧
          (g.nodes ((r : Int) + d.1).toNat ((c : Int) + d.2).toNat).type = .Wall)
        then some (((r : Int) + d.1).toNat, ((c : Int) + d.2).toNat) else none) = some (a, b) := by
    intro d e1 e2 p1 p2
    rw [e1, e2, if_pos]
    exact ⟨⟨p1, by omega, p2, by omega⟩, hw⟩
  rcases hpos with ⟨e1, e2⟩ | ⟨e1, e2⟩ | ⟨e1, e2⟩ | ⟨e1, e2⟩
  · exact ⟨(-2, 0), by simp, key (-2, 0) (by simp only; omega) (by simp only; omega)
      (by simp only; omega) (by simp only; omega)⟩
  · exact ⟨(2, 0), by simp, key (2, 0) (by simp only; omega) (by simp only; omega)
      (by simp only; omega) (by simp only; omega)⟩
  · exact ⟨(0, -2), by simp, key (0, -2) (by simp only; omega) (by simp only; omega)
      (by simp only; omega) (by simp only; omega)⟩
  · exact ⟨(0, 2), by simp, key (0, 2) (by simp only; omega) (by simp only; omega)
      (by simp only; omega) (by simp only; omega)⟩

theorem mem_mazeNeighbors_two (g : Grid) (current next : Cell)
    (h : next ∈ mazeNeighbors g current) :
    InGrid g next ∧ (g.node next).type = .Wall ∧ Two current next := by
  obtain ⟨h1, h2, h3, h4⟩ := mem_mazeNeighbors g current next h
  exact ⟨⟨h1, h2⟩, h3, h4⟩

/-- The two outcomes of a call of `mazeStep` on a running generator with a node on the stack:
no candidate and a pop, or a candidate `next` and the node `wall` between, both opened. -/
theorem mazeStep_running (choice : Nat) (g : Grid) (s : MazeGeneratorState)
    (current : Cell) (rest : List Cell) (hg : s.isGenerating = true)
    (hs : s.stack = current :: rest) (hin : InGrid g current) :
    (mazeNeighbors g current = [] ∧ mazeStep choice g s = (g, { s with stack := rest })) ∨
    ∃ next wall : Cell, next ∈ mazeNeighbors g current ∧ InGrid g wall ∧ Adj4 current wall ∧
      Adj4 wall next ∧
      mazeStep choice g s =
        ((g.setNodeType wall.1 wall.2 .Empty).setNodeType next.1 next.2 .Empty,
          { s with stack := next :: current :: rest }) := by
  obtain ⟨stack, gen⟩ := s
  dsimp only at hg hs
  subst hg hs
  by_cases hl : 0 < (mazeNeighbors g current).length
  · right
    obtain ⟨next, hnext⟩ : ∃ next, next = (mazeNeighbors g current).get
        ⟨choice % (mazeNeighbors g current).length, Nat.mod_lt _ hl⟩ := ⟨_, rfl⟩
    have hmem : next ∈ mazeNeighbors g current := by
      rw [hnext]
      exact List.get_mem _ _ _
    obtain ⟨n1, n2, _, hpos⟩ := mem_mazeNeighbors g current next hmem
    obtain ⟨c1, c2⟩ := hin
    obtain ⟨wr, wc, hwr, hwc, hw1, hw2, hadj1, hadj2⟩ :
        ∃ wr wc : Nat,
          ((current.1 : Int) + Int.tdiv ((next.1 : Int) - current.1) 2).toNat = wr ∧
          ((current.2 : Int) + Int.tdiv ((next.2 : Int) - current.2) 2).toNat = wc ∧
          wr < g.rows ∧ wc < g.cols ∧ Adj4 current (wr, wc) ∧ Adj4 (wr, wc) next := by
      refine ⟨_, _, rfl, rfl, ?_⟩
      rw [tdiv_half _ _ (by omega), tdiv_half _ _ (by omega)]
      unfold Adj4
      rcases hpos with ⟨e1, e2⟩ | ⟨e1, e2⟩ | ⟨e1, e2⟩ | ⟨e1, e2⟩ <;>
        (split_ifs <;> simp only [] <;> omega)
    refine ⟨next, (wr, wc), hmem, ⟨hw1, hw2⟩, hadj1, hadj2, ?_⟩
    simp only [mazeStep, hl, dite_true]
    rw [← hnext, hwr, hwc]
  · left
    refine ⟨List.length_eq_zero.1 (by omega), ?_⟩
    simp only [mazeStep, hl, dite_false]
/-! ## Maze generator: counting the calls

Every call on a non-empty stack either opens one more node of the lattice and pushes it, or
pops a node; so twice the number of Empty lattice nodes, less the height of the stack, grows
by one with every call. -/

/-- The invariant of the maze generator after `k` calls of `mazeStep`. -/
structure Carve (g0 : Grid) (seed : Cell) (k : Nat) (g : Grid) (s : MazeGeneratorState) :
    Prop where
  rows : g.rows = g0.rows
  cols : g.cols = g0.cols
  types : ∀ c, InGrid g c → (g.node c).type = .Wall ∨ (g.node c).type = .Empty
  seed_empty : g.IsEmptyAt seed
  stack_ok : ∀ c ∈ s.stack, g.IsEmptyAt c ∧ Lat seed c
  closed : ∀ c, g.IsEmptyAt c → Lat seed c → c ∉ s.stack →
    ∀ c', InGrid g c' → Two c c' → g.IsEmptyAt c'
  between : ∀ c, g.IsEmptyAt c → ¬ Lat seed c → Between g seed c
  count : s.isGenerating = true → 2 * (emptyLattice g seed).card = s.stack.length + 1 + k
  others : (emptyOthers g seed).card + 1 = (emptyLattice g seed).card
  done : s.isGenerating = false → s.stack = [] ∧ 2 * (lattice g0 seed).card ≤ k

section maze_count
variable {g0 : Grid} {seed : Cell}

/-- With an empty stack every node of the lattice is Empty. -/
theorem Carve.full {k : Nat} {g : Grid} {s : MazeGeneratorState} (h : Carve g0 seed k g s)
    (hs : s.stack = []) : ∀ c, InGrid g c → Lat seed c → g.IsEmptyAt c := by
  have key : ∀ n (c : Cell), InGrid g c → Lat seed c →
      (c.1 - seed.1) + (seed.1 - c.1) + (c.2 - seed.2) + (seed.2 - c.2) ≤ n →
      g.IsEmptyAt c := by
    intro n
    induction n with
    | zero =>
      intro c _ _ hd
      have e : c = seed := Prod.ext (by omega) (by omega)
      rw [e]
      exact h.seed_empty
    | succ n ih =>
      intro c hin hl hd
      have hnot : ∀ x : Cell, x ∉ s.stack := fun x hx => by rw [hs] at hx; cases hx
      obtain ⟨l1, l2⟩ := hl
      obtain ⟨i1, i2⟩ := hin
      have step : ∀ c' : Cell, InGrid g c' → Lat seed c' → Two c' c →
          (c'.1 - seed.1) + (seed.1 - c'.1) + (c'.2 - seed.2) + (seed.2 - c'.2) ≤ n →
          g.IsEmptyAt c := fun c' hin' hl' ht hd' =>
        h.closed c' (ih c' hin' hl' hd') hl' (hnot c') c ⟨i1, i2⟩ ht
      by_cases a1 : seed.1 < c.1
      · exact step (c.1 - 2, c.2) ⟨by dsimp only; omega, i2⟩ ⟨by dsimp only; omega, l2⟩
          (Or.inr (Or.inl ⟨by dsimp only; omega, rfl⟩)) (by dsimp only; omega)
      · by_cases a2 : c.1 < seed.1
        · have hsr := h.seed_empty.1
          exact step (c.1 + 2, c.2) ⟨by dsimp only; omega, i2⟩ ⟨by dsimp only; omega, l2⟩
            (Or.inl ⟨rfl, rfl⟩) (by dsimp only; omega)
        · by_cases a3 : seed.2 < c.2
          · exact step (c.1, c.2 - 2) ⟨i1, by dsimp only; omega⟩ ⟨l1, by dsimp only; omega⟩
              (Or.inr (Or.inr (Or.inr ⟨rfl, by dsimp only; omega⟩))) (by dsimp only; omega)
          · by_cases a4 : c.2 < seed.2
            · have hsc := h.seed_empty.2.1
              exact step (c.1, c.2 + 2) ⟨i1, by dsimp only; omega⟩
                ⟨l1, by dsimp only; omega⟩ (Or.inr (Or.inr (Or.inl ⟨rfl, rfl⟩)))
                (by dsimp only; omega)
            · have e : c = seed := Prod.ext (by omega) (by omega)
              rw [e]
              exact h.seed_empty
  exact fun c hin hl => key _ c hin hl le_rfl

theorem Carve.full_card {k : Nat} {g : Grid} {s : MazeGeneratorState}
    (h : Carve g0 seed k g s) (hs : s.stack = []) :
    (emptyLattice g seed).card = (lattice g0 seed).card := by
  rw [← lattice_congr h.rows h.cols seed]
  congr 1
  ext c
  rw [mem_emptyLattice, mem_lattice]
  exact ⟨fun hc => ⟨⟨hc.1.1, hc.1.2.1⟩, hc.2⟩, fun hc => ⟨h.full hs c hc.1 hc.2, hc.2⟩⟩

theorem Carve.card_le {k : Nat} {g : Grid} {s : MazeGeneratorState}
    (h : Carve g0 seed k g s) : (emptyLattice g seed).card ≤ (lattice g0 seed).card := by
  rw [← lattice_congr h.rows h.cols seed]
  exact Finset.card_le_card (emptyLattice_subset g seed)

/-- A generator that is still running has made fewer than `2 * L` calls. -/
theorem Carve.running_lt {k : Nat} {g : Grid} {s : MazeGeneratorState}
    (h : Carve g0 seed k g s) (hg : s.isGenerating = true) :
    k < 2 * (lattice g0 seed).card := by
  have h1 := h.count hg
  have h2 := h.card_le
  cases hs : s.stack with
  | nil =>
    have h3 := h.full_card hs
    rw [hs] at h1
    simp only [List.length_nil] at h1
    omega
  | cons a rest =>
    rw [hs] at h1
    simp only [List.length_cons] at h1
    omega

theorem carve_init (hs1 : seed.1 < g0.rows) (hs2 : seed.2 < g0.cols)
    (hinit : ∀ r, r < g0.rows → ∀ c, c < g0.cols →
      (g0.nodes r c).type = if (r, c) = seed then NodeType.Empty else NodeType.Wall) :
    Carve g0 seed 0 g0 ⟨[seed], true⟩ := by
  have hseed : g0.IsEmptyAt seed := ⟨hs1, hs2, by
    have := hinit seed.1 hs1 seed.2 hs2
    simpa [Grid.node] using this⟩
  have honly : ∀ c, g0.IsEmptyAt c → c = seed := by
    intro c hc
    have h1 := hinit c.1 hc.1 c.2 hc.2.1
    have h2 : (g0.nodes c.1 c.2).type = .Empty := hc.2.2
    by_cases e : (c.1, c.2) = seed
    · exact e
    · rw [if_neg e, h2] at h1
      cases h1
  have hself : Lat seed seed := ⟨rfl, rfl⟩
  have e1 : emptyLattice g0 seed = {seed} := by
    ext c
    rw [mem_emptyLattice, Finset.mem_singleton]
    exact ⟨fun hc => honly c hc.1, fun hc => by rw [hc]; exact ⟨hseed, hself⟩⟩
  have e2 : emptyOthers g0 seed = ∅ := by
    ext c
    rw [mem_emptyOthers]
    simp only [Finset.not_mem_empty, iff_false, not_and, not_not]
    intro hc
    rw [honly c hc]
    exact hself
  refine ⟨rfl, rfl, fun c hc => ?_, hseed, fun c hc => ?_, fun c hc hl hn => ?_,
    fun c hc hl => ?_, fun _ => ?_, ?_, fun e => (by cases e)⟩
  · have h1 := hinit c.1 hc.1 c.2 hc.2
    unfold Grid.node
    rw [h1]
    split_ifs
    · exact Or.inr rfl
    · exact Or.inl rfl
  · rw [List.mem_singleton.1 hc]
    exact ⟨hseed, hself⟩
  · exact absurd (List.mem_singleton.2 (honly c hc)) hn
  · rw [honly c hc] at hl
    exact absurd hself hl
  · rw [e1]
    rfl
  · rw [e1, e2]
    rfl

theorem adj4_symm {u v : Cell} (h : Adj4 u v) : Adj4 v u := by
  unfold Adj4 at h ⊢
  omega

/-- The node between two lattice nodes two apart has no other neighbour on the lattice. -/
theorem lat_next_to_wall {current next wall : Cell} (hcl : Lat seed current)
    (hnt : Two current next) (ha1 : Adj4 current wall) (ha2 : Adj4 wall next) (a : Cell)
    (hla : Lat seed a) (haw : Adj4 a wall) : a = current ∨ a = next := by
  have hmid : 2 * wall.1 = current.1 + next.1 ∧ 2 * wall.2 = current.2 + next.2 := by
    unfold Two at hnt
    unfold Adj4 at ha1 ha2
    omega
  obtain ⟨m1, m2⟩ := hmid
  unfold Lat at hcl hla
  obtain ⟨l1, l2⟩ := hcl
  obtain ⟨l3, l4⟩ := hla
  unfold Two at hnt
  unfold Adj4 at haw
  rcases hnt with ⟨e1, e2⟩ | ⟨e1, e2⟩ | ⟨e1, e2⟩ | ⟨e1, e2⟩ <;>
    rcases haw with ⟨e3, e4 | e4⟩ | ⟨e3, e4 | e4⟩ <;>
    first
    | exact Or.inl (Prod.ext (by omega) (by omega))
    | exact Or.inr (Prod.ext (by omega) (by omega))

/-- One call of `mazeStep` keeps the invariant and counts. -/
theorem mazeStep_carve (choice : Nat) (k : Nat) (g : Grid) (s : MazeGeneratorState)
    (h : Carve g0 seed k g s) :
    Carve g0 seed (k + 1) (mazeStep choice g s).1 (mazeStep choice g s).2 := by
  cases hg : s.isGenerating with
  | false =>
    have e : mazeStep choice g s = (g, s) := by
      obtain ⟨stack, gen⟩ := s
      dsimp only at hg
      subst hg
      rfl
    rw [e]
    obtain ⟨d1, d2⟩ := h.done hg
    exact ⟨h.rows, h.cols, h.types, h.seed_empty, h.stack_ok, h.closed, h.between,
      fun e => (by rw [hg] at e; cases e), h.others, fun _ => ⟨d1, by omega⟩⟩
  | true =>
    cases hs : s.stack with
    | nil =>
      have e : mazeStep choice g s = (g, { s with isGenerating := false }) := by
        obtain ⟨stack, gen⟩ := s
        dsimp only at hg hs
        subst hg hs
        rfl
      rw [e]
      have h1 := h.count hg
      have h3 := h.full_card hs
      rw [hs] at h1
      simp only [List.length_nil] at h1
      exact ⟨h.rows, h.cols, h.types, h.seed_empty, h.stack_ok, h.closed, h.between,
        fun e => (by cases e), h.others, fun _ => ⟨hs, by omega⟩⟩
    | cons current rest =>
      have hcur := h.stack_ok current (by rw [hs]; exact List.mem_cons_self _ _)
      have hcin : InGrid g current := ⟨hcur.1.1, hcur.1.2.1⟩
      have h1 := h.count hg
      rw [hs] at h1
      simp only [List.length_cons] at h1
      rcases mazeStep_running choice g s current rest hg hs hcin with
        ⟨hnone, e⟩ | ⟨next, wall, hmem, hwin, ha1, ha2, e⟩
      · rw [e]
        refine ⟨h.rows, h.cols, h.types, h.seed_empty,
          fun c hc => h.stack_ok c (by rw [hs]; exact List.mem_cons_of_mem _ hc),
          fun c hc hl hn c' hin' ht => ?_, h.between, fun _ => ?_, h.others,
          fun e' => (by rw [hg] at e'; cases e')⟩
        · by_cases hcc : c = current
          · rcases h.types c' hin' with hw | he
            · have := mazeNeighbors_mem g current c' hin'.1 hin'.2 hw (hcc ▸ ht)
              rw [hnone] at this
              cases this
            · exact ⟨hin'.1, hin'.2, he⟩
          · refine h.closed c hc hl (fun hmem' => ?_) c' hin' ht
            rw [hs] at hmem'
            rcases List.mem_cons.1 hmem' with e' | e'
            · exact hcc e'
            · exact hn e'
        · dsimp only
          omega
      · rw [e]
        obtain ⟨hnin, hnw, hnt⟩ := mem_mazeNeighbors_two g current next hmem
        have hcl := hcur.2
        have hnl : Lat seed next := by
          unfold Lat at hcl ⊢
          unfold Two at hnt
          omega
        have hwl : ¬ Lat seed wall := by
          unfold Lat at hcl ⊢
          unfold Adj4 at ha1
          omega
        have hmono : ∀ c, g.IsEmptyAt c →
            ((g.setNodeType wall.1 wall.2 .Empty).setNodeType next.1 next.2 .Empty).IsEmptyAt c :=
          fun c hc => (carve_isEmptyAt g wall next hwin hnin c).2 (Or.inr (Or.inr hc))
        have hnext : ((g.setNodeType wall.1 wall.2 .Empty).setNodeType next.1 next.2
            .Empty).IsEmptyAt next := (carve_isEmptyAt g wall next hwin hnin next).2 (Or.inl rfl)
        have hwall : ((g.setNodeType wall.1 wall.2 .Empty).setNodeType next.1 next.2
            .Empty).IsEmptyAt wall :=
          (carve_isEmptyAt g wall next hwin hnin wall).2 (Or.inr (Or.inl rfl))
        have hnE : ¬ g.IsEmptyAt next := fun hc => by
          have := hc.2.2
          rw [hnw] at this
          cases this
        have hwE : ¬ g.IsEmptyAt wall := by
          intro hc
          obtain ⟨a, b, ha, hb, hla, hlb, hab, haw, hwb⟩ := h.between wall hc hwl
          rcases lat_next_to_wall hcl hnt ha1 ha2 a hla haw with e' | e'
          · rcases lat_next_to_wall hcl hnt ha1 ha2 b hlb (adj4_symm hwb) with e'' | e''
            · rw [e', e''] at hab
              unfold Two at hab
              omega
            · exact hnE (e'' ▸ hb)
          · exact hnE (e' ▸ ha)
        have e1 : emptyLattice ((g.setNodeType wall.1 wall.2 .Empty).setNodeType next.1 next.2
            .Empty) seed = insert next (emptyLattice g seed) := by
          ext c
          rw [mem_emptyLattice, Finset.mem_insert, mem_emptyLattice,
            carve_isEmptyAt g wall next hwin hnin]
          constructor
          · rintro ⟨rfl | rfl | hc, hl⟩
            · exact Or.inl rfl
            · exact absurd hl hwl
            · exact Or.inr ⟨hc, hl⟩
          · rintro (rfl | ⟨hc, hl⟩)
            · exact ⟨Or.inl rfl, hnl⟩
            · exact ⟨Or.inr (Or.inr hc), hl⟩
        have e2 : emptyOthers ((g.setNodeType wall.1 wall.2 .Empty).setNodeType next.1 next.2
            .Empty) seed = insert wall (emptyOthers g seed) := by
          ext c
          rw [mem_emptyOthers, Finset.mem_insert, mem_emptyOthers,
            carve_isEmptyAt g wall next hwin hnin]
          constructor
          · rintro ⟨rfl | rfl | hc, hl⟩
            · exact absurd hnl hl
            · exact Or.inl rfl
            · exact Or.inr ⟨hc, hl⟩
          · rintro (rfl | ⟨hc, hl⟩)
            · exact ⟨Or.inr (Or.inl rfl), hwl⟩
            · exact ⟨Or.inr (Or.inr hc), hl⟩
        have c1 : (emptyLattice ((g.setNodeType wall.1 wall.2 .Empty).setNodeType next.1 next.2
            .Empty) seed).card = (emptyLattice g seed).card + 1 := by
          rw [e1, Finset.card_insert_of_not_mem]
          rw [mem_emptyLattice]
          exact fun hc => hnE hc.1
        have c2 : (emptyOthers ((g.setNodeType wall.1 wall.2 .Empty).setNodeType next.1 next.2
            .Empty) seed).card = (emptyOthers g seed).card + 1 := by
          rw [e2, Finset.card_insert_of_not_mem]
          rw [mem_emptyOthers]
          exact fun hc => hwE hc.1
        have hr : ((g.setNodeType wall.1 wall.2 .Empty).setNodeType next.1 next.2
            .Empty).rows = g.rows := by rw [setNodeType_rows, setNodeType_rows]
        have hc' : ((g.setNodeType wall.1 wall.2 .Empty).setNodeType next.1 next.2
            .Empty).cols = g.cols := by rw [setNodeType_cols, setNodeType_cols]
        have hin_eq : ∀ c, InGrid ((g.setNodeType wall.1 wall.2 .Empty).setNodeType next.1
            next.2 .Empty) c ↔ InGrid g c := by
          intro c
          unfold InGrid
          rw [hr, hc']
        refine ⟨hr.trans h.rows, hc'.trans h.cols, fun c hc => ?_, hmono seed h.seed_empty,
          fun c hc => ?_, fun c hc hl hn c' hin' ht => ?_, fun c hc hl => ?_, fun _ => ?_, ?_,
          fun e' => (by rw [hg] at e'; cases e')⟩
        · by_cases hcn : c = next
          · rw [hcn]
            exact Or.inr hnext.2.2
          · by_cases hcw : c = wall
            · rw [hcw]
              exact Or.inr hwall.2.2
            · rw [carve_node_other g wall next c hcn hcw]
              exact h.types c ((hin_eq c).1 hc)
        · rcases List.mem_cons.1 hc with rfl | hc
          · exact ⟨hnext, hnl⟩
          · have := h.stack_ok c (by rw [hs]; exact hc)
            exact ⟨hmono c this.1, this.2⟩
        · have hcn : c ≠ next := fun e' => hn (e' ▸ List.mem_cons_self _ _)
          have hcw : c ≠ wall := fun e' => hwl (e' ▸ hl)
          rcases (carve_isEmptyAt g wall next hwin hnin c).1 hc with e' | e' | hc0
          · exact absurd e' hcn
          · exact absurd e' hcw
          · refine hmono c' (h.closed c hc0 hl (fun hmem' => hn ?_) c' ((hin_eq c').1 hin') ht)
            rw [hs] at hmem'
            exact List.mem_cons_of_mem _ hmem'
        · rcases (carve_isEmptyAt g wall next hwin hnin c).1 hc with e' | e' | hc0
          · rw [e'] at hl
            exact absurd hnl hl
          · rw [e']
            exact ⟨current, next, hmono current hcur.1, hnext, hcl, hnl, hnt, ha1, ha2⟩
          · obtain ⟨a, b, ha, hb, hla, hlb, hab, haw, hwb⟩ := h.between c hc0 hl
            exact ⟨a, b, hmono a ha, hmono b hb, hla, hlb, hab, haw, hwb⟩
        · dsimp only
          rw [c1]
          simp only [List.length_cons]
          omega
        · rw [c1, c2, h.others]

theorem mazeRun_carve (choices : List Nat) :
    ∀ (k : Nat) (gs : Grid × MazeGeneratorState), Carve g0 seed k gs.1 gs.2 →
      Carve g0 seed (k + choices.length) (mazeRun choices gs).1 (mazeRun choices gs).2 := by
  induction choices with
  | nil => intro k gs h; exact h
  | cons choice choices ih =>
    intro k gs h
    have := ih (k + 1) _ (mazeStep_carve choice k gs.1 gs.2 h)
    rw [List.length_cons, mazeRun]
    rw [show k + (choices.length + 1) = k + 1 + choices.length by omega]
    exact this

theorem mazeInv_init (hs1 : seed.1 < g0.rows) (hs2 : seed.2 < g0.cols)
    (hinit : ∀ r, r < g0.rows → ∀ c, c < g0.cols →
      (g0.nodes r c).type = if (r, c) = seed then NodeType.Empty else NodeType.Wall) :
    MazeInv seed g0 ⟨[seed], true⟩ := by
  have hseed : g0.IsEmptyAt seed := ⟨hs1, hs2, by
    have := hinit seed.1 hs1 seed.2 hs2
    simpa [Grid.node] using this⟩
  refine ⟨fun c hc => ?_, fun c hc => ?_⟩
  · rw [List.mem_singleton.1 hc]; exact hseed
  · have h1 := hinit c.1 hc.1 c.2 hc.2.1
    have h2 : (g0.nodes c.1 c.2).type = .Empty := hc.2.2
    by_cases e : (c.1, c.2) = seed
    · have e' : c = seed := e
      rw [e']; exact Connected.seed hseed
    · rw [if_neg e, h2] at h1
      cases h1

end maze_count
/-- C37: on a grid whose only Empty node is the seed (every other node a Wall), started with
`stack = [seed]` and `isGenerating = true`, for every sequence of choices the generator is
stopped (`isGenerating = false`) after the calls made with the sequence exactly when these are
at least `2 * L` calls, where `L` is the number of nodes of the grid whose row and column
offsets from the seed are both even. Before that, twice the number of Empty lattice nodes is
the height of the stack plus one plus the number of calls made (a carving call opens and
pushes one lattice node, a backtracking call pops one), and after `2 * L - 1` calls the stack
is empty, so call `2 * L` is the one that stops the generator. -/
theorem maze_terminates (g0 : Grid) (seed : Cell) (hs1 : seed.1 < g0.rows)
    (hs2 : seed.2 < g0.cols)
    (hinit : ∀ r, r < g0.rows → ∀ c, c < g0.cols →
      (g0.nodes r c).type = if (r, c) = seed then NodeType.Empty else NodeType.Wall)
    (choices : List Nat) :
    ((mazeRun choices (g0, ⟨[seed], true⟩)).2.isGenerating = false ↔
      2 * (lattice g0 seed).card ≤ choices.length) ∧
    (choices.length < 2 * (lattice g0 seed).card →
      2 * (emptyLattice (mazeRun choices (g0, ⟨[seed], true⟩)).1 seed).card =
        (mazeRun choices (g0, ⟨[seed], true⟩)).2.stack.length + 1 + choices.length) ∧
    (choices.length + 1 = 2 * (lattice g0 seed).card →
      (mazeRun choices (g0, ⟨[seed], true⟩)).2.stack = []) := by
  have h : Carve g0 seed choices.length (mazeRun choices (g0, ⟨[seed], true⟩)).1
      (mazeRun choices (g0, ⟨[seed], true⟩)).2 := by
    have := mazeRun_carve choices 0 (g0, ⟨[seed], true⟩) (carve_init hs1 hs2 hinit)
    rw [Nat.zero_add] at this
    exact this
  have hiff : (mazeRun choices (g0, ⟨[seed], true⟩)).2.isGenerating = false ↔
      2 * (lattice g0 seed).card ≤ choices.length := by
    constructor
    · exact fun hg => (h.done hg).2
    · intro hk
      cases hg : (mazeRun choices (g0, ⟨[seed], true⟩)).2.isGenerating with
      | false => rfl
      | true =>
        have := h.running_lt hg
        omega
  have hrun : choices.length < 2 * (lattice g0 seed).card →
      (mazeRun choices (g0, ⟨[seed], true⟩)).2.isGenerating = true := by
    intro hk
    cases hg : (mazeRun choices (g0, ⟨[seed], true⟩)).2.isGenerating with
    | true => rfl
    | false =>
      have := hiff.1 hg
      omega
  refine ⟨hiff, fun hk => h.count (hrun hk), fun hk => ?_⟩
  have h1 := h.count (hrun (by omega))
  have h2 := h.card_le
  exact List.length_eq_zero.1 (by omega)

theorem maze_terminates_witness :
    ((mazeRun [1, 0, 0, 0, 0, 0, 0, 0]
        (((Grid.construct 3 3 1).fillWithWalls).setNodeType 0 0 .Empty,
          ⟨[(0, 0)], true⟩)).2.isGenerating = false ↔
      2 * (lattice (((Grid.construct 3 3 1).fillWithWalls).setNodeType 0 0 .Empty) (0, 0)).card
        ≤ [1, 0, 0, 0, 0, 0, 0, 0].length) ∧
    ([1, 0, 0, 0, 0, 0, 0, 0].length <
        2 * (lattice (((Grid.construct 3 3 1).fillWithWalls).setNodeType 0 0 .Empty)
          (0, 0)).card →
      2 * (emptyLattice (mazeRun [1, 0, 0, 0, 0, 0, 0, 0]
          (((Grid.construct 3 3 1).fillWithWalls).setNodeType 0 0 .Empty,
            ⟨[(0, 0)], true⟩)).1 (0, 0)).card =
        (mazeRun [1, 0, 0, 0, 0, 0, 0, 0]
          (((Grid.construct 3 3 1).fillWithWalls).setNodeType 0 0 .Empty,
            ⟨[(0, 0)], true⟩)).2.stack.length + 1 + [1, 0, 0, 0, 0, 0, 0, 0].length) ∧
    ([1, 0, 0, 0, 0, 0, 0, 0].length + 1 =
        2 * (lattice (((Grid.construct 3 3 1).fillWithWalls).setNodeType 0 0 .Empty)
          (0, 0)).card →
      (mazeRun [1, 0, 0, 0, 0, 0, 0, 0]
        (((Grid.construct 3 3 1).fillWithWalls).setNodeType 0 0 .Empty,
          ⟨[(0, 0)], true⟩)).2.stack = []) :=
  maze_terminates (((Grid.construct 3 3 1).fillWithWalls).setNodeType 0 0 .Empty) (0, 0)
    (by decide) (by decide) (by decide) [1, 0, 0, 0, 0, 0, 0, 0]

/-- C38: on a grid whose only Empty node is the seed (every other node a Wall), started with
`stack = [seed]` and `isGenerating = true`, for every sequence of choices after which the
generator is stopped, the grid has its dimensions and every node is a Wall or Empty; all `L`
nodes with even row and column offsets from the seed are Empty; every other Empty node lies
between two Empty lattice nodes that are two apart, and there are `L - 1` of them, so `2 * L -
1` nodes are Empty in all; every node with odd row and column offsets is a Wall; and every
Empty node is joined to the seed by a chain of 4-adjacent Empty nodes. The `L` lattice nodes
joined by `L - 1` connectors into one connected piece form a tree. -/
theorem perfect_maze (g0 : Grid) (seed : Cell) (hs1 : seed.1 < g0.rows)
    (hs2 : seed.2 < g0.cols)
    (hinit : ∀ r, r < g0.rows → ∀ c, c < g0.cols →
      (g0.nodes r c).type = if (r, c) = seed then NodeType.Empty else NodeType.Wall)
    (choices : List Nat)
    (hdone : (mazeRun choices (g0, ⟨[seed], true⟩)).2.isGenerating = false) :
    (mazeRun choices (g0, ⟨[seed], true⟩)).1.rows = g0.rows ∧
    (mazeRun choices (g0, ⟨[seed], true⟩)).1.cols = g0.cols ∧
    (∀ c, InGrid g0 c →
      ((mazeRun choices (g0, ⟨[seed], true⟩)).1.node c).type = .Wall ∨
      ((mazeRun choices (g0, ⟨[seed], true⟩)).1.node c).type = .Empty) ∧
    (∀ c, InGrid g0 c → Lat seed c →
      ((mazeRun choices (g0, ⟨[seed], true⟩)).1.node c).type = .Empty) ∧
    (∀ c, InGrid g0 c → OddOdd seed c →
      ((mazeRun choices (g0, ⟨[seed], true⟩)).1.node c).type = .Wall) ∧
    (∀ c, (mazeRun choices (g0, ⟨[seed], true⟩)).1.IsEmptyAt c → ¬ Lat seed c →
      Between (mazeRun choices (g0, ⟨[seed], true⟩)).1 seed c) ∧
    (emptyLattice (mazeRun choices (g0, ⟨[seed], true⟩)).1 seed).card =
      (lattice g0 seed).card ∧
    (emptyOthers (mazeRun choices (g0, ⟨[seed], true⟩)).1 seed).card + 1 =
      (lattice g0 seed).card ∧
    (carved (mazeRun choices (g0, ⟨[seed], true⟩)).1).card + 1 = 2 * (lattice g0 seed).card ∧
    (∀ c, (mazeRun choices (g0, ⟨[seed], true⟩)).1.IsEmptyAt c →
      Connected (mazeRun choices (g0, ⟨[seed], true⟩)).1 seed c) := by
  have h : Carve g0 seed (0 + choices.length) (mazeRun choices (g0, ⟨[seed], true⟩)).1
      (mazeRun choices (g0, ⟨[seed], true⟩)).2 :=
    mazeRun_carve choices 0 (g0, ⟨[seed], true⟩) (carve_init hs1 hs2 hinit)
  have hconn := (mazeRun_inv seed choices (g0, ⟨[seed], true⟩) (mazeInv_init hs1 hs2 hinit)).2
  have hstack := (h.done hdone).1
  have hfull := h.full hstack
  have hcard := h.full_card hstack
  have hin : ∀ c, InGrid g0 c → InGrid (mazeRun choices (g0, ⟨[seed], true⟩)).1 c := by
    intro c hc
    unfold InGrid at hc ⊢
    rw [h.rows, h.cols]
    exact hc
  refine ⟨h.rows, h.cols, fun c hc => h.types c (hin c hc),
    fun c hc hl => (hfull c (hin c hc) hl).2.2, fun c hc ho => ?_, h.between, hcard, ?_, ?_,
    hconn⟩
  · rcases h.types c (hin c hc) with e | e
    · exact e
    · exfalso
      have hE : (mazeRun choices (g0, ⟨[seed], true⟩)).1.IsEmptyAt c :=
        ⟨(hin c hc).1, (hin c hc).2, e⟩
      have hnl : ¬ Lat seed c := fun hl => ho.1 hl.1
      obtain ⟨a, b, -, -, hla, -, -, haw, -⟩ := h.between c hE hnl
      unfold OddOdd at ho
      unfold Lat at hla
      unfold Adj4 at haw
      omega
  · rw [h.others, hcard]
  · rw [carved_card _ seed]
    have := h.others
    omega

theorem perfect_maze_witness :
    (mazeRun [1, 0, 0, 0, 0, 0, 0, 0]
      (((Grid.construct 3 3 1).fillWithWalls).setNodeType 0 0 .Empty,
        ⟨[(0, 0)], true⟩)).2.isGenerating = false ∧
    (carved (mazeRun [1, 0, 0, 0, 0, 0, 0, 0]
      (((Grid.construct 3 3 1).fillWithWalls).setNodeType 0 0 .Empty,
        ⟨[(0, 0)], true⟩)).1).card + 1 =
      2 * (lattice (((Grid.construct 3 3 1).fillWithWalls).setNodeType 0 0 .Empty)
        (0, 0)).card :=
  ⟨by decide,
    (perfect_maze (((Grid.construct 3 3 1).fillWithWalls).setNodeType 0 0 .Empty) (0, 0)
      (by decide) (by decide) (by decide) [1, 0, 0, 0, 0, 0, 0, 0]
      (by decide)).2.2.2.2.2.2.2.2.1⟩

end PathPivot
